import Mathlib

/-!
# Modular SIMD kernels over the Fermat fields F3 and F4

Shallow embedding of the packed 32-bit kernels of `src/simd_256_u32.h` and
`src/simd_basic.h`.  A 256-bit register is a family of eight unsigned 32-bit
lanes; every lane operation is written with explicit reduction modulo `2^32`.
A `uint32_t*` is the function giving the element at each index, registers
being loaded and stored eight elements at a time; routines that write through
pointers return the new contents, and loops over the buffers take fuel.
-/

namespace quadiron
namespace simd

/-- The Fermat prime `F3 = 2^8 + 1`. -/
def F3 : Nat := 257

/-- The Fermat prime `F4 = 2^16 + 1`. -/
def F4 : Nat := 65537

/-- A 256-bit register (`__m256i`) viewed as eight unsigned 32-bit lanes,
lane 0 being the least significant. -/
abbrev m256i := Fin 8 → Nat

/-- The 128-bit half `h` (0 = low, 1 = high) of a register, as a number. -/
def half128 (x : m256i) (h : Nat) : Nat :=
  x ⟨(4 * h) % 8, Nat.mod_lt _ (by decide)⟩ % 4294967296
    + x ⟨(4 * h + 1) % 8, Nat.mod_lt _ (by decide)⟩ % 4294967296 * 4294967296
    + x ⟨(4 * h + 2) % 8, Nat.mod_lt _ (by decide)⟩ % 4294967296 * 18446744073709551616
    + x ⟨(4 * h + 3) % 8, Nat.mod_lt _ (by decide)⟩ % 4294967296
        * 79228162514264337593543950336

/-- The intrinsic `_mm256_srli_si256(x, imm8)`: each 128-bit half is shifted
right by `imm8` bytes, zeros coming in (a count above 15 clears the half). -/
def mm256_srli_si256 (x : m256i) (imm8 : Nat) : m256i := fun i =>
  if imm8 % 256 ≤ 15 then
    half128 x (i.val / 4) / 256 ^ (imm8 % 256) / 4294967296 ^ (i.val % 4) % 4294967296
  else 0

/-- The intrinsic `_mm256_blend_epi16(x, y, imm8)`: 16-bit word `j` of each
128-bit half comes from `y` when bit `j` of the 8-bit immediate is set, and
from `x` otherwise. -/
def mm256_blend_epi16 (x y : m256i) (imm8 : Nat) : m256i := fun i =>
  (if imm8.testBit (2 * (i.val % 4)) then y i % 65536 else x i % 65536)
    + 65536 * (if imm8.testBit (2 * (i.val % 4) + 1) then y i / 65536 % 65536
               else x i / 65536 % 65536)

/-- The intrinsic `_mm256_blendv_epi8(x, y, mask)`: every byte comes from `y`
when the top bit of the matching mask byte is set, and from `x` otherwise. -/
def mm256_blendv_epi8 (x y mask : m256i) : m256i := fun i =>
  (if 128 ≤ mask i % 256 then y i % 256 else x i % 256)
    + 256 * (if 128 ≤ mask i / 256 % 256 then y i / 256 % 256 else x i / 256 % 256)
    + 65536 * (if 128 ≤ mask i / 65536 % 256 then y i / 65536 % 256
               else x i / 65536 % 256)
    + 16777216 * (if 128 ≤ mask i / 16777216 % 256 then y i / 16777216 % 256
                  else x i / 16777216 % 256)

/-- The intrinsic `_mm256_set1_epi32`: broadcast of a 32-bit value. -/
def mm256_set1_epi32 (val : Nat) : m256i := fun _ => val % 4294967296

/-- The intrinsic `_mm256_setzero_si256`. -/
def mm256_setzero_si256 : m256i := fun _ => 0

/-- The intrinsic `_mm256_and_si256`. -/
def mm256_and_si256 (x y : m256i) : m256i := fun i => x i &&& y i

/-- The intrinsic `_mm256_xor_si256`. -/
def mm256_xor_si256 (x y : m256i) : m256i := fun i => x i ^^^ y i

/-- The intrinsic `_mm256_add_epi32`: lane-wise sum modulo `2^32`. -/
def mm256_add_epi32 (x y : m256i) : m256i := fun i => (x i + y i) % 4294967296

/-- The intrinsic `_mm256_sub_epi32`: lane-wise difference modulo `2^32`. -/
def mm256_sub_epi32 (x y : m256i) : m256i := fun i =>
  (x i % 4294967296 + (4294967296 - y i % 4294967296)) % 4294967296

/-- The intrinsic `_mm256_mullo_epi32`: low 32 bits of the lane product. -/
def mm256_mullo_epi32 (x y : m256i) : m256i := fun i => (x i * y i) % 4294967296

/-- The intrinsic `_mm256_cmpeq_epi32`: an all-ones lane on equality, else 0. -/
def mm256_cmpeq_epi32 (x y : m256i) : m256i := fun i =>
  if x i = y i then 4294967295 else 0

/-- The intrinsic `_mm256_min_epu32`: lane-wise unsigned minimum. -/
def mm256_min_epu32 (x y : m256i) : m256i := fun i => min (x i) (y i)

namespace simd_256_u32

/-- Modelled from the spec: the constant `F3_m256i` is declared outside `src/`;
it is the register holding the cardinality 257 in every 32-bit lane (the
"broadcast card register"). -/
def F3_m256i : m256i := fun _ => 257

/-- Modelled from the spec: the constant `F4_m256i` is declared outside `src/`;
it is the register holding the cardinality 65537 in every 32-bit lane. -/
def F4_m256i : m256i := fun _ => 65537

/-- Modelled from the spec: the constant `F3minus1_m256i` is declared outside
`src/`; it holds `card - 1 = 256` in every 32-bit lane. -/
def F3minus1_m256i : m256i := fun _ => 256

/-- Modelled from the spec: the constant `F4minus1_m256i` is declared outside
`src/`; it holds `card - 1 = 65536` in every 32-bit lane. -/
def F4minus1_m256i : m256i := fun _ => 65536

/-- Macro `EITHER(x, a, b)`. -/
def EITHER {α : Type} (x : Bool) (a b : α) : α := if x then a else b

/-- Macro `CARD(q)`. -/
def CARD (q : Nat) : m256i := EITHER (q == F3) F3_m256i F4_m256i

/-- Macro `CARD_M_1(q)`. -/
def CARD_M_1 (q : Nat) : m256i := EITHER (q == F3) F3minus1_m256i F4minus1_m256i

/-- Macro `ZERO`, i.e. `_mm256_setzero_si256()`. -/
def ZERO : m256i := mm256_setzero_si256

/-- Macro `ONE`, i.e. `_mm256_set1_epi32(1)`. -/
def ONE : m256i := mm256_set1_epi32 1

/-- Wrapper `AND` of `_mm256_and_si256`. -/
def AND (x y : m256i) : m256i := mm256_and_si256 x y

/-- Wrapper `XOR` of `_mm256_xor_si256`. -/
def XOR (x y : m256i) : m256i := mm256_xor_si256 x y

/-- Wrapper `SHIFTR_1` of `_mm256_srli_si256(x, 1)`. -/
def SHIFTR_1 (x : m256i) : m256i := mm256_srli_si256 x 1

/-- Wrapper `SHIFTR_2` of `_mm256_srli_si256(x, 2)`. -/
def SHIFTR_2 (x : m256i) : m256i := mm256_srli_si256 x 2

/-- Wrapper `SET1` of `_mm256_set1_epi32`. -/
def SET1 (val : Nat) : m256i := mm256_set1_epi32 val

/-- Wrapper `ADD32` of `_mm256_add_epi32`. -/
def ADD32 (x y : m256i) : m256i := mm256_add_epi32 x y

/-- Wrapper `SUB32` of `_mm256_sub_epi32`. -/
def SUB32 (x y : m256i) : m256i := mm256_sub_epi32 x y

/-- Wrapper `MUL32` of `_mm256_mullo_epi32`. -/
def MUL32 (x y : m256i) : m256i := mm256_mullo_epi32 x y

/-- Wrapper `CMPEQ32` of `_mm256_cmpeq_epi32`. -/
def CMPEQ32 (x y : m256i) : m256i := mm256_cmpeq_epi32 x y

/-- Wrapper `MINU32` of `_mm256_min_epu32`. -/
def MINU32 (x y : m256i) : m256i := mm256_min_epu32 x y

/-- Macro `BLEND16(x, y, imm8)`. -/
def BLEND16 (x y : m256i) (imm8 : Nat) : m256i := mm256_blend_epi16 x y imm8

/-- Kernel `ADD_MOD`: `z = x + y mod q`. -/
def ADD_MOD (x y : m256i) (q : Nat) : m256i :=
  let res := ADD32 x y
  MINU32 res (SUB32 res (CARD q))

/-- Kernel `SUB_MOD`: `z = x - y mod q`. -/
def SUB_MOD (x y : m256i) (q : Nat) : m256i :=
  let res := SUB32 x y
  MINU32 res (ADD32 res (CARD q))

/-- Kernel `NEG_MOD`: `y = 0 - x mod q`. -/
def NEG_MOD (x : m256i) (q : Nat) : m256i :=
  let res := SUB32 (CARD q) x
  MINU32 res (SUB32 res (CARD q))

/-- Kernel `MUL_MOD`: `z = x * y mod q`, assuming one operand is below `q - 1`. -/
def MUL_MOD (x y : m256i) (q : Nat) : m256i :=
  let res := MUL32 x y
  let lo := BLEND16 ZERO res 0x5555
  let hi := BLEND16 ZERO (SHIFTR_2 res) 0x5555
  SUB_MOD lo hi q

/-- Kernel `MULFULL_MOD`: `z = x * y mod q` with the `card - 1` correction. -/
def MULFULL_MOD (x y : m256i) (q : Nat) : m256i :=
  let res := MUL32 x y
  let cmp := AND (CMPEQ32 x (CARD_M_1 q)) (CMPEQ32 y (CARD_M_1 q))
  let res := if q = F3 then XOR res (AND F4_m256i cmp) else ADD32 res (AND ONE cmp)
  let lo := BLEND16 ZERO res 0x5555
  let hi := SHIFTR_2 (BLEND16 ZERO res 0xAAAA)
  SUB_MOD lo hi q

/-- Register butterfly `BUTTERFLY_1` (r == 1); the result is the new `(*x, *y)`. -/
def BUTTERFLY_1 (x y : m256i) (q : Nat) : m256i × m256i :=
  let add := ADD_MOD x y q
  let y1 := SUB_MOD x y q
  let x1 := add
  (x1, y1)

/-- Register butterfly `BUTTERFLY_2` (r == q - 1); the result is the new
`(*x, *y)`. -/
def BUTTERFLY_2 (x y : m256i) (q : Nat) : m256i × m256i :=
  let add := ADD_MOD x y q
  let x1 := SUB_MOD x y q
  let y1 := add
  (x1, y1)

/-- Register butterfly `BUTTERFLY_3` (1 < r < q - 1); the result is the new
`(*x, *y)`. -/
def BUTTERFLY_3 (c x y : m256i) (q : Nat) : m256i × m256i :=
  let z := MUL_MOD c y q
  let y1 := SUB_MOD x z q
  let x1 := ADD_MOD x z q
  (x1, y1)

/-- Macro `BUTTERFLY_R1(c, x, y)` of `butterfly_ct_two_layers_step`, with the
captured variables `r1` and `card` made explicit; `card - 1` is computed on
`uint32_t`. -/
def BUTTERFLY_R1 (r1 card : Nat) (c x y : m256i) : m256i × m256i :=
  EITHER (r1 == 1) (BUTTERFLY_1 x y card)
    (EITHER (decide (r1 < (card + 4294967295) % 4294967296)) (BUTTERFLY_3 c x y card)
      (BUTTERFLY_2 x y card))

/-- Macro `BUTTERFLY_R2(c, x, y)` of `butterfly_ct_two_layers_step`. -/
def BUTTERFLY_R2 (r2 card : Nat) (c x y : m256i) : m256i × m256i :=
  EITHER (r2 == 1) (BUTTERFLY_1 x y card)
    (EITHER (decide (r2 < (card + 4294967295) % 4294967296)) (BUTTERFLY_3 c x y card)
      (BUTTERFLY_2 x y card))

/-- Macro `BUTTERFLY_R3(c, x, y)` of `butterfly_ct_two_layers_step`. -/
def BUTTERFLY_R3 (r3 card : Nat) (c x y : m256i) : m256i × m256i :=
  EITHER (r3 == 1) (BUTTERFLY_1 x y card)
    (EITHER (decide (r3 < (card + 4294967295) % 4294967296)) (BUTTERFLY_3 c x y card)
      (BUTTERFLY_2 x y card))

/-- The memory behind a `uint32_t*`: the element stored at each index. -/
abbrev Buf := Nat → Nat

/-- Wrapper `LOAD` of `_mm256_load_si256` at `address = p + j`, where `p` is the
buffer reinterpreted as an array of registers: lanes `8j .. 8j+7`. -/
def LOAD (p : Buf) (j : Nat) : m256i := fun l => p (8 * j + l.val)

/-- Wrapper `STORE` of `_mm256_store_si256` at `address = p + j`. -/
def STORE (p : Buf) (j : Nat) (reg : m256i) : Buf := fun e =>
  if e / 8 = j then reg ⟨e % 8, Nat.mod_lt _ (by decide)⟩ else p e

/-- Memory butterfly `BUTTERFLY_SUB(x, y, q)` with `x = a + j`, `y = b + j`; the
result is the new contents of the two buffers. -/
def BUTTERFLY_SUB (a b : Buf) (j : Nat) (q : Nat) : Buf × Buf :=
  let _x := LOAD a j
  let _y := LOAD b j
  let b1 := STORE b j (ADD_MOD _x _y q)
  let a1 := STORE a j (SUB_MOD _x _y q)
  (a1, b1)

/-- Memory butterfly `BUTTERFLY_ADDMUL(x, y, z, q)` with `x = a + j`,
`y = b + j` and `z` the address of a register; the result is the new contents
of the two buffers. -/
def BUTTERFLY_ADDMUL (a b : Buf) (j : Nat) (z : m256i) (q : Nat) : Buf × Buf :=
  let _x := LOAD a j
  let _y := LOAD b j
  let _sub := SUB_MOD _x _y q
  let _z := z
  let a1 := STORE a j (ADD_MOD _x _y q)
  let b1 := STORE b j (MUL_MOD _z _sub q)
  (a1, b1)

/-- Conversion of an `int` to `unsigned`: reduction modulo `2^32`. -/
def to_unsigned (v : Int) : Nat := (v % 4294967296).toNat

/-- Conversion of an `unsigned` to `int`: two's complement wrap-around. -/
def to_int (u : Nat) : Int :=
  if u % 4294967296 < 2147483648 then ((u % 4294967296 : Nat) : Int)
  else ((u % 4294967296 : Nat) : Int) - 4294967296

/-- Modelled from the spec: the class `vec::Buffers<uint32_t>` is declared
outside `src/`; it is "an n x L array of word buffers" that "exposes
per-fragment pointers": `n` buffers, `mem i` being the memory of buffer `i`. -/
structure Buffers where
  /-- Number of buffers. -/
  n : Nat
  /-- Contents of buffer `i`. -/
  mem : Nat → Buf

/-- Modelled from the spec: `Buffers::get_n()` is declared outside `src/`; it
is the number of buffers, an `int`. -/
def Buffers.get_n (buf : Buffers) : Int := buf.n

/-- Modelled from the spec: `Buffers::get(i)` is declared outside `src/`; it
"returns a pointer to block i", which exists only for `0 <= i < n`. -/
def Buffers.get (buf : Buffers) (i : Int) : Option Buf :=
  if 0 ≤ i ∧ i < buf.n then some (buf.mem i.toNat) else none

/-- Write-back of the memory reached through the pointer `get(i)`. -/
def Buffers.set (buf : Buffers) (i : Int) (b : Buf) : Buffers :=
  { n := buf.n, mem := fun k => if k = i.toNat then b else buf.mem k }

/-- The loop header shared by `butterfly_ct_1/2/3` and `butterfly_gs_2/3`:
`for (int i = start; i < buf.get_n(); i += step)` with `a = buf.get(i)`,
`b = buf.get(i + m)` and a body working on the two buffers.  `i + m` and
`i += step` are evaluated on `unsigned` and converted back to `int`.  The
result is `none` when the fuel runs out, when a `get` is out of range, or when
the two `__restrict` pointers would alias. -/
def pair_loop (body : Buf → Buf → Buf × Buf) (m step : Nat) :
    Nat → Int → Buffers → Option Buffers
  | 0, _, _ => none
  | fuel + 1, i, buf =>
    if i < buf.get_n then
      match buf.get i, buf.get (to_int (to_unsigned i + m)) with
      | some a, some b =>
        if i = to_int (to_unsigned i + m) then none
        else
          let r := body a b
          pair_loop body m step fuel (to_int (to_unsigned i + step))
            ((buf.set i r.1).set (to_int (to_unsigned i + m)) r.2)
      | _, _ => none
    else some buf

/-- The inner loop `for (size_t j = 0; j < len; ++j) BUTTERFLY_ADDMUL(_a + j,
_b + j, &_coef, card)` of `butterfly_gs_3`, after `len` iterations. -/
def butterfly_gs_3_inner (_coef : m256i) (card : Nat) : Nat → Buf → Buf → Buf × Buf
  | 0, a, b => (a, b)
  | len + 1, a, b =>
    let r := butterfly_gs_3_inner _coef card len a b
    BUTTERFLY_ADDMUL r.1 r.2 len _coef card

/-- Routine `butterfly_gs_3`: for each pair `(P, Q) = (buf[i], buf[i + m])`,
`P = P + Q` and `Q = c * (P - Q)`. -/
def butterfly_gs_3 (fuel : Nat) (coef : Nat) (buf : Buffers) (start m step len card : Nat) :
    Option Buffers :=
  let _coef := SET1 coef
  pair_loop (fun a b => butterfly_gs_3_inner _coef card len a b) m step fuel
    (to_int start) buf

end simd_256_u32

namespace simd_basic

/-- Modelled from the spec: the register type `VecType` is declared outside
`src/`; it is taken as the 256-bit register of eight packed 32-bit lanes. -/
abbrev VecType := m256i

/-- Modelled from the spec: the constant `F3_u32` is declared outside `src/`;
it holds the cardinality 257 in every 32-bit lane. -/
def F3_u32 : VecType := fun _ => 257

/-- Modelled from the spec: the constant `F4_u32` is declared outside `src/`;
it holds the cardinality 65537 in every 32-bit lane. -/
def F4_u32 : VecType := fun _ => 65537

/-- Modelled from the spec: the constant `F3m1_u32` is declared outside `src/`;
it holds `card - 1 = 256` in every 32-bit lane. -/
def F3m1_u32 : VecType := fun _ => 256

/-- Modelled from the spec: the constant `F4m1_u32` is declared outside `src/`;
it holds `card - 1 = 65536` in every 32-bit lane. -/
def F4m1_u32 : VecType := fun _ => 65536

/-- Modelled from the spec: the constant `ZERO` is declared outside `src/`; it
is the all-zero register. -/
def ZERO : VecType := mm256_setzero_si256

/-- Modelled from the spec: the constant `ONE32` is declared outside `src/`; it
holds 1 in every 32-bit lane. -/
def ONE32 : VecType := mm256_set1_epi32 1

/-- Modelled from the spec: the constant `MASK8_LO` is declared outside `src/`;
it selects the low byte of every 16-bit word (top bit set in those bytes), so
that the F3 product is split into 8-bit low and high parts. -/
def MASK8_LO : VecType := fun _ => 0x00800080

/-- Modelled from the spec: the wrapper `AND` is declared outside `src/`; it is
the bitwise and of two registers. -/
def AND (x y : VecType) : VecType := mm256_and_si256 x y

/-- Modelled from the spec: the wrapper `XOR` is declared outside `src/`; it is
the bitwise exclusive or of two registers. -/
def XOR (x y : VecType) : VecType := mm256_xor_si256 x y

/-- Modelled from the spec: the wrapper `ADD32` is declared outside `src/`; it
is the packed 32-bit addition. -/
def ADD32 (x y : VecType) : VecType := mm256_add_epi32 x y

/-- Modelled from the spec: the wrapper `SUB32` is declared outside `src/`; it
is the packed 32-bit subtraction. -/
def SUB32 (x y : VecType) : VecType := mm256_sub_epi32 x y

/-- Modelled from the spec: the wrapper `MUL32` is declared outside `src/`; it
is the packed 32x32 -> low 32 multiplication. -/
def MUL32 (x y : VecType) : VecType := mm256_mullo_epi32 x y

/-- Modelled from the spec: the wrapper `CMPEQ32` is declared outside `src/`; it
is the packed 32-bit equality test. -/
def CMPEQ32 (x y : VecType) : VecType := mm256_cmpeq_epi32 x y

/-- Modelled from the spec: the wrapper `MINU32` is declared outside `src/`; it
is the packed unsigned 32-bit minimum. -/
def MINU32 (x y : VecType) : VecType := mm256_min_epu32 x y

/-- Modelled from the spec: the wrapper `SHIFTR` is declared outside `src/`; it
is the byte shift to the right inside each 128-bit half. -/
def SHIFTR (x : VecType) (imm8 : Nat) : VecType := mm256_srli_si256 x imm8

/-- Modelled from the spec: the wrapper `BLEND16` is declared outside `src/`; it
is the 16-bit blend driven by an immediate. -/
def BLEND16 (x y : VecType) (imm8 : Nat) : VecType := mm256_blend_epi16 x y imm8

/-- Modelled from the spec: the wrapper `BLEND8` is declared outside `src/`; it
is the byte blend driven by a mask register. -/
def BLEND8 (x y mask : VecType) : VecType := mm256_blendv_epi8 x y mask

/-- Helper `CARD(q)`. -/
def CARD (q : Nat) : VecType := if q = F3 then F3_u32 else F4_u32

/-- Helper `CARD_M_1(q)`. -/
def CARD_M_1 (q : Nat) : VecType := if q = F3 then F3m1_u32 else F4m1_u32

/-- Kernel `ADD_MOD` for packed unsigned 32-bit integers. -/
def ADD_MOD (x y : VecType) (q : Nat) : VecType :=
  let res := ADD32 x y
  MINU32 res (SUB32 res (CARD q))

/-- Kernel `SUB_MOD` for packed unsigned 32-bit integers. -/
def SUB_MOD (x y : VecType) (q : Nat) : VecType :=
  let res := SUB32 x y
  MINU32 res (ADD32 res (CARD q))

/-- Kernel `NEG_MOD` for packed unsigned 32-bit integers. -/
def NEG_MOD (x : VecType) (q : Nat) : VecType :=
  let res := SUB32 (CARD q) x
  MINU32 res (SUB32 res (CARD q))

/-- Kernel `MUL_MOD` for packed unsigned 32-bit integers. -/
def MUL_MOD (x y : VecType) (q : Nat) : VecType :=
  let res := MUL32 x y
  let lo := if q = F3 then BLEND8 ZERO res MASK8_LO else BLEND16 ZERO res 0x55
  let hi := if q = F3 then BLEND8 ZERO (SHIFTR res 1) MASK8_LO
            else BLEND16 ZERO (SHIFTR res 2) 0x55
  SUB_MOD lo hi q

/-- Kernel `MULFULL_MOD` for packed unsigned 32-bit integers. -/
def MULFULL_MOD (x y : VecType) (q : Nat) : VecType :=
  let res := MUL32 x y
  let cmp := AND (CMPEQ32 x (CARD_M_1 q)) (CMPEQ32 y (CARD_M_1 q))
  let res := if q = F3 then XOR res (AND F4_u32 cmp) else ADD32 res (AND ONE32 cmp)
  let lo := if q = F3 then BLEND8 ZERO res MASK8_LO else BLEND16 ZERO res 0x55
  let hi := if q = F3 then BLEND8 ZERO (SHIFTR res 1) MASK8_LO
            else BLEND16 ZERO (SHIFTR res 2) 0x55
  SUB_MOD lo hi q

end simd_basic

/-! ## Element-wise buffer routines -/

/-- The counting loop `for (i = 0; i < n; i++) body(i)` acting on a state. -/
def for_loop {σ : Type} (body : Nat → σ → σ) : Nat → σ → σ
  | 0, s => s
  | i + 1, s => body i (for_loop body i s)

/-- The counting loop `for (i = first; i < last; i++) body(i)` acting on a
state. -/
def for_from {σ : Type} (body : Nat → σ → σ) (first last : Nat) (s : σ) : σ :=
  for_loop (fun k => body (first + k)) (last - first) s

/-- The scalar assignment `p[i] = v` through a `uint32_t*`. -/
def store_elem (p : Nat → Nat) (i v : Nat) : Nat → Nat := fun e => if e = i then v else p e

namespace simd_256_u32

/-- Routine `mul_coef_to_buf(a, src, dest, len, card)` of `simd_256_u32.h`; the
result is the new contents of `dest` (`src` is only read).  `_dest[i]` and
`_src[i]` are the registers at offset `i`. -/
def mul_coef_to_buf (a : Nat) (src dest : Buf) (len card : Nat) : Buf :=
  let coef := SET1 a
  let ratio := 8
  let _len := len / ratio
  let _last_len := len - _len * ratio
  let dest := for_loop (fun i d => STORE d i (MUL_MOD coef (LOAD src i) card)) _len dest
  if _last_len > 0 then
    let coef_64 := a % 18446744073709551616
    for_from (fun i d => store_elem d i
      ((coef_64 * src i) % 18446744073709551616 % card % 4294967296)) (_len * ratio) len dest
  else dest

/-- Routine `add_two_bufs(src, dest, len, card)` of `simd_256_u32.h`; the result
is the pair of the contents of `src` (never written) and of `dest`. -/
def add_two_bufs (src dest : Buf) (len card : Nat) : Buf × Buf :=
  let ratio := 8
  let _len := len / ratio
  let _last_len := len - _len * ratio
  let dest := for_loop (fun i d => STORE d i (ADD_MOD (LOAD src i) (LOAD d i) card)) _len dest
  if _last_len > 0 then
    (src, for_from (fun i d =>
      let tmp := (src i + d i) % 4294967296
      store_elem d i (if tmp ≥ card then (tmp + (4294967296 - card % 4294967296)) % 4294967296
                      else tmp)) (_len * ratio) len dest)
  else (src, dest)

/-- Routine `mul_two_bufs(src, dest, len, card)` of `simd_256_u32.h`; the result
is the new contents of `dest` (`src` is only read). -/
def mul_two_bufs (src dest : Buf) (len card : Nat) : Buf :=
  let ratio := 8
  let _len := len / ratio
  let _last_len := len - _len * ratio
  let dest := for_loop (fun i d => STORE d i (MULFULL_MOD (LOAD src i) (LOAD d i) card))
    _len dest
  if _last_len > 0 then
    for_from (fun i d => store_elem d i
      ((src i % 18446744073709551616 * d i) % 18446744073709551616 % card % 4294967296))
      (_len * ratio) len dest
  else dest

end simd_256_u32

namespace simd_basic

/-- The loop `for (; i < end; i += 4)` of `mul_coef_to_buf`, four registers per
iteration; the result is the final `i` and contents of `dest`, or `none` when
the fuel runs out. -/
def mul_coef_to_buf_loop4 (coef : VecType) (src : simd_256_u32.Buf) (card _end : Nat) :
    Nat → Nat → simd_256_u32.Buf → Option (Nat × simd_256_u32.Buf)
  | 0, _, _ => none
  | fuel + 1, i, dest =>
    if i < _end then
      let dest := simd_256_u32.STORE dest i (MUL_MOD coef (simd_256_u32.LOAD src i) card)
      let dest := simd_256_u32.STORE dest (i + 1)
        (MUL_MOD coef (simd_256_u32.LOAD src (i + 1)) card)
      let dest := simd_256_u32.STORE dest (i + 2)
        (MUL_MOD coef (simd_256_u32.LOAD src (i + 2)) card)
      let dest := simd_256_u32.STORE dest (i + 3)
        (MUL_MOD coef (simd_256_u32.LOAD src (i + 3)) card)
      mul_coef_to_buf_loop4 coef src card _end fuel (i + 4) dest
    else some (i, dest)

/-- Routine `mul_coef_to_buf(a, src, dest, len, card)` of `simd_basic.h` for
`T = uint32_t`; the result is the new contents of `dest`. -/
def mul_coef_to_buf (fuel : Nat) (a : Nat) (src dest : simd_256_u32.Buf) (len card : Nat) :
    Option simd_256_u32.Buf :=
  let coef := mm256_set1_epi32 a
  let ratio := 8
  let _len := len / ratio
  let _last_len := len - _len * ratio
  let _end := if _len > 3 then _len - 3 else 0
  match mul_coef_to_buf_loop4 coef src card _end fuel 0 dest with
  | none => none
  | some (i, dest) =>
    let dest := for_from (fun i d =>
      simd_256_u32.STORE d i (MUL_MOD coef (simd_256_u32.LOAD src i) card)) i _len dest
    if _last_len > 0 then
      let coef_double := a % 18446744073709551616
      some (for_from (fun i d => store_elem d i
        ((coef_double * src i) % 18446744073709551616 % card % 4294967296))
        (_len * ratio) len dest)
    else some dest

/-- Routine `add_two_bufs(src, dest, len, card)` of `simd_basic.h` for
`T = uint32_t`; the result is the pair of the contents of `src` (never written)
and of `dest`. -/
def add_two_bufs (src dest : simd_256_u32.Buf) (len card : Nat) :
    simd_256_u32.Buf × simd_256_u32.Buf :=
  let ratio := 8
  let _len := len / ratio
  let _last_len := len - _len * ratio
  let dest := for_loop (fun i d => simd_256_u32.STORE d i
    (ADD_MOD (simd_256_u32.LOAD src i) (simd_256_u32.LOAD d i) card)) _len dest
  if _last_len > 0 then
    (src, for_from (fun i d =>
      let tmp := (src i + d i) % 4294967296
      store_elem d i (if tmp ≥ card then (tmp + (4294967296 - card % 4294967296)) % 4294967296
                      else tmp)) (_len * ratio) len dest)
  else (src, dest)

/-- Routine `mul_two_bufs(src, dest, len, card)` of `simd_basic.h` for
`T = uint32_t`; the result is the new contents of `dest`. -/
def mul_two_bufs (src dest : simd_256_u32.Buf) (len card : Nat) : simd_256_u32.Buf :=
  let ratio := 8
  let _len := len / ratio
  let _last_len := len - _len * ratio
  let dest := for_loop (fun i d => simd_256_u32.STORE d i
    (MULFULL_MOD (simd_256_u32.LOAD src i) (simd_256_u32.LOAD d i) card)) _len dest
  if _last_len > 0 then
    for_from (fun i d => store_elem d i
      ((src i % 18446744073709551616 * d i) % 18446744073709551616 % card % 4294967296))
      (_len * ratio) len dest
  else dest

end simd_basic

/-! ## Packing of four F4 symbols (`simd_nf4.h`) -/

namespace simd_nf4

/-- The intrinsic `_mm_extract_epi32(a, k)`: 32-bit lane `k` of a 128-bit value. -/
def mm_extract_epi32 (a k : Nat) : Nat := a / 4294967296 ^ k % 4294967296

/-- The intrinsic `_mm_extract_epi16(a, k)`: 16-bit word `k` of a 128-bit value,
zero-extended. -/
def mm_extract_epi16 (a k : Nat) : Nat := a / 65536 ^ k % 65536

/-- The intrinsic `_mm_set_pi16(e3, e2, e1, e0)`: the 64-bit value made of four
16-bit words, each argument being truncated to 16 bits. -/
def mm_set_pi16 (e3 e2 e1 e0 : Nat) : Nat :=
  e0 % 65536 + 65536 * (e1 % 65536) + 4294967296 * (e2 % 65536)
    + 281474976710656 * (e3 % 65536)

/-- The intrinsic `_mm_set_epi64(hi, lo)`: the 128-bit value made of two 64-bit
halves. -/
def mm_set_epi64 (hi lo : Nat) : Nat :=
  lo % 18446744073709551616 + 18446744073709551616 * (hi % 18446744073709551616)

/-- The intrinsic `_mm_set_epi32(e3, e2, e1, e0)`: the 128-bit value made of
four 32-bit lanes. -/
def mm_set_epi32 (e3 e2 e1 e0 : Nat) : Nat :=
  e0 % 4294967296 + 4294967296 * (e1 % 4294967296)
    + 18446744073709551616 * (e2 % 4294967296)
    + 79228162514264337593543950336 * (e3 % 4294967296)

/-- Modelled from the spec: the struct `GroupedValues<__uint128_t>` is declared
outside `src/`; it pairs the packed values with the flag word whose bit `i`
marks a lane that "equals the field cardinality and thus was stored as 0". -/
structure GroupedValues where
  /-- The packed 16-bit values. -/
  values : Nat
  /-- The out-of-range flags, one bit per lane. -/
  flag : Nat
deriving DecidableEq, Repr

/-- The loop `for (i = 0; i < n; i++)` of `unpack`, after `n` iterations, on the
state `(flag, bi)`; `ai` and `bi` are arrays of four words, an index outside
them gives `none`.  `(aint16)ai[i]` keeps the low 16 bits. -/
def unpack_loop (ai : List Nat) : Nat → Nat × List Nat → Option (Nat × List Nat)
  | 0, st => some st
  | i + 1, st =>
    match unpack_loop ai i st with
    | none => none
    | some (flag, bi) =>
      match ai[i]? with
      | none => none
      | some v =>
        if v = 65536 then some ((flag ||| (1 <<< i) % 4294967296) % 4294967296, bi)
        else if i < bi.length then some (flag, bi.set i (v % 65536))
        else none

/-- Routine `unpack(a, n)`: the four 32-bit lanes of `a` are stored as 16-bit
values, a lane equal to 65536 being flagged instead. -/
def unpack (a : Nat) (n : Int) : Option GroupedValues :=
  let ai := [mm_extract_epi32 a 0, mm_extract_epi32 a 1, mm_extract_epi32 a 2,
    mm_extract_epi32 a 3]
  match unpack_loop ai n.toNat (0, [0, 0, 0, 0]) with
  | none => none
  | some (flag, bi) =>
    let val := mm_set_epi64 0 (mm_set_pi16 (bi.getD 3 0) (bi.getD 2 0) (bi.getD 1 0)
      (bi.getD 0 0))
    some { values := val, flag := flag }

/-- Routine `pack(a, flag)`: each 16-bit value is widened to a 32-bit lane, a
flagged lane becoming 65536. -/
def pack (a : Nat) (flag : Nat) : Nat :=
  let b0 := if flag &&& 1 ≠ 0 then 65536 else mm_extract_epi16 a 0
  let flag := flag >>> 1
  let b1 := if flag &&& 1 ≠ 0 then 65536 else mm_extract_epi16 a 1
  let flag := flag >>> 1
  let b2 := if flag &&& 1 ≠ 0 then 65536 else mm_extract_epi16 a 2
  let flag := flag >>> 1
  let b3 := if flag &&& 1 ≠ 0 then 65536 else mm_extract_epi16 a 3
  mm_set_epi32 b3 b2 b1 b0

end simd_nf4

/-! ## The post-encode scan for out-of-range values -/

/-- The intrinsic `_mm256_movemask_epi8`: bit `k` of the result is the top bit
of byte `k` of the register. -/
def mm256_movemask_epi8 (x : m256i) : Nat :=
  (List.range 32).foldr (fun k acc =>
    acc + (if 128 ≤ x ⟨k / 4 % 8, Nat.mod_lt _ (by decide)⟩ / 256 ^ (k % 4) % 256
           then 2 ^ k else 0)) 0

/-- The intrinsic `_mm256_testz_si256(x, y)`: 1 when `x AND y` is all zero, else
0. -/
def mm256_testz_si256 (x y : m256i) : Nat := if ∀ i, x i &&& y i = 0 then 1 else 0

/-- Count of trailing zero bits among the low `n` bits of `d`. -/
def ctz_aux : Nat → Nat → Nat
  | 0, _ => 0
  | n + 1, d => if d % 2 = 1 then 0 else 1 + ctz_aux n (d / 2)

/-- The builtin `__builtin_ctz(d)` on a 32-bit value: the index of its lowest
set bit (the builtin is undefined at 0, where this gives 32). -/
def builtin_ctz (d : Nat) : Nat := ctz_aux 32 d

/-- Modelled from the spec: the tag `OOR_MARK` is declared outside `src/`; it is
the only tag of the closed set `{OOR}`. -/
inductive Mark where
  | OOR_MARK
deriving DecidableEq, Repr

/-- Modelled from the spec: the class `Properties` is declared outside `src/`;
it is the per-fragment record of the marks, kept here as the sequence of the
`add(offset, tag)` calls in the order they were made. -/
abbrev Properties := List (Int × Mark)

/-- Modelled from the spec: `Properties::add(offset, tag)` "records a mark". -/
def Properties.add (props : Properties) (offset : Int) (tag : Mark) : Properties :=
  props ++ [(offset, tag)]

/-- Modelled from the spec: the constant `ALIGN_SIZE` is declared outside
`src/`; "all SIMD-facing allocations are aligned to 32 bytes". -/
def ALIGN_SIZE : Nat := 32

/-- Conversion of an integer value to `off_t` (64-bit two's complement). -/
def to_off_t (v : Int) : Int :=
  (v + 9223372036854775808) % 18446744073709551616 - 9223372036854775808

/-- The sequence of element indices `byte_idx / 4` visited by the bit-scan loop
`while (d > 0) { byte_idx = ctz(d); ...; d ^= 1 << byte_idx; }` on 32-bit
elements, or `none` when the fuel runs out. -/
def scan_indices : Nat → Nat → Option (List Nat)
  | 0, _ => none
  | fuel + 1, d =>
    if d > 0 then
      match scan_indices fuel (d ^^^ (1 <<< builtin_ctz d) % 4294967296) with
      | none => none
      | some t => some (builtin_ctz d / 4 :: t)
    else some []

/-- The marks expected from a scan of the words `first .. first + cnt - 1` of a
buffer: one `OOR_MARK` at `offset + w` for each word `w` equal to the
threshold, in increasing order of `w`. -/
def word_marks (buf : Nat → Nat) (thr : Nat) (offset : Int) (first cnt : Nat) : Properties :=
  ((List.range' first cnt).filter (fun w => buf w = thr)).map
    (fun w => (offset + ((w : Nat) : Int), Mark.OOR_MARK))

namespace simd_256_u32

/-- Wrapper `MVMSK8` of `_mm256_movemask_epi8`. -/
def MVMSK8 (x : m256i) : Nat := mm256_movemask_epi8 x

/-- Wrapper `TESTZ` of `_mm256_testz_si256`. -/
def TESTZ (x y : m256i) : Nat := mm256_testz_si256 x y

/-- The loop `while (d > 0)` of `add_props`: the lowest set bit of `d` is
located, a mark is added at `offset + byte_idx / element_size` and the bit is
cleared; `none` when the fuel runs out. -/
def add_props_loop : Nat → Nat → Int → Properties → Option Properties
  | 0, _, _, _ => none
  | fuel + 1, d, offset, props =>
    if d > 0 then
      let byte_idx := builtin_ctz d
      let element_size := 4
      let _offset := offset + ((byte_idx / element_size : Nat) : Int)
      let props := props.add _offset Mark.OOR_MARK
      let d := d ^^^ (1 <<< byte_idx) % 4294967296
      add_props_loop fuel d offset props
    else some props

/-- Routine `add_props(props, threshold, mask, symb, offset)`. -/
def add_props (fuel : Nat) (props : Properties) (threshold mask symb : m256i)
    (offset : Int) : Option Properties :=
  let b := CMPEQ32 threshold symb
  let c := AND mask b
  let d := MVMSK8 c
  add_props_loop fuel d offset props

/-- State of the scan of one fragment: its `Properties` and the indices of the
registers loaded so far from its buffer. -/
structure ScanState where
  /-- The `Properties` of the fragment. -/
  props : Properties
  /-- The register indices loaded from the fragment buffer, in order. -/
  loads : List Nat

/-- The block `if (c == 0) { const off_t curr_offset = offset + vec_id *
vec_size; add_props(props[frag_id], _threshold, mask_hi, a, curr_offset); }`
of `encode_post_process`; the product is computed on `size_t` and the sum is
stored in an `off_t`. -/
def scan_if (fuel : Nat) (props : Properties) (c : Nat) (_threshold mask_hi a : m256i)
    (offset : Int) (vec_id vec_size : Nat) : Option Properties :=
  if c = 0 then
    let curr_offset :=
      to_off_t (offset + ((vec_id * vec_size % 18446744073709551616 : Nat) : Int))
    add_props fuel props _threshold mask_hi a curr_offset
  else some props

/-- The loop `for (; vec_id < end; vec_id += 4)` of `encode_post_process`; the
result is the final `vec_id` and state, or `none` when the fuel runs out. -/
def encode_post_process_loop4 (buf : Buf) (_threshold mask_hi : m256i) (offset : Int)
    (vec_size _end : Nat) : Nat → Nat → ScanState → Option (Nat × ScanState)
  | 0, _, _ => none
  | fuel + 1, vec_id, st =>
    if vec_id < _end then
      let a1 := LOAD buf vec_id
      let a2 := LOAD buf (vec_id + 1)
      let a3 := LOAD buf (vec_id + 2)
      let a4 := LOAD buf (vec_id + 3)
      let loads := st.loads ++ [vec_id, vec_id + 1, vec_id + 2, vec_id + 3]
      let c1 := TESTZ a1 _threshold
      let c2 := TESTZ a2 _threshold
      let c3 := TESTZ a3 _threshold
      let c4 := TESTZ a4 _threshold
      match scan_if (fuel + 1) st.props c1 _threshold mask_hi a1 offset vec_id vec_size with
      | none => none
      | some p1 =>
      match scan_if (fuel + 1) p1 c2 _threshold mask_hi a2 offset (vec_id + 1) vec_size with
      | none => none
      | some p2 =>
      match scan_if (fuel + 1) p2 c3 _threshold mask_hi a3 offset (vec_id + 2) vec_size with
      | none => none
      | some p3 =>
      match scan_if (fuel + 1) p3 c4 _threshold mask_hi a4 offset (vec_id + 3) vec_size with
      | none => none
      | some p4 =>
        encode_post_process_loop4 buf _threshold mask_hi offset vec_size _end fuel
          ((vec_id + 4) % 18446744073709551616) { props := p4, loads := loads }
    else some (vec_id, st)

/-- The loop `for (; vec_id < vecs_nb; ++vec_id)` of `encode_post_process`. -/
def encode_post_process_loop1 (buf : Buf) (_threshold mask_hi : m256i) (offset : Int)
    (vec_size vecs_nb : Nat) : Nat → Nat → ScanState → Option ScanState
  | 0, _, _ => none
  | fuel + 1, vec_id, st =>
    if vec_id < vecs_nb then
      let a := LOAD buf vec_id
      let c := TESTZ a _threshold
      match scan_if (fuel + 1) st.props c _threshold mask_hi a offset vec_id vec_size with
      | none => none
      | some p =>
        encode_post_process_loop1 buf _threshold mask_hi offset vec_size vecs_nb fuel
          ((vec_id + 1) % 18446744073709551616) { props := p, loads := st.loads ++ [vec_id] }
    else some st

/-- The body of the loop over the fragments of `encode_post_process` for
`frag_id`: the scan of the buffer `output.get(frag_id)` into `props[frag_id]`.
The result is the new `props` and the register indices loaded from the
buffer; `none` when the fuel runs out or when `get` or `props[frag_id]` is out
of range. -/
def encode_post_process_frag (fuel : Nat) (output : Buffers) (props : List Properties)
    (offset : Int) (threshold vecs_nb frag_id : Nat) : Option (List Properties × List Nat) :=
  let element_size := 4
  let vec_size := ALIGN_SIZE / element_size
  let max := (1 <<< (element_size * 8 - 1)) % 4294967296
  let _threshold := SET1 threshold
  let mask_hi := SET1 max
  match output.get (to_int frag_id), props[frag_id]? with
  | some buf, some p =>
    let vec_id := 0
    let _end := (vecs_nb + (18446744073709551616 - 3)) % 18446744073709551616
    match encode_post_process_loop4 buf _threshold mask_hi offset vec_size _end fuel vec_id
        { props := p, loads := [] } with
    | none => none
    | some (vec_id, st) =>
      match encode_post_process_loop1 buf _threshold mask_hi offset vec_size vecs_nb fuel
          vec_id st with
      | none => none
      | some st => some (props.set frag_id st.props, st.loads)
  | _, _ => none

/-- The loop `for (frag_id = 0; frag_id < code_len; ++frag_id)` of
`encode_post_process`, after `code_len` iterations; the second component lists
the registers `(frag_id, vec_id)` loaded. -/
def encode_post_process_frags (fuel : Nat) (output : Buffers) (offset : Int)
    (threshold vecs_nb : Nat) :
    Nat → List Properties × List (Nat × Nat) → Option (List Properties × List (Nat × Nat))
  | 0, st => some st
  | frag_id + 1, st =>
    match encode_post_process_frags fuel output offset threshold vecs_nb frag_id st with
    | none => none
    | some (props, loads) =>
      match encode_post_process_frag fuel output props offset threshold vecs_nb frag_id with
      | none => none
      | some (props1, l) => some (props1, loads ++ l.map (fun v => (frag_id, v)))

/-- Routine `encode_post_process(output, props, offset, code_len, threshold,
vecs_nb)`; the result is the new `props` together with the list of the
registers `(frag_id, vec_id)` loaded from the buffers. -/
def encode_post_process (fuel : Nat) (output : Buffers) (props : List Properties)
    (offset : Int) (code_len threshold vecs_nb : Nat) :
    Option (List Properties × List (Nat × Nat)) :=
  encode_post_process_frags fuel output offset threshold vecs_nb code_len (props, [])

end simd_256_u32

namespace simd_basic

/-- Modelled from the spec: the wrapper `MVMSK8` is declared outside `src/`; it
is the "movemask" of the top bits of the bytes of a register. -/
def MVMSK8 (x : VecType) : Nat := mm256_movemask_epi8 x

/-- The loop `while (d > 0)` of `ADD_PROPS` for 32-bit elements. -/
def ADD_PROPS_loop : Nat → Nat → Int → Properties → Option Properties
  | 0, _, _, _ => none
  | fuel + 1, d, offset, props =>
    if d > 0 then
      let byte_idx := builtin_ctz d
      let element_size := 4
      let _offset := offset + ((byte_idx / element_size : Nat) : Int)
      let props := props.add _offset Mark.OOR_MARK
      let d := d ^^^ (1 <<< byte_idx) % 4294967296
      ADD_PROPS_loop fuel d offset props
    else some props

/-- Routine `ADD_PROPS(props, threshold, mask, symb, offset, max)` for packed
unsigned 32-bit integers (`max` is a dummy argument). -/
def ADD_PROPS (fuel : Nat) (props : Properties) (threshold mask symb : VecType)
    (offset : Int) (_max : Nat) : Option Properties :=
  let b := CMPEQ32 threshold symb
  let c := AND mask b
  let d := MVMSK8 c
  ADD_PROPS_loop fuel d offset props

end simd_basic


/-! ## Cooley-Tukey butterflies over buffers -/

namespace simd_256_u32

/-- Memory butterfly `BUTTERFLY_ADD(x, y, q)` with `x = a + j`, `y = b + j`; the
result is the new contents of the two buffers. -/
def BUTTERFLY_ADD (a b : Buf) (j : Nat) (q : Nat) : Buf × Buf :=
  let _x := LOAD a j
  let _y := LOAD b j
  let a1 := STORE a j (ADD_MOD _x _y q)
  let b1 := STORE b j (SUB_MOD _x _y q)
  (a1, b1)

/-- Memory butterfly `BUTTERFLY_MULADD(z, x, y, q)` with `z` the address of a
register, `x = a + j` and `y = b + j`; the result is the new contents of the
two buffers. -/
def BUTTERFLY_MULADD (z : m256i) (a b : Buf) (j : Nat) (q : Nat) : Buf × Buf :=
  let _z := z
  let _y := LOAD b j
  let _y := MUL_MOD _z _y q
  let _x := LOAD a j
  let a1 := STORE a j (ADD_MOD _x _y q)
  let b1 := STORE b j (SUB_MOD _x _y q)
  (a1, b1)

/-- Routine `butterfly_step_1`: `BUTTERFLY_ADD(inputA + j, inputB + j, card)`
for `j = 0 .. len - 1`. -/
def butterfly_step_1 (a b : Buf) (card : Nat) (len : Nat) : Buf × Buf :=
  for_loop (fun j r => BUTTERFLY_ADD r.1 r.2 j card) len (a, b)

/-- Routine `butterfly_step_2`: `BUTTERFLY_SUB(inputA + j, inputB + j, card)`
for `j = 0 .. len - 1`. -/
def butterfly_step_2 (a b : Buf) (card : Nat) (len : Nat) : Buf × Buf :=
  for_loop (fun j r => BUTTERFLY_SUB r.1 r.2 j card) len (a, b)

/-- Routine `butterfly_step_3`: `BUTTERFLY_MULADD(&_coef, _a + j, _b + j, card)`
for `j = 0 .. len - 1`, with `_coef = SET1(coef)`. -/
def butterfly_step_3 (coef : Nat) (a b : Buf) (card : Nat) (len : Nat) : Buf × Buf :=
  let _coef := SET1 coef
  for_loop (fun j r => BUTTERFLY_MULADD _coef r.1 r.2 j card) len (a, b)

/-- Routine `butterfly_ct_1`: for each pair `(P, Q) = (buf[i], buf[i + m])`,
`butterfly_step_1`. -/
def butterfly_ct_1 (fuel : Nat) (buf : Buffers) (start m step len card : Nat) :
    Option Buffers :=
  pair_loop (fun a b => butterfly_step_1 a b card len) m step fuel (to_int start) buf

/-- Routine `butterfly_ct_2`: for each pair `(P, Q) = (buf[i], buf[i + m])`,
`butterfly_step_2`. -/
def butterfly_ct_2 (fuel : Nat) (buf : Buffers) (start m step len card : Nat) :
    Option Buffers :=
  pair_loop (fun a b => butterfly_step_2 a b card len) m step fuel (to_int start) buf

/-- Routine `butterfly_ct_3`: for each pair `(P, Q) = (buf[i], buf[i + m])`,
`butterfly_step_3` with the coefficient. -/
def butterfly_ct_3 (fuel : Nat) (coef : Nat) (buf : Buffers) (start m step len card : Nat) :
    Option Buffers :=
  pair_loop (fun a b => butterfly_step_3 coef a b card len) m step fuel (to_int start) buf

/-- The memory behind the four `__restrict` pointers `p`, `q`, `r`, `s` of
`butterfly_ct_two_layers_step`. -/
structure Quad where
  /-- Memory of `buf.get(i)`. -/
  p : Buf
  /-- Memory of `buf.get(i + m)`. -/
  q : Buf
  /-- Memory of `buf.get(i + 2 * m)`. -/
  r : Buf
  /-- Memory of `buf.get(i + 3 * m)`. -/
  s : Buf

/-- Body of the loop `for (; j < end; j += 2)` of
`butterfly_ct_two_layers_step`: two registers of each buffer at a time. -/
def butterfly_ct_two_layers_step_body2 (r1 r2 r3 card : Nat) (c1 c2 c3 : m256i) (j : Nat)
    (st : Quad) : Quad :=
  -- First layer (c1, x, y) & (c1, u, v)
  let x1 := LOAD st.p j
  let y1 := LOAD st.q j
  let x2 := LOAD st.p (j + 1)
  let y2 := LOAD st.q (j + 1)
  let u1 := LOAD st.r j
  let v1 := LOAD st.s j
  let u2 := LOAD st.r (j + 1)
  let v2 := LOAD st.s (j + 1)
  let xy1 := BUTTERFLY_R1 r1 card c1 x1 y1
  let xy2 := BUTTERFLY_R1 r1 card c1 x2 y2
  let uv1 := BUTTERFLY_R1 r1 card c1 u1 v1
  let uv2 := BUTTERFLY_R1 r1 card c1 u2 v2
  -- Second layer (c2, x, u) & (c3, y, v)
  let xu1 := BUTTERFLY_R2 r2 card c2 xy1.1 uv1.1
  let xu2 := BUTTERFLY_R2 r2 card c2 xy2.1 uv2.1
  let yv1 := BUTTERFLY_R3 r3 card c3 xy1.2 uv1.2
  let yv2 := BUTTERFLY_R3 r3 card c3 xy2.2 uv2.2
  -- Store back to memory
  { p := STORE (STORE st.p j xu1.1) (j + 1) xu2.1
    q := STORE (STORE st.q j yv1.1) (j + 1) yv2.1
    r := STORE (STORE st.r j xu1.2) (j + 1) xu2.2
    s := STORE (STORE st.s j yv1.2) (j + 1) yv2.2 }

/-- Body of the loop `for (; j < len; ++j)` of `butterfly_ct_two_layers_step`:
one register of each buffer. -/
def butterfly_ct_two_layers_step_body1 (r1 r2 r3 card : Nat) (c1 c2 c3 : m256i) (j : Nat)
    (st : Quad) : Quad :=
  -- First layer (c1, x, y) & (c1, u, v)
  let x1 := LOAD st.p j
  let y1 := LOAD st.q j
  let u1 := LOAD st.r j
  let v1 := LOAD st.s j
  let xy1 := BUTTERFLY_R1 r1 card c1 x1 y1
  let uv1 := BUTTERFLY_R1 r1 card c1 u1 v1
  -- Second layer (c2, x, u) & (c3, y, v)
  let xu1 := BUTTERFLY_R2 r2 card c2 xy1.1 uv1.1
  let yv1 := BUTTERFLY_R3 r3 card c3 xy1.2 uv1.2
  -- Store back to memory
  { p := STORE st.p j xu1.1
    q := STORE st.q j yv1.1
    r := STORE st.r j xu1.2
    s := STORE st.s j yv1.2 }

/-- The loop `for (; j < end; j += 2)` of `butterfly_ct_two_layers_step`, with
`j` a `size_t`; the result is the final `j` and the memory. -/
def butterfly_ct_two_layers_step_loop2 (r1 r2 r3 card : Nat) (c1 c2 c3 : m256i) (_end : Nat) :
    Nat → Nat → Quad → Option (Nat × Quad)
  | 0, _, _ => none
  | fuel + 1, j, st =>
    if j < _end then
      butterfly_ct_two_layers_step_loop2 r1 r2 r3 card c1 c2 c3 _end fuel
        ((j + 2) % 18446744073709551616)
        (butterfly_ct_two_layers_step_body2 r1 r2 r3 card c1 c2 c3 j st)
    else some (j, st)

/-- The two inner loops of `butterfly_ct_two_layers_step` on the four buffers
of one quadruple: two registers at a time while `j < end`, then one at a
time while `j < len`. -/
def butterfly_ct_two_layers_step_inner (fuel : Nat) (r1 r2 r3 card : Nat) (c1 c2 c3 : m256i)
    (len : Nat) (st : Quad) : Option Quad :=
  let _end := (len + 18446744073709551615) % 18446744073709551616
  match butterfly_ct_two_layers_step_loop2 r1 r2 r3 card c1 c2 c3 _end fuel 0 st with
  | none => none
  | some (j, st) =>
    some (for_from (butterfly_ct_two_layers_step_body1 r1 r2 r3 card c1 c2 c3) j len st)

/-- The loop `for (unsigned i = start; i < bufs_nb; i += step)` of
`butterfly_ct_two_layers_step`.  The result is `none` when the fuel runs out,
when a `get` is out of range, or when two of the four `__restrict` pointers
would alias. -/
def butterfly_ct_two_layers_step_loop (r1 r2 r3 card : Nat) (c1 c2 c3 : m256i)
    (m len step bufs_nb innerFuel : Nat) : Nat → Nat → Buffers → Option Buffers
  | 0, _, _ => none
  | fuel + 1, i, buf =>
    if i < bufs_nb then
      let ip := to_int i
      let iq := to_int (i + m)
      let ir := to_int (i + 2 * m)
      let is := to_int (i + 3 * m)
      match buf.get ip, buf.get iq, buf.get ir, buf.get is with
      | some p, some q, some r, some s =>
        if ip = iq ∨ ip = ir ∨ ip = is ∨ iq = ir ∨ iq = is ∨ ir = is then none
        else
          match butterfly_ct_two_layers_step_inner innerFuel r1 r2 r3 card c1 c2 c3 len
              { p := p, q := q, r := r, s := s } with
          | none => none
          | some st =>
            butterfly_ct_two_layers_step_loop r1 r2 r3 card c1 c2 c3 m len step bufs_nb
              innerFuel fuel ((i + step) % 4294967296)
              ((((buf.set ip st.p).set iq st.q).set ir st.r).set is st.s)
      | _, _, _, _ => none
    else some buf

/-- Routine `butterfly_ct_two_layers_step`: both layers of the Cooley-Tukey
butterfly on each quadruple `(P, Q, R, S) = (buf[i], buf[i + m], buf[i + 2 m],
buf[i + 3 m])`. -/
def butterfly_ct_two_layers_step (fuel : Nat) (buf : Buffers)
    (r1 r2 r3 start m len card : Nat) : Option Buffers :=
  let step := (m <<< 2) % 4294967296
  let c1 := SET1 r1
  let c2 := SET1 r2
  let c3 := SET1 r3
  let bufs_nb := to_unsigned buf.get_n
  butterfly_ct_two_layers_step_loop r1 r2 r3 card c1 c2 c3 m len step bufs_nb fuel fuel
    start buf

/-- The single-layer Cooley-Tukey butterfly for a twiddle `r`: `butterfly_ct_1`
when `r = 1`, `butterfly_ct_3` with coefficient `r` when `r < card - 1`,
`butterfly_ct_2` otherwise (`r = card - 1`). -/
def single_layer_ct (fuel : Nat) (r : Nat) (buf : Buffers) (start m step len card : Nat) :
    Option Buffers :=
  if r = 1 then butterfly_ct_1 fuel buf start m step len card
  else if r < (card + 4294967295) % 4294967296 then
    butterfly_ct_3 fuel r buf start m step len card
  else butterfly_ct_2 fuel buf start m step len card

/-- The reference for `butterfly_ct_two_layers_step`: the single-layer
butterflies run in sequence, first twiddle `r1` on the pairs at distance `m`
(group size `2 m`), then twiddle `r2` on the pairs `(buf[i], buf[i + 2 m])` and
twiddle `r3` on the pairs `(buf[i + m], buf[i + 3 m])` (group size `4 m`). -/
def single_layers_in_sequence (fuel : Nat) (buf : Buffers)
    (r1 r2 r3 start m len card : Nat) : Option Buffers :=
  match single_layer_ct fuel r1 buf start m (2 * m) len card with
  | none => none
  | some b1 =>
    match single_layer_ct fuel r2 b1 start (2 * m) (4 * m) len card with
    | none => none
    | some b2 => single_layer_ct fuel r3 b2 (start + m) (2 * m) (4 * m) len card

/-- The two buffers obtained when a register butterfly `f` is applied to the
registers `0 .. len - 1` of two buffers (the closed form of the inner loops of
the butterflies). -/
def on_registers (f : m256i → m256i → m256i × m256i) (len : Nat) (a b : Buf) : Buf × Buf :=
  (fun e => if e / 8 < len then
      (f (LOAD a (e / 8)) (LOAD b (e / 8))).1 ⟨e % 8, Nat.mod_lt _ (by decide)⟩ else a e,
   fun e => if e / 8 < len then
      (f (LOAD a (e / 8)) (LOAD b (e / 8))).2 ⟨e % 8, Nat.mod_lt _ (by decide)⟩ else b e)

/-- The four buffers of a quadruple after a first layer `f1` on `(p, q)` and
`(r, s)` and a second layer `f2` on `(p, r)` and `f3` on `(q, s)`. -/
def two_layers_on (f1 f2 f3 : Buf → Buf → Buf × Buf) (st : Quad) : Quad :=
  { p := (f2 (f1 st.p st.q).1 (f1 st.r st.s).1).1
    q := (f3 (f1 st.p st.q).2 (f1 st.r st.s).2).1
    r := (f2 (f1 st.p st.q).1 (f1 st.r st.s).1).2
    s := (f3 (f1 st.p st.q).2 (f1 st.r st.s).2).2 }

/-- The four buffers of the `k`-th quadruple met by
`butterfly_ct_two_layers_step`, with the buffer indices counted in units of `m`
from `start`. -/
def quad_at (buf : Buffers) (start m k : Nat) : Quad :=
  { p := buf.mem (start + m * (4 * k))
    q := buf.mem (start + m * (4 * k + 1))
    r := buf.mem (start + m * (4 * k + 2))
    s := buf.mem (start + m * (4 * k + 3)) }

end simd_256_u32

/-! ## Kernels on 128-bit elements, the second Gentleman-Sande butterfly and
the 16-bit reductions -/

/-- The intrinsic `_mm256_cmpgt_epi32(x, y)`: an all-ones lane where `x > y` as
signed 32-bit integers, else 0. -/
def mm256_cmpgt_epi32 (x y : m256i) : m256i := fun i =>
  if simd_256_u32.to_int (x i) > simd_256_u32.to_int (y i) then 4294967295 else 0

/-- The intrinsic `_mm256_add_epi16`: sum modulo `2^16` in each 16-bit word (two
words per 32-bit lane). -/
def mm256_add_epi16 (x y : m256i) : m256i := fun i =>
  (x i % 65536 + y i % 65536) % 65536
    + 65536 * ((x i / 65536 % 65536 + y i / 65536 % 65536) % 65536)

/-- The intrinsic `_mm256_sub_epi16`: difference modulo `2^16` in each 16-bit
word. -/
def mm256_sub_epi16 (x y : m256i) : m256i := fun i =>
  (x i % 65536 + (65536 - y i % 65536)) % 65536
    + 65536 * ((x i / 65536 % 65536 + (65536 - y i / 65536 % 65536)) % 65536)

/-- The intrinsic `_mm256_min_epu16`: unsigned minimum in each 16-bit word. -/
def mm256_min_epu16 (x y : m256i) : m256i := fun i =>
  min (x i % 65536) (y i % 65536)
    + 65536 * min (x i / 65536 % 65536) (y i / 65536 % 65536)

/-- The intrinsic `_mm256_castsi128_si256`: the 128-bit value becomes the low
half of the register; the upper half is undefined and taken as 0. -/
def mm256_castsi128_si256 (a : Fin 4 → Nat) : m256i := fun l =>
  if h : l.val < 4 then a ⟨l.val, h⟩ else 0

/-- The 16-bit word `k` of a register (word `k` is half `k mod 2` of the 32-bit
lane `k / 2`). -/
def lane16 (x : m256i) (k : Fin 16) : Nat :=
  x ⟨k.val / 2, by have := k.isLt; omega⟩ / 65536 ^ (k.val % 2) % 65536

/-- The number of bits set among the low 32 bits of `d`. -/
def popcount (d : Nat) : Nat := ((List.range 32).filter (fun k => d.testBit k)).length

namespace simd_256_u32

/-- Kernel `mod_after_add(a, card)`: `a % card` for `a` a sum of two symbols;
`card - 1` is computed on 32 bits. -/
def mod_after_add (a : m256i) (card : Nat) : m256i :=
  let _card := mm256_set1_epi32 card
  let _card_minus_1 := mm256_set1_epi32 ((card % 4294967296 + 4294967295) % 4294967296)
  let cmp := mm256_cmpgt_epi32 a _card_minus_1
  let b := mm256_sub_epi32 a (mm256_and_si256 _card cmp)
  b

/-- Kernel `add(a, b, card)`: addition of two registers of symbols of
`GF(card)`. -/
def add (a b : m256i) (card : Nat) : m256i :=
  let _a := a
  let _b := b
  let c := mm256_add_epi32 _a _b
  mod_after_add c card

/-- Kernel `mod_after_multiply_f4(a)`: `a % F4` for `a` a product, from the
16-bit low and high parts of each lane. -/
def mod_after_multiply_f4 (a : m256i) : m256i :=
  let mask := mm256_set1_epi32 (F4 - 2)
  let lo := mm256_and_si256 a mask
  let a_shift := mm256_srli_si256 a 2
  let hi := mm256_and_si256 a_shift mask
  let cmp := mm256_cmpgt_epi32 hi lo
  let _lo := mm256_add_epi32 lo (mm256_and_si256 F4_m256i cmp)
  mm256_sub_epi32 _lo hi

/-- Kernel `mod_after_multiply_f3(a)`: `a % F3` for `a` a product, from the
8-bit low and high parts of each lane. -/
def mod_after_multiply_f3 (a : m256i) : m256i :=
  let mask := mm256_set1_epi32 (F3 - 2)
  let lo := mm256_and_si256 a mask
  let a_shift := mm256_srli_si256 a 1
  let hi := mm256_and_si256 a_shift mask
  let cmp := mm256_cmpgt_epi32 hi lo
  let _lo := mm256_add_epi32 lo (mm256_and_si256 F3_m256i cmp)
  mm256_sub_epi32 _lo hi

/-- Kernel `mul_f4(a, b)`. -/
def mul_f4 (a b : m256i) : m256i :=
  let _a := a
  let _b := b
  let c := mm256_mullo_epi32 _a _b
  -- filter elements of both of a & b = card-1
  let cmp := mm256_and_si256 (mm256_cmpeq_epi32 _a F4minus1_m256i)
    (mm256_cmpeq_epi32 _b F4minus1_m256i)
  let one := mm256_set1_epi32 1
  let c := mm256_add_epi32 c (mm256_and_si256 one cmp)
  mod_after_multiply_f4 c

/-- Kernel `mul_f3(a, b)`. -/
def mul_f3 (a b : m256i) : m256i :=
  let _a := a
  let _b := b
  let c := mm256_mullo_epi32 _a _b
  -- filter elements of both of a & b = card-1
  let cmp := mm256_and_si256 (mm256_cmpeq_epi32 _a F3minus1_m256i)
    (mm256_cmpeq_epi32 _b F3minus1_m256i)
  let c := mm256_xor_si256 c (mm256_and_si256 F4_m256i cmp)
  mod_after_multiply_f3 c

/-- Kernel `mul(a, b, card)`; `none` when `assert(card == F4 || card == F3)`
fails. -/
def mul (a b : m256i) (card : Nat) : Option m256i :=
  if card = F4 ∨ card = F3 then
    if card = F4 then some (mul_f4 a b) else some (mul_f3 a b)
  else none

/-- The element `_x[i]` of an array of 128-bit elements (`aint128`), as its
four 32-bit lanes: the memory is seen as 32-bit words, element `i` being the
words `4 i .. 4 i + 3`. -/
def load_aint128 (p : Buf) (i : Nat) : Fin 4 → Nat := fun l => p (4 * i + l.val)

/-- The register read through a `m256i*` that points at the 32-bit word `off`
of a buffer (an `m256i*` obtained from `_x + len_y`). -/
def load_at (p : Buf) (off : Nat) : m256i := fun l => p (off + l.val)

/-- The register written through a `m256i*` that points at the 32-bit word
`off` of a buffer. -/
def store_at (p : Buf) (off : Nat) (reg : m256i) : Buf := fun e =>
  if off ≤ e ∧ e < off + 8 then reg ⟨(e - off) % 8, Nat.mod_lt _ (by decide)⟩ else p e

/-- Whether a `m256i*` that points at the 32-bit word `off` of a buffer can be
dereferenced: a register access needs an address aligned to `ALIGN_SIZE` bytes,
and the buffers themselves are aligned so. -/
def aligned_at (off : Nat) : Bool := decide ((4 * off) % ALIGN_SIZE = 0)

/-- Routine `add_buf_to_two_bufs(n, _x, _y, card)` for an `int n >= 0`; the
result is the new contents of `_x` (`_y` is only read).  The registers `x[i]`
and `y[i]` hold the elements `2 i` and `2 i + 1`; `x_next[i]` is the register
at element `len_y + 2 i`, an address that is aligned for a register only when
`len_y` is even: `none` stands for the fault of a misaligned access.  The last
loop works on local variables only. -/
def add_buf_to_two_bufs (n : Nat) (_x _y : Buf) (card : Nat) : Option Buf :=
  let ratio := 2
  let len_y := n / 2
  let len_y_256 := len_y / ratio
  let last_len_y := len_y - len_y_256 * ratio
  -- add y to the first half of `x`
  let x1 := for_loop (fun i x => STORE x i (add (LOAD x i) (LOAD _y i) card)) len_y_256 _x
  -- add y to the second half of `x`
  let x2 := for_loop (fun i (x : Option Buf) =>
    x.bind (fun x =>
      if aligned_at (4 * len_y + 8 * i) = true then
        some (store_at x (4 * len_y + 8 * i)
          (add (load_at x (4 * len_y + 8 * i)) (LOAD _y i) card))
      else none))
    len_y_256 (some x1)
  if last_len_y > 0 then
    -- add last _y[] to x and x_next
    for_from (fun i (x : Option Buf) =>
      x.map (fun x =>
        let _x_p := mm256_castsi128_si256 (load_aint128 x i)
        let _x_next_p := mm256_castsi128_si256 (load_aint128 x (len_y + i))
        let _y_p := mm256_castsi128_si256 (load_aint128 _y i)
        let _x_p := add _x_p _y_p card
        let _x_next_p := add _x_next_p _y_p card
        x)) (len_y_256 * ratio) len_y x2
  else x2

/-- Routine `hadamard_mul(n, _x, _y)` for an `int n >= 0`; the result is the
new contents of `_x` (`_y` is only read), or `none` when the assertion of `mul`
fails.  The last loop works on local variables only. -/
def hadamard_mul (n : Nat) (_x _y : Buf) : Option Buf :=
  let ratio := 2
  let len_256 := n / ratio
  let last_len := n - len_256 * ratio
  -- multiply y to the first half of `x`
  let x1 := for_loop (fun i (x : Option Buf) =>
    x.bind (fun x => (mul (LOAD x i) (LOAD _y i) F4).map (fun r => STORE x i r)))
    len_256 (some _x)
  if last_len > 0 then
    -- add last _y[] to x
    for_from (fun i (x : Option Buf) =>
      x.bind (fun x =>
        let _x_p := mm256_castsi128_si256 (load_aint128 x i)
        let _y_p := mm256_castsi128_si256 (load_aint128 _y i)
        (mul _x_p _y_p F4).map (fun _x_p => x))) (len_256 * ratio) n x1
  else x1

/-- Routine `butterfly_gs_2`: for each pair `(P, Q) = (buf[i], buf[i + m])`,
the loop `BUTTERFLY_ADD(inputB + j, inputA + j, card)` over the registers
`j = 0 .. len - 1`. -/
def butterfly_gs_2 (fuel : Nat) (buf : Buffers) (start m step len card : Nat) :
    Option Buffers :=
  pair_loop (fun a b =>
    for_loop (fun j (r : Buf × Buf) =>
      let s := BUTTERFLY_ADD r.2 r.1 j card
      (s.2, s.1)) len (a, b)) m step fuel (to_int start) buf

end simd_256_u32

namespace simd_basic

namespace u16

/-- Modelled from the spec: the wrapper `ADD16` is declared outside `src/`; it
is the addition of "packed 16-bit lanes". -/
def ADD16 (x y : VecType) : VecType := mm256_add_epi16 x y

/-- Modelled from the spec: the wrapper `SUB16` is declared outside `src/`; it
is the subtraction of packed 16-bit lanes. -/
def SUB16 (x y : VecType) : VecType := mm256_sub_epi16 x y

/-- Modelled from the spec: the wrapper `MINU16` is declared outside `src/`; it
is the unsigned minimum of packed 16-bit lanes (the "branchless `min`"). -/
def MINU16 (x y : VecType) : VecType := mm256_min_epu16 x y

/-- Modelled from the spec: the constant `F3_u16` is declared outside `src/`;
it holds the cardinality 257 in every 16-bit lane. -/
def F3_u16 : VecType := fun _ => 257 + 65536 * 257

/-- Kernel `ADD_MOD(x, y, q)` for packed unsigned 16-bit integers (`q` is not
used). -/
def ADD_MOD (x y : VecType) (_q : Nat) : VecType :=
  let res := ADD16 x y
  MINU16 res (SUB16 res F3_u16)

/-- Kernel `SUB_MOD(x, y, q)` for packed unsigned 16-bit integers (`q` is not
used). -/
def SUB_MOD (x y : VecType) (_q : Nat) : VecType :=
  let res := SUB16 x y
  MINU16 res (SUB16 (ADD16 x F3_u16) y)

end u16

end simd_basic

end simd

end quadiron

/-! ## The streaming drivers of `fec_base.h` -/

namespace nttec

namespace fec

open quadiron.simd (Properties to_off_t)

/-- Enumeration `FecType`. -/
inductive FecType where
  | SYSTEMATIC
  | NON_SYSTEMATIC
deriving DecidableEq, Repr

/-- The configuration fields of class `FecCode<T>` (the statistics counters are
left out). -/
structure FecCode where
  /-- Field `type`. -/
  type : FecType
  /-- Field `word_size`. -/
  word_size : Nat
  /-- Field `n_data`. -/
  n_data : Nat
  /-- Field `n_parities`. -/
  n_parities : Nat
  /-- Field `code_len`. -/
  code_len : Nat
  /-- Field `n_outputs`. -/
  n_outputs : Nat
  /-- Field `pkt_size`. -/
  pkt_size : Nat
  /-- Field `buf_size`. -/
  buf_size : Nat
deriving DecidableEq, Repr

/-- Ways in which a run stops without a result. -/
inductive Err where
  /-- An `assert` does not hold. -/
  | assertion
  /-- A `std::vector` or `vec::Vector` is indexed outside its bounds. -/
  | out_of_range
  /-- A null stream pointer is dereferenced. -/
  | null_pointer
  /-- The fuel given to a `while (true)` loop ran out. -/
  | fuel
deriving DecidableEq, Repr

/-- Constructor `FecCode(type, word_size, n_data, n_parities, pkt_size)`: its
only check is the assertion on `type`, which every value of the enumeration
passes; the sum is computed on `unsigned`, the product on `size_t`. -/
def FecCode.create (type : FecType) (word_size n_data n_parities pkt_size : Nat) :
    Except Err FecCode :=
  if type = FecType.SYSTEMATIC ∨ type = FecType.NON_SYSTEMATIC then
    let code_len := (n_data + n_parities) % 4294967296
    Except.ok
      { type := type
        word_size := word_size
        n_data := n_data
        n_parities := n_parities
        code_len := code_len
        n_outputs := if type = FecType.SYSTEMATIC then n_parities else code_len
        pkt_size := pkt_size
        buf_size := (pkt_size * word_size) % 18446744073709551616 }
  else Except.error Err.assertion

/-- Modelled from the spec: `std::istream` is outside `src/`; it is a "readable
byte stream": the bytes not yet read and the state of the stream. -/
structure IStream where
  /-- The bytes not yet read. -/
  data : List Nat
  /-- Whether every read so far succeeded. -/
  good : Bool
deriving DecidableEq, Repr

/-- Modelled from the spec: `std::ostream` is outside `src/`; it is a "writable
byte stream": the bytes written so far. -/
structure OStream where
  /-- The bytes written so far. -/
  data : List Nat
deriving DecidableEq, Repr

/-- Modelled from the spec: `stream->read(buf, n)` on a readable byte stream:
the next `n` bytes when the stream is good and holds them, otherwise nothing,
and the stream is bad from then on. -/
def IStream.read (s : IStream) (n : Nat) : Option (List Nat) × IStream :=
  if s.good = true ∧ n ≤ s.data.length then
    (some (s.data.take n), { data := s.data.drop n, good := true })
  else (none, { data := [], good := false })

/-- Modelled from the spec: `stream->write(buf, n)` on a writable byte stream
appends the bytes. -/
def OStream.write (s : OStream) (bytes : List Nat) : OStream :=
  { data := s.data ++ bytes }

/-- The value of a little-endian sequence of bytes. -/
def le_value : List Nat → Nat
  | [] => 0
  | b :: bs => b % 256 + 256 * le_value bs

/-- The `n` little-endian bytes of the low `8 n` bits of a value. -/
def le_bytes : Nat → Nat → List Nat
  | 0, _ => []
  | n + 1, v => v % 256 :: le_bytes n (v / 256)

/-- Method `readw(ptr, stream)` for an element type `T` of `Tbits` bits: the
returned flag, the value stored through `ptr` (if any) and the stream.  The
bytes are read into an unsigned integer of `word_size` bytes, which is then
converted to `T`; a `word_size` outside {1, 2, 4, 8, 16} hits `assert(false)`. -/
def FecCode.readw (c : FecCode) (Tbits : Nat) (stream : IStream) :
    Except Err (Bool × Option Nat × IStream) :=
  if c.word_size = 1 ∨ c.word_size = 2 ∨ c.word_size = 4 ∨ c.word_size = 8
      ∨ c.word_size = 16 then
    match stream.read c.word_size with
    | (some bytes, s) => Except.ok (true, some (le_value bytes % 2 ^ Tbits), s)
    | (none, s) => Except.ok (false, none, s)
  else Except.error Err.assertion

/-- Method `writew(val, stream)`: the value is converted to an unsigned integer
of `word_size` bytes, whose bytes are written; a `word_size` outside
{1, 2, 4, 8, 16} hits `assert(false)`. -/
def FecCode.writew (c : FecCode) (val : Nat) (stream : OStream) :
    Except Err (Bool × OStream) :=
  if c.word_size = 1 ∨ c.word_size = 2 ∨ c.word_size = 4 ∨ c.word_size = 8
      ∨ c.word_size = 16 then
    Except.ok (true, stream.write (le_bytes c.word_size val))
  else Except.error Err.assertion

/-- Method `read_pkt(pkt, stream)`: the returned flag, the bytes stored in
`pkt` (if any) and the stream. -/
def FecCode.read_pkt (c : FecCode) (stream : IStream) : Bool × Option (List Nat) × IStream :=
  match stream.read c.buf_size with
  | (some bytes, s) => (true, some bytes, s)
  | (none, s) => (false, none, s)

/-- Method `write_pkt(pkt, stream)`: the `buf_size` bytes of the packet are
written. -/
def FecCode.write_pkt (c : FecCode) (pkt : List Nat) (stream : OStream) : Bool × OStream :=
  (true, stream.write ((List.range c.buf_size).map (fun k => pkt.getD k 0)))

/-- The calls made to the virtual methods of the code, with what they
returned in `output`. -/
inductive Event where
  /-- Call `encode(&output, props, offset, &words)` on vectors. -/
  | encode (offset : Int) (words output : List Nat)
  /-- Call `encode(&output, props, offset, &words)` on packets; the words and
  the output are given by the bytes of their packets. -/
  | encode_pkt (offset : Int) (words output : List (List Nat))
  /-- Call `decode_add_data(fragment_index, row)`. -/
  | decode_add_data (fragment_index row : Nat)
  /-- Call `decode_add_parities(fragment_index, row)`. -/
  | decode_add_parities (fragment_index row : Nat)
  /-- Call `decode_build()`. -/
  | decode_build
  /-- Call `decode(&output, props, offset, &fragments_ids, &words)`. -/
  | decode (offset : Int) (fragments_ids words output : List Nat)
deriving DecidableEq, Repr

/-- The virtual method `encode` on vectors of the concrete code: the contents
it leaves in `output` (of length `get_n_outputs()`) and in `props`, given the
calls made so far (which fix the state of the code object) and its
arguments. -/
abbrev EncodeFn := List Event → List Properties → Int → List Nat → List Nat × List Properties

/-- The virtual method `encode` on packets of the concrete code, on the bytes
of the packets: the words handed to it are a reinterpretation of the bytes read
(`word_size = sizeof(T)`) or their `vec::pack`, and the bytes written are the
same for its output. -/
abbrev EncodePktFn :=
  List Event → List Properties → Int → List (List Nat) → List (List Nat) × List Properties

/-- The virtual method `decode` of the concrete code: the contents it leaves
in `output`, given the calls made so far and its arguments. -/
abbrev DecodeFn := List Event → List Properties → Int → List Nat → List Nat → List Nat

/-- Modelled from the spec: `vec::Vector<T>::set(i, val)` is outside `src/`; it
writes element `i` of a vector; an index outside the vector is an error. -/
def vector_set (v : List Nat) (i val : Nat) : Except Err (List Nat) :=
  if i < v.length then Except.ok (v.set i val) else Except.error Err.out_of_range

/-- Modelled from the spec: `vec::Vector<T>::get(i)` is outside `src/`; it
reads element `i` of a vector; an index outside the vector is an error. -/
def vector_get (v : List Nat) (i : Nat) : Except Err Nat :=
  match v[i]? with
  | some x => Except.ok x
  | none => Except.error Err.out_of_range

/-- A counting loop `for (i = 0; i < n; i++)` whose body can fail or `break`:
the state after `n` iterations and whether the loop was left by `break`. -/
def for_break {σ : Type} (body : Nat → σ → Except Err (σ × Bool)) :
    Nat → σ → Except Err (σ × Bool)
  | 0, s => Except.ok (s, false)
  | n + 1, s =>
    match for_break body n s with
    | Except.error e => Except.error e
    | Except.ok (s1, true) => Except.ok (s1, true)
    | Except.ok (s1, false) => body n s1

/-- What `encode_bufs` and `encode_packet` work on: the streams behind the two
vectors of pointers (`none` for `nullptr`), the properties and the calls made
to the code. -/
structure EncodeState where
  /-- The streams of `input_data_bufs`. -/
  data : List (Option IStream)
  /-- The streams of `output_parities_bufs`. -/
  parities : List (Option OStream)
  /-- The vector `output_parities_props`. -/
  props : List Properties
  /-- The calls to the virtual methods, in order. -/
  events : List Event
deriving DecidableEq, Repr

/-- State of the loop of `encode_bufs` that reads one word from each data
stream. -/
structure ReadState where
  /-- The streams of `input_data_bufs`. -/
  streams : List (Option IStream)
  /-- Vector `words`. -/
  words : List Nat
  /-- Variable `cont`. -/
  cont : Bool
deriving DecidableEq, Repr

/-- Body of `for (i = 0; i < n_data; i++) { T tmp; if (!readw(&tmp,
input_data_bufs[i])) { cont = false; break; } words.set(i, tmp); }` in
`encode_bufs`. -/
def encode_bufs_read_body (c : FecCode) (Tbits : Nat) (i : Nat) (g : ReadState) :
    Except Err (ReadState × Bool) :=
  match g.streams[i]? with
  | none => Except.error Err.out_of_range
  | some none => Except.error Err.null_pointer
  | some (some stream) =>
    match c.readw Tbits stream with
    | Except.error e => Except.error e
    | Except.ok (_, none, s) =>
      Except.ok ({ g with streams := g.streams.set i (some s), cont := false }, true)
    | Except.ok (_, some tmp, s) =>
      match vector_set g.words i tmp with
      | Except.error e => Except.error e
      | Except.ok words =>
        Except.ok ({ streams := g.streams.set i (some s), words := words, cont := g.cont },
          false)

/-- Body of `for (i = 0; i < n_outputs; i++) { T tmp = output.get(i);
writew(tmp, output_parities_bufs[i]); }` in `encode_bufs`. -/
def encode_bufs_write_body (c : FecCode) (output : List Nat) (i : Nat)
    (outs : List (Option OStream)) : Except Err (List (Option OStream) × Bool) :=
  match vector_get output i with
  | Except.error e => Except.error e
  | Except.ok tmp =>
    match outs[i]? with
    | none => Except.error Err.out_of_range
    | some none => Except.error Err.null_pointer
    | some (some stream) =>
      match c.writew tmp stream with
      | Except.error e => Except.error e
      | Except.ok (_, s) => Except.ok (outs.set i (some s), false)

/-- The `while (true)` loop of `encode_bufs`; the timing statistics kept around
the call of `encode` are left out. -/
def encode_bufs_loop (c : FecCode) (Tbits : Nat) (enc : EncodeFn) :
    Nat → Int → EncodeState → Except Err EncodeState
  | 0, _, _ => Except.error Err.fuel
  | fuel + 1, offset, st =>
    match for_break (encode_bufs_read_body c Tbits) c.n_data
        { streams := st.data, words := List.replicate c.n_data 0, cont := true } with
    | Except.error e => Except.error e
    | Except.ok (g, _) =>
      if g.cont = false then Except.ok { st with data := g.streams }
      else
        let r := enc st.events st.props offset g.words
        let events := st.events ++ [Event.encode offset g.words r.1]
        match for_break (encode_bufs_write_body c r.1) c.n_outputs st.parities with
        | Except.error e => Except.error e
        | Except.ok (outs, _) =>
          encode_bufs_loop c Tbits enc fuel (offset + (c.word_size : Int))
            { data := g.streams, parities := outs, props := r.2, events := events }

/-- Method `encode_bufs(input_data_bufs, output_parities_bufs,
output_parities_props)`: the final streams, properties and calls. -/
def FecCode.encode_bufs (c : FecCode) (Tbits : Nat) (enc : EncodeFn) (fuel : Nat)
    (input_data_bufs : List (Option IStream)) (output_parities_bufs : List (Option OStream))
    (output_parities_props : List Properties) : Except Err EncodeState :=
  if input_data_bufs.length ≠ c.n_data then Except.error Err.assertion
  else if output_parities_bufs.length ≠ c.n_outputs then Except.error Err.assertion
  else if output_parities_props.length ≠ c.n_outputs then Except.error Err.assertion
  else
    encode_bufs_loop c Tbits enc fuel 0
      { data := input_data_bufs, parities := output_parities_bufs,
        props := output_parities_props, events := [] }

/-- State of the loop of `encode_packet` that reads one packet from each data
stream. -/
structure ReadPktState where
  /-- The streams of `input_data_bufs`. -/
  streams : List (Option IStream)
  /-- The memory of `words_char`: one packet of bytes per data stream. -/
  pkts : List (List Nat)
  /-- Variable `cont`. -/
  cont : Bool
deriving DecidableEq, Repr

/-- Body of `for (i = 0; i < n_data; i++) { if (!read_pkt((char*)
(words_mem_char->at(i)), input_data_bufs[i])) { cont = false; break; } }` in
`encode_packet`. -/
def encode_packet_read_body (c : FecCode) (i : Nat) (g : ReadPktState) :
    Except Err (ReadPktState × Bool) :=
  if i < g.pkts.length then
    match g.streams[i]? with
    | none => Except.error Err.out_of_range
    | some none => Except.error Err.null_pointer
    | some (some stream) =>
      match c.read_pkt stream with
      | (_, none, s) =>
        Except.ok ({ g with streams := g.streams.set i (some s), cont := false }, true)
      | (_, some bytes, s) =>
        Except.ok ({ streams := g.streams.set i (some s), pkts := g.pkts.set i bytes,
                     cont := g.cont }, false)
  else Except.error Err.out_of_range

/-- Body of `for (i = 0; i < n_outputs; i++) { write_pkt((char*)
(output_mem_char->at(i)), output_parities_bufs[i]); }` in `encode_packet`. -/
def encode_packet_write_body (c : FecCode) (output : List (List Nat)) (i : Nat)
    (outs : List (Option OStream)) : Except Err (List (Option OStream) × Bool) :=
  match output[i]? with
  | none => Except.error Err.out_of_range
  | some pkt =>
    match outs[i]? with
    | none => Except.error Err.out_of_range
    | some none => Except.error Err.null_pointer
    | some (some stream) => Except.ok (outs.set i (some (c.write_pkt pkt stream).2), false)

/-- The `while (true)` loop of `encode_packet`; `offset += buf_size` is
computed on `size_t` and converted back to `off_t`. -/
def encode_packet_loop (c : FecCode) (enc : EncodePktFn) :
    Nat → Int → List (List Nat) → EncodeState → Except Err EncodeState
  | 0, _, _, _ => Except.error Err.fuel
  | fuel + 1, offset, pkts, st =>
    match for_break (encode_packet_read_body c) c.n_data
        { streams := st.data, pkts := pkts, cont := true } with
    | Except.error e => Except.error e
    | Except.ok (g, _) =>
      if g.cont = false then Except.ok { st with data := g.streams }
      else
        let r := enc st.events st.props offset g.pkts
        let events := st.events ++ [Event.encode_pkt offset g.pkts r.1]
        match for_break (encode_packet_write_body c r.1) c.n_outputs st.parities with
        | Except.error e => Except.error e
        | Except.ok (outs, _) =>
          encode_packet_loop c enc fuel (to_off_t (offset + (c.buf_size : Int))) g.pkts
            { data := g.streams, parities := outs, props := r.2, events := events }

/-- Method `encode_packet(input_data_bufs, output_parities_bufs,
output_parities_props)`: the final streams, properties and calls.  The
constructor of `vec::Buffers` is outside `src/`: the packets of `words_char`
are taken to start zero-filled. -/
def FecCode.encode_packet (c : FecCode) (enc : EncodePktFn) (fuel : Nat)
    (input_data_bufs : List (Option IStream)) (output_parities_bufs : List (Option OStream))
    (output_parities_props : List Properties) : Except Err EncodeState :=
  if input_data_bufs.length ≠ c.n_data then Except.error Err.assertion
  else if output_parities_bufs.length ≠ c.n_outputs then Except.error Err.assertion
  else if output_parities_props.length ≠ c.n_outputs then Except.error Err.assertion
  else
    encode_packet_loop c enc fuel 0 (List.replicate c.n_data (List.replicate c.buf_size 0))
      { data := input_data_bufs, parities := output_parities_bufs,
        props := output_parities_props, events := [] }

/-- What `decode_bufs` works on: the streams behind the three vectors of
pointers (`none` for `nullptr`) and the calls made to the code. -/
structure DecodeState where
  /-- The streams of `input_data_bufs`. -/
  data : List (Option IStream)
  /-- The streams of `input_parities_bufs`. -/
  parities : List (Option IStream)
  /-- The streams of `output_data_bufs`. -/
  outputs : List (Option OStream)
  /-- The calls to the virtual methods, in order. -/
  events : List Event
deriving DecidableEq, Repr

/-- Body of the first loop of `decode_bufs`: `if (input_data_bufs[i] !=
nullptr) { decode_add_data(fragment_index, i); fragment_index++; }`, on
`(fragment_index, events)`. -/
def decode_bufs_add_data_body (input_data_bufs : List (Option IStream)) (i : Nat)
    (st : Nat × List Event) : Except Err ((Nat × List Event) × Bool) :=
  match input_data_bufs[i]? with
  | none => Except.error Err.out_of_range
  | some none => Except.ok (st, false)
  | some (some _) =>
    Except.ok (((st.1 + 1) % 4294967296, st.2 ++ [Event.decode_add_data st.1 i]), false)

/-- Body of the second loop of `decode_bufs`: `if (input_parities_bufs[i] !=
nullptr) { decode_add_parities(fragment_index, i); fragment_index++; if
(fragment_index == n_data) break; }`, on `(fragment_index, events)`. -/
def decode_bufs_add_parities_body (input_parities_bufs : List (Option IStream))
    (n_data : Nat) (i : Nat) (st : Nat × List Event) :
    Except Err ((Nat × List Event) × Bool) :=
  match input_parities_bufs[i]? with
  | none => Except.error Err.out_of_range
  | some none => Except.ok (st, false)
  | some (some _) =>
    Except.ok (((st.1 + 1) % 4294967296, st.2 ++ [Event.decode_add_parities st.1 i]),
      decide ((st.1 + 1) % 4294967296 = n_data))

/-- State of one round of the `while (true)` loop of `decode_bufs` while the
words are gathered. -/
structure Gather where
  /-- The streams read from (data or parities). -/
  streams : List (Option IStream)
  /-- Vector `fragments_ids`. -/
  fragments_ids : List Nat
  /-- Vector `words`. -/
  words : List Nat
  /-- Variable `fragment_index`. -/
  fragment_index : Nat
  /-- Variable `cont`. -/
  cont : Bool
deriving DecidableEq, Repr

/-- Body shared by the two reading loops of `decode_bufs`: `if (bufs[i] !=
nullptr) { T tmp; if (!readw(&tmp, bufs[i])) { cont = false; break; }
fragments_ids.set(fragment_index, i); words.set(fragment_index, tmp);
fragment_index++; }`, followed in the loop over the parities (`stop = true`) by
`if (fragment_index == n_data) break;`. -/
def decode_bufs_read_body (c : FecCode) (Tbits : Nat) (stop : Bool) (i : Nat) (g : Gather) :
    Except Err (Gather × Bool) :=
  match g.streams[i]? with
  | none => Except.error Err.out_of_range
  | some none => Except.ok (g, false)
  | some (some stream) =>
    match c.readw Tbits stream with
    | Except.error e => Except.error e
    | Except.ok (_, none, s) =>
      Except.ok ({ g with streams := g.streams.set i (some s), cont := false }, true)
    | Except.ok (_, some tmp, s) =>
      match vector_set g.fragments_ids g.fragment_index (i % 2 ^ Tbits) with
      | Except.error e => Except.error e
      | Except.ok ids =>
        match vector_set g.words g.fragment_index tmp with
        | Except.error e => Except.error e
        | Except.ok words =>
          Except.ok ({ streams := g.streams.set i (some s), fragments_ids := ids,
                       words := words,
                       fragment_index := (g.fragment_index + 1) % 4294967296,
                       cont := g.cont },
            stop && decide ((g.fragment_index + 1) % 4294967296 = c.n_data))

/-- Body of `for (i = 0; i < n_data; i++) if (output_data_bufs[i] != nullptr)
{ T tmp = output.get(i); writew(tmp, output_data_bufs[i]); }` in
`decode_bufs`. -/
def decode_bufs_write_body (c : FecCode) (output : List Nat) (i : Nat)
    (outs : List (Option OStream)) : Except Err (List (Option OStream) × Bool) :=
  match outs[i]? with
  | none => Except.error Err.out_of_range
  | some none => Except.ok (outs, false)
  | some (some stream) =>
    match vector_get output i with
    | Except.error e => Except.error e
    | Except.ok tmp =>
      match c.writew tmp stream with
      | Except.error e => Except.error e
      | Except.ok (_, s) => Except.ok (outs.set i (some s), false)

/-- The `while (true)` loop of `decode_bufs`; `fragments_ids` persists from
one round to the next, `words` is cleared at the start of each round.  The
timing statistics kept around the call of `decode` are left out. -/
def decode_bufs_loop (c : FecCode) (Tbits : Nat) (dec : DecodeFn)
    (input_parities_props : List Properties) (n_words : Nat) :
    Nat → Int → List Nat → DecodeState → Except Err DecodeState
  | 0, _, _, _ => Except.error Err.fuel
  | fuel + 1, offset, fragments_ids, st =>
    let g0 : Gather := { streams := st.data, fragments_ids := fragments_ids,
                         words := List.replicate n_words 0, fragment_index := 0, cont := true }
    let afterData : Except Err (Gather × Bool) :=
      if c.type = FecType.SYSTEMATIC then
        for_break (decode_bufs_read_body c Tbits false) c.n_data g0
      else Except.ok (g0, false)
    match afterData with
    | Except.error e => Except.error e
    | Except.ok (g, _) =>
      if c.type = FecType.SYSTEMATIC ∧ (g.cont = false ∨ g.fragment_index = c.n_data) then
        Except.ok { st with data := g.streams }
      else
        match for_break (decode_bufs_read_body c Tbits true) c.n_outputs
            { g with streams := st.parities } with
        | Except.error e => Except.error e
        | Except.ok (gp, _) =>
          if gp.cont = false then
            Except.ok { st with data := g.streams, parities := gp.streams }
          else
            let output := dec st.events input_parities_props offset gp.fragments_ids gp.words
            let events :=
              st.events ++ [Event.decode offset gp.fragments_ids gp.words output]
            match for_break (decode_bufs_write_body c output) c.n_data st.outputs with
            | Except.error e => Except.error e
            | Except.ok (outs, _) =>
              decode_bufs_loop c Tbits dec input_parities_props n_words fuel
                (offset + (c.word_size : Int)) gp.fragments_ids
                { data := g.streams, parities := gp.streams, outputs := outs,
                  events := events }

/-- Method `decode_bufs(input_data_bufs, input_parities_bufs,
input_parities_props, output_data_bufs)`: the returned flag and the final
streams and calls.  The constructor of `vec::Vector` is outside `src/`: the
vector `fragments_ids` is taken to start zero-filled. -/
def FecCode.decode_bufs (c : FecCode) (Tbits : Nat) (dec : DecodeFn) (fuel : Nat)
    (input_data_bufs input_parities_bufs : List (Option IStream))
    (input_parities_props : List Properties) (output_data_bufs : List (Option OStream)) :
    Except Err (Bool × DecodeState) :=
  let st0 : DecodeState := { data := input_data_bufs, parities := input_parities_bufs,
                             outputs := output_data_bufs, events := [] }
  if c.type = FecType.SYSTEMATIC ∧ input_data_bufs.length ≠ c.n_data then
    Except.error Err.assertion
  else if input_parities_bufs.length ≠ c.n_outputs then Except.error Err.assertion
  else if input_parities_props.length ≠ c.n_outputs then Except.error Err.assertion
  else if output_data_bufs.length ≠ c.n_data then Except.error Err.assertion
  else
    let afterData : Except Err ((Nat × List Event) × Bool) :=
      if c.type = FecType.SYSTEMATIC then
        for_break (decode_bufs_add_data_body input_data_bufs) c.n_data (0, [])
      else Except.ok ((0, []), false)
    match afterData with
    | Except.error e => Except.error e
    | Except.ok ((fragment_index, events), _) =>
      if c.type = FecType.SYSTEMATIC ∧ fragment_index = c.n_data then
        -- data is in clear so nothing to do
        Except.ok (true, { st0 with events := events })
      else
        let afterParities : Except Err ((Nat × List Event) × Bool) :=
          if fragment_index < c.n_data then
            -- finish with parities available
            for_break (decode_bufs_add_parities_body input_parities_bufs c.n_data) c.code_len
              (fragment_index, events)
          else Except.ok ((fragment_index, events), false)
        match afterParities with
        | Except.error e => Except.error e
        | Except.ok ((fragment_index, events), _) =>
          if fragment_index < c.n_data then
            -- unable to decode
            Except.ok (false, { st0 with events := events })
          else
            let events := events ++ [Event.decode_build]
            let n_words := if c.type = FecType.SYSTEMATIC then c.n_data else c.code_len
            match decode_bufs_loop c Tbits dec input_parities_props n_words fuel 0
                (List.replicate n_words 0) { st0 with events := events } with
            | Except.error e => Except.error e
            | Except.ok st => Except.ok (true, st)

/-! ### Vocabulary for the statements about the drivers -/

/-- A stream pointer that is not null and whose stream is good and still holds
`n` bytes or more. -/
def holds (n : Nat) (o : Option (Option IStream)) : Prop :=
  ∃ s, o = some (some s) ∧ s.good = true ∧ n ≤ s.data.length

/-- The stream pointer after `n` bytes of its stream were read. -/
def skip (n : Nat) (o : Option (Option IStream)) : Option (Option IStream) :=
  o.map (Option.map (fun s => { data := s.data.drop n, good := true }))

/-- Chunk `j` of `n` bytes of the stream behind a pointer. -/
def chunk_at (n j : Nat) (o : Option (Option IStream)) : List Nat :=
  match o with
  | some (some s) => (s.data.drop (j * n)).take n
  | _ => []

/-- Word `j` of the stream behind a pointer, for words of `w` bytes read into
an element type of `Tbits` bits. -/
def word_at (w Tbits j : Nat) (o : Option (Option IStream)) : Nat :=
  le_value (chunk_at w j o) % 2 ^ Tbits

/-- The number of complete chunks of `n` bytes held by the stream behind a
pointer. -/
def chunks_in (n : Nat) (o : Option (Option IStream)) : Nat :=
  match o with
  | some (some s) => s.data.length / n
  | _ => 0

/-- The minimum of `f` over a list of indices (0 for the empty list). -/
def min_over (f : Nat → Nat) : List Nat → Nat
  | [] => 0
  | [k] => f k
  | k :: t => min (f k) (min_over f t)

/-- The output stream pointer after the bytes were written to its stream. -/
def written (bytes : List Nat) (o : Option (Option OStream)) : Option (Option OStream) :=
  o.map (Option.map (fun s => { data := s.data ++ bytes }))

/-- The bytes of the words `val j`, `j < N`, of `w` bytes each. -/
def words_bytes (w : Nat) (val : Nat → Nat) (N : Nat) : List Nat :=
  (List.range N).flatMap (fun j => le_bytes w (val j))

/-- The bytes of the packets `pkt j`, `j < N`, of `n` bytes each. -/
def pkts_bytes (n : Nat) (pkt : Nat → List Nat) (N : Nat) : List Nat :=
  (List.range N).flatMap (fun j => (List.range n).map (fun k => (pkt j).getD k 0))

/-- The indices below `n` of the stream pointers that are not null. -/
def present_below {α : Type} (S : List (Option α)) (n : Nat) : List Nat :=
  (List.range n).filter (fun k => (S[k]?).join.isSome)

/-- The calls `f pos idx` for the indices of a list, at the positions `pos`,
`pos + 1`, ... -/
def calls_from (f : Nat → Nat → Event) : Nat → List Nat → List Event
  | _, [] => []
  | pos, idx :: t => f pos idx :: calls_from f (pos + 1) t

/-- The data streams that `decode_bufs` reads: all the present ones for a
SYSTEMATIC code, none otherwise. -/
def chosen_data (c : FecCode) (data : List (Option IStream)) : List Nat :=
  if c.type = FecType.SYSTEMATIC then present_below data c.n_data else []

/-- The parity streams that `decode_bufs` reads: the lowest-indexed present
ones, as many as data fragments are missing. -/
def chosen_parities (c : FecCode) (data parities : List (Option IStream)) : List Nat :=
  (present_below parities parities.length).take (c.n_data - (chosen_data c data).length)

end fec

end nttec

/-! ## The `ec` tool (`tools/ec.cpp`) -/

namespace ec

/-- Modelled from the spec: the class `Mat<T>` is declared in `mat.h` without
the bodies of its methods: `n_rows x n_cols` items over the field, item
`(i, j)` at `mem[i * n_cols + j]` (macro `MAT_ITEM`).  An item that was never
written is `none`. -/
structure Mat (F : Type) where
  /-- Field `n_rows`. -/
  n_rows : Nat
  /-- Field `n_cols`. -/
  n_cols : Nat
  /-- Field `mem`. -/
  mem : Nat → Option F

/-- Modelled from the spec: the constructor `Mat(gf, n_rows, n_cols)` is
outside `src/`; it allocates the items and writes none of them. -/
def Mat.create (F : Type) (n_rows n_cols : Nat) : Mat F :=
  { n_rows := n_rows, n_cols := n_cols, mem := fun _ => none }

/-- Macro `MAT_ITEM(mat, i, j)`, read. -/
def Mat.item {F : Type} (m : Mat F) (i j : Nat) : Option F := m.mem (i * m.n_cols + j)

/-- Macro `MAT_ITEM(mat, i, j)`, written. -/
def Mat.put {F : Type} (m : Mat F) (i j : Nat) (v : Option F) : Mat F :=
  { m with mem := fun e => if e = i * m.n_cols + j then v else m.mem e }

/-- Modelled from the spec: `Mat::get(i, j)` is outside `src/`; it reads item
`(i, j)`. -/
def Mat.get {F : Type} (m : Mat F) (i j : Nat) : Option F := m.item i j

/-- Modelled from the spec: `Mat::set(i, j, val)` is outside `src/`; it writes
item `(i, j)`. -/
def Mat.set {F : Type} (m : Mat F) (i j : Nat) (val : F) : Mat F := m.put i j (some val)

/-- Whether every item of row `i` was written. -/
def Mat.row_filled {F : Type} (m : Mat F) (i : Nat) : Bool :=
  (List.range m.n_cols).all (fun j => (m.item i j).isSome)

/-- The value of item `(i, j)` (0 for an item never written). -/
def Mat.val {F : Type} [CommRing F] (m : Mat F) (i j : Nat) : F := (m.item i j).getD 0

/-- Modelled from the spec: `Mat::mult(output, v)` is outside `src/`; it is
taken to be the matrix-vector product over the field: element `i` of `output`
is the sum over `j` of `mat[i][j] * v[j]`, for each row written in full. -/
def Mat.mult {F : Type} [CommRing F] (m : Mat F) (v : Nat → F) : Nat → Option F := fun i =>
  if i < m.n_rows ∧ m.row_filled i = true then
    some (Finset.sum (Finset.range m.n_cols) (fun j => m.val i j * v j))
  else none

/-- The fields of class `ECGF2NRS<T>` and of its base `EC<T>` that the repair
uses. -/
structure ECGF2NRS (F : Type) where
  /-- Field `n_data` of `EC`. -/
  n_data : Nat
  /-- Field `n_coding` of `EC`. -/
  n_coding : Nat
  /-- Field `mat`: the generator matrix, `n_coding x n_data`. -/
  mat : Mat F
  /-- Field `repair_mat`, `NULL` until `repair_init`. -/
  repair_mat : Option (Mat F)

/-- Method `ECGF2NRS::encode(output, words)`. -/
def ECGF2NRS.encode {F : Type} [CommRing F] (ec : ECGF2NRS F) (words : Nat → F) :
    Nat → Option F :=
  ec.mat.mult words

/-- Method `ECGF2NRS::repair_init(n_data_ok, n_coding_ok)`. -/
def ECGF2NRS.repair_init {F : Type} (ec : ECGF2NRS F) (n_data_ok n_coding_ok : Nat) :
    ECGF2NRS F :=
  { ec with repair_mat := some (Mat.create F (n_data_ok + n_coding_ok) ec.mat.n_cols) }

/-- Method `ECGF2NRS::repair_add_data(k, i)`: row `k` becomes row `i` of the
identity; `none` when `repair_mat` is `NULL`. -/
def ECGF2NRS.repair_add_data {F : Type} [CommRing F] (ec : ECGF2NRS F) (k i : Nat) :
    Option (ECGF2NRS F) :=
  match ec.repair_mat with
  | none => none
  | some rm =>
    some { ec with repair_mat := some (quadiron.simd.for_loop
      (fun j m => if i = j then m.set k j 1 else m.set k j 0) ec.mat.n_cols rm) }

/-- Method `ECGF2NRS::repair_add_coding(k, i)`: row `k` becomes a copy of row
`i` of the generator matrix; `none` when `repair_mat` is `NULL`. -/
def ECGF2NRS.repair_add_coding {F : Type} (ec : ECGF2NRS F) (k i : Nat) :
    Option (ECGF2NRS F) :=
  match ec.repair_mat with
  | none => none
  | some rm =>
    some { ec with repair_mat := some (quadiron.simd.for_loop
      (fun j m => m.put k j (ec.mat.get i j)) ec.mat.n_cols rm) }

/-- Method `ECGF2NRS::repair_build()`, for a given behaviour `inv` of
`Mat::inv`, whose body is outside `src/`. -/
def ECGF2NRS.repair_build {F : Type} (inv : Mat F → Mat F) (ec : ECGF2NRS F) :
    Option (ECGF2NRS F) :=
  match ec.repair_mat with
  | none => none
  | some rm => some { ec with repair_mat := some (inv rm) }

/-- Method `ECGF2NRS::repair(output, words)`. -/
def ECGF2NRS.repair {F : Type} [CommRing F] (ec : ECGF2NRS F) (words : Nat → F) :
    Nat → Option F :=
  match ec.repair_mat with
  | none => fun _ => none
  | some rm => rm.mult words

/-- The files the tool works on: which data files `prefix.d<i>` and coding
files `prefix.c<i>` exist, their sizes in bytes and the words they hold
(`d_word i t` is word `t` of data file `i`, which is in the file when the size
allows).  Files that exist can be opened and examined with `fstat`, and the
writes to the repaired files succeed. -/
structure Files (F : Type) where
  /-- Whether `prefix.d<i>` exists. -/
  d_present : Nat → Bool
  /-- Whether `prefix.c<i>` exists. -/
  c_present : Nat → Bool
  /-- The size in bytes of the data files (`st_size`). -/
  d_size : Nat → Nat
  /-- The size in bytes of the coding files. -/
  c_size : Nat → Nat
  /-- The words of the data files. -/
  d_word : Nat → Nat → F
  /-- The words of the coding files. -/
  c_word : Nat → Nat → F

/-- Ways in which the tool stops before the end of `repair_data_files`: a
message followed by `exit(1)`, a failed assert, or the `int` loop counter
leaving its range. -/
inductive Exit where
  /-- Exit `xmsg("bad size", filename)`. -/
  | bad_size
  /-- Exit `xperror("short read data")`. -/
  | short_read_data
  /-- Exit `xperror("short read coding")`. -/
  | short_read_coding
  /-- Failed `assert(false && "no such size")`. -/
  | no_such_size
  /-- The counter `int i` of the loop over the chunks is incremented past
  `2^31 - 1`. -/
  | counter_overflow
deriving DecidableEq, Repr

/-- Method `sizew(size)`: the number of words in `size` bytes; `gf_n` is the
value of `gf->_get_n()`, `none` stands for the failed assert. -/
def sizew (gf_n size : Nat) : Option Nat :=
  if gf_n = 8 then some size
  else if gf_n = 16 then some (size / 2)
  else none

/-- Method `freadw(ptr, stream)` for a stream over a file of `size` bytes that
holds the words `word`, at its call number `t` (calls 0 .. t - 1 have read one
word each): `some (some v)` when `fread` reads the word `v`, `some none` when
fewer bytes than a word are left (the result is not 1), `none` for the failed
assert. -/
def freadw {F : Type} (gf_n size : Nat) (word : Nat → F) (t : Nat) : Option (Option F) :=
  if gf_n = 8 then
    if t + 1 ≤ size then some (some (word t)) else some none
  else if gf_n = 16 then
    if 2 * (t + 1) ≤ size then some (some (word t)) else some none
  else none

/-- The variable `size` of `repair_data_files` after the loop over the data
files: it starts as `(size_t)-1`, takes the `st_size` of the first data file
present (`if (-1 == size) size = stbuf.st_size;`) and every later data file
present must have the same size (`else if (size != stbuf.st_size) xmsg("bad
size", filename);`). -/
def data_size {F : Type} (fs : Files F) (n_data : Nat) : Except Exit Nat :=
  quadiron.simd.for_loop (fun i (st : Except Exit Nat) =>
    match st with
    | Except.error x => Except.error x
    | Except.ok size =>
      if fs.d_present i = true then
        if size = 18446744073709551615 then Except.ok (fs.d_size i)
        else if size ≠ fs.d_size i then Except.error Exit.bad_size
        else Except.ok size
      else Except.ok size) n_data (Except.ok 18446744073709551615)

/-- The loops of `repair_data_files` that count the files present:
`n_data_ok` or `n_coding_ok`. -/
def count_ok (present : Nat → Bool) (n : Nat) : Nat :=
  quadiron.simd.for_loop (fun i cnt => if present i = true then (cnt + 1) % 4294967296 else cnt)
    n 0

/-- State of the loops of `repair_data_files` that register the fragments:
the code object (`none` after a `NULL` dereference), the variable `k` and
whether the loop was left by `break`. -/
structure Selection (F : Type) where
  /-- The code object. -/
  ec : Option (ECGF2NRS F)
  /-- Variable `k`. -/
  k : Nat
  /-- Whether `break` was executed. -/
  brk : Bool

/-- The loop `for (i = 0; i < n_data; i++) if (NULL != d_files[i])
{ repair_add_data(k, i); k++; }` of `repair_data_files`. -/
def repair_select_data {F : Type} [CommRing F] (fs : Files F) (n_data : Nat)
    (s : Selection F) : Selection F :=
  quadiron.simd.for_loop (fun i s =>
    if fs.d_present i = true then
      { ec := s.ec.bind (fun e => e.repair_add_data s.k i), k := s.k + 1, brk := s.brk }
    else s) n_data s

/-- The loop `for (i = 0; i < n_coding; i++) if (NULL != c_files[i])
{ repair_add_coding(k, i); k++; if (n_data == k) break; }` of
`repair_data_files`. -/
def repair_select_coding {F : Type} (fs : Files F) (n_data n_coding : Nat)
    (s : Selection F) : Selection F :=
  quadiron.simd.for_loop (fun i s =>
    if s.brk = true then s
    else if fs.c_present i = true then
      { ec := s.ec.bind (fun e => e.repair_add_coding s.k i), k := s.k + 1,
        brk := decide (n_data = s.k + 1) }
    else s) n_coding s

/-- State of the loops of `repair_data_files` that gather the words of one
chunk: the vector `words`, the variable `k` and whether the loop was left by
`break`. -/
structure Gathered (F : Type) where
  /-- Vector `words`. -/
  words : Nat → F
  /-- Variable `k`. -/
  k : Nat
  /-- Whether `break` was executed. -/
  brk : Bool

/-- Modelled from the spec: `Vec::set(i, val)` is outside `src/`; it writes
element `i`. -/
def vec_set {F : Type} (v : Nat → F) (i : Nat) (val : F) : Nat → F :=
  fun e => if e = i then val else v e

/-- The state that the two reading loops of chunk `t` of `repair_data_files`
leave when none of the reads is short (the loops themselves, with their exits,
are `repair_read`). -/
def repair_gather {F : Type} [CommRing F] (fs : Files F) (n_data n_coding t : Nat) :
    Gathered F :=
  let afterData := quadiron.simd.for_loop (fun j (g : Gathered F) =>
    if fs.d_present j = true then
      { words := vec_set g.words g.k (fs.d_word j t), k := g.k + 1, brk := g.brk }
    else g) n_data { words := fun _ => 0, k := 0, brk := false }
  quadiron.simd.for_loop (fun j (g : Gathered F) =>
    if g.brk = true then g
    else if fs.c_present j = true then
      { words := vec_set g.words g.k (fs.c_word j t), k := g.k + 1,
        brk := decide (n_data = g.k + 1) }
    else g) n_coding afterData

/-- Body of the loop `for (j = 0; j < n_data; j++) if (NULL != d_files[j])
{ wc = freadw(&tmp, d_files[j]); if (1 != wc) xperror("short read data");
words.set(k, tmp); k++; }` of `repair_data_files`, for chunk `t`. -/
def repair_read_data {F : Type} (fs : Files F) (gf_n t j : Nat)
    (st : Except Exit (Gathered F)) : Except Exit (Gathered F) :=
  match st with
  | Except.error x => Except.error x
  | Except.ok g =>
    if fs.d_present j = true then
      match freadw gf_n (fs.d_size j) (fs.d_word j) t with
      | none => Except.error Exit.no_such_size
      | some none => Except.error Exit.short_read_data
      | some (some tmp) =>
        Except.ok { words := vec_set g.words g.k tmp, k := g.k + 1, brk := g.brk }
    else Except.ok g

/-- Body of the loop `for (j = 0; j < n_coding; j++) if (NULL != c_files[j])
{ wc = freadw(&tmp, c_files[j]); if (1 != wc) xperror("short read coding");
words.set(k, tmp); k++; if (n_data == k) break; }` of `repair_data_files`, for
chunk `t`. -/
def repair_read_coding {F : Type} (fs : Files F) (gf_n n_data t j : Nat)
    (st : Except Exit (Gathered F)) : Except Exit (Gathered F) :=
  match st with
  | Except.error x => Except.error x
  | Except.ok g =>
    if g.brk = true then Except.ok g
    else if fs.c_present j = true then
      match freadw gf_n (fs.c_size j) (fs.c_word j) t with
      | none => Except.error Exit.no_such_size
      | some none => Except.error Exit.short_read_coding
      | some (some tmp) =>
        Except.ok { words := vec_set g.words g.k tmp, k := g.k + 1,
                    brk := decide (n_data = g.k + 1) }
    else Except.ok g

/-- The two loops of `repair_data_files` that read one word of each chosen
file into `words` for chunk `t`, after `words.zero_fill()` and `k = 0`: every
data file present is read, then the coding files present until `k` reaches
`n_data`. -/
def repair_read {F : Type} [CommRing F] (fs : Files F) (gf_n n_data n_coding t : Nat) :
    Except Exit (Gathered F) :=
  quadiron.simd.for_loop (repair_read_coding fs gf_n n_data t) n_coding
    (quadiron.simd.for_loop (repair_read_data fs gf_n t) n_data
      (Except.ok { words := fun _ => 0, k := 0, brk := false }))

/-- How `repair_data_files` ends. -/
inductive Outcome (F : Type) where
  /-- All the data files are present: `return 0` without repairing. -/
  | nothing_to_do
  /-- Message `too many losses`: `return -1`. -/
  | too_many_losses
  /-- A `NULL` matrix was dereferenced. -/
  | null_pointer
  /-- The repair ran: the code object after `repair_build` and, for each chunk,
  the vector `output` returned by `repair`. -/
  | repaired (ec : ECGF2NRS F) (outputs : List (Nat → Option F))
  /-- The program stopped early; `outputs` are the vectors `output` of the
  chunks repaired before that. -/
  | exited (x : Exit) (outputs : List (Nat → Option F))

/-- The part of `repair_data_files` from `repair_init` to the call of
`repair_build` (not included): the code object whose `repair_mat` is about to
be inverted. -/
def repair_prepare {F : Type} [CommRing F] (ec : ECGF2NRS F) (fs : Files F) : Selection F :=
  let n_data_ok := count_ok fs.d_present ec.n_data
  let n_coding_ok := count_ok fs.c_present ec.n_coding
  let s0 : Selection F :=
    { ec := some (ec.repair_init n_data_ok n_coding_ok), k := 0, brk := false }
  repair_select_coding fs ec.n_data ec.n_coding (repair_select_data fs ec.n_data s0)

/-- The loop `for (i = 0; i < sizew(size); i++)` of `repair_data_files` with
`n` chunks still to do, from chunk `t` on: the words of the chunk are read,
`repair` is applied and the words of `output` are written to the repaired
files; `outs` are the vectors `output` so far.  The counter `i` is an `int`. -/
def repair_chunks {F : Type} [CommRing F] (e : ECGF2NRS F) (fs : Files F) (gf_n : Nat) :
    Nat → Nat → List (Nat → Option F) → Outcome F
  | 0, _, outs => Outcome.repaired e outs
  | n + 1, t, outs =>
    match repair_read fs gf_n e.n_data e.n_coding t with
    | Except.error x => Outcome.exited x outs
    | Except.ok g =>
      if t + 1 < 2147483648 then
        repair_chunks e fs gf_n n (t + 1) (outs ++ [e.repair g.words])
      else Outcome.exited Exit.counter_overflow (outs ++ [e.repair g.words])

/-- Method `EC::repair_data_files()` for a field with `gf->_get_n() = gf_n` and
a given behaviour `inv` of `Mat::inv`; the words written to the repaired files
are those of the vectors `output`.  The number of chunks is `sizew(size)`,
where `size` comes from the data files present (`data_size`). -/
def repair_data_files {F : Type} [CommRing F] (inv : Mat F → Mat F) (ec : ECGF2NRS F)
    (fs : Files F) (gf_n : Nat) : Outcome F :=
  match data_size fs ec.n_data with
  | Except.error x => Outcome.exited x []
  | Except.ok size =>
    let n_data_ok := count_ok fs.d_present ec.n_data
    let n_coding_ok := count_ok fs.c_present ec.n_coding
    if n_data_ok = ec.n_data then Outcome.nothing_to_do
    else if n_coding_ok < (ec.n_data + (4294967296 - n_data_ok)) % 4294967296 then
      Outcome.too_many_losses
    else
      match (repair_prepare ec fs).ec.bind (fun e => e.repair_build inv) with
      | none => Outcome.null_pointer
      | some e =>
        match sizew gf_n size with
        | none => Outcome.exited Exit.no_such_size []
        | some n_chunks => repair_chunks e fs gf_n n_chunks 0 []

/-! ### Vocabulary for the statements about the repair -/

/-- The indices below `n` of the files that exist, in increasing order. -/
def present (p : Nat → Bool) (n : Nat) : List Nat := (List.range n).filter p

/-- The number of whole words in a file of `size` bytes (0 when `sizew` does
not know the field). -/
def words_in (gf_n size : Nat) : Nat := (sizew gf_n size).getD 0

/-- The matrix `B` is an `n x n` matrix written in full and a left inverse of
the `n x n` part of `R`. -/
def is_left_inverse {F : Type} [CommRing F] (B R : Mat F) (n : Nat) : Prop :=
  B.n_rows = n ∧ B.n_cols = n ∧ (∀ r, r < n → B.row_filled r = true)
  ∧ ∀ r j, r < n → j < n →
      Finset.sum (Finset.range n) (fun i => B.val r i * R.val i j) = if r = j then 1 else 0

/-! ### Concrete inputs -/

/-- Witness code of the repair: 2 data files, 1 coding file, generator `(1 1)`
over the integers. -/
def witness_code : ECGF2NRS Int :=
  { n_data := 2, n_coding := 1,
    mat := { n_rows := 1, n_cols := 2, mem := fun e => if e < 2 then some 1 else none },
    repair_mat := none }

/-- Witness data words: word `i` of chunk `t`. -/
def witness_words : Nat → Nat → Int := fun t i => 3 * (t : Int) + (i : Int) + 1

/-- Witness files: `d0` is missing, `d1` and `c0` are present, of 3 bytes
each. -/
def witness_files : Files Int :=
  { d_present := fun i => decide (i = 1), c_present := fun i => decide (i = 0),
    d_size := fun _ => 3, c_size := fun _ => 3,
    d_word := fun i t => witness_words t i,
    c_word := fun _ t => witness_words t 0 + witness_words t 1 }

/-- Witness behaviour of `Mat::inv`: the inverse of the matrix with rows
`(0 1)` and `(1 1)`, which has rows `(-1 1)` and `(1 0)`. -/
def witness_inv : Mat Int → Mat Int := fun _ =>
  { n_rows := 2, n_cols := 2,
    mem := fun e => if e = 0 then some (-1) else if e = 1 then some 1
      else if e = 2 then some 1 else if e = 3 then some 0 else none }

/-- Code with a single data file and a single coding file, generator `(1)`
over the integers. -/
def lost_code : ECGF2NRS Int :=
  { n_data := 1, n_coding := 1,
    mat := { n_rows := 1, n_cols := 1, mem := fun e => if e < 1 then some 1 else none },
    repair_mat := none }

/-- Files for `lost_code`: the data file is missing, the coding file is present
and holds the two words 5 and 7. -/
def lost_files : Files Int :=
  { d_present := fun _ => false, c_present := fun i => decide (i = 0),
    d_size := fun _ => 0, c_size := fun _ => 2,
    d_word := fun _ t => if t = 0 then 5 else 7,
    c_word := fun _ t => if t = 0 then 5 else 7 }

/-- Failing code of C30: 2 data files, 2 coding files, generator with rows
`(1 1)` and `(1 2)` over the integers. -/
def surplus_code : ECGF2NRS Int :=
  { n_data := 2, n_coding := 2,
    mat := { n_rows := 2, n_cols := 2,
             mem := fun e => if e = 3 then some 2 else if e < 3 then some 1 else none },
    repair_mat := none }

/-- Failing files of C30: `d0` is missing, `d1`, `c0` and `c1` are present, of
1 byte each. -/
def surplus_files : Files Int :=
  { d_present := fun i => decide (i = 1), c_present := fun _ => true,
    d_size := fun _ => 1, c_size := fun _ => 1,
    d_word := fun _ _ => 0, c_word := fun _ _ => 0 }

end ec

namespace ec

/-! ### The options of the `ec` tool -/

/-- The file-scope variables `int vflag = 0; int sflag = 0;` of `ec.cpp`. -/
structure Globals where
  /-- Global `vflag`. -/
  vflag : Int
  /-- Global `sflag`. -/
  sflag : Int
deriving DecidableEq, Repr

/-- The initial values of the file-scope variables. -/
def Globals.init : Globals := { vflag := 0, sflag := 0 }

/-- One option as returned by `getopt(argc, argv, "n:m:p:scruve:")`: the
option letter with its argument; `unknown` stands for the result `'?'`.  For
`-n` and `-m` the argument is given as the value of `atoi(optarg)`. -/
inductive Opt where
  /-- Option `-e optarg`. -/
  | e (optarg : List Char)
  /-- Option `-v`. -/
  | v
  /-- Option `-u`. -/
  | u
  /-- Option `-c`. -/
  | c
  /-- Option `-r`. -/
  | r
  /-- Option `-s`. -/
  | s
  /-- Option `-n optarg`. -/
  | n (value : Int)
  /-- Option `-m optarg`. -/
  | m (value : Int)
  /-- Option `-p optarg`. -/
  | p (optarg : List Char)
  /-- Any other option letter. -/
  | unknown
deriving DecidableEq, Repr

/-- The local variables of `main`: `int n_data, n_coding; char *prefix = NULL;
int cflag = 0; int rflag = 0; int uflag = 0; int sflag = 0; int eflag = 0;`. -/
structure MainLocals where
  /-- Local `n_data`. -/
  n_data : Int
  /-- Local `n_coding`. -/
  n_coding : Int
  /-- Local `prefix` (`none` for `NULL`). -/
  pfx : Option (List Char)
  /-- Local `cflag`. -/
  cflag : Int
  /-- Local `rflag`. -/
  rflag : Int
  /-- Local `uflag`. -/
  uflag : Int
  /-- Local `sflag`, which hides the global of the same name inside `main`. -/
  sflag : Int
  /-- Local `eflag`. -/
  eflag : Int
deriving DecidableEq, Repr

/-- The locals of `main` before the option loop (`n_data = n_coding = -1`). -/
def MainLocals.init : MainLocals :=
  { n_data := -1, n_coding := -1, pfx := none, cflag := 0, rflag := 0, uflag := 0,
    sflag := 0, eflag := 0 }

/-- The `switch (opt)` of `main` on the globals and the locals; `none` when
`xusage()` ends the program.  Inside `main` the name `sflag` is the local
variable, `vflag` the global one. -/
def main_switch (opt : Opt) (g : Globals) (l : MainLocals) : Option (Globals × MainLocals) :=
  match opt with
  | Opt.e optarg =>
    if optarg = ['8'] then some (g, { l with eflag := 8 })
    else if optarg = ['1', '6'] then some (g, { l with eflag := 16 })
    else none
  | Opt.v => some ({ g with vflag := 1 }, l)
  | Opt.u => some (g, { l with uflag := 1 })
  | Opt.c => some (g, { l with cflag := 1 })
  | Opt.r => some (g, { l with rflag := 1 })
  | Opt.s => some (g, { l with sflag := 1 })
  | Opt.n value => some (g, { l with n_data := value })
  | Opt.m value => some (g, { l with n_coding := value })
  | Opt.p optarg => some (g, { l with pfx := some optarg })
  | Opt.unknown => none

/-- The loop `while ((opt = getopt(...)) != -1) switch (opt) ...` of `main` over
the options of the command line, in order. -/
def main_options : List Opt → Globals → MainLocals → Option (Globals × MainLocals)
  | [], g, l => some (g, l)
  | opt :: rest, g, l =>
    match main_switch opt g l with
    | none => none
    | some (g1, l1) => main_options rest g1 l1

/-- The two methods that fill the generator matrix; `Mat::cauchy` and
`Mat::vandermonde_suitable_for_ec` are declared in `mat.h` without bodies. -/
inductive Generator where
  /-- Call `mat->cauchy()`. -/
  | cauchy
  /-- Call `mat->vandermonde_suitable_for_ec()`. -/
  | vandermonde_suitable_for_ec
deriving DecidableEq, Repr

/-- The choice made by the constructor `ECGF2NRS(gf, prefix, n_data,
n_coding)`: `if (sflag) mat->cauchy(); else
mat->vandermonde_suitable_for_ec();`.  The constructor is outside `main`, so
its `sflag` is the file-scope variable. -/
def ECGF2NRS.generator (g : Globals) : Generator :=
  if g.sflag ≠ 0 then Generator.cauchy else Generator.vandermonde_suitable_for_ec

/-- Function `main` up to the construction of the code: the method called on
the generator matrix, or `none` when `xusage()` ends the program first. -/
def main_generator (opts : List Opt) : Option Generator :=
  match main_options opts Globals.init MainLocals.init with
  | none => none
  | some (g, l) =>
    if l.eflag = 0 then none
    else if ¬ (l.uflag ≠ 0 ∨ l.cflag ≠ 0 ∨ l.rflag ≠ 0) then none
    else if -1 = l.n_data ∨ -1 = l.n_coding ∨ l.pfx = none then none
    else some (ECGF2NRS.generator g)

end ec

namespace quadiron

namespace simd

/-! ## Lane-level facts about the register operations -/

theorem blend16_lo (r : m256i) (i : Fin 8) :
    mm256_blend_epi16 mm256_setzero_si256 r 0x5555 i = r i % 65536 := by
  fin_cases i <;> simp [mm256_blend_epi16, mm256_setzero_si256, Nat.testBit_to_div_mod]

theorem blend16_lo_55 (r : m256i) (i : Fin 8) :
    mm256_blend_epi16 mm256_setzero_si256 r 0x55 i = r i % 65536 := by
  fin_cases i <;> simp [mm256_blend_epi16, mm256_setzero_si256, Nat.testBit_to_div_mod]

theorem blend16_hi (r : m256i) (i : Fin 8) :
    mm256_blend_epi16 mm256_setzero_si256 r 0xAAAA i = 65536 * (r i / 65536 % 65536) := by
  fin_cases i <;> simp [mm256_blend_epi16, mm256_setzero_si256, Nat.testBit_to_div_mod]

theorem srli2_low_word (r : m256i) (i : Fin 8) :
    mm256_srli_si256 r 2 i % 65536 = r i % 4294967296 / 65536 := by
  fin_cases i <;> simp [mm256_srli_si256, half128] <;> omega

theorem srli2_of_high_words (r : m256i) (i : Fin 8) :
    mm256_srli_si256 (fun j => 65536 * (r j / 65536 % 65536)) 2 i = r i / 65536 % 65536 := by
  fin_cases i <;> simp [mm256_srli_si256, half128] <;> omega

theorem blend8_lo (r : m256i) (i : Fin 8) :
    mm256_blendv_epi8 mm256_setzero_si256 r simd_basic.MASK8_LO i
      = r i % 256 + 65536 * (r i / 65536 % 256) := by
  simp only [mm256_blendv_epi8, mm256_setzero_si256, simd_basic.MASK8_LO]
  norm_num

theorem srli1_even_bytes (r : m256i) (i : Fin 8) :
    mm256_srli_si256 r 1 i % 256 + 65536 * (mm256_srli_si256 r 1 i / 65536 % 256)
      = r i % 4294967296 / 256 % 256 + 65536 * (r i % 4294967296 / 16777216) := by
  fin_cases i <;> simp [mm256_srli_si256, half128] <;> omega

/-! ## The modular kernels, lane by lane -/

theorem u32_CARD_F3 (i : Fin 8) : simd_256_u32.CARD 257 i = 257 := rfl

theorem u32_CARD_F4 (i : Fin 8) : simd_256_u32.CARD 65537 i = 65537 := rfl

theorem u32_CARD_M_1_F3 (i : Fin 8) : simd_256_u32.CARD_M_1 257 i = 256 := rfl

theorem u32_CARD_M_1_F4 (i : Fin 8) : simd_256_u32.CARD_M_1 65537 i = 65536 := rfl

theorem basic_CARD_F3 (i : Fin 8) : simd_basic.CARD 257 i = 257 := rfl

theorem basic_CARD_F4 (i : Fin 8) : simd_basic.CARD 65537 i = 65537 := rfl

theorem basic_CARD_M_1_F3 (i : Fin 8) : simd_basic.CARD_M_1 257 i = 256 := rfl

theorem basic_CARD_M_1_F4 (i : Fin 8) : simd_basic.CARD_M_1 65537 i = 65536 := rfl

theorem u32_ADD_MOD_lane (x y : m256i) (q : Nat) (hq : q = 257 ∨ q = 65537) (i : Fin 8)
    (hx : x i < q) (hy : y i < q) :
    simd_256_u32.ADD_MOD x y q i = (x i + y i) % q := by
  rcases hq with rfl | rfl <;>
    simp only [simd_256_u32.ADD_MOD, simd_256_u32.MINU32, simd_256_u32.SUB32,
      simd_256_u32.ADD32, mm256_min_epu32, mm256_sub_epi32,
      mm256_add_epi32, u32_CARD_F3, u32_CARD_F4] <;> omega

theorem basic_ADD_MOD_lane (x y : m256i) (q : Nat) (hq : q = 257 ∨ q = 65537) (i : Fin 8)
    (hx : x i < q) (hy : y i < q) :
    simd_basic.ADD_MOD x y q i = (x i + y i) % q := by
  rcases hq with rfl | rfl <;>
    simp only [simd_basic.ADD_MOD, simd_basic.MINU32, simd_basic.SUB32,
      simd_basic.ADD32, mm256_min_epu32, mm256_sub_epi32,
      mm256_add_epi32, basic_CARD_F3, basic_CARD_F4] <;> omega

theorem u32_SUB_MOD_eq (x y : m256i) (q : Nat) (i : Fin 8) :
    simd_256_u32.SUB_MOD x y q i
      = min ((x i % 4294967296 + (4294967296 - y i % 4294967296)) % 4294967296)
          (((x i % 4294967296 + (4294967296 - y i % 4294967296)) % 4294967296
            + simd_256_u32.CARD q i) % 4294967296) := rfl

theorem basic_SUB_MOD_eq (x y : m256i) (q : Nat) (i : Fin 8) :
    simd_basic.SUB_MOD x y q i
      = min ((x i % 4294967296 + (4294967296 - y i % 4294967296)) % 4294967296)
          (((x i % 4294967296 + (4294967296 - y i % 4294967296)) % 4294967296
            + simd_basic.CARD q i) % 4294967296) := rfl

theorem u32_SUB_MOD_lane (x y : m256i) (q : Nat) (hq : q = 257 ∨ q = 65537) (i : Fin 8)
    (hx : x i < q) (hy : y i < q) :
    simd_256_u32.SUB_MOD x y q i = (x i + q - y i) % q := by
  rcases hq with rfl | rfl <;>
    simp only [u32_SUB_MOD_eq, u32_CARD_F3, u32_CARD_F4] <;> omega

theorem basic_SUB_MOD_lane (x y : m256i) (q : Nat) (hq : q = 257 ∨ q = 65537) (i : Fin 8)
    (hx : x i < q) (hy : y i < q) :
    simd_basic.SUB_MOD x y q i = (x i + q - y i) % q := by
  rcases hq with rfl | rfl <;>
    simp only [basic_SUB_MOD_eq, basic_CARD_F3, basic_CARD_F4] <;> omega

theorem u32_NEG_MOD_lane (x : m256i) (q : Nat) (hq : q = 257 ∨ q = 65537) (i : Fin 8)
    (hx : x i < q) :
    simd_256_u32.NEG_MOD x q i = (q - x i) % q := by
  rcases hq with rfl | rfl <;>
    simp only [simd_256_u32.NEG_MOD, simd_256_u32.MINU32, simd_256_u32.SUB32,
      mm256_min_epu32, mm256_sub_epi32, u32_CARD_F3, u32_CARD_F4] <;> omega

theorem basic_NEG_MOD_lane (x : m256i) (q : Nat) (hq : q = 257 ∨ q = 65537) (i : Fin 8)
    (hx : x i < q) :
    simd_basic.NEG_MOD x q i = (q - x i) % q := by
  rcases hq with rfl | rfl <;>
    simp only [simd_basic.NEG_MOD, simd_basic.MINU32, simd_basic.SUB32,
      mm256_min_epu32, mm256_sub_epi32, basic_CARD_F3, basic_CARD_F4] <;> omega

theorem and_one_mask (a b : Prop) [Decidable a] [Decidable b] :
    1 % 4294967296 &&& ((if a then 4294967295 else 0) &&& (if b then 4294967295 else 0))
      = if a ∧ b then 1 else 0 := by
  by_cases ha : a <;> by_cases hb : b <;> simp [ha, hb]

theorem and_F4_mask (a b : Prop) [Decidable a] [Decidable b] :
    65537 &&& ((if a then 4294967295 else 0) &&& (if b then 4294967295 else 0))
      = if a ∧ b then 65537 else 0 := by
  by_cases ha : a <;> by_cases hb : b <;> simp [ha, hb]
  decide

/-- Lane formula of `MUL_MOD` (`simd_256_u32.h`): the 16-bit split of the low 32
bits of the product, reduced by `SUB_MOD`. -/
theorem u32_MUL_MOD_eq (x y : m256i) (q : Nat) (i : Fin 8) :
    simd_256_u32.MUL_MOD x y q i
      = simd_256_u32.SUB_MOD (fun _ => (x i * y i) % 4294967296 % 65536)
          (fun _ => (x i * y i) % 4294967296 / 65536) q i := by
  simp only [simd_256_u32.MUL_MOD, u32_SUB_MOD_eq, simd_256_u32.BLEND16, simd_256_u32.ZERO,
    simd_256_u32.SHIFTR_2, blend16_lo, srli2_low_word, simd_256_u32.MUL32,
    mm256_mullo_epi32, Nat.mod_mod]

/-- Lane formula of `MUL_MOD` (`simd_basic.h`) for a cardinality other than F3. -/
theorem basic_MUL_MOD_eq (x y : m256i) (q : Nat) (hq : q ≠ F3) (i : Fin 8) :
    simd_basic.MUL_MOD x y q i
      = simd_basic.SUB_MOD (fun _ => (x i * y i) % 4294967296 % 65536)
          (fun _ => (x i * y i) % 4294967296 / 65536) q i := by
  simp only [simd_basic.MUL_MOD, if_neg hq, basic_SUB_MOD_eq, simd_basic.BLEND16,
    simd_basic.ZERO, simd_basic.SHIFTR, blend16_lo_55, srli2_low_word, simd_basic.MUL32,
    mm256_mullo_epi32, Nat.mod_mod]

/-- Lane formula of `MULFULL_MOD` (`simd_256_u32.h`) for a cardinality other than
F3: one is added to the low 32 bits of the product when both operands equal
`card - 1`, then the 16-bit split is reduced by `SUB_MOD`. -/
theorem u32_MULFULL_MOD_eq (x y : m256i) (q : Nat) (hq : q ≠ F3) (i : Fin 8) :
    simd_256_u32.MULFULL_MOD x y q i
      = simd_256_u32.SUB_MOD
          (fun _ => ((x i * y i) % 4294967296
              + (if x i = simd_256_u32.CARD_M_1 q i ∧ y i = simd_256_u32.CARD_M_1 q i
                  then 1 else 0)) % 4294967296 % 65536)
          (fun _ => ((x i * y i) % 4294967296
              + (if x i = simd_256_u32.CARD_M_1 q i ∧ y i = simd_256_u32.CARD_M_1 q i
                  then 1 else 0)) % 4294967296 / 65536) q i := by
  simp only [simd_256_u32.MULFULL_MOD, if_neg hq, u32_SUB_MOD_eq, simd_256_u32.BLEND16,
    simd_256_u32.ZERO, simd_256_u32.SHIFTR_2, blend16_lo]
  have hhi : ∀ r : m256i, mm256_blend_epi16 mm256_setzero_si256 r 0xAAAA
      = fun j => 65536 * (r j / 65536 % 65536) := fun r => funext (blend16_hi r)
  rw [hhi, srli2_of_high_words]
  simp only [simd_256_u32.ADD32, simd_256_u32.AND, simd_256_u32.ONE, simd_256_u32.CMPEQ32,
    simd_256_u32.MUL32, mm256_add_epi32, mm256_and_si256, mm256_set1_epi32,
    mm256_cmpeq_epi32, mm256_mullo_epi32, and_one_mask]
  have key : ∀ a : Nat, a % 4294967296 / 65536 % 65536 = a % 4294967296 / 65536 := by
    intro a; omega
  simp only [key, Nat.mod_mod]

/-- Lane formula of `MULFULL_MOD` (`simd_basic.h`) for a cardinality other than
F3. -/
theorem basic_MULFULL_MOD_eq (x y : m256i) (q : Nat) (hq : q ≠ F3) (i : Fin 8) :
    simd_basic.MULFULL_MOD x y q i
      = simd_basic.SUB_MOD
          (fun _ => ((x i * y i) % 4294967296
              + (if x i = simd_basic.CARD_M_1 q i ∧ y i = simd_basic.CARD_M_1 q i
                  then 1 else 0)) % 4294967296 % 65536)
          (fun _ => ((x i * y i) % 4294967296
              + (if x i = simd_basic.CARD_M_1 q i ∧ y i = simd_basic.CARD_M_1 q i
                  then 1 else 0)) % 4294967296 / 65536) q i := by
  simp only [simd_basic.MULFULL_MOD, if_neg hq, basic_SUB_MOD_eq, simd_basic.BLEND16,
    simd_basic.ZERO, simd_basic.SHIFTR, blend16_lo_55, srli2_low_word]
  simp only [simd_basic.ADD32, simd_basic.AND, simd_basic.ONE32, simd_basic.CMPEQ32,
    simd_basic.MUL32, mm256_add_epi32, mm256_and_si256, mm256_set1_epi32,
    mm256_cmpeq_epi32, mm256_mullo_epi32, and_one_mask, Nat.mod_mod]

theorem F4_ne_F3 : F4 ≠ F3 := by decide

/-- Arithmetic core of the F4 multiplication: for a product `p < 2^32` the
16-bit split `lo - hi`, brought back into range by the unsigned minimum, is
`p mod 65537`. -/
theorem split16_residue (p : Nat) (hp : p < 4294967296) :
    min ((p % 65536 % 4294967296 + (4294967296 - p / 65536 % 4294967296)) % 4294967296)
        (((p % 65536 % 4294967296 + (4294967296 - p / 65536 % 4294967296)) % 4294967296
          + 65537) % 4294967296)
      = p % 65537 := by
  have h1 : p % 65536 % 4294967296 = p % 65536 := by omega
  have h2 : p / 65536 % 4294967296 = p / 65536 := by omega
  rw [h1, h2]
  rcases Nat.lt_or_ge (p % 65536) (p / 65536) with h | h
  · have e1 : (p % 65536 + (4294967296 - p / 65536)) % 4294967296
        = p % 65536 + 4294967296 - p / 65536 := by omega
    have e2 : (p % 65536 + 4294967296 - p / 65536 + 65537) % 4294967296
        = p % 65536 + 65537 - p / 65536 := by omega
    rw [e1, e2, min_eq_right (by omega)]
    omega
  · have e1 : (p % 65536 + (4294967296 - p / 65536)) % 4294967296
        = p % 65536 - p / 65536 := by omega
    have e2 : (p % 65536 - p / 65536 + 65537) % 4294967296
        = p % 65536 - p / 65536 + 65537 := by omega
    rw [e1, e2, min_eq_left (by omega)]
    omega

theorem mul_le_of_one_small (a b : Nat) (ha : a ≤ 65536) (hb : b ≤ 65536)
    (h : a ≤ 65535 ∨ b ≤ 65535) : a * b ≤ 4294901760 := by
  rcases h with h | h
  · calc a * b ≤ 65535 * 65536 := Nat.mul_le_mul h hb
      _ = 4294901760 := by norm_num
  · calc a * b ≤ 65536 * 65535 := Nat.mul_le_mul ha h
      _ = 4294901760 := by norm_num

/-- Arithmetic core of the full F4 multiplication on one lane: `r` is the
corrected low 32 bits of the product. -/
theorem mulfull_F4_core (a b r : Nat) (ha : a ≤ 65536) (hb : b ≤ 65536)
    (hr : r = ((a * b) % 4294967296 + (if a = 65536 ∧ b = 65536 then 1 else 0))
      % 4294967296) :
    min ((r % 65536 % 4294967296 + (4294967296 - r / 65536 % 4294967296)) % 4294967296)
        (((r % 65536 % 4294967296 + (4294967296 - r / 65536 % 4294967296)) % 4294967296
          + 65537) % 4294967296)
      = (a * b) % 65537 := by
  by_cases h : a = 65536 ∧ b = 65536
  · obtain ⟨rfl, rfl⟩ := h
    subst hr
    decide
  · have hp : a * b ≤ 4294901760 := mul_le_of_one_small a b ha hb (by omega)
    have h0 : r = a * b := by rw [hr, if_neg h]; omega
    rw [h0]
    exact split16_residue (a * b) (by omega)

/-- Arithmetic core of the unchecked F4 multiplication on one lane. -/
theorem mul_F4_core (a b r : Nat) (ha : a ≤ 65536) (hb : b ≤ 65536)
    (h : a ≤ 65535 ∨ b ≤ 65535) (hr : r = (a * b) % 4294967296) :
    min ((r % 65536 % 4294967296 + (4294967296 - r / 65536 % 4294967296)) % 4294967296)
        (((r % 65536 % 4294967296 + (4294967296 - r / 65536 % 4294967296)) % 4294967296
          + 65537) % 4294967296)
      = (a * b) % 65537 := by
  have hp : a * b ≤ 4294901760 := mul_le_of_one_small a b ha hb h
  have h0 : r = a * b := by rw [hr]; omega
  rw [h0]
  exact split16_residue (a * b) (by omega)

theorem u32_MULFULL_MOD_F4_lane (x y : m256i) (i : Fin 8)
    (hx : x i ≤ 65536) (hy : y i ≤ 65536) :
    simd_256_u32.MULFULL_MOD x y F4 i = (x i * y i) % 65537 := by
  rw [u32_MULFULL_MOD_eq x y F4 F4_ne_F3 i, u32_SUB_MOD_eq]
  exact mulfull_F4_core (x i) (y i) _ hx hy rfl

theorem basic_MULFULL_MOD_F4_lane (x y : m256i) (i : Fin 8)
    (hx : x i ≤ 65536) (hy : y i ≤ 65536) :
    simd_basic.MULFULL_MOD x y F4 i = (x i * y i) % 65537 := by
  rw [basic_MULFULL_MOD_eq x y F4 F4_ne_F3 i, basic_SUB_MOD_eq]
  exact mulfull_F4_core (x i) (y i) _ hx hy rfl

theorem u32_MUL_MOD_F4_lane (x y : m256i) (i : Fin 8)
    (hx : x i ≤ 65536) (hy : y i ≤ 65536) (h : x i ≤ 65535 ∨ y i ≤ 65535) :
    simd_256_u32.MUL_MOD x y F4 i = (x i * y i) % 65537 := by
  rw [u32_MUL_MOD_eq, u32_SUB_MOD_eq]
  exact mul_F4_core (x i) (y i) _ hx hy h rfl

theorem basic_MUL_MOD_F4_lane (x y : m256i) (i : Fin 8)
    (hx : x i ≤ 65536) (hy : y i ≤ 65536) (h : x i ≤ 65535 ∨ y i ≤ 65535) :
    simd_basic.MUL_MOD x y F4 i = (x i * y i) % 65537 := by
  rw [basic_MUL_MOD_eq x y F4 F4_ne_F3 i, basic_SUB_MOD_eq]
  exact mul_F4_core (x i) (y i) _ hx hy h rfl

/-- Lane formula of `MULFULL_MOD` (`simd_256_u32.h`) for F3: the correction is
an exclusive or with 65537, and the split is still the 16-bit one. -/
theorem u32_MULFULL_MOD_F3_eq (x y : m256i) (i : Fin 8) :
    simd_256_u32.MULFULL_MOD x y F3 i
      = simd_256_u32.SUB_MOD
          (fun _ => ((x i * y i) % 4294967296
              ^^^ (if x i = 256 ∧ y i = 256 then 65537 else 0)) % 65536)
          (fun _ => ((x i * y i) % 4294967296
              ^^^ (if x i = 256 ∧ y i = 256 then 65537 else 0)) / 65536 % 65536) F3 i := by
  simp only [simd_256_u32.MULFULL_MOD, if_pos, u32_SUB_MOD_eq, simd_256_u32.BLEND16,
    simd_256_u32.ZERO, simd_256_u32.SHIFTR_2, blend16_lo]
  have hhi : ∀ r : m256i, mm256_blend_epi16 mm256_setzero_si256 r 0xAAAA
      = fun j => 65536 * (r j / 65536 % 65536) := fun r => funext (blend16_hi r)
  rw [hhi, srli2_of_high_words]
  have hc : ∀ j, simd_256_u32.CARD_M_1 F3 j = 256 := fun _ => rfl
  simp only [simd_256_u32.XOR, simd_256_u32.AND, simd_256_u32.F4_m256i,
    simd_256_u32.CMPEQ32, simd_256_u32.MUL32, mm256_xor_si256, mm256_and_si256,
    mm256_cmpeq_epi32, mm256_mullo_epi32, and_F4_mask, hc]

/-- Lane formula of `MUL_MOD` (`simd_basic.h`) for F3: the product is split
into 8-bit parts by the byte blend. -/
theorem basic_MUL_MOD_F3_eq (x y : m256i) (i : Fin 8) :
    simd_basic.MUL_MOD x y F3 i
      = simd_basic.SUB_MOD
          (fun _ => (x i * y i) % 4294967296 % 256
              + 65536 * ((x i * y i) % 4294967296 / 65536 % 256))
          (fun _ => (x i * y i) % 4294967296 / 256 % 256
              + 65536 * ((x i * y i) % 4294967296 / 16777216)) F3 i := by
  simp only [simd_basic.MUL_MOD, if_pos, basic_SUB_MOD_eq, simd_basic.BLEND8,
    simd_basic.ZERO, simd_basic.SHIFTR, blend8_lo, srli1_even_bytes, simd_basic.MUL32,
    mm256_mullo_epi32, Nat.mod_mod]

/-- Lane formula of `MULFULL_MOD` (`simd_basic.h`) for F3. -/
theorem basic_MULFULL_MOD_F3_eq (x y : m256i) (i : Fin 8) :
    simd_basic.MULFULL_MOD x y F3 i
      = simd_basic.SUB_MOD
          (fun _ => ((x i * y i) % 4294967296
                ^^^ (if x i = 256 ∧ y i = 256 then 65537 else 0)) % 256
              + 65536 * (((x i * y i) % 4294967296
                ^^^ (if x i = 256 ∧ y i = 256 then 65537 else 0)) / 65536 % 256))
          (fun _ => ((x i * y i) % 4294967296
                ^^^ (if x i = 256 ∧ y i = 256 then 65537 else 0)) % 4294967296 / 256 % 256
              + 65536 * (((x i * y i) % 4294967296
                ^^^ (if x i = 256 ∧ y i = 256 then 65537 else 0)) % 4294967296 / 16777216))
          F3 i := by
  have hc : ∀ j, simd_basic.CARD_M_1 F3 j = 256 := fun _ => rfl
  simp only [simd_basic.MULFULL_MOD, if_pos, basic_SUB_MOD_eq, simd_basic.BLEND8,
    simd_basic.ZERO, simd_basic.SHIFTR, blend8_lo, srli1_even_bytes]
  simp only [simd_basic.XOR, simd_basic.AND, simd_basic.F4_u32,
    simd_basic.CMPEQ32, simd_basic.MUL32, mm256_xor_si256, mm256_and_si256,
    mm256_cmpeq_epi32, mm256_mullo_epi32, and_F4_mask, hc]

/-! ## Claims on the modular kernels -/

/-- C1: for card = F4 and lane values x, y in [0, 65536], `MULFULL_MOD(x, y, F4)`
equals `(x * y) mod 65537` in every 32-bit lane, both in `simd_256_u32.h` and in
`simd_basic.h`; the kernel takes the low 32 bits of the product, adds 1 when
x = y = 65536, splits the result into 16-bit low and high halves and returns
`SUB_MOD(lo, hi, F4)`. -/
theorem MULFULL_MOD_F4_exact (x y : m256i) (i : Fin 8)
    (hx : x i ≤ 65536) (hy : y i ≤ 65536) :
    (simd_256_u32.MULFULL_MOD x y F4 i = (x i * y i) % 65537
      ∧ simd_256_u32.MULFULL_MOD x y F4 i
          = simd_256_u32.SUB_MOD
              (fun _ => ((x i * y i) % 4294967296
                  + (if x i = 65536 ∧ y i = 65536 then 1 else 0)) % 4294967296 % 65536)
              (fun _ => ((x i * y i) % 4294967296
                  + (if x i = 65536 ∧ y i = 65536 then 1 else 0)) % 4294967296 / 65536)
              F4 i)
    ∧ (simd_basic.MULFULL_MOD x y F4 i = (x i * y i) % 65537
      ∧ simd_basic.MULFULL_MOD x y F4 i
          = simd_basic.SUB_MOD
              (fun _ => ((x i * y i) % 4294967296
                  + (if x i = 65536 ∧ y i = 65536 then 1 else 0)) % 4294967296 % 65536)
              (fun _ => ((x i * y i) % 4294967296
                  + (if x i = 65536 ∧ y i = 65536 then 1 else 0)) % 4294967296 / 65536)
              F4 i) :=
  ⟨⟨u32_MULFULL_MOD_F4_lane x y i hx hy, u32_MULFULL_MOD_eq x y F4 F4_ne_F3 i⟩,
   ⟨basic_MULFULL_MOD_F4_lane x y i hx hy, basic_MULFULL_MOD_eq x y F4 F4_ne_F3 i⟩⟩

theorem MULFULL_MOD_F4_exact_witness :
    simd_256_u32.MULFULL_MOD (fun _ => 65536) (fun _ => 65536) F4 3 = 1
      ∧ simd_basic.MULFULL_MOD (fun _ => 65536) (fun _ => 65536) F4 3 = 1 :=
  have h := MULFULL_MOD_F4_exact (fun _ => 65536) (fun _ => 65536) 3
    (Nat.le_refl _) (Nat.le_refl _)
  ⟨h.1.1.trans (by decide), h.2.1.trans (by decide)⟩

/-- C2: for card = F4 and lane values x, y in [0, 65536] with at least one of
them at most 65535, `MUL_MOD(x, y, F4)` equals `(x * y) mod 65537` in every
32-bit lane, in both headers: the product fits in 32 bits and the 16-bit split
reduced by `SUB_MOD` is the exact residue. -/
theorem MUL_MOD_F4_exact (x y : m256i) (i : Fin 8)
    (hx : x i ≤ 65536) (hy : y i ≤ 65536) (h : x i ≤ 65535 ∨ y i ≤ 65535) :
    x i * y i < 4294967296
    ∧ (simd_256_u32.MUL_MOD x y F4 i = (x i * y i) % 65537
      ∧ simd_256_u32.MUL_MOD x y F4 i
          = simd_256_u32.SUB_MOD (fun _ => (x i * y i) % 65536)
              (fun _ => (x i * y i) / 65536) F4 i)
    ∧ (simd_basic.MUL_MOD x y F4 i = (x i * y i) % 65537
      ∧ simd_basic.MUL_MOD x y F4 i
          = simd_basic.SUB_MOD (fun _ => (x i * y i) % 65536)
              (fun _ => (x i * y i) / 65536) F4 i) := by
  have hp : x i * y i ≤ 4294901760 := mul_le_of_one_small _ _ hx hy h
  have h0 : (x i * y i) % 4294967296 = x i * y i := by omega
  refine ⟨by omega, ⟨u32_MUL_MOD_F4_lane x y i hx hy h, ?_⟩,
    ⟨basic_MUL_MOD_F4_lane x y i hx hy h, ?_⟩⟩
  · rw [u32_MUL_MOD_eq, h0]
  · rw [basic_MUL_MOD_eq x y F4 F4_ne_F3 i, h0]

theorem MUL_MOD_F4_exact_witness :
    simd_256_u32.MUL_MOD (fun _ => 65536) (fun _ => 65535) F4 0 = 2
      ∧ simd_basic.MUL_MOD (fun _ => 65536) (fun _ => 65535) F4 0 = 2 :=
  have h := MUL_MOD_F4_exact (fun _ => 65536) (fun _ => 65535) 0
    (Nat.le_refl _) (by decide) (Or.inr (Nat.le_refl _))
  ⟨h.2.1.1.trans (by decide), h.2.2.1.trans (by decide)⟩

/-- C3 (evaluation of the code): with card = F3 the `MUL_MOD` of
`simd_256_u32.h` keeps the 16-bit split, so on the lanes x = 2, y = 200 it
returns 400 instead of `(2 * 200) mod 257 = 143`, while the `MUL_MOD` of
`simd_basic.h`, which splits into 8-bit parts, returns 143. -/
theorem MUL_MOD_F3_u32_unreduced :
    (∀ i, simd_256_u32.MUL_MOD (fun _ => 2) (fun _ => 200) F3 i = 400)
      ∧ (2 * 200) % 257 = 143
      ∧ (∀ i, simd_basic.MUL_MOD (fun _ => 2) (fun _ => 200) F3 i = 143) := by
  refine ⟨?_, by decide, ?_⟩
  · intro i
    have hc : simd_256_u32.CARD F3 i = 257 := rfl
    rw [u32_MUL_MOD_eq, u32_SUB_MOD_eq, hc]
    decide
  · intro i
    have hc : simd_basic.CARD F3 i = 257 := rfl
    rw [basic_MUL_MOD_F3_eq, basic_SUB_MOD_eq, hc]
    decide

/-- C4: for q in {257, 65537} and lane values x, y < q, `ADD_MOD(x, y, q)`, the
unsigned minimum of `x + y` and `x + y - q` computed modulo `2^32`, equals
`(x + y) mod q`, in both headers. -/
theorem ADD_MOD_exact (q : Nat) (hq : q = 257 ∨ q = 65537) (x y : m256i) (i : Fin 8)
    (hx : x i < q) (hy : y i < q) :
    (simd_256_u32.ADD_MOD x y q i = (x i + y i) % q
      ∧ simd_256_u32.ADD_MOD x y q i
          = min ((x i + y i) % 4294967296)
              (((x i + y i) % 4294967296 + (4294967296 - q)) % 4294967296))
    ∧ (simd_basic.ADD_MOD x y q i = (x i + y i) % q
      ∧ simd_basic.ADD_MOD x y q i
          = min ((x i + y i) % 4294967296)
              (((x i + y i) % 4294967296 + (4294967296 - q)) % 4294967296)) := by
  refine ⟨⟨u32_ADD_MOD_lane x y q hq i hx hy, ?_⟩, ⟨basic_ADD_MOD_lane x y q hq i hx hy, ?_⟩⟩
  · rcases hq with rfl | rfl <;>
      simp only [simd_256_u32.ADD_MOD, simd_256_u32.MINU32, simd_256_u32.SUB32,
        simd_256_u32.ADD32, mm256_min_epu32, mm256_sub_epi32,
        mm256_add_epi32, u32_CARD_F3, u32_CARD_F4, Nat.mod_mod]
  · rcases hq with rfl | rfl <;>
      simp only [simd_basic.ADD_MOD, simd_basic.MINU32, simd_basic.SUB32,
        simd_basic.ADD32, mm256_min_epu32, mm256_sub_epi32,
        mm256_add_epi32, basic_CARD_F3, basic_CARD_F4, Nat.mod_mod]

theorem ADD_MOD_exact_witness :
    simd_256_u32.ADD_MOD (fun _ => 65536) (fun _ => 65536) 65537 5 = 65535
      ∧ simd_basic.ADD_MOD (fun _ => 65536) (fun _ => 65536) 65537 5 = 65535 :=
  have h := ADD_MOD_exact 65537 (Or.inr rfl) (fun _ => 65536) (fun _ => 65536) 5
    (by decide) (by decide)
  ⟨h.1.1.trans (by decide), h.2.1.trans (by decide)⟩

/-- C5: for q in {257, 65537} and lane values x, y < q, `SUB_MOD(x, y, q)`, the
unsigned minimum of `x - y` and `x - y + q` computed modulo `2^32`, equals
`(x - y) mod q`, the representative in `[0, q - 1]`, in both headers. -/
theorem SUB_MOD_exact (q : Nat) (hq : q = 257 ∨ q = 65537) (x y : m256i) (i : Fin 8)
    (hx : x i < q) (hy : y i < q) :
    (((simd_256_u32.SUB_MOD x y q i : Nat) : Int) = ((x i : Int) - (y i : Int)) % (q : Int)
      ∧ simd_256_u32.SUB_MOD x y q i < q
      ∧ simd_256_u32.SUB_MOD x y q i
          = min ((x i + (4294967296 - y i)) % 4294967296)
              (((x i + (4294967296 - y i)) % 4294967296 + q) % 4294967296))
    ∧ (((simd_basic.SUB_MOD x y q i : Nat) : Int) = ((x i : Int) - (y i : Int)) % (q : Int)
      ∧ simd_basic.SUB_MOD x y q i < q
      ∧ simd_basic.SUB_MOD x y q i
          = min ((x i + (4294967296 - y i)) % 4294967296)
              (((x i + (4294967296 - y i)) % 4294967296 + q) % 4294967296)) := by
  have hu := u32_SUB_MOD_lane x y q hq i hx hy
  have hb := basic_SUB_MOD_lane x y q hq i hx hy
  have hxw : x i % 4294967296 = x i := by rcases hq with rfl | rfl <;> omega
  have hyw : y i % 4294967296 = y i := by rcases hq with rfl | rfl <;> omega
  refine ⟨⟨?_, ?_, ?_⟩, ⟨?_, ?_, ?_⟩⟩
  · rw [hu]; rcases hq with rfl | rfl <;> omega
  · rw [hu]; rcases hq with rfl | rfl <;> omega
  · rw [u32_SUB_MOD_eq, hxw, hyw]
    rcases hq with rfl | rfl
    · rw [u32_CARD_F3]
    · rw [u32_CARD_F4]
  · rw [hb]; rcases hq with rfl | rfl <;> omega
  · rw [hb]; rcases hq with rfl | rfl <;> omega
  · rw [basic_SUB_MOD_eq, hxw, hyw]
    rcases hq with rfl | rfl
    · rw [basic_CARD_F3]
    · rw [basic_CARD_F4]

theorem SUB_MOD_exact_witness :
    simd_256_u32.SUB_MOD (fun _ => 3) (fun _ => 256) 257 7 < 257
      ∧ simd_basic.SUB_MOD (fun _ => 3) (fun _ => 256) 257 7 < 257 :=
  have h := SUB_MOD_exact 257 (Or.inl rfl) (fun _ => 3) (fun _ => 256) 7
    (by decide) (by decide)
  ⟨h.1.2.1, h.2.2.1⟩

/-- C6: for q in {257, 65537} and a lane value x < q, `NEG_MOD(x, q)` equals
`(q - x) mod q`: it is 0 for x = 0 and `q - x` for x in `[1, q - 1]`, so that
`NEG_MOD(NEG_MOD(x, q), q) = x`, in both headers. -/
theorem NEG_MOD_exact (q : Nat) (hq : q = 257 ∨ q = 65537) (x : m256i) (i : Fin 8)
    (hx : x i < q) :
    (simd_256_u32.NEG_MOD x q i = (q - x i) % q
      ∧ (x i = 0 → simd_256_u32.NEG_MOD x q i = 0)
      ∧ (1 ≤ x i → simd_256_u32.NEG_MOD x q i = q - x i)
      ∧ simd_256_u32.NEG_MOD (simd_256_u32.NEG_MOD x q) q i = x i)
    ∧ (simd_basic.NEG_MOD x q i = (q - x i) % q
      ∧ (x i = 0 → simd_basic.NEG_MOD x q i = 0)
      ∧ (1 ≤ x i → simd_basic.NEG_MOD x q i = q - x i)
      ∧ simd_basic.NEG_MOD (simd_basic.NEG_MOD x q) q i = x i) := by
  have hu := u32_NEG_MOD_lane x q hq i hx
  have hb := basic_NEG_MOD_lane x q hq i hx
  have hq0 : 0 < q := by omega
  have hu2 : simd_256_u32.NEG_MOD x q i < q := by rw [hu]; exact Nat.mod_lt _ hq0
  have hb2 : simd_basic.NEG_MOD x q i < q := by rw [hb]; exact Nat.mod_lt _ hq0
  refine ⟨⟨hu, ?_, ?_, ?_⟩, ⟨hb, ?_, ?_, ?_⟩⟩
  · intro h0; rw [hu, h0]; simp
  · intro h1; rw [hu]; exact Nat.mod_eq_of_lt (by omega)
  · rw [u32_NEG_MOD_lane _ q hq i hu2, hu]
    rcases hq with rfl | rfl <;> omega
  · intro h0; rw [hb, h0]; simp
  · intro h1; rw [hb]; exact Nat.mod_eq_of_lt (by omega)
  · rw [basic_NEG_MOD_lane _ q hq i hb2, hb]
    rcases hq with rfl | rfl <;> omega

theorem NEG_MOD_exact_witness :
    simd_256_u32.NEG_MOD (fun _ => 1) 65537 2 = 65536
      ∧ simd_basic.NEG_MOD (fun _ => 0) 257 2 = 0 :=
  ⟨(NEG_MOD_exact 65537 (Or.inr rfl) (fun _ => 1) 2 (by decide)).1.2.2.1 (Nat.le_refl _),
   (NEG_MOD_exact 257 (Or.inl rfl) (fun _ => 0) 2 (by decide)).2.2.1 rfl⟩

/-- C7: for card in {F3, F4}, when both operands equal `card - 1`,
`MULFULL_MOD(card - 1, card - 1, card)` returns 1, the value of
`(card - 1)^2 mod card`, in both headers, whereas the kernel without the
correction term loses it: for F4 the low 32 bits of the raw product are 0 and
`MUL_MOD` returns 0, for F3 the 16-bit split of `simd_256_u32.h` returns 256
and the byte split of `simd_basic.h` does not return 1 either. -/
theorem MULFULL_MOD_card_minus_one (q : Nat) (hq : q = F3 ∨ q = F4) (x y : m256i)
    (i : Fin 8) (hx : x i = q - 1) (hy : y i = q - 1) :
    ((q - 1) * (q - 1)) % q = 1
    ∧ simd_256_u32.MULFULL_MOD x y q i = 1
    ∧ simd_basic.MULFULL_MOD x y q i = 1
    ∧ (q = F4 → (x i * y i) % 4294967296 = 0
        ∧ simd_256_u32.MUL_MOD x y q i = 0 ∧ simd_basic.MUL_MOD x y q i = 0)
    ∧ (q = F3 → simd_256_u32.MUL_MOD x y q i = 256 ∧ simd_basic.MUL_MOD x y q i ≠ 1) := by
  rcases hq with rfl | rfl
  · have hx1 : x i = 256 := hx
    have hy1 : y i = 256 := hy
    have hc : simd_256_u32.CARD F3 i = 257 := rfl
    have hc2 : simd_basic.CARD F3 i = 257 := rfl
    refine ⟨by decide, ?_, ?_, fun h => absurd h (by decide), fun _ => ⟨?_, ?_⟩⟩
    · rw [u32_MULFULL_MOD_F3_eq, u32_SUB_MOD_eq, hc, hx1, hy1]; decide
    · rw [basic_MULFULL_MOD_F3_eq, basic_SUB_MOD_eq, hc2, hx1, hy1]; decide
    · rw [u32_MUL_MOD_eq, u32_SUB_MOD_eq, hc, hx1, hy1]; decide
    · rw [basic_MUL_MOD_F3_eq, basic_SUB_MOD_eq, hc2, hx1, hy1]; decide
  · have hx1 : x i = 65536 := hx
    have hy1 : y i = 65536 := hy
    have hc : simd_256_u32.CARD F4 i = 65537 := rfl
    have hc2 : simd_basic.CARD F4 i = 65537 := rfl
    refine ⟨by decide, ?_, ?_, fun _ => ⟨?_, ?_, ?_⟩, fun h => absurd h (by decide)⟩
    · rw [u32_MULFULL_MOD_F4_lane x y i (by omega) (by omega), hx1, hy1]
    · rw [basic_MULFULL_MOD_F4_lane x y i (by omega) (by omega), hx1, hy1]
    · rw [hx1, hy1]
    · rw [u32_MUL_MOD_eq, u32_SUB_MOD_eq, hc, hx1, hy1]; decide
    · rw [basic_MUL_MOD_eq x y F4 F4_ne_F3 i, basic_SUB_MOD_eq, hc2, hx1, hy1]; decide

theorem MULFULL_MOD_card_minus_one_witness :
    simd_256_u32.MULFULL_MOD (fun _ => 256) (fun _ => 256) F3 0 = 1
      ∧ simd_basic.MULFULL_MOD (fun _ => 65536) (fun _ => 65536) F4 0 = 1 :=
  ⟨(MULFULL_MOD_card_minus_one F3 (Or.inl rfl) (fun _ => 256) (fun _ => 256) 0 rfl rfl).2.1,
   (MULFULL_MOD_card_minus_one F4 (Or.inr rfl) (fun _ => 65536) (fun _ => 65536) 0
      rfl rfl).2.2.1⟩

/-! ## Butterflies -/

theorem set1_lane (r : Nat) (hr : r < 4294967296) (i : Fin 8) :
    simd_256_u32.SET1 r i = r := by
  simp only [simd_256_u32.SET1, mm256_set1_epi32]
  omega

/-- The three butterflies of the Cooley-Tukey dispatch on one lane, for F4. -/
theorem BUTTERFLY_R_F4_lane (r : Nat) (hr1 : 1 ≤ r) (hr2 : r ≤ 65536) (x y : m256i)
    (i : Fin 8) (hx : x i < 65537) (hy : y i < 65537) :
    (simd_256_u32.BUTTERFLY_R1 r F4 (simd_256_u32.SET1 r) x y).1 i
        = (x i + r * y i) % 65537
    ∧ (((simd_256_u32.BUTTERFLY_R1 r F4 (simd_256_u32.SET1 r) x y).2 i : Nat) : Int)
        = ((x i : Int) - (r : Int) * (y i : Int)) % 65537 := by
  have hq : F4 = 257 ∨ F4 = 65537 := Or.inr rfl
  have hx' : x i < F4 := hx
  have hy' : y i < F4 := hy
  by_cases h1 : r = 1
  · subst h1
    have e : simd_256_u32.BUTTERFLY_R1 1 F4 (simd_256_u32.SET1 1) x y
        = simd_256_u32.BUTTERFLY_1 x y F4 := rfl
    rw [e]
    simp only [simd_256_u32.BUTTERFLY_1]
    rw [u32_ADD_MOD_lane x y F4 hq i hx' hy', u32_SUB_MOD_lane x y F4 hq i hx' hy']
    simp only [F4]
    constructor <;> omega
  · by_cases h2 : r < 65536
    · have e : simd_256_u32.BUTTERFLY_R1 r F4 (simd_256_u32.SET1 r) x y
          = simd_256_u32.BUTTERFLY_3 (simd_256_u32.SET1 r) x y F4 := by
        simp [simd_256_u32.BUTTERFLY_R1, simd_256_u32.EITHER, h1, F4, h2]
      rw [e]
      simp only [simd_256_u32.BUTTERFLY_3]
      have hz : simd_256_u32.MUL_MOD (simd_256_u32.SET1 r) y F4 i = (r * y i) % 65537 := by
        rw [u32_MUL_MOD_F4_lane _ _ i (by rw [set1_lane r (by omega)]; omega) (by omega)
          (Or.inl (by rw [set1_lane r (by omega)]; omega)), set1_lane r (by omega)]
      have hz' : simd_256_u32.MUL_MOD (simd_256_u32.SET1 r) y F4 i < F4 := by
        rw [hz]; exact Nat.mod_lt _ (by decide)
      rw [u32_ADD_MOD_lane _ _ F4 hq i hx' hz', u32_SUB_MOD_lane _ _ F4 hq i hx' hz', hz]
      simp only [F4]
      constructor
      · omega
      · push_cast
        omega
    · have h3 : r = 65536 := by omega
      subst h3
      have e : simd_256_u32.BUTTERFLY_R1 65536 F4 (simd_256_u32.SET1 65536) x y
          = simd_256_u32.BUTTERFLY_2 x y F4 := rfl
      rw [e]
      simp only [simd_256_u32.BUTTERFLY_2]
      rw [u32_ADD_MOD_lane x y F4 hq i hx' hy', u32_SUB_MOD_lane x y F4 hq i hx' hy']
      simp only [F4]
      constructor <;> omega

/-- C8: for card = F4, every twiddle r in [1, card - 1] and lane values
x, y < card, the butterfly chosen by the dispatch of
`butterfly_ct_two_layers_step` (r = 1: `BUTTERFLY_1`; 1 < r < card - 1:
`BUTTERFLY_3` with coefficient r; r = card - 1: `BUTTERFLY_2`) replaces
`(x, y)` by `((x + r*y) mod card, (x - r*y) mod card)`; the three macros
`BUTTERFLY_R1`, `BUTTERFLY_R2`, `BUTTERFLY_R3` are the same dispatch. -/
theorem BUTTERFLY_CT_dispatch_F4 (r : Nat) (hr1 : 1 ≤ r) (hr2 : r ≤ 65536) (x y : m256i)
    (i : Fin 8) (hx : x i < 65537) (hy : y i < 65537) :
    ((simd_256_u32.BUTTERFLY_R1 r F4 (simd_256_u32.SET1 r) x y).1 i
        = (x i + r * y i) % 65537
      ∧ (((simd_256_u32.BUTTERFLY_R1 r F4 (simd_256_u32.SET1 r) x y).2 i : Nat) : Int)
        = ((x i : Int) - (r : Int) * (y i : Int)) % 65537)
    ∧ (∀ c : m256i, (r = 1 → simd_256_u32.BUTTERFLY_R1 r F4 c x y
              = simd_256_u32.BUTTERFLY_1 x y F4)
        ∧ (1 < r → r < 65536 → simd_256_u32.BUTTERFLY_R1 r F4 c x y
              = simd_256_u32.BUTTERFLY_3 c x y F4)
        ∧ (r = 65536 → simd_256_u32.BUTTERFLY_R1 r F4 c x y
              = simd_256_u32.BUTTERFLY_2 x y F4))
    ∧ simd_256_u32.BUTTERFLY_R2 r F4 = simd_256_u32.BUTTERFLY_R1 r F4
    ∧ simd_256_u32.BUTTERFLY_R3 r F4 = simd_256_u32.BUTTERFLY_R1 r F4 := by
  refine ⟨BUTTERFLY_R_F4_lane r hr1 hr2 x y i hx hy, fun c => ⟨?_, ?_, ?_⟩, rfl, rfl⟩
  · intro h; subst h; rfl
  · intro h1 h2
    have h1' : r ≠ 1 := by omega
    simp [simd_256_u32.BUTTERFLY_R1, simd_256_u32.EITHER, h1', F4, h2]
  · intro h; subst h; rfl

theorem BUTTERFLY_CT_dispatch_F4_witness :
    (simd_256_u32.BUTTERFLY_R1 3 F4 (simd_256_u32.SET1 3) (fun _ => 5) (fun _ => 7)).1 4
      = 26 :=
  (BUTTERFLY_CT_dispatch_F4 3 (by decide) (by decide) (fun _ => 5) (fun _ => 7) 4
    (by decide) (by decide)).1.1

/-- C9 (counterexample): on the lanes x = 3, y = 1 with card = F4, `BUTTERFLY_2`
and its memory form `BUTTERFLY_SUB` leave `(2, 4) = (x - y, x + y)`: the first
output is not the sum `x + y = 4` and the second is not `y - x = 65535`. -/
theorem BUTTERFLY_2_first_is_difference :
    (simd_256_u32.BUTTERFLY_2 (fun _ => 3) (fun _ => 1) F4).1 0 = 2
    ∧ (simd_256_u32.BUTTERFLY_2 (fun _ => 3) (fun _ => 1) F4).2 0 = 4
    ∧ (simd_256_u32.BUTTERFLY_SUB (fun _ => 3) (fun _ => 1) 0 F4).1 0 = 2
    ∧ (simd_256_u32.BUTTERFLY_SUB (fun _ => 3) (fun _ => 1) 0 F4).2 0 = 4
    ∧ ¬ ((simd_256_u32.BUTTERFLY_2 (fun _ => 3) (fun _ => 1) F4).1 0 = (3 + 1) % 65537
        ∧ (((simd_256_u32.BUTTERFLY_2 (fun _ => 3) (fun _ => 1) F4).2 0 : Nat) : Int)
            = ((1 : Int) - 3) % 65537) := by
  decide

/-- C9 (amended): for card in {F3, F4} and lane values x, y < card, the
butterfly for the twiddle r = card - 1 (`BUTTERFLY_2`, and its memory form
`BUTTERFLY_SUB` on the registers at offset j of two buffers) replaces the pair
`(x, y)` by `((x - y) mod card, (x + y) mod card)`: the first output is the
difference x minus y and the second is the sum; `BUTTERFLY_SUB` leaves the
elements outside register j unchanged. -/
theorem BUTTERFLY_2_difference_then_sum (q : Nat) (hq : q = 257 ∨ q = 65537) :
    (∀ (x y : m256i) (i : Fin 8), x i < q → y i < q →
      (((simd_256_u32.BUTTERFLY_2 x y q).1 i : Nat) : Int)
          = ((x i : Int) - (y i : Int)) % (q : Int)
      ∧ (simd_256_u32.BUTTERFLY_2 x y q).2 i = (x i + y i) % q)
    ∧ (∀ (a b : simd_256_u32.Buf) (j e : Nat),
        (e / 8 = j → a e < q → b e < q →
          (((simd_256_u32.BUTTERFLY_SUB a b j q).1 e : Nat) : Int)
              = ((a e : Int) - (b e : Int)) % (q : Int)
          ∧ (simd_256_u32.BUTTERFLY_SUB a b j q).2 e = (a e + b e) % q)
        ∧ (e / 8 ≠ j → (simd_256_u32.BUTTERFLY_SUB a b j q).1 e = a e
            ∧ (simd_256_u32.BUTTERFLY_SUB a b j q).2 e = b e)) := by
  constructor
  · intro x y i hx hy
    simp only [simd_256_u32.BUTTERFLY_2]
    rw [u32_ADD_MOD_lane x y q hq i hx hy, u32_SUB_MOD_lane x y q hq i hx hy]
    refine ⟨?_, rfl⟩
    rcases hq with rfl | rfl <;> omega
  · intro a b j e
    constructor
    · intro hj ha hb
      have he : 8 * j + e % 8 = e := by omega
      simp only [simd_256_u32.BUTTERFLY_SUB, simd_256_u32.STORE, if_pos hj]
      have hx : simd_256_u32.LOAD a j ⟨e % 8, Nat.mod_lt _ (by decide)⟩ < q := by
        simp only [simd_256_u32.LOAD, he]; exact ha
      have hy : simd_256_u32.LOAD b j ⟨e % 8, Nat.mod_lt _ (by decide)⟩ < q := by
        simp only [simd_256_u32.LOAD, he]; exact hb
      rw [u32_ADD_MOD_lane _ _ q hq _ hx hy, u32_SUB_MOD_lane _ _ q hq _ hx hy]
      simp only [simd_256_u32.LOAD, he, and_true]
      rcases hq with rfl | rfl <;> omega
    · intro hj
      simp only [simd_256_u32.BUTTERFLY_SUB, simd_256_u32.STORE, if_neg hj, and_self]

theorem BUTTERFLY_2_difference_then_sum_witness :
    (simd_256_u32.BUTTERFLY_2 (fun _ => 3) (fun _ => 1) 65537).2 0 = 4 :=
  ((BUTTERFLY_2_difference_then_sum 65537 (Or.inr rfl)).1 (fun _ => 3) (fun _ => 1) 0
    (by decide) (by decide)).2

/-! ## The Gentleman-Sande butterfly over buffers -/

section gs_3
open simd_256_u32

theorem to_int_of_lt (u : Nat) (h : u < 2147483648) : to_int u = (u : Int) := by
  unfold to_int
  have h1 : u % 4294967296 = u := by omega
  rw [h1, if_pos h]

theorem to_unsigned_natCast (i : Nat) (h : i < 4294967296) : to_unsigned (i : Int) = i := by
  unfold to_unsigned
  omega

theorem to_int_add (i k : Nat) (h : i + k < 2147483648) :
    to_int (to_unsigned (i : Int) + k) = ((i + k : Nat) : Int) := by
  rw [to_unsigned_natCast i (by omega), to_int_of_lt _ h]

theorem Buffers.get_natCast (buf : Buffers) (i : Nat) (h : i < buf.n) :
    buf.get (i : Int) = some (buf.mem i) := by
  unfold Buffers.get
  rw [if_pos ⟨by omega, by omega⟩]
  simp

theorem Buffers.set_mem (buf : Buffers) (i : Nat) (b : Buf) (k : Nat) :
    (buf.set (i : Int) b).mem k = if k = i then b else buf.mem k := by
  simp [Buffers.set]

theorem Buffers.set_n (buf : Buffers) (i : Int) (b : Buf) : (buf.set i b).n = buf.n := rfl

theorem pair_loop_exit (body : Buf → Buf → Buf × Buf) (m step fuel i : Nat)
    (buf : Buffers) (h : buf.n ≤ i) :
    pair_loop body m step (fuel + 1) (i : Int) buf = some buf := by
  have h' : ¬ ((i : Int) < buf.get_n) := by
    simp only [Buffers.get_n]; omega
  simp only [pair_loop, if_neg h']

theorem pair_loop_step (body : Buf → Buf → Buf × Buf) (m step fuel i : Nat)
    (buf : Buffers) (hi : i < buf.n) (him : i + m < buf.n) (hm : m ≠ 0)
    (hn1 : buf.n + m ≤ 2147483648) (hn2 : buf.n + step ≤ 2147483648) :
    pair_loop body m step (fuel + 1) (i : Int) buf
      = pair_loop body m step fuel ((i + step : Nat) : Int)
          ((buf.set (i : Int) (body (buf.mem i) (buf.mem (i + m))).1).set
            ((i + m : Nat) : Int) (body (buf.mem i) (buf.mem (i + m))).2) := by
  have h' : (i : Int) < buf.get_n := by
    simp only [Buffers.get_n]; omega
  have hne : ¬ ((i : Int) = ((i + m : Nat) : Int)) := by omega
  simp only [pair_loop, if_pos h', to_int_add i m (by omega), to_int_add i step (by omega),
    Buffers.get_natCast buf i hi, Buffers.get_natCast buf (i + m) him, if_neg hne]

/-- Effect of the shared outer loop when the pairs `(i, i + m)` do not overlap:
every pair is replaced by the body applied to its original contents, every
other buffer is left as it was. -/
theorem pair_loop_spec (body : Buf → Buf → Buf × Buf) (m step : Nat) (hstep : 0 < step)
    (hm : ¬ step ∣ m) :
    ∀ (fuel i : Nat) (buf : Buffers), buf.n + m ≤ 2147483648 → buf.n + step ≤ 2147483648 →
      (∀ k, i + k * step < buf.n → i + k * step + m < buf.n) →
      buf.n ≤ i + fuel * step →
      ∃ out, pair_loop body m step (fuel + 1) (i : Int) buf = some out ∧ out.n = buf.n ∧
        ∀ idx,
          (∀ k, idx = i + k * step → idx < buf.n →
              out.mem idx = (body (buf.mem idx) (buf.mem (idx + m))).1)
          ∧ (∀ k, idx = i + k * step + m → i + k * step < buf.n →
              out.mem idx = (body (buf.mem (i + k * step)) (buf.mem idx)).2)
          ∧ ((∀ k, idx = i + k * step → ¬ idx < buf.n) →
             (∀ k, idx = i + k * step + m → ¬ i + k * step < buf.n) →
              out.mem idx = buf.mem idx) := by
  have hm0 : m ≠ 0 := fun h => hm (h ▸ dvd_zero step)
  have hmk : ∀ k, k * step ≠ m := fun k h => hm ⟨k, by rw [← h, Nat.mul_comm]⟩
  intro fuel
  induction fuel with
  | zero =>
    intro i buf _ _ _ hfuel
    have hle : buf.n ≤ i := by omega
    refine ⟨buf, pair_loop_exit body m step 0 i buf hle, rfl, fun idx => ⟨?_, ?_, ?_⟩⟩
    · intro k hk hlt; omega
    · intro k _ hlt; omega
    · intro _ _; rfl
  | succ fuel ih =>
    intro i buf hn1 hn2 hin hfuel
    by_cases hi : i < buf.n
    · have him : i + m < buf.n := by
        have := hin 0; simp only [Nat.zero_mul, Nat.add_zero] at this; exact this hi
      rw [pair_loop_step body m step (fuel + 1) i buf hi him hm0 hn1 hn2]
      obtain ⟨out, hout, hnout, hspec⟩ := ih (i + step)
        ((buf.set (i : Int) (body (buf.mem i) (buf.mem (i + m))).1).set
            ((i + m : Nat) : Int) (body (buf.mem i) (buf.mem (i + m))).2)
        hn1 hn2
        (by
          intro k hk
          have := hin (k + 1)
          rw [Nat.succ_mul] at this
          simp only [Buffers.set_n] at hk ⊢
          omega)
        (by
          simp only [Buffers.set_n]
          rw [Nat.succ_mul] at hfuel
          omega)
      refine ⟨out, hout, hnout, fun idx => ?_⟩
      obtain ⟨hP, hQ, hN⟩ := hspec idx
      simp only [Buffers.set_n, Buffers.set_mem] at hP hQ hN
      refine ⟨?_, ?_, ?_⟩
      · intro k hk hlt
        rcases Nat.eq_zero_or_pos k with h0 | hpos
        · subst h0
          simp only [Nat.zero_mul, Nat.add_zero] at hk
          subst hk
          rw [hN (fun k hk => by omega) (fun k hk => by omega)]
          rw [if_neg (by omega), if_pos rfl]
        · obtain ⟨k', rfl⟩ : ∃ k', k = k' + 1 := ⟨k - 1, by omega⟩
          have hk' : idx = i + step + k' * step := by rw [hk, Nat.succ_mul]; omega
          have hne := hmk (k' + 1)
          rw [Nat.succ_mul] at hne
          rw [hP k' hk' hlt]
          rw [if_neg (by omega), if_neg (by omega), if_neg (by omega), if_neg (by omega)]
      · intro k hk hlt
        rcases Nat.eq_zero_or_pos k with h0 | hpos
        · subst h0
          simp only [Nat.zero_mul, Nat.add_zero] at hk hlt ⊢
          subst hk
          have hN' := hN (fun k hk => by
              have hne := hmk (k + 1)
              rw [Nat.succ_mul] at hne
              omega) (fun k hk => by omega)
          rw [hN', if_pos rfl]
        · obtain ⟨k', rfl⟩ : ∃ k', k = k' + 1 := ⟨k - 1, by omega⟩
          have hk' : idx = i + step + k' * step + m := by rw [hk, Nat.succ_mul]; omega
          have hlt' : i + step + k' * step < buf.n := by
            rw [Nat.succ_mul] at hlt; omega
          have hne := hmk (k' + 1)
          rw [Nat.succ_mul] at hne
          have e1 : i + (k' + 1) * step = i + step + k' * step := by
            rw [Nat.succ_mul]; omega
          rw [hQ k' hk' hlt', e1]
          rw [if_neg (by omega), if_neg (by omega), if_neg (by omega), if_neg (by omega)]
      · intro h1 h2
        have hi0 : idx ≠ i := by
          intro h
          exact h1 0 (by simp [h]) (by omega)
        have him0 : idx ≠ i + m := by
          intro h
          exact h2 0 (by simp [h]) (by simpa using hi)
        rw [hN (fun k hk => by
              have := h1 (k + 1) (by rw [hk, Nat.succ_mul]; omega)
              exact this)
            (fun k hk => by
              have := h2 (k + 1) (by rw [hk, Nat.succ_mul]; omega)
              rw [Nat.succ_mul] at this
              intro hlt
              exact this (by omega))]
        rw [if_neg him0, if_neg hi0]
    · have hle : buf.n ≤ i := by omega
      refine ⟨buf, pair_loop_exit body m step (fuel + 1) i buf hle, rfl,
        fun idx => ⟨?_, ?_, ?_⟩⟩
      · intro k hk hlt; omega
      · intro k _ hlt; omega
      · intro _ _; rfl

/-- Effect of the inner loop of `butterfly_gs_3` on each element. -/
theorem butterfly_gs_3_inner_spec (c : m256i) (q : Nat) (a b : Buf) :
    ∀ (len e : Nat),
      (e / 8 < len →
        (butterfly_gs_3_inner c q len a b).1 e
            = ADD_MOD (LOAD a (e / 8)) (LOAD b (e / 8)) q ⟨e % 8, Nat.mod_lt _ (by decide)⟩
        ∧ (butterfly_gs_3_inner c q len a b).2 e
            = MUL_MOD c (SUB_MOD (LOAD a (e / 8)) (LOAD b (e / 8)) q) q
                ⟨e % 8, Nat.mod_lt _ (by decide)⟩)
      ∧ (len ≤ e / 8 →
        (butterfly_gs_3_inner c q len a b).1 e = a e
        ∧ (butterfly_gs_3_inner c q len a b).2 e = b e) := by
  intro len
  induction len with
  | zero =>
    intro e
    exact ⟨fun h => absurd h (Nat.not_lt_zero _), fun _ => ⟨rfl, rfl⟩⟩
  | succ len ih =>
    intro e
    have hA : LOAD (butterfly_gs_3_inner c q len a b).1 len = LOAD a len := by
      funext l
      simp only [LOAD]
      exact ((ih (8 * len + l.val)).2 (by omega)).1
    have hB : LOAD (butterfly_gs_3_inner c q len a b).2 len = LOAD b len := by
      funext l
      simp only [LOAD]
      exact ((ih (8 * len + l.val)).2 (by omega)).2
    simp only [butterfly_gs_3_inner, BUTTERFLY_ADDMUL, STORE, hA, hB]
    by_cases he : e / 8 = len
    · simp only [if_pos he]
      subst he
      exact ⟨fun _ => ⟨rfl, rfl⟩, fun h => absurd h (by omega)⟩
    · simp only [if_neg he]
      exact ⟨fun h => (ih e).1 (by omega), fun h => (ih e).2 (by omega)⟩

theorem mul_sub_emod (c P Q : Nat) (hP : P < 65537) (hQ : Q < 65537) :
    (((c * ((P + 65537 - Q) % 65537)) % 65537 : Nat) : Int)
      = ((c : Int) * ((P : Int) - (Q : Int))) % 65537 := by
  have h1 : (((P + 65537 - Q) % 65537 : Nat) : Int) = ((P : Int) - (Q : Int)) % 65537 := by
    omega
  generalize (P + 65537 - Q) % 65537 = s at h1 ⊢
  push_cast
  rw [h1, Int.mul_emod, Int.emod_emod_of_dvd _ (dvd_refl _), ← Int.mul_emod]

/-- Values written by the inner loop of `butterfly_gs_3` over F4. -/
theorem butterfly_gs_3_inner_F4 (c : Nat) (hc2 : c < 65536) (a b : Buf) (len e : Nat)
    (he : e < 8 * len) (ha : a e < 65537) (hb : b e < 65537) :
    (butterfly_gs_3_inner (SET1 c) F4 len a b).1 e = (a e + b e) % 65537
    ∧ (((butterfly_gs_3_inner (SET1 c) F4 len a b).2 e : Nat) : Int)
        = ((c : Int) * ((a e : Int) - (b e : Int))) % 65537 := by
  have hq : F4 = 257 ∨ F4 = 65537 := Or.inr rfl
  have hlane : 8 * (e / 8) + e % 8 = e := by omega
  obtain ⟨h1, h2⟩ := (butterfly_gs_3_inner_spec (SET1 c) F4 a b len e).1 (by omega)
  have hx : LOAD a (e / 8) ⟨e % 8, Nat.mod_lt _ (by decide)⟩ = a e := by
    simp only [LOAD, hlane]
  have hy : LOAD b (e / 8) ⟨e % 8, Nat.mod_lt _ (by decide)⟩ = b e := by
    simp only [LOAD, hlane]
  have hsub := u32_SUB_MOD_lane (LOAD a (e / 8)) (LOAD b (e / 8)) F4 hq
    ⟨e % 8, Nat.mod_lt _ (by decide)⟩ (by rw [hx]; exact ha) (by rw [hy]; exact hb)
  rw [hx, hy] at hsub
  have hsub_lt : SUB_MOD (LOAD a (e / 8)) (LOAD b (e / 8)) F4
      ⟨e % 8, Nat.mod_lt _ (by decide)⟩ < 65537 := by
    rw [hsub]; exact Nat.mod_lt _ (by decide)
  constructor
  · rw [h1, u32_ADD_MOD_lane _ _ F4 hq _ (by rw [hx]; exact ha) (by rw [hy]; exact hb),
      hx, hy]
    rfl
  · rw [h2, u32_MUL_MOD_F4_lane _ _ _ (by rw [set1_lane c (by omega)]; omega) (by omega)
      (Or.inl (by rw [set1_lane c (by omega)]; omega)), set1_lane c (by omega), hsub]
    exact mul_sub_emod c (a e) (b e) ha hb

/-- C10: for card = F4, a coefficient c with 1 < c < card - 1 (only the upper
bound is used) and buffer entries < card, `butterfly_gs_3` returns (given fuel above the number of
buffers) and replaces every pair `(P, Q) = (buf[i], buf[i + m])`,
i = start, start + step, ..., element-wise by
`((P + Q) mod card, (c * (P - Q)) mod card)`; every other buffer, and every
element beyond the `len` registers, is unchanged.  The pairs are assumed to lie
inside the buffers and not to overlap (`step` does not divide `m`), and the
indices to fit the `int` loop counter. -/
theorem butterfly_gs_3_pairs (c : Nat) (hc2 : c < 65536) (buf : Buffers)
    (start m step len fuel : Nat) (hstep : 0 < step) (hm : ¬ step ∣ m)
    (hstart : start < 2147483648)
    (hn1 : buf.n + m ≤ 2147483648) (hn2 : buf.n + step ≤ 2147483648)
    (hin : ∀ k, start + k * step < buf.n → start + k * step + m < buf.n)
    (hval : ∀ idx e, idx < buf.n → e < 8 * len → buf.mem idx e < 65537)
    (hfuel : buf.n < fuel) :
    ∃ out, butterfly_gs_3 fuel c buf start m step len F4 = some out ∧ out.n = buf.n ∧
      ∀ idx e,
        (∀ k, idx = start + k * step → idx < buf.n → e < 8 * len →
            out.mem idx e = (buf.mem idx e + buf.mem (idx + m) e) % 65537)
        ∧ (∀ k, idx = start + k * step + m → start + k * step < buf.n → e < 8 * len →
            ((out.mem idx e : Nat) : Int)
              = ((c : Int) * ((buf.mem (start + k * step) e : Int) - (buf.mem idx e : Int)))
                  % 65537)
        ∧ ((∀ k, idx = start + k * step → ¬ idx < buf.n) →
           (∀ k, idx = start + k * step + m → ¬ start + k * step < buf.n) →
            out.mem idx e = buf.mem idx e)
        ∧ (8 * len ≤ e → out.mem idx e = buf.mem idx e) := by
  obtain ⟨fuel', rfl⟩ : ∃ f, fuel = f + 1 := ⟨fuel - 1, by omega⟩
  have hfuel' : buf.n ≤ start + fuel' * step := by
    have : fuel' ≤ fuel' * step := Nat.le_mul_of_pos_right _ hstep
    omega
  obtain ⟨out, hout, hnout, hspec⟩ :=
    pair_loop_spec (fun a b => butterfly_gs_3_inner (SET1 c) F4 len a b) m step hstep hm
      fuel' start buf hn1 hn2 hin hfuel'
  refine ⟨out, ?_, hnout, fun idx e => ?_⟩
  · simp only [butterfly_gs_3, to_int_of_lt start hstart]
    exact hout
  · obtain ⟨hP, hQ, hN⟩ := hspec idx
    refine ⟨?_, ?_, ?_, ?_⟩
    · intro k hk hlt he
      have him : idx + m < buf.n := by rw [hk]; exact hin k (by rw [← hk]; exact hlt)
      rw [hP k hk hlt]
      exact (butterfly_gs_3_inner_F4 c hc2 _ _ len e he (hval idx e hlt he)
        (hval (idx + m) e him he)).1
    · intro k hk hlt he
      have him : idx < buf.n := by rw [hk]; exact hin k hlt
      rw [hQ k hk hlt]
      exact (butterfly_gs_3_inner_F4 c hc2 _ _ len e he (hval _ e hlt he)
        (hval idx e him he)).2
    · intro h1 h2
      rw [hN h1 h2]
    · intro he
      by_cases h1 : ∃ k, idx = start + k * step ∧ idx < buf.n
      · obtain ⟨k, hk, hlt⟩ := h1
        rw [hP k hk hlt]
        exact ((butterfly_gs_3_inner_spec (SET1 c) F4 _ _ len e).2 (by omega)).1
      · by_cases h2 : ∃ k, idx = start + k * step + m ∧ start + k * step < buf.n
        · obtain ⟨k, hk, hlt⟩ := h2
          rw [hQ k hk hlt]
          exact ((butterfly_gs_3_inner_spec (SET1 c) F4 _ _ len e).2 (by omega)).2
        · rw [hN (fun k hk hlt => h1 ⟨k, hk, hlt⟩) (fun k hk hlt => h2 ⟨k, hk, hlt⟩)]

theorem butterfly_gs_3_pairs_witness :
    ∃ out, butterfly_gs_3 5 3 ⟨4, fun i e => i + e⟩ 0 2 4 2 F4 = some out ∧ out.n = 4 :=
  have h := butterfly_gs_3_pairs 3 (by decide) ⟨4, fun i e => i + e⟩ 0 2 4 2 5
    (by decide) (by decide) (by decide) (by decide) (by decide)
    (fun k hk => by simp only [] at hk ⊢; omega)
    (fun idx e h1 h2 => by simp only [] at h1 h2 ⊢; omega)
    (by decide)
  h.elim fun out ho => ⟨out, ho.1, ho.2.1⟩

end gs_3

/-! ## Element-wise buffer routines -/

theorem for_loop_store (g : Nat → m256i → m256i) (dest : simd_256_u32.Buf) :
    ∀ (n e : Nat),
      for_loop (fun i d => simd_256_u32.STORE d i (g i (simd_256_u32.LOAD d i))) n dest e
        = if e / 8 < n then
            g (e / 8) (simd_256_u32.LOAD dest (e / 8)) ⟨e % 8, Nat.mod_lt _ (by decide)⟩
          else dest e := by
  intro n
  induction n with
  | zero => intro e; simp [for_loop]
  | succ n ih =>
    intro e
    have hL : simd_256_u32.LOAD (for_loop (fun i d =>
        simd_256_u32.STORE d i (g i (simd_256_u32.LOAD d i))) n dest) n
        = simd_256_u32.LOAD dest n := by
      funext l
      simp only [simd_256_u32.LOAD]
      rw [ih]
      rw [if_neg (by omega)]
    simp only [for_loop, simd_256_u32.STORE, hL]
    by_cases he : e / 8 = n
    · subst he
      rw [if_pos rfl, if_pos (by omega)]
    · rw [if_neg he, ih]
      by_cases h2 : e / 8 < n
      · rw [if_pos h2, if_pos (by omega)]
      · rw [if_neg h2, if_neg (by omega)]

theorem for_from_store_elem (h : Nat → Nat → Nat) (first : Nat) (dest : Nat → Nat) :
    ∀ (cnt e : Nat),
      for_loop (fun k d => store_elem d (first + k) (h (first + k) (d (first + k)))) cnt dest e
        = if first ≤ e ∧ e < first + cnt then h e (dest e) else dest e := by
  intro cnt
  induction cnt with
  | zero =>
    intro e
    simp only [for_loop]
    rw [if_neg (by omega)]
  | succ n ih =>
    intro e
    simp only [for_loop, store_elem]
    by_cases he : e = first + n
    · subst he
      rw [if_pos rfl, ih, if_neg (by omega), if_pos (by omega)]
    · rw [if_neg he, ih]
      by_cases h2 : first ≤ e ∧ e < first + n
      · rw [if_pos h2, if_pos (by omega)]
      · rw [if_neg h2, if_neg (by omega)]

theorem load_lane (p : simd_256_u32.Buf) (e : Nat) :
    simd_256_u32.LOAD p (e / 8) ⟨e % 8, Nat.mod_lt _ (by decide)⟩ = p e := by
  have h : 8 * (e / 8) + e % 8 = e := by omega
  simp only [simd_256_u32.LOAD, h]

/-- Element-wise description of a routine made of a register loop on the first
`len / 8` registers followed by a scalar loop on the remaining elements. -/
theorem vec_tail_elem (V : m256i → m256i → m256i) (T : Nat → Nat → Nat)
    (src dest : simd_256_u32.Buf) (len e : Nat) :
    (if len - len / 8 * 8 > 0 then
        for_from (fun i d => store_elem d i (T (src i) (d i))) (len / 8 * 8) len
          (for_loop (fun i d => simd_256_u32.STORE d i
            (V (simd_256_u32.LOAD src i) (simd_256_u32.LOAD d i))) (len / 8) dest)
      else
        for_loop (fun i d => simd_256_u32.STORE d i
          (V (simd_256_u32.LOAD src i) (simd_256_u32.LOAD d i))) (len / 8) dest) e
      = if e / 8 < len / 8 then
          V (simd_256_u32.LOAD src (e / 8)) (simd_256_u32.LOAD dest (e / 8))
            ⟨e % 8, Nat.mod_lt _ (by decide)⟩
        else if e < len then T (src e) (dest e)
        else dest e := by
  have hv := for_loop_store (fun i v => V (simd_256_u32.LOAD src i) v) dest (len / 8)
  have ht := for_from_store_elem (fun i v => T (src i) v) (len / 8 * 8)
    (for_loop (fun i d => simd_256_u32.STORE d i
      (V (simd_256_u32.LOAD src i) (simd_256_u32.LOAD d i))) (len / 8) dest)
    (len - len / 8 * 8)
  simp only at hv ht
  by_cases hlast : len - len / 8 * 8 > 0
  · rw [if_pos hlast]
    simp only [for_from]
    rw [ht e]
    simp only [hv]
    by_cases h1 : e / 8 < len / 8
    · have hA : ¬ (len / 8 * 8 ≤ e ∧ e < len / 8 * 8 + (len - len / 8 * 8)) := by omega
      simp only [if_pos h1, if_neg hA]
    · by_cases h2 : e < len
      · have hA : len / 8 * 8 ≤ e ∧ e < len / 8 * 8 + (len - len / 8 * 8) := by omega
        simp only [if_neg h1, if_pos h2, if_pos hA]
      · have hA : ¬ (len / 8 * 8 ≤ e ∧ e < len / 8 * 8 + (len - len / 8 * 8)) := by omega
        simp only [if_neg h1, if_neg h2, if_neg hA]
  · rw [if_neg hlast]
    rw [hv e]
    by_cases h1 : e / 8 < len / 8
    · simp only [if_pos h1]
    · have h2 : ¬ e < len := by omega
      simp only [if_neg h1, if_neg h2]

/-- Element-wise description of `add_two_bufs` (`simd_256_u32.h`). -/
theorem u32_add_two_bufs_elem (src dest : simd_256_u32.Buf) (len card e : Nat) :
    (simd_256_u32.add_two_bufs src dest len card).2 e
      = if e / 8 < len / 8 then
          simd_256_u32.ADD_MOD (simd_256_u32.LOAD src (e / 8)) (simd_256_u32.LOAD dest (e / 8))
            card ⟨e % 8, Nat.mod_lt _ (by decide)⟩
        else if e < len then
          (if (src e + dest e) % 4294967296 ≥ card then
            ((src e + dest e) % 4294967296 + (4294967296 - card % 4294967296)) % 4294967296
           else (src e + dest e) % 4294967296)
        else dest e := by
  rw [← vec_tail_elem (fun x y => simd_256_u32.ADD_MOD x y card)
    (fun a b => if (a + b) % 4294967296 ≥ card then
      ((a + b) % 4294967296 + (4294967296 - card % 4294967296)) % 4294967296
      else (a + b) % 4294967296) src dest len e]
  simp only [simd_256_u32.add_two_bufs]
  split_ifs <;> rfl

/-- Element-wise description of `add_two_bufs` (`simd_basic.h`). -/
theorem basic_add_two_bufs_elem (src dest : simd_256_u32.Buf) (len card e : Nat) :
    (simd_basic.add_two_bufs src dest len card).2 e
      = if e / 8 < len / 8 then
          simd_basic.ADD_MOD (simd_256_u32.LOAD src (e / 8)) (simd_256_u32.LOAD dest (e / 8))
            card ⟨e % 8, Nat.mod_lt _ (by decide)⟩
        else if e < len then
          (if (src e + dest e) % 4294967296 ≥ card then
            ((src e + dest e) % 4294967296 + (4294967296 - card % 4294967296)) % 4294967296
           else (src e + dest e) % 4294967296)
        else dest e := by
  rw [← vec_tail_elem (fun x y => simd_basic.ADD_MOD x y card)
    (fun a b => if (a + b) % 4294967296 ≥ card then
      ((a + b) % 4294967296 + (4294967296 - card % 4294967296)) % 4294967296
      else (a + b) % 4294967296) src dest len e]
  simp only [simd_basic.add_two_bufs]
  split_ifs <;> rfl

/-- Element-wise description of `mul_two_bufs` (`simd_256_u32.h`). -/
theorem u32_mul_two_bufs_elem (src dest : simd_256_u32.Buf) (len card e : Nat) :
    simd_256_u32.mul_two_bufs src dest len card e
      = if e / 8 < len / 8 then
          simd_256_u32.MULFULL_MOD (simd_256_u32.LOAD src (e / 8))
            (simd_256_u32.LOAD dest (e / 8)) card ⟨e % 8, Nat.mod_lt _ (by decide)⟩
        else if e < len then
          (src e % 18446744073709551616 * dest e) % 18446744073709551616 % card % 4294967296
        else dest e :=
  vec_tail_elem (fun x y => simd_256_u32.MULFULL_MOD x y card)
    (fun a b => (a % 18446744073709551616 * b) % 18446744073709551616 % card % 4294967296)
    src dest len e

/-- Element-wise description of `mul_two_bufs` (`simd_basic.h`). -/
theorem basic_mul_two_bufs_elem (src dest : simd_256_u32.Buf) (len card e : Nat) :
    simd_basic.mul_two_bufs src dest len card e
      = if e / 8 < len / 8 then
          simd_basic.MULFULL_MOD (simd_256_u32.LOAD src (e / 8))
            (simd_256_u32.LOAD dest (e / 8)) card ⟨e % 8, Nat.mod_lt _ (by decide)⟩
        else if e < len then
          (src e % 18446744073709551616 * dest e) % 18446744073709551616 % card % 4294967296
        else dest e :=
  vec_tail_elem (fun x y => simd_basic.MULFULL_MOD x y card)
    (fun a b => (a % 18446744073709551616 * b) % 18446744073709551616 % card % 4294967296)
    src dest len e

theorem add_tail_value (q a b : Nat) (hq : q = 257 ∨ q = 65537) (ha : a < q) (hb : b < q) :
    (if (a + b) % 4294967296 ≥ q then
        ((a + b) % 4294967296 + (4294967296 - q % 4294967296)) % 4294967296
      else (a + b) % 4294967296) = (a + b) % q := by
  rcases hq with rfl | rfl <;> split_ifs <;> omega

/-- C13: for card in {F3, F4}, every length len (multiple of 8 or not) and
entries of src and dest below card, `add_two_bufs(src, dest, len, card)` leaves
`dest[i] = (src[i] + dest_old[i]) mod card` for every i < len, in both headers;
src is unchanged (and so is dest from index len on); the vectorised prefix
(`ADD_MOD`) and the scalar tail compute the same function. -/
theorem add_two_bufs_exact (card : Nat) (hq : card = 257 ∨ card = 65537)
    (src dest : simd_256_u32.Buf) (len : Nat)
    (hs : ∀ i, i < len → src i < card) (hd : ∀ i, i < len → dest i < card) :
    ((∀ i, i < len →
        (simd_256_u32.add_two_bufs src dest len card).2 i = (src i + dest i) % card)
      ∧ (∀ i, len ≤ i → (simd_256_u32.add_two_bufs src dest len card).2 i = dest i)
      ∧ (simd_256_u32.add_two_bufs src dest len card).1 = src)
    ∧ ((∀ i, i < len →
        (simd_basic.add_two_bufs src dest len card).2 i = (src i + dest i) % card)
      ∧ (∀ i, len ≤ i → (simd_basic.add_two_bufs src dest len card).2 i = dest i)
      ∧ (simd_basic.add_two_bufs src dest len card).1 = src) := by
  refine ⟨⟨?_, ?_, ?_⟩, ⟨?_, ?_, ?_⟩⟩
  · intro i hi
    rw [u32_add_two_bufs_elem]
    by_cases h1 : i / 8 < len / 8
    · rw [if_pos h1, u32_ADD_MOD_lane _ _ card hq _ (by rw [load_lane]; exact hs i hi)
        (by rw [load_lane]; exact hd i hi), load_lane, load_lane]
    · rw [if_neg h1, if_pos hi]
      exact add_tail_value card _ _ hq (hs i hi) (hd i hi)
  · intro i hi
    rw [u32_add_two_bufs_elem, if_neg (by omega), if_neg (by omega)]
  · simp only [simd_256_u32.add_two_bufs]
    split_ifs <;> rfl
  · intro i hi
    rw [basic_add_two_bufs_elem]
    by_cases h1 : i / 8 < len / 8
    · rw [if_pos h1, basic_ADD_MOD_lane _ _ card hq _ (by rw [load_lane]; exact hs i hi)
        (by rw [load_lane]; exact hd i hi), load_lane, load_lane]
    · rw [if_neg h1, if_pos hi]
      exact add_tail_value card _ _ hq (hs i hi) (hd i hi)
  · intro i hi
    rw [basic_add_two_bufs_elem, if_neg (by omega), if_neg (by omega)]
  · simp only [simd_basic.add_two_bufs]
    split_ifs <;> rfl

theorem add_two_bufs_exact_witness :
    (simd_256_u32.add_two_bufs (fun _ => 65536) (fun _ => 3) 9 65537).2 8 = 2
      ∧ (simd_basic.add_two_bufs (fun _ => 65536) (fun _ => 3) 9 65537).2 0 = 2 :=
  have h := add_two_bufs_exact 65537 (Or.inr rfl) (fun _ => 65536) (fun _ => 3) 9
    (fun _ _ => by show 65536 < 65537; decide) (fun _ _ => by show 3 < 65537; decide)
  ⟨(h.1.1 8 (by decide)).trans (by decide), (h.2.1 0 (by decide)).trans (by decide)⟩

/-- Arithmetic core of the F3 multiplication of `simd_basic.h`: for a product
`p < 2^16` the 8-bit split `lo - hi`, brought back into range by the unsigned
minimum, is `p mod 257`. -/
theorem split8_residue (p lo hi : Nat) (hp : p < 65536)
    (hlo : lo = p % 256 + 65536 * (p / 65536 % 256))
    (hhi : hi = p % 4294967296 / 256 % 256 + 65536 * (p % 4294967296 / 16777216)) :
    min ((lo % 4294967296 + (4294967296 - hi % 4294967296)) % 4294967296)
        (((lo % 4294967296 + (4294967296 - hi % 4294967296)) % 4294967296 + 257)
          % 4294967296)
      = p % 257 := by
  have h1 : lo % 4294967296 = p % 256 := by omega
  have h2 : hi % 4294967296 = p / 256 := by omega
  rw [h1, h2]
  rcases Nat.lt_or_ge (p % 256) (p / 256) with h | h
  · have e1 : (p % 256 + (4294967296 - p / 256)) % 4294967296
        = p % 256 + 4294967296 - p / 256 := by omega
    have e2 : (p % 256 + 4294967296 - p / 256 + 257) % 4294967296
        = p % 256 + 257 - p / 256 := by omega
    rw [e1, e2, min_eq_right (by omega)]
    omega
  · have e1 : (p % 256 + (4294967296 - p / 256)) % 4294967296 = p % 256 - p / 256 := by
      omega
    have e2 : (p % 256 - p / 256 + 257) % 4294967296 = p % 256 - p / 256 + 257 := by omega
    rw [e1, e2, min_eq_left (by omega)]
    omega

theorem basic_MULFULL_MOD_F3_lane (x y : m256i) (i : Fin 8)
    (hx : x i ≤ 256) (hy : y i ≤ 256) :
    simd_basic.MULFULL_MOD x y F3 i = (x i * y i) % 257 := by
  have hc : simd_basic.CARD F3 i = 257 := rfl
  rw [basic_MULFULL_MOD_F3_eq, basic_SUB_MOD_eq, hc]
  by_cases h : x i = 256 ∧ y i = 256
  · rw [if_pos h, h.1, h.2]
    decide
  · have hp : x i * y i ≤ 65280 := by
      rcases Nat.lt_or_ge (x i) 256 with h1 | h1
      · calc x i * y i ≤ 255 * 256 := Nat.mul_le_mul (by omega) hy
          _ = 65280 := by norm_num
      · have h2 : y i ≤ 255 := by omega
        calc x i * y i ≤ 256 * 255 := Nat.mul_le_mul hx h2
          _ = 65280 := by norm_num
    have h0 : (x i * y i) % 4294967296 ^^^ 0 = x i * y i := by
      rw [Nat.xor_zero]; omega
    rw [if_neg h, h0]
    exact split8_residue (x i * y i) _ _ (by omega) rfl rfl

theorem mul_tail_value (q a b : Nat) (hq : q = 257 ∨ q = 65537) (ha : a < q) (hb : b < q) :
    (a % 18446744073709551616 * b) % 18446744073709551616 % q % 4294967296 = (a * b) % q := by
  have hab : a * b ≤ 65536 * 65536 := Nat.mul_le_mul (by omega) (by omega)
  have h1 : a % 18446744073709551616 = a := by omega
  rw [h1]
  have h2 : (a * b) % 18446744073709551616 = a * b := by
    apply Nat.mod_eq_of_lt
    calc a * b ≤ 65536 * 65536 := hab
      _ < 18446744073709551616 := by norm_num
  rw [h2]
  apply Nat.mod_eq_of_lt
  have : (a * b) % q < q := Nat.mod_lt _ (by omega)
  omega

/-- Where `mul_two_bufs` is exact: everywhere in `simd_basic.h`, for F4 in
`simd_256_u32.h`, and on the scalar tail of `simd_256_u32.h` for F3. -/
theorem mul_two_bufs_exact_cases (card : Nat) (hq : card = 257 ∨ card = 65537)
    (src dest : simd_256_u32.Buf) (len : Nat)
    (hs : ∀ i, i < len → src i < card) (hd : ∀ i, i < len → dest i < card) :
    (∀ i, i < len → simd_basic.mul_two_bufs src dest len card i = (src i * dest i) % card)
    ∧ (∀ i, i < len → (card = 65537 ∨ len / 8 ≤ i / 8) →
        simd_256_u32.mul_two_bufs src dest len card i = (src i * dest i) % card) := by
  constructor
  · intro i hi
    rw [basic_mul_two_bufs_elem]
    by_cases h1 : i / 8 < len / 8
    · rw [if_pos h1]
      rcases hq with rfl | rfl
      · have := basic_MULFULL_MOD_F3_lane (simd_256_u32.LOAD src (i / 8))
          (simd_256_u32.LOAD dest (i / 8)) ⟨i % 8, Nat.mod_lt _ (by decide)⟩
          (by rw [load_lane]; exact Nat.le_of_lt_succ (hs i hi))
          (by rw [load_lane]; exact Nat.le_of_lt_succ (hd i hi))
        rw [load_lane, load_lane] at this
        exact this
      · have := basic_MULFULL_MOD_F4_lane (simd_256_u32.LOAD src (i / 8))
          (simd_256_u32.LOAD dest (i / 8)) ⟨i % 8, Nat.mod_lt _ (by decide)⟩
          (by rw [load_lane]; exact Nat.le_of_lt_succ (hs i hi))
          (by rw [load_lane]; exact Nat.le_of_lt_succ (hd i hi))
        rw [load_lane, load_lane] at this
        exact this
    · rw [if_neg h1, if_pos hi]
      exact mul_tail_value card _ _ hq (hs i hi) (hd i hi)
  · intro i hi hc
    rw [u32_mul_two_bufs_elem]
    by_cases h1 : i / 8 < len / 8
    · rw [if_pos h1]
      rcases hc with rfl | hc
      · have := u32_MULFULL_MOD_F4_lane (simd_256_u32.LOAD src (i / 8))
          (simd_256_u32.LOAD dest (i / 8)) ⟨i % 8, Nat.mod_lt _ (by decide)⟩
          (by rw [load_lane]; exact Nat.le_of_lt_succ (hs i hi))
          (by rw [load_lane]; exact Nat.le_of_lt_succ (hd i hi))
        rw [load_lane, load_lane] at this
        exact this
      · omega
    · rw [if_neg h1, if_pos hi]
      exact mul_tail_value card _ _ hq (hs i hi) (hd i hi)

/-- C12 (evaluation of the code): with card = F3, src = 2 and dest = 200 in
every element and len = 9, `mul_two_bufs` of `simd_256_u32.h` leaves 400 in the
vectorised prefix (element 0) instead of `(2 * 200) mod 257 = 143`, while its
scalar tail (element 8) and the `mul_two_bufs` of `simd_basic.h` give 143. -/
theorem mul_two_bufs_F3_u32_unreduced :
    simd_256_u32.mul_two_bufs (fun _ => 2) (fun _ => 200) 9 F3 0 = 400
      ∧ simd_256_u32.mul_two_bufs (fun _ => 2) (fun _ => 200) 9 F3 8 = 143
      ∧ (2 * 200) % 257 = 143
      ∧ simd_basic.mul_two_bufs (fun _ => 2) (fun _ => 200) 9 F3 0 = 143
      ∧ simd_basic.mul_two_bufs (fun _ => 2) (fun _ => 200) 9 F3 8 = 143 := by
  decide

/-- C14 (evaluation of the code): with card = F4, a = 2, src = 1 and dest = 5
in every element, `mul_coef_to_buf` overwrites dest with `a * src = 2`, in the
vectorised prefix and in the scalar tail of both headers; the sum
`(5 + 2 * 1) mod 65537 = 7` announced by its header comment is not formed. -/
theorem mul_coef_to_buf_overwrites :
    simd_256_u32.mul_coef_to_buf 2 (fun _ => 1) (fun _ => 5) 9 F4 0 = 2
      ∧ simd_256_u32.mul_coef_to_buf 2 (fun _ => 1) (fun _ => 5) 9 F4 8 = 2
      ∧ (simd_basic.mul_coef_to_buf 20 2 (fun _ => 1) (fun _ => 5) 49 F4).map
          (fun d => (d 0, d 39, d 40, d 48)) = some (2, 2, 2, 2)
      ∧ (5 + 2 * 1) % 65537 = 7 := by
  decide

/-! ## Packing of four F4 symbols -/

/-- The flag built by `unpack` from the four lane tests has bit `i` set exactly
when the test of lane `i` holds. -/
theorem unpack_flag_bits (c0 c1 c2 c3 : Prop) [Decidable c0] [Decidable c1] [Decidable c2]
    [Decidable c3] :
    let flag := (if c0 then 1 else 0) + (if c1 then 2 else 0) + (if c2 then 4 else 0)
      + (if c3 then 8 else 0)
    (flag.testBit 0 = decide c0 ∧ flag.testBit 1 = decide c1
      ∧ flag.testBit 2 = decide c2 ∧ flag.testBit 3 = decide c3)
    ∧ ((flag &&& 1 ≠ 0) ↔ c0) ∧ ((flag >>> 1 &&& 1 ≠ 0) ↔ c1)
    ∧ ((flag >>> 1 >>> 1 &&& 1 ≠ 0) ↔ c2) ∧ ((flag >>> 1 >>> 1 >>> 1 &&& 1 ≠ 0) ↔ c3) := by
  by_cases h0 : c0 <;> by_cases h1 : c1 <;> by_cases h2 : c2 <;> by_cases h3 : c3 <;>
    simp [h0, h1, h2, h3] <;> decide

/-- State of the loop of `unpack` after `k <= 4` iterations. -/
theorem unpack_loop_spec (x0 x1 x2 x3 k : Nat) (hk : k ≤ 4) :
    simd_nf4.unpack_loop [x0, x1, x2, x3] k (0, [0, 0, 0, 0])
      = some ((if 0 < k ∧ x0 = 65536 then 1 else 0) + (if 1 < k ∧ x1 = 65536 then 2 else 0)
              + (if 2 < k ∧ x2 = 65536 then 4 else 0)
              + (if 3 < k ∧ x3 = 65536 then 8 else 0),
            [if 0 < k ∧ x0 ≠ 65536 then x0 % 65536 else 0,
             if 1 < k ∧ x1 ≠ 65536 then x1 % 65536 else 0,
             if 2 < k ∧ x2 ≠ 65536 then x2 % 65536 else 0,
             if 3 < k ∧ x3 ≠ 65536 then x3 % 65536 else 0]) := by
  interval_cases k <;> by_cases h0 : x0 = 65536 <;> by_cases h1 : x1 = 65536 <;>
    by_cases h2 : x2 = 65536 <;> by_cases h3 : x3 = 65536 <;>
    simp [simd_nf4.unpack_loop, h0, h1, h2, h3]

/-- Result of `unpack(a, n)` for `0 <= n <= 4`, in closed form. -/
theorem unpack_eq (a : Nat) (n : Int) (hn0 : 0 ≤ n) (hn4 : n ≤ 4) :
    simd_nf4.unpack a n = some
      { values := simd_nf4.mm_set_epi64 0 (simd_nf4.mm_set_pi16
          (if 3 < n.toNat ∧ simd_nf4.mm_extract_epi32 a 3 ≠ 65536
            then simd_nf4.mm_extract_epi32 a 3 % 65536 else 0)
          (if 2 < n.toNat ∧ simd_nf4.mm_extract_epi32 a 2 ≠ 65536
            then simd_nf4.mm_extract_epi32 a 2 % 65536 else 0)
          (if 1 < n.toNat ∧ simd_nf4.mm_extract_epi32 a 1 ≠ 65536
            then simd_nf4.mm_extract_epi32 a 1 % 65536 else 0)
          (if 0 < n.toNat ∧ simd_nf4.mm_extract_epi32 a 0 ≠ 65536
            then simd_nf4.mm_extract_epi32 a 0 % 65536 else 0)),
        flag := (if 0 < n.toNat ∧ simd_nf4.mm_extract_epi32 a 0 = 65536 then 1 else 0)
          + (if 1 < n.toNat ∧ simd_nf4.mm_extract_epi32 a 1 = 65536 then 2 else 0)
          + (if 2 < n.toNat ∧ simd_nf4.mm_extract_epi32 a 2 = 65536 then 4 else 0)
          + (if 3 < n.toNat ∧ simd_nf4.mm_extract_epi32 a 3 = 65536 then 8 else 0) } := by
  have hk : n.toNat ≤ 4 := by omega
  simp only [simd_nf4.unpack, unpack_loop_spec _ _ _ _ _ hk, List.getD_cons_zero,
    List.getD_cons_succ]

theorem set_pi16_words (b0 b1 b2 b3 : Nat) (h0 : b0 < 65536) (h1 : b1 < 65536)
    (h2 : b2 < 65536) (h3 : b3 < 65536) :
    let v := simd_nf4.mm_set_epi64 0 (simd_nf4.mm_set_pi16 b3 b2 b1 b0)
    simd_nf4.mm_extract_epi16 v 0 = b0 ∧ simd_nf4.mm_extract_epi16 v 1 = b1
      ∧ simd_nf4.mm_extract_epi16 v 2 = b2 ∧ simd_nf4.mm_extract_epi16 v 3 = b3
      ∧ v / 18446744073709551616 = 0 := by
  simp only [simd_nf4.mm_set_epi64, simd_nf4.mm_set_pi16, simd_nf4.mm_extract_epi16]
  norm_num
  omega

/-- C19: for a 128-bit value a with 32-bit lanes in [0, 65536] and n in [0, 4],
`unpack(a, n)` stores each lane i < n equal to 65536 as the 16-bit value 0 with
bit i of the flag set, every other lane i < n as its own value with bit i
clear, and gives value 0 and a clear flag bit for every lane i >= n; the upper
64 bits of the returned values are 0. -/
theorem unpack_lanes (a : Nat) (n : Int) (hn0 : 0 ≤ n) (hn4 : n ≤ 4)
    (hl : ∀ i, i < 4 → simd_nf4.mm_extract_epi32 a i ≤ 65536) :
    ∃ g, simd_nf4.unpack a n = some g ∧
      (∀ i : Nat, i < 4 →
        ((i : Int) < n → simd_nf4.mm_extract_epi32 a i = 65536 →
          simd_nf4.mm_extract_epi16 g.values i = 0 ∧ g.flag.testBit i = true)
        ∧ ((i : Int) < n → simd_nf4.mm_extract_epi32 a i ≠ 65536 →
          simd_nf4.mm_extract_epi16 g.values i = simd_nf4.mm_extract_epi32 a i
            ∧ g.flag.testBit i = false)
        ∧ (n ≤ (i : Int) →
          simd_nf4.mm_extract_epi16 g.values i = 0 ∧ g.flag.testBit i = false))
      ∧ g.values / 18446744073709551616 = 0 := by
  refine ⟨_, unpack_eq a n hn0 hn4, ?_, ?_⟩
  · have hw := set_pi16_words
      (if 0 < n.toNat ∧ simd_nf4.mm_extract_epi32 a 0 ≠ 65536
        then simd_nf4.mm_extract_epi32 a 0 % 65536 else 0)
      (if 1 < n.toNat ∧ simd_nf4.mm_extract_epi32 a 1 ≠ 65536
        then simd_nf4.mm_extract_epi32 a 1 % 65536 else 0)
      (if 2 < n.toNat ∧ simd_nf4.mm_extract_epi32 a 2 ≠ 65536
        then simd_nf4.mm_extract_epi32 a 2 % 65536 else 0)
      (if 3 < n.toNat ∧ simd_nf4.mm_extract_epi32 a 3 ≠ 65536
        then simd_nf4.mm_extract_epi32 a 3 % 65536 else 0)
      (by split_ifs <;> omega) (by split_ifs <;> omega) (by split_ifs <;> omega)
      (by split_ifs <;> omega)
    have hf := (unpack_flag_bits (0 < n.toNat ∧ simd_nf4.mm_extract_epi32 a 0 = 65536)
      (1 < n.toNat ∧ simd_nf4.mm_extract_epi32 a 1 = 65536)
      (2 < n.toNat ∧ simd_nf4.mm_extract_epi32 a 2 = 65536)
      (3 < n.toNat ∧ simd_nf4.mm_extract_epi32 a 3 = 65536)).1
    simp only at hw hf
    obtain ⟨w0, w1, w2, w3, -⟩ := hw
    obtain ⟨f0, f1, f2, f3⟩ := hf
    intro i hi
    have h0 := hl 0 (by decide)
    have h1 := hl 1 (by decide)
    have h2 := hl 2 (by decide)
    have h3 := hl 3 (by decide)
    interval_cases i
    · rw [w0, f0]
      refine ⟨fun hlt he => ?_, fun hlt hne => ?_, fun hge => ?_⟩
      · rw [if_neg (by simp [he])]; simp [he]; omega
      · rw [if_pos ⟨by omega, hne⟩]; simp [hne]; omega
      · rw [if_neg (by omega)]; simp; omega
    · rw [w1, f1]
      refine ⟨fun hlt he => ?_, fun hlt hne => ?_, fun hge => ?_⟩
      · rw [if_neg (by simp [he])]; simp [he]; omega
      · rw [if_pos ⟨by omega, hne⟩]; simp [hne]; omega
      · rw [if_neg (by omega)]; simp; omega
    · rw [w2, f2]
      refine ⟨fun hlt he => ?_, fun hlt hne => ?_, fun hge => ?_⟩
      · rw [if_neg (by simp [he])]; simp [he]; omega
      · rw [if_pos ⟨by omega, hne⟩]; simp [hne]; omega
      · rw [if_neg (by omega)]; simp; omega
    · rw [w3, f3]
      refine ⟨fun hlt he => ?_, fun hlt hne => ?_, fun hge => ?_⟩
      · rw [if_neg (by simp [he])]; simp [he]; omega
      · rw [if_pos ⟨by omega, hne⟩]; simp [hne]; omega
      · rw [if_neg (by omega)]; simp; omega
  · exact (set_pi16_words _ _ _ _ (by split_ifs <;> omega) (by split_ifs <;> omega)
      (by split_ifs <;> omega) (by split_ifs <;> omega)).2.2.2.2

/-- C18: for a 128-bit value a whose four 32-bit lanes are in [0, 65536],
packing undoes unpacking: with `(values, flag) = unpack(a, 4)`,
`pack(values, flag) = a`; in particular a lane equal to 65536 is restored to
65536. -/
theorem pack_unpack (a : Nat) (ha : a < 340282366920938463463374607431768211456)
    (hl : ∀ i, i < 4 → simd_nf4.mm_extract_epi32 a i ≤ 65536) :
    ∃ g, simd_nf4.unpack a 4 = some g ∧ simd_nf4.pack g.values g.flag = a
      ∧ ∀ i, i < 4 → simd_nf4.mm_extract_epi32 a i = 65536 →
          simd_nf4.mm_extract_epi32 (simd_nf4.pack g.values g.flag) i = 65536 := by
  have hmain : ∃ g, simd_nf4.unpack a 4 = some g ∧ simd_nf4.pack g.values g.flag = a := by
    refine ⟨_, unpack_eq a 4 (by decide) (by decide), ?_⟩
    have e4 : (4 : Int).toNat = 4 := rfl
    simp only [e4]
    have hw := set_pi16_words
      (if 0 < 4 ∧ simd_nf4.mm_extract_epi32 a 0 ≠ 65536
        then simd_nf4.mm_extract_epi32 a 0 % 65536 else 0)
      (if 1 < 4 ∧ simd_nf4.mm_extract_epi32 a 1 ≠ 65536
        then simd_nf4.mm_extract_epi32 a 1 % 65536 else 0)
      (if 2 < 4 ∧ simd_nf4.mm_extract_epi32 a 2 ≠ 65536
        then simd_nf4.mm_extract_epi32 a 2 % 65536 else 0)
      (if 3 < 4 ∧ simd_nf4.mm_extract_epi32 a 3 ≠ 65536
        then simd_nf4.mm_extract_epi32 a 3 % 65536 else 0)
      (by split_ifs <;> omega) (by split_ifs <;> omega) (by split_ifs <;> omega)
      (by split_ifs <;> omega)
    have hf := (unpack_flag_bits (0 < 4 ∧ simd_nf4.mm_extract_epi32 a 0 = 65536)
      (1 < 4 ∧ simd_nf4.mm_extract_epi32 a 1 = 65536)
      (2 < 4 ∧ simd_nf4.mm_extract_epi32 a 2 = 65536)
      (3 < 4 ∧ simd_nf4.mm_extract_epi32 a 3 = 65536)).2
    simp only at hw hf
    obtain ⟨w0, w1, w2, w3, -⟩ := hw
    obtain ⟨f0, f1, f2, f3⟩ := hf
    have h0 := hl 0 (by decide)
    have h1 := hl 1 (by decide)
    have h2 := hl 2 (by decide)
    have h3 := hl 3 (by decide)
    simp only [simd_nf4.pack, w0, w1, w2, w3, f0, f1, f2, f3]
    simp only [simd_nf4.mm_set_epi32, simd_nf4.mm_extract_epi32] at h0 h1 h2 h3 ⊢
    norm_num at h0 h1 h2 h3 ⊢
    split_ifs <;> omega
  obtain ⟨g, hg, hp⟩ := hmain
  exact ⟨g, hg, hp, fun i _ h => by rw [hp]; exact h⟩

theorem pack_unpack_witness :
    ∃ g, simd_nf4.unpack 65536 4 = some g ∧ simd_nf4.pack g.values g.flag = 65536 :=
  (pack_unpack 65536 (by decide) (fun i hi => by interval_cases i <;> decide)).elim
    fun g hg => ⟨g, hg.1, hg.2.1⟩

theorem unpack_lanes_witness :
    ∃ g, simd_nf4.unpack 65536 1 = some g ∧ g.values / 18446744073709551616 = 0 :=
  (unpack_lanes 65536 1 (by decide) (by decide)
    (fun i hi => by interval_cases i <;> decide)).elim
    fun g hg => ⟨g, hg.1, hg.2.2⟩


/-! ## The post-encode scan -/

section scan
open simd_256_u32

theorem add_props_loop_eq :
    ∀ (fuel d : Nat) (offset : Int) (props : Properties),
      add_props_loop fuel d offset props
        = (scan_indices fuel d).map
            (fun l => props ++ l.map (fun k => (offset + ((k : Nat) : Int), Mark.OOR_MARK))) := by
  intro fuel
  induction fuel with
  | zero => intro d offset props; rfl
  | succ fuel ih =>
    intro d offset props
    simp only [add_props_loop, scan_indices]
    by_cases hd : d > 0
    · rw [if_pos hd, if_pos hd, ih]
      cases h : scan_indices fuel (d ^^^ (1 <<< builtin_ctz d) % 4294967296) with
      | none => rfl
      | some t => simp [Properties.add, List.append_assoc]
    · rw [if_neg hd, if_neg hd]
      simp

theorem ADD_PROPS_loop_eq :
    ∀ (fuel d : Nat) (offset : Int) (props : Properties),
      simd_basic.ADD_PROPS_loop fuel d offset props = add_props_loop fuel d offset props := by
  intro fuel
  induction fuel with
  | zero => intro d offset props; rfl
  | succ fuel ih =>
    intro d offset props
    simp only [add_props_loop, simd_basic.ADD_PROPS_loop, ih]

theorem scan_indices_mono :
    ∀ (fuel d : Nat) (r : List Nat), scan_indices fuel d = some r →
      scan_indices (fuel + 1) d = some r := by
  intro fuel
  induction fuel with
  | zero => intro d r h; simp [scan_indices] at h
  | succ fuel ih =>
    intro d r h
    rw [scan_indices] at h ⊢
    by_cases hd : d > 0
    · rw [if_pos hd] at h ⊢
      cases h1 : scan_indices fuel (d ^^^ (1 <<< builtin_ctz d) % 4294967296) with
      | none => rw [h1] at h; simp at h
      | some t =>
        rw [h1] at h
        rw [ih _ _ h1]
        exact h
    · rw [if_neg hd] at h ⊢
      exact h

theorem scan_indices_mono_le (fuel fuel1 d : Nat) (r : List Nat) (hle : fuel ≤ fuel1)
    (h : scan_indices fuel d = some r) : scan_indices fuel1 d = some r := by
  induction hle with
  | refl => exact h
  | step _ ih => exact scan_indices_mono _ _ _ ih

/-- The register whose lane `l` is `2^31` when flag `l` is set, and 0 otherwise. -/
theorem scan_indices_flags :
    ∀ b0 b1 b2 b3 b4 b5 b6 b7 : Bool,
      scan_indices 9 (mm256_movemask_epi8
          (fun l => if [b0, b1, b2, b3, b4, b5, b6, b7].getD l.val false then 2147483648
            else 0))
        = some ((List.range 8).filter
            (fun l => [b0, b1, b2, b3, b4, b5, b6, b7].getD l false)) := by
  decide

/-- Marks added by `add_props` for the register at offset `v` of a buffer: one
per lane equal to the threshold, from the lowest lane to the highest. -/
theorem add_props_register (fuel : Nat) (hfuel : 9 ≤ fuel) (props : Properties)
    (thr : Nat) (hthr : thr < 4294967296) (buf : Buf) (v : Nat) (offset : Int) :
    add_props fuel props (SET1 thr) (SET1 2147483648) (LOAD buf v) offset
      = some (props ++ ((List.range 8).filter (fun l => buf (8 * v + l) = thr)).map
          (fun l => (offset + ((l : Nat) : Int), Mark.OOR_MARK))) := by
  have hc : AND (SET1 2147483648) (CMPEQ32 (SET1 thr) (LOAD buf v))
      = fun l : Fin 8 =>
          if [decide (buf (8 * v + 0) = thr), decide (buf (8 * v + 1) = thr),
              decide (buf (8 * v + 2) = thr), decide (buf (8 * v + 3) = thr),
              decide (buf (8 * v + 4) = thr), decide (buf (8 * v + 5) = thr),
              decide (buf (8 * v + 6) = thr), decide (buf (8 * v + 7) = thr)].getD l.val false
          then 2147483648 else 0 := by
    funext l
    have hm : thr % 4294967296 = thr := Nat.mod_eq_of_lt hthr
    simp only [AND, CMPEQ32, SET1, mm256_and_si256, mm256_cmpeq_epi32, mm256_set1_epi32, LOAD,
      hm]
    fin_cases l <;>
      simp only [List.getD_cons_zero, List.getD_cons_succ, decide_eq_true_eq] <;>
      split_ifs <;> first | rfl | decide | (exfalso; simp_all)
  have hs := scan_indices_mono_le 9 fuel _ _ hfuel
    (scan_indices_flags (decide (buf (8 * v + 0) = thr)) (decide (buf (8 * v + 1) = thr))
      (decide (buf (8 * v + 2) = thr)) (decide (buf (8 * v + 3) = thr))
      (decide (buf (8 * v + 4) = thr)) (decide (buf (8 * v + 5) = thr))
      (decide (buf (8 * v + 6) = thr)) (decide (buf (8 * v + 7) = thr)))
  simp only [add_props, MVMSK8, hc, add_props_loop_eq, hs, Option.map_some']
  congr 3

/-- A register that passes the `TESTZ` pre-filter has no lane equal to a
non-zero threshold. -/
theorem testz_no_match (thr : Nat) (hthr : thr < 4294967296) (h0 : thr ≠ 0) (buf : Buf)
    (v : Nat) (hc : TESTZ (LOAD buf v) (SET1 thr) ≠ 0) (l : Nat) (hl : l < 8) :
    buf (8 * v + l) ≠ thr := by
  intro he
  apply hc
  simp only [TESTZ, mm256_testz_si256]
  rw [if_neg]
  intro hall
  have := hall ⟨l, hl⟩
  simp only [LOAD, SET1, mm256_set1_epi32, he, Nat.mod_eq_of_lt hthr, Nat.and_self] at this
  exact h0 this

/-- The marks added for the register at offset `v`, written over the word
indices `8v .. 8v+7`. -/
theorem scan_if_register (fuel : Nat) (hfuel : 9 ≤ fuel) (props : Properties)
    (thr : Nat) (hthr : thr < 4294967296) (h0 : thr ≠ 0) (buf : Buf) (v : Nat) (offset : Int)
    (hlo : -9223372036854775808 ≤ offset) (hhi : offset + 8 * (v + 1) ≤ 9223372036854775808) :
    scan_if fuel props (TESTZ (LOAD buf v) (SET1 thr)) (SET1 thr) (SET1 2147483648)
        (LOAD buf v) offset v 8
      = some (props ++ ((List.range' (8 * v) 8).filter (fun w => buf w = thr)).map
          (fun w => (offset + ((w : Nat) : Int), Mark.OOR_MARK))) := by
  have hoff : to_off_t (offset + ((v * 8 % 18446744073709551616 : Nat) : Int))
      = offset + ((8 * v : Nat) : Int) := by
    unfold to_off_t
    omega
  have hlist : ((List.range' (8 * v) 8).filter (fun w => buf w = thr)).map
        (fun w => (offset + ((w : Nat) : Int), Mark.OOR_MARK))
      = ((List.range 8).filter (fun l => buf (8 * v + l) = thr)).map
        (fun l => (offset + ((8 * v : Nat) : Int) + ((l : Nat) : Int), Mark.OOR_MARK)) := by
    rw [List.range'_eq_map_range, List.filter_map, List.map_map]
    apply congrArg₂ _ _ rfl
    funext l
    simp only [Function.comp, Nat.cast_add, add_assoc]
  rw [hlist]
  simp only [scan_if]
  by_cases hc : TESTZ (LOAD buf v) (SET1 thr) = 0
  · rw [if_pos hc]
    simp only [hoff]
    exact add_props_register fuel hfuel props thr hthr buf v _
  · rw [if_neg hc]
    have hnil : (List.range 8).filter (fun l => buf (8 * v + l) = thr) = [] := by
      rw [List.filter_eq_nil_iff]
      intro l hl
      rw [List.mem_range] at hl
      simpa using testz_no_match thr hthr h0 buf v hc l hl
    rw [hnil]
    simp

end scan

section scan2
open simd_256_u32

theorem word_marks_append (buf : Nat → Nat) (thr : Nat) (offset : Int) (first a b : Nat) :
    word_marks buf thr offset first (a + b)
      = word_marks buf thr offset first a ++ word_marks buf thr offset (first + a) b := by
  unfold word_marks
  have h := List.range'_append first a b 1
  simp only [Nat.one_mul] at h
  rw [Nat.add_comm a b, ← h, List.filter_append, List.map_append]

theorem word_marks_zero (buf : Nat → Nat) (thr : Nat) (offset : Int) (first : Nat) :
    word_marks buf thr offset first 0 = [] := rfl

theorem scan_if_word_marks (fuel : Nat) (hfuel : 9 ≤ fuel) (props : Properties)
    (thr : Nat) (hthr : thr < 4294967296) (h0 : thr ≠ 0) (buf : Buf) (v : Nat) (offset : Int)
    (hlo : -9223372036854775808 ≤ offset) (hhi : offset + 8 * (v + 1) ≤ 9223372036854775808) :
    scan_if fuel props (TESTZ (LOAD buf v) (SET1 thr)) (SET1 thr) (SET1 2147483648)
        (LOAD buf v) offset v 8
      = some (props ++ word_marks buf thr offset (8 * v) 8) :=
  scan_if_register fuel hfuel props thr hthr h0 buf v offset hlo hhi

/-- The remainder loop of `encode_post_process` scans the registers
`vec_id .. vecs_nb - 1` in order. -/
theorem loop1_spec (thr : Nat) (hthr : thr < 4294967296) (h0 : thr ≠ 0) (buf : Buf)
    (offset : Int) (vecs_nb : Nat) (hlo : -9223372036854775808 ≤ offset)
    (hhi : offset + 8 * vecs_nb ≤ 9223372036854775808) :
    ∀ (cnt fuel vec_id : Nat) (st : ScanState), vec_id + cnt = vecs_nb → cnt + 9 ≤ fuel →
      encode_post_process_loop1 buf (SET1 thr) (SET1 2147483648) offset 8 vecs_nb fuel vec_id st
        = some { props := st.props ++ word_marks buf thr offset (8 * vec_id) (8 * cnt),
                 loads := st.loads ++ List.range' vec_id cnt } := by
  intro cnt
  induction cnt with
  | zero =>
    intro fuel vec_id st hv hf
    obtain ⟨f, rfl⟩ : ∃ f, fuel = f + 1 := ⟨fuel - 1, by omega⟩
    have hnot : ¬ vec_id < vecs_nb := by omega
    simp only [encode_post_process_loop1, if_neg hnot, Nat.mul_zero, word_marks_zero,
      List.append_nil, List.range'_zero]
  | succ c ih =>
    intro fuel vec_id st hv hf
    obtain ⟨f, rfl⟩ : ∃ f, fuel = f + 1 := ⟨fuel - 1, by omega⟩
    have hlt : vec_id < vecs_nb := by omega
    have hw : (vec_id + 1) % 18446744073709551616 = vec_id + 1 := by omega
    simp only [encode_post_process_loop1, if_pos hlt,
      scan_if_word_marks (f + 1) (by omega) st.props thr hthr h0 buf vec_id offset hlo (by omega),
      hw]
    rw [ih f (vec_id + 1) _ (by omega) (by omega)]
    have e1 : 8 * (c + 1) = 8 + 8 * c := by omega
    have e2 : 8 * (vec_id + 1) = 8 * vec_id + 8 := by omega
    rw [e1, word_marks_append, e2, List.append_assoc, List.range'_succ]
    simp

/-- The four-at-a-time loop of `encode_post_process` (for `vecs_nb >= 3`) scans
the registers from `vec_id` up to the index `V` where it stops, with
`vecs_nb - 3 <= V`, and `V <= vecs_nb` when it started at most there. -/
theorem loop4_spec (thr : Nat) (hthr : thr < 4294967296) (h0 : thr ≠ 0) (buf : Buf)
    (offset : Int) (vecs_nb : Nat) (h3 : 3 ≤ vecs_nb)
    (hlo : -9223372036854775808 ≤ offset)
    (hhi : offset + 8 * vecs_nb ≤ 9223372036854775808) :
    ∀ (fuel vec_id : Nat) (st : ScanState), (vecs_nb - 3 - vec_id) + 9 ≤ fuel →
      ∃ V, encode_post_process_loop4 buf (SET1 thr) (SET1 2147483648) offset 8 (vecs_nb - 3)
          fuel vec_id st
        = some (V, { props := st.props
                        ++ word_marks buf thr offset (8 * vec_id) (8 * (V - vec_id)),
                     loads := st.loads ++ List.range' vec_id (V - vec_id) })
        ∧ vec_id ≤ V ∧ vecs_nb - 3 ≤ V ∧ (vec_id ≤ vecs_nb → V ≤ vecs_nb) := by
  intro fuel
  induction fuel with
  | zero => intro vec_id st hf; omega
  | succ f ih =>
    intro vec_id st hf
    by_cases hlt : vec_id < vecs_nb - 3
    · have hw : (vec_id + 4) % 18446744073709551616 = vec_id + 4 := by omega
      simp only [encode_post_process_loop4, if_pos hlt]
      rw [scan_if_word_marks (f + 1) (by omega) st.props thr hthr h0 buf vec_id offset hlo
        (by omega)]
      simp only []
      rw [scan_if_word_marks (f + 1) (by omega) _ thr hthr h0 buf (vec_id + 1) offset hlo
        (by omega)]
      simp only []
      rw [scan_if_word_marks (f + 1) (by omega) _ thr hthr h0 buf (vec_id + 2) offset hlo
        (by omega)]
      simp only []
      rw [scan_if_word_marks (f + 1) (by omega) _ thr hthr h0 buf (vec_id + 3) offset hlo
        (by omega)]
      simp only [hw]
      obtain ⟨V, hV, h1, h2, h3'⟩ := ih (vec_id + 4)
        { props := st.props ++ word_marks buf thr offset (8 * vec_id) 8
            ++ word_marks buf thr offset (8 * (vec_id + 1)) 8
            ++ word_marks buf thr offset (8 * (vec_id + 2)) 8
            ++ word_marks buf thr offset (8 * (vec_id + 3)) 8,
          loads := st.loads ++ [vec_id, vec_id + 1, vec_id + 2, vec_id + 3] } (by omega)
      refine ⟨V, ?_, by omega, h2, fun _ => h3' (by omega)⟩
      rw [hV]
      have eV : V - vec_id = 4 + (V - (vec_id + 4)) := by omega
      have e8 : 8 * (4 + (V - (vec_id + 4))) = 8 + (8 + (8 + (8 + 8 * (V - (vec_id + 4))))) := by
        omega
      have a1 : 8 * (vec_id + 1) = 8 * vec_id + 8 := by omega
      have a2 : 8 * (vec_id + 2) = 8 * vec_id + 8 + 8 := by omega
      have a3 : 8 * (vec_id + 3) = 8 * vec_id + 8 + 8 + 8 := by omega
      have a4 : 8 * (vec_id + 4) = 8 * vec_id + 8 + 8 + 8 + 8 := by omega
      rw [eV, e8, word_marks_append, word_marks_append, word_marks_append, word_marks_append,
        a1, a2, a3, a4]
      have eL : List.range' vec_id (4 + (V - (vec_id + 4)))
          = vec_id :: (vec_id + 1) :: (vec_id + 2) :: (vec_id + 3)
              :: List.range' (vec_id + 4) (V - (vec_id + 4)) := by
        rw [show 4 + (V - (vec_id + 4)) = (V - (vec_id + 4)) + 1 + 1 + 1 + 1 by omega]
        simp only [List.range'_succ, Nat.add_assoc]
      simp only [List.append_assoc, eL, List.cons_append, List.nil_append,
        List.singleton_append]
    · refine ⟨vec_id, ?_, Nat.le_refl _, by omega, fun h => h⟩
      simp only [encode_post_process_loop4, if_neg hlt, Nat.sub_self, Nat.mul_zero,
        word_marks_zero, List.append_nil, List.range'_zero]

/-- The scan of one fragment (for `vecs_nb >= 3`) appends to `props[frag_id]`
the marks of the words `0 .. 8 * vecs_nb - 1` of its buffer and loads each
register once, in order. -/
theorem encode_post_process_frag_spec (fuel : Nat) (output : Buffers)
    (props : List Properties) (offset : Int) (thr vecs_nb frag_id : Nat) (p : Properties)
    (hthr : thr < 4294967296) (h0 : thr ≠ 0) (h3 : 3 ≤ vecs_nb)
    (hlo : -9223372036854775808 ≤ offset)
    (hhi : offset + 8 * vecs_nb ≤ 9223372036854775808)
    (hfrag : frag_id < output.n) (hfrag2 : frag_id < 2147483648)
    (hp : props[frag_id]? = some p) (hfuel : vecs_nb + 9 ≤ fuel) :
    encode_post_process_frag fuel output props offset thr vecs_nb frag_id
      = some (props.set frag_id
                (p ++ word_marks (output.mem frag_id) thr offset 0 (8 * vecs_nb)),
              List.range' 0 vecs_nb) := by
  have hmax : (1 <<< (4 * 8 - 1)) % 4294967296 = 2147483648 := by decide
  have hvs : ALIGN_SIZE / 4 = 8 := by decide
  have hend : (vecs_nb + (18446744073709551616 - 3)) % 18446744073709551616 = vecs_nb - 3 := by
    omega
  obtain ⟨V, hV, -, hV2, hV3⟩ := loop4_spec thr hthr h0 (output.mem frag_id) offset vecs_nb h3
    hlo hhi fuel 0 { props := p, loads := [] } (by omega)
  have hV3' : V ≤ vecs_nb := hV3 (Nat.zero_le _)
  have h1 := loop1_spec thr hthr h0 (output.mem frag_id) offset vecs_nb hlo hhi
    (vecs_nb - V) fuel V
    { props := p ++ word_marks (output.mem frag_id) thr offset (8 * 0) (8 * (V - 0)),
      loads := [] ++ List.range' 0 (V - 0) } (by omega) (by omega)
  simp only [encode_post_process_frag, hmax, hvs, hend, to_int_of_lt frag_id hfrag2,
    Buffers.get_natCast output frag_id hfrag, hp, hV, h1]
  have e1 : 8 * vecs_nb = 8 * (V - 0) + 8 * (vecs_nb - V) := by omega
  have e2 : vecs_nb = (V - 0) + (vecs_nb - V) := by omega
  have hr := List.range'_append 0 (V - 0) (vecs_nb - V) 1
  simp only [Nat.one_mul, Nat.zero_add] at hr
  have e3 : vecs_nb - V + (V - 0) = vecs_nb := by omega
  rw [e3] at hr
  conv_rhs => rw [e1, word_marks_append, ← hr]
  simp only [Nat.mul_zero, Nat.zero_add, Nat.sub_zero, List.append_assoc, List.nil_append]

/-- The loop over the fragments (for `vecs_nb >= 3`): every fragment below
`code_len` receives the marks of its own buffer, the others are untouched, and
the registers of each buffer are loaded once each, in order. -/
theorem encode_post_process_frags_spec (fuel : Nat) (output : Buffers)
    (props : List Properties) (offset : Int) (thr vecs_nb : Nat)
    (hthr : thr < 4294967296) (h0 : thr ≠ 0) (h3 : 3 ≤ vecs_nb)
    (hlo : -9223372036854775808 ≤ offset)
    (hhi : offset + 8 * vecs_nb ≤ 9223372036854775808) (hfuel : vecs_nb + 9 ≤ fuel) :
    ∀ code_len, code_len ≤ output.n → code_len ≤ props.length → code_len ≤ 2147483648 →
      ∃ out, encode_post_process_frags fuel output offset thr vecs_nb code_len (props, [])
          = some (out, (List.range code_len).flatMap
              (fun f => (List.range' 0 vecs_nb).map (fun v => (f, v))))
        ∧ out.length = props.length
        ∧ ∀ f, out[f]? = (props[f]?).map (fun p =>
            if f < code_len then p ++ word_marks (output.mem f) thr offset 0 (8 * vecs_nb)
            else p) := by
  intro code_len
  induction code_len with
  | zero =>
    intro _ _ _
    refine ⟨props, rfl, rfl, fun f => ?_⟩
    cases props[f]? <;> simp
  | succ n ih =>
    intro hn hp hi
    obtain ⟨out, hout, hlen, hget⟩ := ih (by omega) (by omega) (by omega)
    have hpn : n < props.length := by omega
    have hon : out[n]? = some props[n] := by
      rw [hget n, List.getElem?_eq_getElem hpn]
      simp
    refine ⟨out.set n (props[n] ++ word_marks (output.mem n) thr offset 0 (8 * vecs_nb)),
      ?_, by simp [hlen], fun f => ?_⟩
    · simp only [encode_post_process_frags, hout,
        encode_post_process_frag_spec fuel output out offset thr vecs_nb n props[n] hthr h0 h3
          hlo hhi (by omega) (by omega) hon hfuel]
      simp [List.range_succ, List.flatMap_append]
    · rw [List.getElem?_set]
      by_cases hf : n = f
      · subst hf
        rw [if_pos rfl, if_pos (by omega), List.getElem?_eq_getElem hpn]
        simp
      · rw [if_neg hf, hget f]
        cases props[f]? with
        | none => rfl
        | some q =>
          simp only [Option.map_some']
          by_cases h1 : f < n
          · rw [if_pos h1, if_pos (by omega)]
          · rw [if_neg h1, if_neg (by omega)]

theorem word_marks_eq_range (buf : Nat → Nat) (thr : Nat) (offset : Int) (n : Nat) :
    word_marks buf thr offset 0 n
      = ((List.range n).filter (fun w => buf w = thr)).map
          (fun w => (offset + ((w : Nat) : Int), Mark.OOR_MARK)) := by
  rw [word_marks, List.range_eq_range']

theorem word_marks_mem (buf : Nat → Nat) (thr : Nat) (offset : Int) (n : Nat)
    (m : Int × Mark) (hm : m ∈ word_marks buf thr offset 0 n) :
    ∃ w, w < n ∧ buf w = thr ∧ m = (offset + ((w : Nat) : Int), Mark.OOR_MARK) := by
  rw [word_marks_eq_range, List.mem_map] at hm
  obtain ⟨w, hw, rfl⟩ := hm
  rw [List.mem_filter, List.mem_range] at hw
  exact ⟨w, hw.1, by simpa using hw.2, rfl⟩

theorem word_marks_increasing (buf : Nat → Nat) (thr : Nat) (offset : Int) (n : Nat) :
    List.Pairwise (fun a b : Int × Mark => a.1 < b.1) (word_marks buf thr offset 0 n) := by
  rw [word_marks, List.pairwise_map]
  apply List.Pairwise.filter
  have h := List.pairwise_lt_range' 0 n 1 (by decide)
  exact h.imp (fun hab => by simpa using hab)

/-- C15: for a non-zero threshold, `vecs_nb >= 3` and every fragment
f < code_len, the marks that `encode_post_process` adds to `props[f]` are
exactly one `OOR_MARK` at `offset + w` for each word index w < 8 * vecs_nb with
`output[f][w] = threshold`, and no other mark; the `TESTZ` pre-filter never
skips a register that has a lane equal to the threshold, and the props of the
other fragments are left as they were. -/
theorem encode_post_process_marks (fuel : Nat) (output : Buffers) (props : List Properties)
    (offset : Int) (code_len thr vecs_nb : Nat)
    (hthr : thr < 4294967296) (h0 : thr ≠ 0) (h3 : 3 ≤ vecs_nb)
    (hlo : -9223372036854775808 ≤ offset)
    (hhi : offset + 8 * vecs_nb ≤ 9223372036854775808) (hfuel : vecs_nb + 9 ≤ fuel)
    (hn : code_len ≤ output.n) (hp : code_len ≤ props.length)
    (hi : code_len ≤ 2147483648) :
    (∃ out loads, encode_post_process fuel output props offset code_len thr vecs_nb
          = some (out, loads)
        ∧ out.length = props.length
        ∧ ∀ f p, props[f]? = some p →
            (f < code_len → out[f]? = some (p
              ++ ((List.range (8 * vecs_nb)).filter (fun w => output.mem f w = thr)).map
                  (fun w => (offset + ((w : Nat) : Int), Mark.OOR_MARK))))
            ∧ (code_len ≤ f → out[f]? = some p))
    ∧ (∀ (buf : Buf) (v l : Nat), l < 8 → buf (8 * v + l) = thr →
        TESTZ (LOAD buf v) (SET1 thr) = 0) := by
  constructor
  · obtain ⟨out, hout, hlen, hget⟩ := encode_post_process_frags_spec fuel output props offset
      thr vecs_nb hthr h0 h3 hlo hhi hfuel code_len hn hp hi
    refine ⟨out, _, hout, hlen, fun f p hfp => ⟨fun hf => ?_, fun hf => ?_⟩⟩
    · rw [hget f, hfp, Option.map_some', if_pos hf, word_marks_eq_range]
    · rw [hget f, hfp, Option.map_some', if_neg (by omega)]
  · intro buf v l hl he
    by_contra hc
    exact testz_no_match thr hthr h0 buf v hc l hl he

theorem encode_post_process_marks_witness :
    ∃ out loads, encode_post_process 12 ⟨1, fun _ e => if e = 1 then 65536 else 0⟩ [[]] 0 1
        65536 3 = some (out, loads) ∧ out.length = 1 :=
  (encode_post_process_marks 12 ⟨1, fun _ e => if e = 1 then 65536 else 0⟩ [[]] 0 1 65536 3
    (by decide) (by decide) (by decide) (by decide) (by decide) (by decide) (by decide)
    (by decide) (by decide)).1.elim fun out h => h.elim fun loads h2 => ⟨out, loads, h2.1, h2.2.1⟩

/-- C16 (counterexample): with chunk offset 0, a multiple of 4, and the single
word 1 of the buffer equal to the threshold, the scan records the offset 1,
which is not a multiple of 4; `add_props` and `ADD_PROPS` alone do the same. -/
theorem scan_offset_not_multiple_of_4 :
    encode_post_process 12 ⟨1, fun _ e => if e = 1 then 65536 else 0⟩ [[]] 0 1 65536 3
        = some ([[(1, Mark.OOR_MARK)]], [(0, 0), (0, 1), (0, 2)])
    ∧ add_props 9 [] (SET1 65536) (SET1 2147483648)
        (fun l => if l.val = 1 then 65536 else 0) 0 = some [(1, Mark.OOR_MARK)]
    ∧ simd_basic.ADD_PROPS 9 [] (SET1 65536) (SET1 2147483648)
        (fun l => if l.val = 1 then 65536 else 0) 0 2147483648 = some [(1, Mark.OOR_MARK)]
    ∧ (0 : Int) % 4 = 0 ∧ (1 : Int) % 4 ≠ 0 := by
  decide

/-- C16 (amended): every offset recorded in a Properties map by the post-encode
scan is the chunk offset passed to the scan plus the index, counted in 32-bit
elements, of a word equal to the threshold: `offset + w` with
w < 8 * vecs_nb for `encode_post_process`, and `offset + l` with lane l < 8 for
one call of `add_props` or `ADD_PROPS`. -/
theorem scan_offsets_are_word_indices (fuel : Nat) (thr : Nat) (hthr : thr < 4294967296)
    (hfuel9 : 9 ≤ fuel) :
    (∀ (output : Buffers) (props : List Properties) (offset : Int) (code_len vecs_nb : Nat),
      thr ≠ 0 → 3 ≤ vecs_nb → -9223372036854775808 ≤ offset →
      offset + 8 * vecs_nb ≤ 9223372036854775808 → vecs_nb + 9 ≤ fuel →
      code_len ≤ output.n → code_len ≤ props.length → code_len ≤ 2147483648 →
      ∃ out loads, encode_post_process fuel output props offset code_len thr vecs_nb
            = some (out, loads)
          ∧ ∀ f p, props[f]? = some p → f < code_len →
              ∃ added, out[f]? = some (p ++ added)
                ∧ ∀ m, m ∈ added → ∃ w, w < 8 * vecs_nb ∧ output.mem f w = thr
                    ∧ m = (offset + ((w : Nat) : Int), Mark.OOR_MARK))
    ∧ (∀ (props : Properties) (buf : Buf) (v : Nat) (offset : Int),
        ∃ added, add_props fuel props (SET1 thr) (SET1 2147483648) (LOAD buf v) offset
              = some (props ++ added)
          ∧ simd_basic.ADD_PROPS fuel props (SET1 thr) (SET1 2147483648) (LOAD buf v) offset
              2147483648 = some (props ++ added)
          ∧ ∀ m, m ∈ added → ∃ l, l < 8 ∧ LOAD buf v ⟨l % 8, Nat.mod_lt _ (by decide)⟩ = thr
              ∧ m = (offset + ((l : Nat) : Int), Mark.OOR_MARK)) := by
  constructor
  · intro output props offset code_len vecs_nb h0 h3 hlo hhi hfuel hn hp hi
    obtain ⟨out, hout, -, hget⟩ := encode_post_process_frags_spec fuel output props offset
      thr vecs_nb hthr h0 h3 hlo hhi hfuel code_len hn hp hi
    refine ⟨out, _, hout, fun f p hfp hf =>
      ⟨word_marks (output.mem f) thr offset 0 (8 * vecs_nb), ?_, fun m hm => ?_⟩⟩
    · rw [hget f, hfp, Option.map_some', if_pos hf]
    · exact word_marks_mem _ _ _ _ m hm
  · intro props buf v offset
    have h := add_props_register fuel hfuel9 props thr hthr buf v offset
    refine ⟨_, h, ?_, fun m hm => ?_⟩
    · rw [← h]
      simp only [simd_basic.ADD_PROPS, add_props, ADD_PROPS_loop_eq]
      rfl
    · rw [List.mem_map] at hm
      obtain ⟨l, hl, rfl⟩ := hm
      rw [List.mem_filter, List.mem_range] at hl
      refine ⟨l, hl.1, ?_, rfl⟩
      have hl8 : l % 8 = l := Nat.mod_eq_of_lt hl.1
      simp only [LOAD, hl8]
      simpa using hl.2

theorem scan_offsets_are_word_indices_witness :
    ∃ added, add_props 9 [] (SET1 65536) (SET1 2147483648)
        (LOAD (fun e => if e = 1 then 65536 else 0) 0) 5 = some ([] ++ added) :=
  ((scan_offsets_are_word_indices 9 65536 (by decide) (by decide)).2 []
    (fun e => if e = 1 then 65536 else 0) 0 5).elim fun added h => ⟨added, h.1⟩

/-- C17: for every fragment, the marks that one call of `encode_post_process`
(`vecs_nb >= 3`) adds to that fragment's Properties are one mark at
`offset + w` for each word `w < 8 * vecs_nb` of the fragment equal to the
threshold, emitted in increasing `w`, so in strictly increasing offset order:
the registers of each buffer are visited once each in increasing index and,
inside a register, `add_props` emits the matching lanes from the lowest to the
highest. -/
theorem encode_post_process_increasing (fuel : Nat) (output : Buffers)
    (props : List Properties) (offset : Int) (code_len thr vecs_nb : Nat)
    (hthr : thr < 4294967296) (h0 : thr ≠ 0) (h3 : 3 ≤ vecs_nb)
    (hlo : -9223372036854775808 ≤ offset)
    (hhi : offset + 8 * vecs_nb ≤ 9223372036854775808) (hfuel : vecs_nb + 9 ≤ fuel)
    (hn : code_len ≤ output.n) (hp : code_len ≤ props.length)
    (hi : code_len ≤ 2147483648) :
    (∃ out, encode_post_process fuel output props offset code_len thr vecs_nb
          = some (out, (List.range code_len).flatMap
              (fun f => (List.range' 0 vecs_nb).map (fun v => (f, v))))
        ∧ ∀ f p, props[f]? = some p → f < code_len →
            out[f]? = some (p
              ++ ((List.range (8 * vecs_nb)).filter (fun w => output.mem f w = thr)).map
                  (fun w => (offset + ((w : Nat) : Int), Mark.OOR_MARK)))
            ∧ List.Pairwise (fun a b : Nat => a < b)
                ((List.range (8 * vecs_nb)).filter (fun w => output.mem f w = thr))
            ∧ List.Pairwise (fun a b : Int × Mark => a.1 < b.1)
                (((List.range (8 * vecs_nb)).filter (fun w => output.mem f w = thr)).map
                  (fun w => (offset + ((w : Nat) : Int), Mark.OOR_MARK))))
    ∧ (∀ (p : Properties) (buf : Buf) (v : Nat) (off : Int),
        add_props fuel p (SET1 thr) (SET1 2147483648) (LOAD buf v) off
            = some (p ++ ((List.range 8).filter (fun l => buf (8 * v + l) = thr)).map
                (fun l => (off + ((l : Nat) : Int), Mark.OOR_MARK)))
        ∧ List.Pairwise (fun a b : Int × Mark => a.1 < b.1)
            (((List.range 8).filter (fun l => buf (8 * v + l) = thr)).map
              (fun l => (off + ((l : Nat) : Int), Mark.OOR_MARK)))) := by
  constructor
  · obtain ⟨out, hout, -, hget⟩ := encode_post_process_frags_spec fuel output props offset
      thr vecs_nb hthr h0 h3 hlo hhi hfuel code_len hn hp hi
    refine ⟨out, hout, fun f p hfp hf => ⟨?_, ?_, ?_⟩⟩
    · rw [hget f, hfp, Option.map_some', if_pos hf, word_marks_eq_range]
    · exact List.Pairwise.filter _ (List.pairwise_lt_range _)
    · rw [← word_marks_eq_range]
      exact word_marks_increasing _ thr offset _
  · intro p buf v off
    refine ⟨add_props_register fuel (by omega) p thr hthr buf v off, ?_⟩
    have h := word_marks_increasing (fun l => buf (8 * v + l)) thr off 8
    rw [word_marks_eq_range] at h
    exact h

theorem encode_post_process_increasing_witness :
    ∃ out, encode_post_process 12
        ⟨1, fun _ e => if e = 1 ∨ e = 5 ∨ e = 17 then 65536 else 0⟩ [[]] 0 1 65536 3
        = some (out, [(0, 0), (0, 1), (0, 2)])
      ∧ out[0]? = some [(1, Mark.OOR_MARK), (5, Mark.OOR_MARK), (17, Mark.OOR_MARK)] :=
  (encode_post_process_increasing 12
    ⟨1, fun _ e => if e = 1 ∨ e = 5 ∨ e = 17 then 65536 else 0⟩ [[]] 0 1
    65536 3 (by decide) (by decide) (by decide) (by decide) (by decide) (by decide)
    (by decide) (by decide) (by decide)).1.elim fun out h =>
      ⟨out, h.1, (h.2 0 [] rfl (by decide)).1.trans (by decide)⟩

end scan2

/-! ## The two-layer Cooley-Tukey butterfly -/

section two_layers
open simd_256_u32

theorem load_store_same (p : Buf) (j : Nat) (x : m256i) : LOAD (STORE p j x) j = x := by
  funext l
  have h1 : (8 * j + l.val) / 8 = j := by omega
  have h2 : (8 * j + l.val) % 8 = l.val := by omega
  simp only [LOAD, STORE, h1, if_pos, h2]

theorem load_store_ne (p : Buf) (j k : Nat) (x : m256i) (h : k ≠ j) :
    LOAD (STORE p j x) k = LOAD p k := by
  funext l
  have h1 : (8 * k + l.val) / 8 = k := by omega
  simp only [LOAD, STORE, h1, if_neg h]

theorem for_loop_peel {σ : Type} (g : Nat → σ → σ) :
    ∀ (n : Nat) (s : σ), for_loop g (n + 1) s = for_loop (fun k => g (k + 1)) n (g 0 s) := by
  intro n
  induction n with
  | zero => intro s; rfl
  | succ n ih =>
    intro s
    have h : for_loop g (n + 1 + 1) s = g (n + 1) (for_loop g (n + 1) s) := rfl
    rw [h, ih]
    rfl

theorem for_from_first {σ : Type} (body : Nat → σ → σ) (first last : Nat) (s : σ)
    (h : first < last) :
    for_from body first last s = for_from body (first + 1) last (body first s) := by
  unfold for_from
  obtain ⟨n, hn⟩ : ∃ n, last - first = n + 1 := ⟨last - first - 1, by omega⟩
  have hn' : last - (first + 1) = n := by omega
  rw [hn, hn', for_loop_peel]
  have e : (fun k => body (first + (k + 1))) = (fun k => body (first + 1 + k)) := by
    funext k
    have : first + (k + 1) = first + 1 + k := by omega
    rw [this]
  simp only [Nat.add_zero, e]

theorem for_from_empty {σ : Type} (body : Nat → σ → σ) (first last : Nat) (s : σ)
    (h : last ≤ first) : for_from body first last s = s := by
  unfold for_from
  have : last - first = 0 := by omega
  rw [this]
  rfl

theorem for_from_last {σ : Type} (body : Nat → σ → σ) (first last : Nat) (s : σ)
    (h : first ≤ last) :
    for_from body first (last + 1) s = body last (for_from body first last s) := by
  unfold for_from
  have e : last + 1 - first = (last - first) + 1 := by omega
  have e2 : first + (last - first) = last := by omega
  rw [e]
  simp only [for_loop, e2]

theorem for_from_append {σ : Type} (body : Nat → σ → σ) (first mid : Nat) (s : σ)
    (h1 : first ≤ mid) :
    ∀ (cnt : Nat), for_from body mid (mid + cnt) (for_from body first mid s)
        = for_from body first (mid + cnt) s := by
  intro cnt
  induction cnt with
  | zero => rw [Nat.add_zero, for_from_empty body mid mid _ (Nat.le_refl _)]
  | succ n ih =>
    have e : mid + (n + 1) = (mid + n) + 1 := by omega
    rw [e, for_from_last body mid (mid + n) _ (by omega), ih,
      for_from_last body first (mid + n) _ (by omega)]

theorem two_layers_body2_eq (r1 r2 r3 card : Nat) (c1 c2 c3 : m256i) (j : Nat) (st : Quad) :
    butterfly_ct_two_layers_step_body2 r1 r2 r3 card c1 c2 c3 j st
      = butterfly_ct_two_layers_step_body1 r1 r2 r3 card c1 c2 c3 (j + 1)
          (butterfly_ct_two_layers_step_body1 r1 r2 r3 card c1 c2 c3 j st) := by
  have hne : j + 1 ≠ j := by omega
  simp only [butterfly_ct_two_layers_step_body2, butterfly_ct_two_layers_step_body1,
    load_store_ne _ j (j + 1) _ hne]

theorem two_layers_loop2_spec (r1 r2 r3 card : Nat) (c1 c2 c3 : m256i) (len : Nat)
    (hlen1 : 1 ≤ len) (hlen2 : len < 18446744073709551616) :
    ∀ (fuel j : Nat) (st : Quad), j ≤ len → len - 1 ≤ j + 2 * fuel →
      ∃ j1, butterfly_ct_two_layers_step_loop2 r1 r2 r3 card c1 c2 c3 (len - 1) (fuel + 1) j st
          = some (j1, for_from (butterfly_ct_two_layers_step_body1 r1 r2 r3 card c1 c2 c3)
              j j1 st)
        ∧ j ≤ j1 ∧ j1 ≤ len := by
  intro fuel
  induction fuel with
  | zero =>
    intro j st hj hf
    refine ⟨j, ?_, Nat.le_refl _, hj⟩
    have hn : ¬ j < len - 1 := by omega
    simp only [butterfly_ct_two_layers_step_loop2, if_neg hn]
    rw [for_from_empty _ j j st (Nat.le_refl _)]
  | succ fuel ih =>
    intro j st hj hf
    by_cases hlt : j < len - 1
    · have hmod : (j + 2) % 18446744073709551616 = j + 2 := by omega
      obtain ⟨j1, h1, h2, h3⟩ := ih (j + 2)
        (butterfly_ct_two_layers_step_body2 r1 r2 r3 card c1 c2 c3 j st) (by omega) (by omega)
      refine ⟨j1, ?_, by omega, h3⟩
      have hstep : butterfly_ct_two_layers_step_loop2 r1 r2 r3 card c1 c2 c3 (len - 1)
            (fuel + 1 + 1) j st
          = butterfly_ct_two_layers_step_loop2 r1 r2 r3 card c1 c2 c3 (len - 1) (fuel + 1)
              (j + 2) (butterfly_ct_two_layers_step_body2 r1 r2 r3 card c1 c2 c3 j st) := by
        conv_lhs => unfold butterfly_ct_two_layers_step_loop2
        simp only [if_pos hlt, hmod]
      rw [hstep, h1, for_from_first _ j j1 st (by omega),
        for_from_first _ (j + 1) j1 _ (by omega), two_layers_body2_eq]
    · refine ⟨j, ?_, Nat.le_refl _, hj⟩
      simp only [butterfly_ct_two_layers_step_loop2, if_neg hlt]
      rw [for_from_empty _ j j st (Nat.le_refl _)]

theorem for_from_zero {σ : Type} (body : Nat → σ → σ) (n : Nat) (s : σ) :
    for_from body 0 n s = for_loop body n s := by
  unfold for_from
  have e : (fun k => body (0 + k)) = body := by
    funext k
    rw [Nat.zero_add]
  rw [e, Nat.sub_zero]

theorem two_layers_inner_unfold (r1 r2 r3 card : Nat) (c1 c2 c3 : m256i) (len fuel _end : Nat)
    (st : Quad) (j1 : Nat) (st1 : Quad)
    (hend : (len + 18446744073709551615) % 18446744073709551616 = _end)
    (h1 : butterfly_ct_two_layers_step_loop2 r1 r2 r3 card c1 c2 c3 _end fuel 0 st
      = some (j1, st1)) :
    butterfly_ct_two_layers_step_inner fuel r1 r2 r3 card c1 c2 c3 len st
      = some (for_from (butterfly_ct_two_layers_step_body1 r1 r2 r3 card c1 c2 c3) j1 len st1) := by
  unfold butterfly_ct_two_layers_step_inner
  rw [hend]
  dsimp only
  rw [h1]

theorem two_layers_inner_eq (r1 r2 r3 card : Nat) (c1 c2 c3 : m256i) (len fuel : Nat)
    (hlen1 : 1 ≤ len) (hlen2 : len < 18446744073709551616) (hfuel : len ≤ fuel) (st : Quad) :
    butterfly_ct_two_layers_step_inner fuel r1 r2 r3 card c1 c2 c3 len st
      = some (for_loop (butterfly_ct_two_layers_step_body1 r1 r2 r3 card c1 c2 c3) len st) := by
  obtain ⟨f, rfl⟩ : ∃ f, fuel = f + 1 := ⟨fuel - 1, by omega⟩
  have hend : (len + 18446744073709551615) % 18446744073709551616 = len - 1 := by omega
  obtain ⟨j1, h1, h2, h3⟩ := two_layers_loop2_spec r1 r2 r3 card c1 c2 c3 len hlen1 hlen2
    f 0 st (by omega) (by omega)
  rw [two_layers_inner_unfold r1 r2 r3 card c1 c2 c3 len (f + 1) (len - 1) st j1 _ hend h1]
  have e := for_from_append (butterfly_ct_two_layers_step_body1 r1 r2 r3 card c1 c2 c3)
    0 j1 st (Nat.zero_le _) (len - j1)
  have e2 : j1 + (len - j1) = len := by omega
  rw [e2] at e
  rw [e, for_from_zero]

theorem lane_div (j : Nat) (l : Fin 8) : (8 * j + l.val) / 8 = j := by
  have := l.isLt
  omega

theorem lane_mod (j : Nat) (l : Fin 8) :
    (⟨(8 * j + l.val) % 8, Nat.mod_lt _ (by decide)⟩ : Fin 8) = l := by
  apply Fin.ext
  have := l.isLt
  show (8 * j + l.val) % 8 = l.val
  omega

theorem on_registers_fst (f : m256i → m256i → m256i × m256i) (len : Nat) (a b : Buf)
    (e : Nat) :
    (on_registers f len a b).1 e = if e / 8 < len then
      (f (LOAD a (e / 8)) (LOAD b (e / 8))).1 ⟨e % 8, Nat.mod_lt _ (by decide)⟩ else a e := rfl

theorem on_registers_snd (f : m256i → m256i → m256i × m256i) (len : Nat) (a b : Buf)
    (e : Nat) :
    (on_registers f len a b).2 e = if e / 8 < len then
      (f (LOAD a (e / 8)) (LOAD b (e / 8))).2 ⟨e % 8, Nat.mod_lt _ (by decide)⟩ else b e := rfl

theorem load_on_registers_fst_lt (f : m256i → m256i → m256i × m256i) (len : Nat) (a b : Buf)
    (j : Nat) (h : j < len) :
    LOAD (on_registers f len a b).1 j = (f (LOAD a j) (LOAD b j)).1 := by
  funext l
  show (on_registers f len a b).1 (8 * j + l.val) = _
  rw [on_registers_fst, lane_div, if_pos h, lane_mod]

theorem load_on_registers_snd_lt (f : m256i → m256i → m256i × m256i) (len : Nat) (a b : Buf)
    (j : Nat) (h : j < len) :
    LOAD (on_registers f len a b).2 j = (f (LOAD a j) (LOAD b j)).2 := by
  funext l
  show (on_registers f len a b).2 (8 * j + l.val) = _
  rw [on_registers_snd, lane_div, if_pos h, lane_mod]

theorem load_on_registers_fst_ge (f : m256i → m256i → m256i × m256i) (len : Nat) (a b : Buf)
    (j : Nat) (h : len ≤ j) :
    LOAD (on_registers f len a b).1 j = LOAD a j := by
  funext l
  show (on_registers f len a b).1 (8 * j + l.val) = _
  rw [on_registers_fst, lane_div, if_neg (by omega)]
  rfl

theorem load_on_registers_snd_ge (f : m256i → m256i → m256i × m256i) (len : Nat) (a b : Buf)
    (j : Nat) (h : len ≤ j) :
    LOAD (on_registers f len a b).2 j = LOAD b j := by
  funext l
  show (on_registers f len a b).2 (8 * j + l.val) = _
  rw [on_registers_snd, lane_div, if_neg (by omega)]
  rfl

theorem store_apply (p : Buf) (j : Nat) (x : m256i) (e : Nat) :
    STORE p j x e = if e / 8 = j then x ⟨e % 8, Nat.mod_lt _ (by decide)⟩ else p e := rfl

/-- A loop of memory butterflies over the registers `0 .. len - 1` of two
buffers applies the register butterfly to each of these registers. -/
theorem for_loop_on_registers (f : m256i → m256i → m256i × m256i)
    (MB : Buf → Buf → Nat → Buf × Buf)
    (hMB : ∀ a b j, MB a b j
      = (STORE a j (f (LOAD a j) (LOAD b j)).1, STORE b j (f (LOAD a j) (LOAD b j)).2))
    (a b : Buf) :
    ∀ len, for_loop (fun j (r : Buf × Buf) => MB r.1 r.2 j) len (a, b)
      = on_registers f len a b := by
  intro len
  induction len with
  | zero =>
    apply Prod.ext
    · funext e
      rw [on_registers_fst, if_neg (Nat.not_lt_zero _)]
      rfl
    · funext e
      rw [on_registers_snd, if_neg (Nat.not_lt_zero _)]
      rfl
  | succ n ih =>
    have hstep : for_loop (fun j (r : Buf × Buf) => MB r.1 r.2 j) (n + 1) (a, b)
        = MB (for_loop (fun j (r : Buf × Buf) => MB r.1 r.2 j) n (a, b)).1
            (for_loop (fun j (r : Buf × Buf) => MB r.1 r.2 j) n (a, b)).2 n := rfl
    rw [hstep, ih, hMB, load_on_registers_fst_ge f n a b n (Nat.le_refl _),
      load_on_registers_snd_ge f n a b n (Nat.le_refl _)]
    apply Prod.ext
    · funext e
      show STORE (on_registers f n a b).1 n (f (LOAD a n) (LOAD b n)).1 e = _
      rw [store_apply, on_registers_fst, on_registers_fst]
      by_cases h1 : e / 8 = n
      · rw [if_pos h1, if_pos (by omega), h1]
      · rw [if_neg h1]
        by_cases h2 : e / 8 < n
        · rw [if_pos h2, if_pos (by omega)]
        · rw [if_neg h2, if_neg (by omega)]
    · funext e
      show STORE (on_registers f n a b).2 n (f (LOAD a n) (LOAD b n)).2 e = _
      rw [store_apply, on_registers_snd, on_registers_snd]
      by_cases h1 : e / 8 = n
      · rw [if_pos h1, if_pos (by omega), h1]
      · rw [if_neg h1]
        by_cases h2 : e / 8 < n
        · rw [if_pos h2, if_pos (by omega)]
        · rw [if_neg h2, if_neg (by omega)]

theorem butterfly_step_1_eq (a b : Buf) (card len : Nat) :
    butterfly_step_1 a b card len = on_registers (fun x y => BUTTERFLY_1 x y card) len a b :=
  for_loop_on_registers (fun x y => BUTTERFLY_1 x y card)
    (fun a b j => BUTTERFLY_ADD a b j card) (fun _ _ _ => rfl) a b len

theorem butterfly_step_2_eq (a b : Buf) (card len : Nat) :
    butterfly_step_2 a b card len = on_registers (fun x y => BUTTERFLY_2 x y card) len a b :=
  for_loop_on_registers (fun x y => BUTTERFLY_2 x y card)
    (fun a b j => BUTTERFLY_SUB a b j card) (fun _ _ _ => rfl) a b len

theorem butterfly_step_3_eq (coef : Nat) (a b : Buf) (card len : Nat) :
    butterfly_step_3 coef a b card len
      = on_registers (fun x y => BUTTERFLY_3 (SET1 coef) x y card) len a b :=
  for_loop_on_registers (fun x y => BUTTERFLY_3 (SET1 coef) x y card)
    (fun a b j => BUTTERFLY_MULADD (SET1 coef) a b j card) (fun _ _ _ => rfl) a b len

/-- The single-layer butterfly for a twiddle `r` is the shared outer loop over
the register butterfly that the two-layer routine selects for `r`. -/
theorem single_layer_ct_eq (f : Nat → Nat → m256i → m256i → m256i → m256i × m256i)
    (hf : ∀ r card c x y, f r card c x y
      = EITHER (r == 1) (BUTTERFLY_1 x y card)
          (EITHER (decide (r < (card + 4294967295) % 4294967296)) (BUTTERFLY_3 c x y card)
            (BUTTERFLY_2 x y card)))
    (fuel r : Nat) (buf : Buffers) (start m step len card : Nat) :
    single_layer_ct fuel r buf start m step len card
      = pair_loop (fun a b => on_registers (f r card (SET1 r)) len a b) m step fuel
          (to_int start) buf := by
  unfold single_layer_ct
  by_cases h1 : r = 1
  · rw [if_pos h1]
    unfold butterfly_ct_1
    congr 1
    funext a b
    rw [butterfly_step_1_eq]
    congr 1
    funext x y
    rw [hf]
    simp only [EITHER, h1, beq_self_eq_true, if_true]
  · rw [if_neg h1]
    by_cases h2 : r < (card + 4294967295) % 4294967296
    · rw [if_pos h2]
      unfold butterfly_ct_3
      congr 1
      funext a b
      rw [butterfly_step_3_eq]
      congr 1
      funext x y
      rw [hf]
      have hb : (r == 1) = false := by
        rw [beq_eq_false_iff_ne]
        exact h1
      simp only [EITHER, hb, decide_eq_true h2, if_true, Bool.false_eq_true, if_false]
    · rw [if_neg h2]
      unfold butterfly_ct_2
      congr 1
      funext a b
      rw [butterfly_step_2_eq]
      congr 1
      funext x y
      rw [hf]
      have hb : (r == 1) = false := by
        rw [beq_eq_false_iff_ne]
        exact h1
      simp only [EITHER, hb, decide_eq_false h2, Bool.false_eq_true, if_false]

theorem on_registers_zero (f : m256i → m256i → m256i × m256i) (a b : Buf) :
    on_registers f 0 a b = (a, b) := by
  apply Prod.ext
  · funext e
    rw [on_registers_fst, if_neg (Nat.not_lt_zero _)]
  · funext e
    rw [on_registers_snd, if_neg (Nat.not_lt_zero _)]

theorem quad_ext_fields (a b : Quad) (hp : a.p = b.p) (hq : a.q = b.q) (hr : a.r = b.r)
    (hs : a.s = b.s) : a = b := by
  cases a
  cases b
  simp only at hp hq hr hs
  subst hp
  subst hq
  subst hr
  subst hs
  rfl

/-- After the loop over the registers `0 .. n - 1`, the four buffers hold both
layers of register butterflies on these registers. -/
theorem two_layers_for_loop (r1 r2 r3 card : Nat) (c1 c2 c3 : m256i) (st : Quad) :
    ∀ n, for_loop (butterfly_ct_two_layers_step_body1 r1 r2 r3 card c1 c2 c3) n st
      = two_layers_on (on_registers (BUTTERFLY_R1 r1 card c1) n)
          (on_registers (BUTTERFLY_R2 r2 card c2) n)
          (on_registers (BUTTERFLY_R3 r3 card c3) n) st := by
  intro n
  induction n with
  | zero =>
    simp only [two_layers_on, on_registers_zero]
    rfl
  | succ n ih =>
    have hstep : for_loop (butterfly_ct_two_layers_step_body1 r1 r2 r3 card c1 c2 c3) (n + 1) st
        = butterfly_ct_two_layers_step_body1 r1 r2 r3 card c1 c2 c3 n
            (for_loop (butterfly_ct_two_layers_step_body1 r1 r2 r3 card c1 c2 c3) n st) := rfl
    rw [hstep, ih]
    have hle := Nat.le_refl n
    have hlt := Nat.lt_succ_self n
    have hP : LOAD (two_layers_on (on_registers (BUTTERFLY_R1 r1 card c1) n)
          (on_registers (BUTTERFLY_R2 r2 card c2) n)
          (on_registers (BUTTERFLY_R3 r3 card c3) n) st).p n = LOAD st.p n := by
      show LOAD (on_registers _ n _ _).1 n = _
      rw [load_on_registers_fst_ge _ n _ _ n hle, load_on_registers_fst_ge _ n _ _ n hle]
    have hQ : LOAD (two_layers_on (on_registers (BUTTERFLY_R1 r1 card c1) n)
          (on_registers (BUTTERFLY_R2 r2 card c2) n)
          (on_registers (BUTTERFLY_R3 r3 card c3) n) st).q n = LOAD st.q n := by
      show LOAD (on_registers _ n _ _).1 n = _
      rw [load_on_registers_fst_ge _ n _ _ n hle, load_on_registers_snd_ge _ n _ _ n hle]
    have hR : LOAD (two_layers_on (on_registers (BUTTERFLY_R1 r1 card c1) n)
          (on_registers (BUTTERFLY_R2 r2 card c2) n)
          (on_registers (BUTTERFLY_R3 r3 card c3) n) st).r n = LOAD st.r n := by
      show LOAD (on_registers _ n _ _).2 n = _
      rw [load_on_registers_snd_ge _ n _ _ n hle, load_on_registers_fst_ge _ n _ _ n hle]
    have hS : LOAD (two_layers_on (on_registers (BUTTERFLY_R1 r1 card c1) n)
          (on_registers (BUTTERFLY_R2 r2 card c2) n)
          (on_registers (BUTTERFLY_R3 r3 card c3) n) st).s n = LOAD st.s n := by
      show LOAD (on_registers _ n _ _).2 n = _
      rw [load_on_registers_snd_ge _ n _ _ n hle, load_on_registers_snd_ge _ n _ _ n hle]
    apply quad_ext_fields
    · funext e
      show STORE (two_layers_on _ _ _ st).p n (BUTTERFLY_R2 r2 card c2
          (BUTTERFLY_R1 r1 card c1 (LOAD (two_layers_on _ _ _ st).p n)
            (LOAD (two_layers_on _ _ _ st).q n)).1
          (BUTTERFLY_R1 r1 card c1 (LOAD (two_layers_on _ _ _ st).r n)
            (LOAD (two_layers_on _ _ _ st).s n)).1).1 e
        = (on_registers (BUTTERFLY_R2 r2 card c2) (n + 1)
            (on_registers (BUTTERFLY_R1 r1 card c1) (n + 1) st.p st.q).1
            (on_registers (BUTTERFLY_R1 r1 card c1) (n + 1) st.r st.s).1).1 e
      rw [hP, hQ, hR, hS, store_apply, on_registers_fst]
      by_cases h1 : e / 8 = n
      · rw [if_pos h1, if_pos (by omega), h1,
          load_on_registers_fst_lt _ (n + 1) _ _ n hlt,
          load_on_registers_fst_lt _ (n + 1) _ _ n hlt]
      · rw [if_neg h1]
        show (on_registers (BUTTERFLY_R2 r2 card c2) n
            (on_registers (BUTTERFLY_R1 r1 card c1) n st.p st.q).1
            (on_registers (BUTTERFLY_R1 r1 card c1) n st.r st.s).1).1 e = _
        rw [on_registers_fst]
        by_cases h2 : e / 8 < n
        · rw [if_pos h2, if_pos (by omega),
            load_on_registers_fst_lt _ n _ _ _ h2, load_on_registers_fst_lt _ n _ _ _ h2,
            load_on_registers_fst_lt _ (n + 1) _ _ _ (by omega),
            load_on_registers_fst_lt _ (n + 1) _ _ _ (by omega)]
        · rw [if_neg h2, if_neg (by omega), on_registers_fst, if_neg h2, on_registers_fst,
            if_neg (by omega)]
    · funext e
      show STORE (two_layers_on _ _ _ st).q n (BUTTERFLY_R3 r3 card c3
          (BUTTERFLY_R1 r1 card c1 (LOAD (two_layers_on _ _ _ st).p n)
            (LOAD (two_layers_on _ _ _ st).q n)).2
          (BUTTERFLY_R1 r1 card c1 (LOAD (two_layers_on _ _ _ st).r n)
            (LOAD (two_layers_on _ _ _ st).s n)).2).1 e
        = (on_registers (BUTTERFLY_R3 r3 card c3) (n + 1)
            (on_registers (BUTTERFLY_R1 r1 card c1) (n + 1) st.p st.q).2
            (on_registers (BUTTERFLY_R1 r1 card c1) (n + 1) st.r st.s).2).1 e
      rw [hP, hQ, hR, hS, store_apply, on_registers_fst]
      by_cases h1 : e / 8 = n
      · rw [if_pos h1, if_pos (by omega), h1,
          load_on_registers_snd_lt _ (n + 1) _ _ n hlt,
          load_on_registers_snd_lt _ (n + 1) _ _ n hlt]
      · rw [if_neg h1]
        show (on_registers (BUTTERFLY_R3 r3 card c3) n
            (on_registers (BUTTERFLY_R1 r1 card c1) n st.p st.q).2
            (on_registers (BUTTERFLY_R1 r1 card c1) n st.r st.s).2).1 e = _
        rw [on_registers_fst]
        by_cases h2 : e / 8 < n
        · rw [if_pos h2, if_pos (by omega),
            load_on_registers_snd_lt _ n _ _ _ h2, load_on_registers_snd_lt _ n _ _ _ h2,
            load_on_registers_snd_lt _ (n + 1) _ _ _ (by omega),
            load_on_registers_snd_lt _ (n + 1) _ _ _ (by omega)]
        · rw [if_neg h2, if_neg (by omega), on_registers_snd, if_neg h2, on_registers_snd,
            if_neg (by omega)]
    · funext e
      show STORE (two_layers_on _ _ _ st).r n (BUTTERFLY_R2 r2 card c2
          (BUTTERFLY_R1 r1 card c1 (LOAD (two_layers_on _ _ _ st).p n)
            (LOAD (two_layers_on _ _ _ st).q n)).1
          (BUTTERFLY_R1 r1 card c1 (LOAD (two_layers_on _ _ _ st).r n)
            (LOAD (two_layers_on _ _ _ st).s n)).1).2 e
        = (on_registers (BUTTERFLY_R2 r2 card c2) (n + 1)
            (on_registers (BUTTERFLY_R1 r1 card c1) (n + 1) st.p st.q).1
            (on_registers (BUTTERFLY_R1 r1 card c1) (n + 1) st.r st.s).1).2 e
      rw [hP, hQ, hR, hS, store_apply, on_registers_snd]
      by_cases h1 : e / 8 = n
      · rw [if_pos h1, if_pos (by omega), h1,
          load_on_registers_fst_lt _ (n + 1) _ _ n hlt,
          load_on_registers_fst_lt _ (n + 1) _ _ n hlt]
      · rw [if_neg h1]
        show (on_registers (BUTTERFLY_R2 r2 card c2) n
            (on_registers (BUTTERFLY_R1 r1 card c1) n st.p st.q).1
            (on_registers (BUTTERFLY_R1 r1 card c1) n st.r st.s).1).2 e = _
        rw [on_registers_snd]
        by_cases h2 : e / 8 < n
        · rw [if_pos h2, if_pos (by omega),
            load_on_registers_fst_lt _ n _ _ _ h2, load_on_registers_fst_lt _ n _ _ _ h2,
            load_on_registers_fst_lt _ (n + 1) _ _ _ (by omega),
            load_on_registers_fst_lt _ (n + 1) _ _ _ (by omega)]
        · rw [if_neg h2, if_neg (by omega), on_registers_fst, if_neg h2, on_registers_fst,
            if_neg (by omega)]
    · funext e
      show STORE (two_layers_on _ _ _ st).s n (BUTTERFLY_R3 r3 card c3
          (BUTTERFLY_R1 r1 card c1 (LOAD (two_layers_on _ _ _ st).p n)
            (LOAD (two_layers_on _ _ _ st).q n)).2
          (BUTTERFLY_R1 r1 card c1 (LOAD (two_layers_on _ _ _ st).r n)
            (LOAD (two_layers_on _ _ _ st).s n)).2).2 e
        = (on_registers (BUTTERFLY_R3 r3 card c3) (n + 1)
            (on_registers (BUTTERFLY_R1 r1 card c1) (n + 1) st.p st.q).2
            (on_registers (BUTTERFLY_R1 r1 card c1) (n + 1) st.r st.s).2).2 e
      rw [hP, hQ, hR, hS, store_apply, on_registers_snd]
      by_cases h1 : e / 8 = n
      · rw [if_pos h1, if_pos (by omega), h1,
          load_on_registers_snd_lt _ (n + 1) _ _ n hlt,
          load_on_registers_snd_lt _ (n + 1) _ _ n hlt]
      · rw [if_neg h1]
        show (on_registers (BUTTERFLY_R3 r3 card c3) n
            (on_registers (BUTTERFLY_R1 r1 card c1) n st.p st.q).2
            (on_registers (BUTTERFLY_R1 r1 card c1) n st.r st.s).2).2 e = _
        rw [on_registers_snd]
        by_cases h2 : e / 8 < n
        · rw [if_pos h2, if_pos (by omega),
            load_on_registers_snd_lt _ n _ _ _ h2, load_on_registers_snd_lt _ n _ _ _ h2,
            load_on_registers_snd_lt _ (n + 1) _ _ _ (by omega),
            load_on_registers_snd_lt _ (n + 1) _ _ _ (by omega)]
        · rw [if_neg h2, if_neg (by omega), on_registers_snd, if_neg h2, on_registers_snd,
            if_neg (by omega)]

theorem unit_lt (m start a N : Nat) (hstart : start < m) :
    start + m * a < m * N ↔ a < N := by
  constructor
  · intro h
    by_contra hc
    have h1 : m * N ≤ m * a := Nat.mul_le_mul_left m (by omega)
    omega
  · intro h
    have h1 : m * (a + 1) ≤ m * N := Nat.mul_le_mul_left m h
    rw [Nat.mul_succ] at h1
    omega

theorem unit_inj (m start a b : Nat) (hm : 0 < m) :
    start + m * a = start + m * b ↔ a = b := by
  constructor
  · intro h
    exact Nat.eq_of_mul_eq_mul_left hm (by omega)
  · intro h
    rw [h]

/-- The shared outer loop of the single-layer butterflies, with the buffer
indices counted in units of `m` from `start`: the pairs are `(o + k s,
o + k s + d)`. -/
theorem pair_loop_units (body : Buf → Buf → Buf × Buf) (m start N d s o f : Nat)
    (buf : Buffers) (m1 step : Nat) (i0 : Int)
    (hm : 0 < m) (hstart : start < m) (hn : buf.n = m * N) (hd : 0 < d) (hds : d < s)
    (hm1 : m1 = m * d) (hstep : step = m * s) (hi0 : i0 = ((start + m * o : Nat) : Int))
    (hb : buf.n + m * s ≤ 2147483648)
    (hpair : ∀ k, o + k * s < N → o + k * s + d < N) (hfuel : N ≤ f) :
    ∃ out, pair_loop body m1 step (f + 1) i0 buf = some out ∧ out.n = buf.n
      ∧ (∀ k, o + k * s < N →
          out.mem (start + m * (o + k * s))
            = (body (buf.mem (start + m * (o + k * s)))
                (buf.mem (start + m * (o + k * s + d)))).1
          ∧ out.mem (start + m * (o + k * s + d))
            = (body (buf.mem (start + m * (o + k * s)))
                (buf.mem (start + m * (o + k * s + d)))).2)
      ∧ (∀ idx, (∀ k, o + k * s < N →
            idx ≠ start + m * (o + k * s) ∧ idx ≠ start + m * (o + k * s + d)) →
          out.mem idx = buf.mem idx) := by
  subst hm1
  subst hstep
  subst hi0
  have hs0 : 0 < m * s := Nat.mul_pos hm (by omega)
  have hndvd : ¬ (m * s ∣ m * d) := by
    intro h
    have h1 : s ∣ d := Nat.dvd_of_mul_dvd_mul_left hm h
    have h2 := Nat.le_of_dvd hd h1
    omega
  have hmd : m * d ≤ m * s := Nat.mul_le_mul_left m (by omega)
  have e1 : ∀ k, start + m * o + k * (m * s) = start + m * (o + k * s) := by
    intro k
    ring
  have e2 : ∀ k, start + m * (o + k * s) + m * d = start + m * (o + k * s + d) := by
    intro k
    ring
  have hfs : N ≤ f * s := by
    have : f * 1 ≤ f * s := Nat.mul_le_mul_left f (by omega)
    omega
  have hfm : m * N ≤ f * (m * s) := by
    have h1 : m * N ≤ m * (f * s) := Nat.mul_le_mul_left m hfs
    have h2 : m * (f * s) = f * (m * s) := by ring
    omega
  obtain ⟨out, hout, hnout, hspec⟩ := pair_loop_spec body (m * d) (m * s) hs0 hndvd f
    (start + m * o) buf (by omega) hb
    (by
      intro k hk
      rw [e1 k, hn, unit_lt m start _ N hstart] at hk
      rw [e1 k, e2 k, hn, unit_lt m start _ N hstart]
      exact hpair k hk)
    (by omega)
  refine ⟨out, hout, hnout, ?_, ?_⟩
  · intro k hk
    have hlt : start + m * (o + k * s) < buf.n := by
      rw [hn, unit_lt m start _ N hstart]
      exact hk
    constructor
    · have h := (hspec (start + m * (o + k * s))).1 k (e1 k).symm hlt
      rw [e2 k] at h
      exact h
    · have hlt2 : start + m * o + k * (m * s) < buf.n := by
        rw [e1 k]
        exact hlt
      have h := (hspec (start + m * (o + k * s + d))).2.1 k
        (by rw [e1 k, e2 k]) hlt2
      rw [e1 k] at h
      exact h
  · intro idx hidx
    apply (hspec idx).2.2
    · intro k hk hlt
      rw [e1 k] at hk
      rw [hk, hn, unit_lt m start _ N hstart] at hlt
      exact (hidx k hlt).1 hk
    · intro k hk hlt
      rw [e1 k, e2 k] at hk
      rw [e1 k, hn, unit_lt m start _ N hstart] at hlt
      exact (hidx k hlt).2 hk

theorem set4_mem (buf : Buffers) (i0 i1 i2 i3 : Nat) (P Q R S : Buf) (x : Nat) :
    ((((buf.set (i0 : Int) P).set (i1 : Int) Q).set (i2 : Int) R).set (i3 : Int) S).mem x
      = if x = i3 then S else if x = i2 then R else if x = i1 then Q
        else if x = i0 then P else buf.mem x := by
  simp only [Buffers.set_mem]

theorem two_layers_loop_exit (r1 r2 r3 card : Nat) (c1 c2 c3 : m256i)
    (m len step nb innerFuel fuel i : Nat) (buf : Buffers) (h : nb ≤ i) :
    butterfly_ct_two_layers_step_loop r1 r2 r3 card c1 c2 c3 m len step nb innerFuel
      (fuel + 1) i buf = some buf := by
  have h1 : ¬ (i < nb) := by omega
  simp only [butterfly_ct_two_layers_step_loop, if_neg h1]

theorem two_layers_loop_step (r1 r2 r3 card : Nat) (c1 c2 c3 : m256i)
    (m len nb innerFuel fuel i : Nat) (buf : Buffers) (hnb : nb = buf.n) (hm : 0 < m)
    (hi : i + 3 * m < buf.n) (hn : buf.n + 4 * m ≤ 2147483648)
    (hlen1 : 1 ≤ len) (hlen2 : len < 18446744073709551616) (hfuel : len ≤ innerFuel) :
    butterfly_ct_two_layers_step_loop r1 r2 r3 card c1 c2 c3 m len (4 * m) nb innerFuel
        (fuel + 1) i buf
      = butterfly_ct_two_layers_step_loop r1 r2 r3 card c1 c2 c3 m len (4 * m) nb innerFuel
          fuel (i + 4 * m)
          ((((buf.set (i : Int)
              (for_loop (butterfly_ct_two_layers_step_body1 r1 r2 r3 card c1 c2 c3) len
                { p := buf.mem i, q := buf.mem (i + m), r := buf.mem (i + 2 * m),
                  s := buf.mem (i + 3 * m) }).p).set ((i + m : Nat) : Int)
              (for_loop (butterfly_ct_two_layers_step_body1 r1 r2 r3 card c1 c2 c3) len
                { p := buf.mem i, q := buf.mem (i + m), r := buf.mem (i + 2 * m),
                  s := buf.mem (i + 3 * m) }).q).set ((i + 2 * m : Nat) : Int)
              (for_loop (butterfly_ct_two_layers_step_body1 r1 r2 r3 card c1 c2 c3) len
                { p := buf.mem i, q := buf.mem (i + m), r := buf.mem (i + 2 * m),
                  s := buf.mem (i + 3 * m) }).r).set ((i + 3 * m : Nat) : Int)
              (for_loop (butterfly_ct_two_layers_step_body1 r1 r2 r3 card c1 c2 c3) len
                { p := buf.mem i, q := buf.mem (i + m), r := buf.mem (i + 2 * m),
                  s := buf.mem (i + 3 * m) }).s) := by
  have h0 : i < nb := by omega
  have hmod : (i + 4 * m) % 4294967296 = i + 4 * m := by omega
  have hne : ¬ (((i : Nat) : Int) = ((i + m : Nat) : Int) ∨ ((i : Nat) : Int) = ((i + 2 * m : Nat) : Int)
      ∨ ((i : Nat) : Int) = ((i + 3 * m : Nat) : Int)
      ∨ ((i + m : Nat) : Int) = ((i + 2 * m : Nat) : Int)
      ∨ ((i + m : Nat) : Int) = ((i + 3 * m : Nat) : Int)
      ∨ ((i + 2 * m : Nat) : Int) = ((i + 3 * m : Nat) : Int)) := by omega
  conv_lhs => unfold butterfly_ct_two_layers_step_loop
  simp only [if_pos h0, to_int_of_lt i (by omega), to_int_of_lt (i + m) (by omega),
    to_int_of_lt (i + 2 * m) (by omega), to_int_of_lt (i + 3 * m) (by omega),
    Buffers.get_natCast buf i (by omega), Buffers.get_natCast buf (i + m) (by omega),
    Buffers.get_natCast buf (i + 2 * m) (by omega),
    Buffers.get_natCast buf (i + 3 * m) (by omega), if_neg hne,
    two_layers_inner_eq r1 r2 r3 card c1 c2 c3 len innerFuel hlen1 hlen2 hfuel, hmod]

theorem unit_ne (m start a b : Nat) (hm : 0 < m) (h : a ≠ b) :
    start + m * a ≠ start + m * b :=
  fun he => h ((unit_inj m start a b hm).mp he)

theorem set4_units (buf : Buffers) (m start g : Nat) (hm : 0 < m) (P Q R S : Buf) (a : Nat) :
    ((((buf.set ((start + m * (4 * g) : Nat) : Int) P).set
        ((start + m * (4 * g + 1) : Nat) : Int) Q).set
        ((start + m * (4 * g + 2) : Nat) : Int) R).set
        ((start + m * (4 * g + 3) : Nat) : Int) S).mem (start + m * a)
      = if a = 4 * g + 3 then S else if a = 4 * g + 2 then R else if a = 4 * g + 1 then Q
        else if a = 4 * g then P else buf.mem (start + m * a) := by
  rw [set4_mem]
  simp only [unit_inj m start _ _ hm]

theorem set4_units_far (buf : Buffers) (m start g : Nat) (hm : 0 < m) (P Q R S : Buf) (a : Nat)
    (h : a < 4 * g ∨ 4 * g + 3 < a) :
    ((((buf.set ((start + m * (4 * g) : Nat) : Int) P).set
        ((start + m * (4 * g + 1) : Nat) : Int) Q).set
        ((start + m * (4 * g + 2) : Nat) : Int) R).set
        ((start + m * (4 * g + 3) : Nat) : Int) S).mem (start + m * a)
      = buf.mem (start + m * a) := by
  have h3 : a ≠ 4 * g + 3 := by omega
  have h2 : a ≠ 4 * g + 2 := by omega
  have h1 : a ≠ 4 * g + 1 := by omega
  have h0 : a ≠ 4 * g := by omega
  rw [set4_units buf m start g hm, if_neg h3, if_neg h2, if_neg h1, if_neg h0]

theorem quad_at_set4 (buf : Buffers) (m start g : Nat) (hm : 0 < m) (P Q R S : Buf) (k : Nat)
    (hk : g + 1 ≤ k) :
    quad_at ((((buf.set ((start + m * (4 * g) : Nat) : Int) P).set
        ((start + m * (4 * g + 1) : Nat) : Int) Q).set
        ((start + m * (4 * g + 2) : Nat) : Int) R).set
        ((start + m * (4 * g + 3) : Nat) : Int) S) start m k = quad_at buf start m k := by
  have h0 : 4 * g + 3 < 4 * k := by omega
  unfold quad_at
  rw [set4_units_far buf m start g hm P Q R S (4 * k) (Or.inr h0),
    set4_units_far buf m start g hm P Q R S (4 * k + 1) (Or.inr (Nat.lt_succ_of_lt h0)),
    set4_units_far buf m start g hm P Q R S (4 * k + 2)
      (Or.inr (Nat.lt_succ_of_lt (Nat.lt_succ_of_lt h0))),
    set4_units_far buf m start g hm P Q R S (4 * k + 3)
      (Or.inr (Nat.lt_succ_of_lt (Nat.lt_succ_of_lt (Nat.lt_succ_of_lt h0))))]

/-- The outer loop of `butterfly_ct_two_layers_step`, with the buffer indices
counted in units of `m` from `start`: every quadruple `(4 k, 4 k + 1, 4 k + 2,
4 k + 3)` is replaced by the result of the inner loops on its original
contents, every other buffer is left as it was. -/
theorem two_layers_loop_spec (r1 r2 r3 card : Nat) (c1 c2 c3 : m256i)
    (m start len N innerFuel : Nat) (hm : 0 < m) (hstart : start < m) (hN4 : N % 4 = 0)
    (hlen1 : 1 ≤ len) (hlen2 : len < 18446744073709551616) (hfuel : len ≤ innerFuel) :
    ∀ (fuel g : Nat) (buf : Buffers), buf.n = m * N → buf.n + 4 * m ≤ 2147483648 →
      N ≤ 4 * g + 4 * fuel →
      ∃ out, butterfly_ct_two_layers_step_loop r1 r2 r3 card c1 c2 c3 m len (4 * m) (m * N)
            innerFuel (fuel + 1) (start + m * (4 * g)) buf = some out
        ∧ out.n = buf.n
        ∧ (∀ k, g ≤ k → 4 * k < N →
            out.mem (start + m * (4 * k))
              = (for_loop (butterfly_ct_two_layers_step_body1 r1 r2 r3 card c1 c2 c3) len
                  (quad_at buf start m k)).p
            ∧ out.mem (start + m * (4 * k + 1))
              = (for_loop (butterfly_ct_two_layers_step_body1 r1 r2 r3 card c1 c2 c3) len
                  (quad_at buf start m k)).q
            ∧ out.mem (start + m * (4 * k + 2))
              = (for_loop (butterfly_ct_two_layers_step_body1 r1 r2 r3 card c1 c2 c3) len
                  (quad_at buf start m k)).r
            ∧ out.mem (start + m * (4 * k + 3))
              = (for_loop (butterfly_ct_two_layers_step_body1 r1 r2 r3 card c1 c2 c3) len
                  (quad_at buf start m k)).s)
        ∧ (∀ idx, (∀ a, 4 * g ≤ a → a < N → idx ≠ start + m * a) →
            out.mem idx = buf.mem idx) := by
  intro fuel
  induction fuel with
  | zero =>
    intro g buf hn _ hf
    have h1 : m * N ≤ m * (4 * g) := Nat.mul_le_mul_left m (by omega)
    refine ⟨buf, two_layers_loop_exit r1 r2 r3 card c1 c2 c3 m len (4 * m) (m * N)
      innerFuel 0 _ buf (by omega), rfl, ?_, ?_⟩
    · intro k hk hlt
      omega
    · intro idx _
      rfl
  | succ fuel ih =>
    intro g buf hn hb hf
    by_cases hg : 4 * g < N
    · have e1 : start + m * (4 * g) + m = start + m * (4 * g + 1) := by ring
      have e2 : start + m * (4 * g) + 2 * m = start + m * (4 * g + 2) := by ring
      have e3 : start + m * (4 * g) + 3 * m = start + m * (4 * g + 3) := by ring
      have e4 : start + m * (4 * g) + 4 * m = start + m * (4 * (g + 1)) := by ring
      have hi : start + m * (4 * g) + 3 * m < buf.n := by
        rw [e3, hn, unit_lt m start _ N hstart]
        omega
      have hstep := two_layers_loop_step r1 r2 r3 card c1 c2 c3 m len (m * N) innerFuel
        (fuel + 1) (start + m * (4 * g)) buf hn.symm hm hi hb hlen1 hlen2 hfuel
      rw [e1, e2, e3, e4] at hstep
      obtain ⟨out, hout, hnout, hq, ho⟩ := ih (g + 1)
        ((((buf.set ((start + m * (4 * g) : Nat) : Int)
            (for_loop (butterfly_ct_two_layers_step_body1 r1 r2 r3 card c1 c2 c3) len
              (quad_at buf start m g)).p).set ((start + m * (4 * g + 1) : Nat) : Int)
            (for_loop (butterfly_ct_two_layers_step_body1 r1 r2 r3 card c1 c2 c3) len
              (quad_at buf start m g)).q).set ((start + m * (4 * g + 2) : Nat) : Int)
            (for_loop (butterfly_ct_two_layers_step_body1 r1 r2 r3 card c1 c2 c3) len
              (quad_at buf start m g)).r).set ((start + m * (4 * g + 3) : Nat) : Int)
            (for_loop (butterfly_ct_two_layers_step_body1 r1 r2 r3 card c1 c2 c3) len
              (quad_at buf start m g)).s)
        hn hb (by omega)
      have hset := set4_units buf m start g hm
        (for_loop (butterfly_ct_two_layers_step_body1 r1 r2 r3 card c1 c2 c3) len
          (quad_at buf start m g)).p
        (for_loop (butterfly_ct_two_layers_step_body1 r1 r2 r3 card c1 c2 c3) len
          (quad_at buf start m g)).q
        (for_loop (butterfly_ct_two_layers_step_body1 r1 r2 r3 card c1 c2 c3) len
          (quad_at buf start m g)).r
        (for_loop (butterfly_ct_two_layers_step_body1 r1 r2 r3 card c1 c2 c3) len
          (quad_at buf start m g)).s
      have hquad := quad_at_set4 buf m start g hm
        (for_loop (butterfly_ct_two_layers_step_body1 r1 r2 r3 card c1 c2 c3) len
          (quad_at buf start m g)).p
        (for_loop (butterfly_ct_two_layers_step_body1 r1 r2 r3 card c1 c2 c3) len
          (quad_at buf start m g)).q
        (for_loop (butterfly_ct_two_layers_step_body1 r1 r2 r3 card c1 c2 c3) len
          (quad_at buf start m g)).r
        (for_loop (butterfly_ct_two_layers_step_body1 r1 r2 r3 card c1 c2 c3) len
          (quad_at buf start m g)).s
      refine ⟨out, ?_, hnout, ?_, ?_⟩
      · rw [hstep]
        exact hout
      · intro k hk hlt
        by_cases hkg : k = g
        · subst hkg
          refine ⟨?_, ?_, ?_, ?_⟩
          · rw [ho _ (fun a ha _ => unit_ne m start _ _ hm (by omega)), hset, if_neg (by omega), if_neg (by omega),
              if_neg (by omega), if_pos rfl]
          · rw [ho _ (fun a ha _ => unit_ne m start _ _ hm (by omega)), hset, if_neg (by omega), if_neg (by omega),
              if_pos rfl]
          · rw [ho _ (fun a ha _ => unit_ne m start _ _ hm (by omega)), hset, if_neg (by omega), if_pos rfl]
          · rw [ho _ (fun a ha _ => unit_ne m start _ _ hm (by omega)), hset, if_pos rfl]
        · have h := hq k (by omega) hlt
          rw [hquad k (by omega)] at h
          exact h
      · intro idx hidx
        rw [ho idx (fun a ha hlt => hidx a (by omega) hlt), set4_mem,
          if_neg (hidx (4 * g + 3) (by omega) (by omega)),
          if_neg (hidx (4 * g + 2) (by omega) (by omega)),
          if_neg (hidx (4 * g + 1) (by omega) (by omega)),
          if_neg (hidx (4 * g) (by omega) (by omega))]
    · have h1 : m * N ≤ m * (4 * g) := Nat.mul_le_mul_left m (by omega)
      refine ⟨buf, two_layers_loop_exit r1 r2 r3 card c1 c2 c3 m len (4 * m) (m * N)
        innerFuel (fuel + 1) _ buf (by omega), rfl, ?_, ?_⟩
      · intro k hk hlt
        omega
      · intro idx _
        rfl

/-- The first layer on the quadruples: a single-layer butterfly with group
size `2 m` works on `(4 g, 4 g + 1)` and `(4 g + 2, 4 g + 3)`. -/
theorem first_layer_quads (body : Buf → Buf → Buf × Buf) (m start N f : Nat) (buf : Buffers)
    (hm : 0 < m) (hstart : start < m) (hn : buf.n = m * N) (hN4 : N % 4 = 0)
    (hb : buf.n + 4 * m ≤ 2147483648) (hf : N ≤ f) :
    ∃ out, pair_loop body m (2 * m) (f + 1) (to_int start) buf = some out ∧ out.n = buf.n
      ∧ (∀ g, 4 * g < N →
          out.mem (start + m * (4 * g))
            = (body (buf.mem (start + m * (4 * g))) (buf.mem (start + m * (4 * g + 1)))).1
          ∧ out.mem (start + m * (4 * g + 1))
            = (body (buf.mem (start + m * (4 * g))) (buf.mem (start + m * (4 * g + 1)))).2
          ∧ out.mem (start + m * (4 * g + 2))
            = (body (buf.mem (start + m * (4 * g + 2))) (buf.mem (start + m * (4 * g + 3)))).1
          ∧ out.mem (start + m * (4 * g + 3))
            = (body (buf.mem (start + m * (4 * g + 2))) (buf.mem (start + m * (4 * g + 3)))).2)
      ∧ (∀ idx, (∀ a, a < N → idx ≠ start + m * a) → out.mem idx = buf.mem idx) := by
  have hi0 : to_int start = ((start + m * 0 : Nat) : Int) := by
    rw [to_int_of_lt start (by omega)]
    rfl
  have h2m : m * 2 ≤ 4 * m := by omega
  obtain ⟨out, hrun, hnout, hpairs, hother⟩ := pair_loop_units body m start N 1 2 0 f buf m
    (2 * m) (to_int start) hm hstart hn (by omega) (by omega) (Nat.mul_one m).symm
    (Nat.mul_comm 2 m) hi0 (by omega) (by intro k hk; omega) hf
  refine ⟨out, hrun, hnout, ?_, ?_⟩
  · intro g hg
    have ha := hpairs (2 * g) (by omega)
    have hb := hpairs (2 * g + 1) (by omega)
    have e1 : 0 + 2 * g * 2 = 4 * g := by omega
    have e2 : 0 + (2 * g + 1) * 2 = 4 * g + 2 := by omega
    have e3 : 4 * g + 2 + 1 = 4 * g + 3 := by omega
    rw [e1] at ha
    rw [e2, e3] at hb
    exact ⟨ha.1, ha.2, hb.1, hb.2⟩
  · intro idx hidx
    apply hother
    intro k hk
    exact ⟨hidx _ hk, hidx _ (by omega)⟩

/-- The second layer on the quadruples, first half: a single-layer butterfly
with group size `4 m` from `start` works on `(4 g, 4 g + 2)`. -/
theorem second_layer_even_quads (body : Buf → Buf → Buf × Buf) (m start N f : Nat)
    (buf : Buffers) (hm : 0 < m) (hstart : start < m) (hn : buf.n = m * N) (hN4 : N % 4 = 0)
    (hb : buf.n + 4 * m ≤ 2147483648) (hf : N ≤ f) :
    ∃ out, pair_loop body (2 * m) (4 * m) (f + 1) (to_int start) buf = some out
      ∧ out.n = buf.n
      ∧ (∀ g, 4 * g < N →
          out.mem (start + m * (4 * g))
            = (body (buf.mem (start + m * (4 * g))) (buf.mem (start + m * (4 * g + 2)))).1
          ∧ out.mem (start + m * (4 * g + 1)) = buf.mem (start + m * (4 * g + 1))
          ∧ out.mem (start + m * (4 * g + 2))
            = (body (buf.mem (start + m * (4 * g))) (buf.mem (start + m * (4 * g + 2)))).2
          ∧ out.mem (start + m * (4 * g + 3)) = buf.mem (start + m * (4 * g + 3)))
      ∧ (∀ idx, (∀ a, a < N → idx ≠ start + m * a) → out.mem idx = buf.mem idx) := by
  have hi0 : to_int start = ((start + m * 0 : Nat) : Int) := by
    rw [to_int_of_lt start (by omega)]
    rfl
  have h4m : m * 4 = 4 * m := Nat.mul_comm m 4
  obtain ⟨out, hrun, hnout, hpairs, hother⟩ := pair_loop_units body m start N 2 4 0 f buf
    (2 * m) (4 * m) (to_int start) hm hstart hn (by omega) (by omega) (Nat.mul_comm 2 m)
    (Nat.mul_comm 4 m) hi0 (by omega) (by intro k hk; omega) hf
  refine ⟨out, hrun, hnout, ?_, ?_⟩
  · intro g hg
    have ha := hpairs g (by omega)
    have e1 : 0 + g * 4 = 4 * g := by omega
    rw [e1] at ha
    refine ⟨ha.1, ?_, ha.2, ?_⟩
    · apply hother
      intro k _
      exact ⟨unit_ne m start _ _ hm (by omega), unit_ne m start _ _ hm (by omega)⟩
    · apply hother
      intro k _
      exact ⟨unit_ne m start _ _ hm (by omega), unit_ne m start _ _ hm (by omega)⟩
  · intro idx hidx
    apply hother
    intro k hk
    exact ⟨hidx _ hk, hidx _ (by omega)⟩

/-- The second layer on the quadruples, second half: a single-layer butterfly
with group size `4 m` from `start + m` works on `(4 g + 1, 4 g + 3)`. -/
theorem second_layer_odd_quads (body : Buf → Buf → Buf × Buf) (m start N f : Nat)
    (buf : Buffers) (hm : 0 < m) (hstart : start < m) (hn : buf.n = m * N) (hN4 : N % 4 = 0)
    (hb : buf.n + 4 * m ≤ 2147483648) (hf : N ≤ f) :
    ∃ out, pair_loop body (2 * m) (4 * m) (f + 1) (to_int (start + m)) buf = some out
      ∧ out.n = buf.n
      ∧ (∀ g, 4 * g < N →
          out.mem (start + m * (4 * g)) = buf.mem (start + m * (4 * g))
          ∧ out.mem (start + m * (4 * g + 1))
            = (body (buf.mem (start + m * (4 * g + 1))) (buf.mem (start + m * (4 * g + 3)))).1
          ∧ out.mem (start + m * (4 * g + 2)) = buf.mem (start + m * (4 * g + 2))
          ∧ out.mem (start + m * (4 * g + 3))
            = (body (buf.mem (start + m * (4 * g + 1))) (buf.mem (start + m * (4 * g + 3)))).2)
      ∧ (∀ idx, (∀ a, a < N → idx ≠ start + m * a) → out.mem idx = buf.mem idx) := by
  have hi0 : to_int (start + m) = ((start + m * 1 : Nat) : Int) := by
    rw [to_int_of_lt (start + m) (by omega), Nat.mul_one]
  have h4m : m * 4 = 4 * m := Nat.mul_comm m 4
  obtain ⟨out, hrun, hnout, hpairs, hother⟩ := pair_loop_units body m start N 2 4 1 f buf
    (2 * m) (4 * m) (to_int (start + m)) hm hstart hn (by omega) (by omega)
    (Nat.mul_comm 2 m) (Nat.mul_comm 4 m) hi0 (by omega) (by intro k hk; omega) hf
  refine ⟨out, hrun, hnout, ?_, ?_⟩
  · intro g hg
    have ha := hpairs g (by omega)
    have e1 : 1 + g * 4 = 4 * g + 1 := by omega
    have e3 : 4 * g + 1 + 2 = 4 * g + 3 := by omega
    rw [e1, e3] at ha
    refine ⟨?_, ha.1, ?_, ha.2⟩
    · apply hother
      intro k _
      exact ⟨unit_ne m start _ _ hm (by omega), unit_ne m start _ _ hm (by omega)⟩
    · apply hother
      intro k _
      exact ⟨unit_ne m start _ _ hm (by omega), unit_ne m start _ _ hm (by omega)⟩
  · intro idx hidx
    apply hother
    intro k hk
    exact ⟨hidx _ hk, hidx _ (by omega)⟩

theorem buffers_ext_fields (a b : Buffers) (hn : a.n = b.n) (hmem : ∀ idx, a.mem idx = b.mem idx) :
    a = b := by
  cases a
  cases b
  simp only at hn hmem
  subst hn
  congr 1
  funext idx
  exact hmem idx

theorem single_layers_in_sequence_of (fuel : Nat) (buf : Buffers)
    (r1 r2 r3 start m len card : Nat) (b1 b2 b3 : Buffers)
    (h1 : single_layer_ct fuel r1 buf start m (2 * m) len card = some b1)
    (h2 : single_layer_ct fuel r2 b1 start (2 * m) (4 * m) len card = some b2)
    (h3 : single_layer_ct fuel r3 b2 (start + m) (2 * m) (4 * m) len card = some b3) :
    single_layers_in_sequence fuel buf r1 r2 r3 start m len card = some b3 := by
  unfold single_layers_in_sequence
  rw [h1]
  dsimp only
  rw [h2]
  dsimp only
  exact h3

theorem two_layers_step_unfold (fuel : Nat) (buf : Buffers) (r1 r2 r3 start m len card N : Nat)
    (hn : buf.n = m * N) (hb : buf.n + 4 * m ≤ 2147483648) :
    butterfly_ct_two_layers_step fuel buf r1 r2 r3 start m len card
      = butterfly_ct_two_layers_step_loop r1 r2 r3 card (SET1 r1) (SET1 r2) (SET1 r3) m len
          (4 * m) (m * N) fuel fuel (start + m * (4 * 0)) buf := by
  have hs : (m <<< 2) % 4294967296 = 4 * m := by
    rw [Nat.shiftLeft_eq]
    omega
  have hnb : to_unsigned buf.get_n = m * N := by
    unfold Buffers.get_n
    rw [to_unsigned_natCast _ (by omega)]
    exact hn
  unfold butterfly_ct_two_layers_step
  dsimp only
  rw [hs, hnb]
  simp only [Nat.mul_zero, Nat.add_zero]

/-- C11: on buffers whose count is a multiple of `4 m`, with `0 < m`,
`start < m` and `len >= 1`, `butterfly_ct_two_layers_step` returns, and leaves
the buffers equal to the result of the single-layer butterflies run in
sequence: twiddle `r1` on the pairs at distance `m` (group size `2 m`), then
twiddle `r2` on the pairs `(buf[i], buf[i + 2 m])` and twiddle `r3` on the
pairs `(buf[i + m], buf[i + 3 m])` (group size `4 m`), each single layer being
`butterfly_ct_1`, `butterfly_ct_3` or `butterfly_ct_2` according to its
twiddle.  The number of registers `len` is arbitrary, so both the loop over two
registers at a time and its remainder loop are covered; the equality holds for
every `card`, every twiddle and every buffer content. -/
theorem butterfly_ct_two_layers_step_eq_single_layers (fuel : Nat) (buf : Buffers)
    (r1 r2 r3 start m len card : Nat)
    (hm : 0 < m) (hstart : start < m) (hdiv : 4 * m ∣ buf.n)
    (hb : buf.n + 4 * m ≤ 2147483648)
    (hlen1 : 1 ≤ len) (hlen2 : len < 18446744073709551616) (hfuel : buf.n + len < fuel) :
    ∃ out, butterfly_ct_two_layers_step fuel buf r1 r2 r3 start m len card = some out
      ∧ single_layers_in_sequence fuel buf r1 r2 r3 start m len card = some out := by
  obtain ⟨G, hG⟩ := hdiv
  have hn : buf.n = m * (4 * G) := by
    rw [hG]
    ring
  have hN4 : (4 * G) % 4 = 0 := by omega
  have hNle : 4 * G ≤ buf.n := by
    rw [hn]
    exact Nat.le_mul_of_pos_left _ hm
  obtain ⟨f, rfl⟩ : ∃ f, fuel = f + 1 := ⟨fuel - 1, by omega⟩
  have hf : 4 * G ≤ f := by omega
  -- the two-layer routine
  obtain ⟨outA, hrunA, hnA, hquadA, hotherA⟩ := two_layers_loop_spec r1 r2 r3 card
    (SET1 r1) (SET1 r2) (SET1 r3) m start len (4 * G) (f + 1) hm hstart hN4 hlen1 hlen2
    (by omega) f 0 buf hn hb (by omega)
  -- the three single layers
  have hR : ∀ r card c x y, BUTTERFLY_R1 r card c x y
      = EITHER (r == 1) (BUTTERFLY_1 x y card)
          (EITHER (decide (r < (card + 4294967295) % 4294967296)) (BUTTERFLY_3 c x y card)
            (BUTTERFLY_2 x y card)) := fun _ _ _ _ _ => rfl
  have hR2 : BUTTERFLY_R2 = BUTTERFLY_R1 := rfl
  have hR3 : BUTTERFLY_R3 = BUTTERFLY_R1 := rfl
  obtain ⟨b1, hrun1, hn1, hquad1, hother1⟩ := first_layer_quads
    (fun a b => on_registers (BUTTERFLY_R1 r1 card (SET1 r1)) len a b) m start (4 * G) f buf
    hm hstart hn hN4 hb hf
  obtain ⟨b2, hrun2, hn2, hquad2, hother2⟩ := second_layer_even_quads
    (fun a b => on_registers (BUTTERFLY_R1 r2 card (SET1 r2)) len a b) m start (4 * G) f b1
    hm hstart (hn1.trans hn) hN4 (by rw [hn1]; exact hb) hf
  obtain ⟨b3, hrun3, hn3, hquad3, hother3⟩ := second_layer_odd_quads
    (fun a b => on_registers (BUTTERFLY_R1 r3 card (SET1 r3)) len a b) m start (4 * G) f b2
    hm hstart (hn2.trans (hn1.trans hn)) hN4 (by rw [hn2, hn1]; exact hb) hf
  have hseq : single_layers_in_sequence (f + 1) buf r1 r2 r3 start m len card = some b3 := by
    apply single_layers_in_sequence_of (f + 1) buf r1 r2 r3 start m len card b1 b2 b3
    · rw [single_layer_ct_eq BUTTERFLY_R1 hR]
      exact hrun1
    · rw [single_layer_ct_eq BUTTERFLY_R1 hR]
      exact hrun2
    · rw [single_layer_ct_eq BUTTERFLY_R1 hR]
      exact hrun3
  have hrun : butterfly_ct_two_layers_step (f + 1) buf r1 r2 r3 start m len card
      = some outA := by
    rw [two_layers_step_unfold (f + 1) buf r1 r2 r3 start m len card (4 * G) hn hb]
    exact hrunA
  have heq : outA = b3 := by
    apply buffers_ext_fields
    · rw [hnA, hn3, hn2, hn1]
    · intro idx
      by_cases hex : ∃ a, a < 4 * G ∧ idx = start + m * a
      · obtain ⟨a, ha, rfl⟩ := hex
        obtain ⟨g, c, hc, rfl⟩ : ∃ g c, c < 4 ∧ a = 4 * g + c :=
          ⟨a / 4, a % 4, by omega, by omega⟩
        have hg : 4 * g < 4 * G := by omega
        have hA := hquadA g (Nat.zero_le _) hg
        rw [two_layers_for_loop, hR2, hR3] at hA
        have h1 := hquad1 g hg
        have h2 := hquad2 g hg
        have h3 := hquad3 g hg
        have hc4 : c = 0 ∨ c = 1 ∨ c = 2 ∨ c = 3 := by omega
        rcases hc4 with h0 | h0 | h0 | h0
        · subst h0
          rw [Nat.add_zero, hA.1, h3.1, h2.1, h1.1, h1.2.2.1]
          rfl
        · subst h0
          rw [hA.2.1, h3.2.1, h2.2.1, h2.2.2.2, h1.2.1, h1.2.2.2]
          rfl
        · subst h0
          rw [hA.2.2.1, h3.2.2.1, h2.2.2.1, h1.1, h1.2.2.1]
          rfl
        · subst h0
          rw [hA.2.2.2, h3.2.2.2, h2.2.1, h2.2.2.2, h1.2.1, h1.2.2.2]
          rfl
      · have hno : ∀ a, a < 4 * G → idx ≠ start + m * a := by
          intro a ha he
          exact hex ⟨a, ha, he⟩
        rw [hotherA idx (fun a _ ha => hno a ha), hother3 idx hno, hother2 idx hno,
          hother1 idx hno]
  exact ⟨outA, hrun, by rw [heq]; exact hseq⟩

/-- Witness of C11: four buffers of one register each over `F4`, with twiddles
`1`, `2` and `65536`. -/
theorem butterfly_ct_two_layers_step_eq_single_layers_witness :
    ∃ out, butterfly_ct_two_layers_step 6 { n := 4, mem := fun i e => i + e } 1 2 65536 0 1 1
          65537 = some out
      ∧ single_layers_in_sequence 6 { n := 4, mem := fun i e => i + e } 1 2 65536 0 1 1
          65537 = some out :=
  butterfly_ct_two_layers_step_eq_single_layers 6 { n := 4, mem := fun i e => i + e }
    1 2 65536 0 1 1 65537 (by decide) (by decide) ⟨1, rfl⟩ (by decide) (by decide) (by decide)
    (by decide)

end two_layers

/-! ## The kernels `add` and `mul` of `simd_256_u32.h` on one lane -/

section kernels
open simd_256_u32

theorem to_int_small (v : Nat) (h : v < 2147483648) : to_int v = (v : Int) :=
  to_int_of_lt v h

theorem and_card_mask (c : Nat) (p : Prop) [Decidable p] (hc : c < 4294967296) :
    c &&& (if p then 4294967295 else 0) = if p then c else 0 := by
  by_cases hp : p
  · rw [if_pos hp, if_pos hp]
    exact Nat.and_pow_two_sub_one_of_lt_two_pow (n := 32) hc
  · rw [if_neg hp, if_neg hp, Nat.and_zero]

/-- Lane formula of `add`: the sum, less `card` when it exceeds `card - 1`. -/
theorem add_lane (a b : m256i) (card : Nat) (i : Fin 8) (hc : 0 < card)
    (hc2 : card ≤ 1073741824) (ha : a i < card) (hb : b i < card) :
    add a b card i = (a i + b i) % card := by
  have hs : (a i + b i) % 4294967296 = a i + b i := by omega
  have h1 : to_int ((a i + b i) % 4294967296) = ((a i + b i : Nat) : Int) := by
    rw [hs]
    exact to_int_of_lt _ (by omega)
  have h2 : to_int ((card + 4294967295) % 4294967296 % 4294967296)
      = ((card - 1 : Nat) : Int) := by
    have e : (card + 4294967295) % 4294967296 % 4294967296 = card - 1 := by omega
    rw [e]
    exact to_int_of_lt _ (by omega)
  have hcm : card % 4294967296 = card := by omega
  simp only [add, mod_after_add, mm256_add_epi32, mm256_sub_epi32, mm256_and_si256,
    mm256_cmpgt_epi32, mm256_set1_epi32, h1, h2, hcm]
  rw [and_card_mask card _ (by omega)]
  by_cases hgt : ((a i + b i : Nat) : Int) > ((card - 1 : Nat) : Int)
  · rw [if_pos hgt]
    have hge : card ≤ a i + b i := by omega
    have e : (a i + b i) % card = a i + b i - card := by
      rw [Nat.mod_eq_sub_mod hge]
      exact Nat.mod_eq_of_lt (by omega)
    rw [e]
    omega
  · rw [if_neg hgt]
    have hlt : a i + b i < card := by omega
    rw [Nat.mod_eq_of_lt hlt]
    omega

theorem srli1_low_byte (r : m256i) (i : Fin 8) :
    mm256_srli_si256 r 1 i % 256 = r i % 4294967296 / 256 % 256 := by
  fin_cases i <;> simp [mm256_srli_si256, half128] <;> omega

theorem and_65535 (x : Nat) : x &&& 65535 = x % 65536 :=
  Nat.and_pow_two_sub_one_eq_mod x 16

theorem and_255 (x : Nat) : x &&& 255 = x % 256 :=
  Nat.and_pow_two_sub_one_eq_mod x 8

/-- Lane formula of `mod_after_multiply_f4`: low word minus high word, plus
`F4` when the high word is the larger. -/
theorem mod_after_multiply_f4_lane (c : m256i) (i : Fin 8) :
    mod_after_multiply_f4 c i
      = if c i % 4294967296 / 65536 > c i % 65536 then
          c i % 65536 + 65537 - c i % 4294967296 / 65536
        else c i % 65536 - c i % 4294967296 / 65536 := by
  have hm : (F4 - 2) % 4294967296 = 65535 := rfl
  have hF : F4_m256i i = 65537 := rfl
  have hlo : c i % 65536 < 65536 := Nat.mod_lt _ (by decide)
  have hhi : c i % 4294967296 / 65536 < 65536 := by omega
  simp only [mod_after_multiply_f4, mm256_add_epi32, mm256_sub_epi32, mm256_and_si256,
    mm256_cmpgt_epi32, mm256_set1_epi32, hm, hF, and_65535, srli2_low_word]
  rw [to_int_of_lt _ (by omega), to_int_of_lt _ (by omega),
    and_card_mask 65537 _ (by decide)]
  by_cases hgt : ((c i % 4294967296 / 65536 : Nat) : Int) > ((c i % 65536 : Nat) : Int)
  · have hgt2 : c i % 4294967296 / 65536 > c i % 65536 := by omega
    rw [if_pos hgt, if_pos hgt2]
    omega
  · have hgt2 : ¬ (c i % 4294967296 / 65536 > c i % 65536) := by omega
    rw [if_neg hgt, if_neg hgt2]
    omega

/-- Lane formula of `mod_after_multiply_f3`: low byte minus second byte, plus
`F3` when the second byte is the larger. -/
theorem mod_after_multiply_f3_lane (c : m256i) (i : Fin 8) :
    mod_after_multiply_f3 c i
      = if c i % 4294967296 / 256 % 256 > c i % 256 then
          c i % 256 + 257 - c i % 4294967296 / 256 % 256
        else c i % 256 - c i % 4294967296 / 256 % 256 := by
  have hm : (F3 - 2) % 4294967296 = 255 := rfl
  have hF : F3_m256i i = 257 := rfl
  have hlo : c i % 256 < 256 := Nat.mod_lt _ (by decide)
  have hhi : c i % 4294967296 / 256 % 256 < 256 := Nat.mod_lt _ (by decide)
  simp only [mod_after_multiply_f3, mm256_add_epi32, mm256_sub_epi32, mm256_and_si256,
    mm256_cmpgt_epi32, mm256_set1_epi32, hm, hF, and_255, srli1_low_byte]
  rw [to_int_of_lt _ (by omega), to_int_of_lt _ (by omega),
    and_card_mask 257 _ (by decide)]
  by_cases hgt : ((c i % 4294967296 / 256 % 256 : Nat) : Int) > ((c i % 256 : Nat) : Int)
  · have hgt2 : c i % 4294967296 / 256 % 256 > c i % 256 := by omega
    rw [if_pos hgt, if_pos hgt2]
    omega
  · have hgt2 : ¬ (c i % 4294967296 / 256 % 256 > c i % 256) := by omega
    rw [if_neg hgt, if_neg hgt2]
    omega

theorem split16_signed (p : Nat) (hp : p < 4294967296) :
    (if p % 4294967296 / 65536 > p % 65536 then p % 65536 + 65537 - p % 4294967296 / 65536
      else p % 65536 - p % 4294967296 / 65536) = p % 65537 := by
  have h1 : p % 4294967296 = p := Nat.mod_eq_of_lt hp
  rw [h1]
  by_cases h : p / 65536 > p % 65536
  · rw [if_pos h]
    omega
  · rw [if_neg h]
    omega

theorem split8_signed (p : Nat) (hp : p < 65536) :
    (if p % 4294967296 / 256 % 256 > p % 256 then p % 256 + 257 - p % 4294967296 / 256 % 256
      else p % 256 - p % 4294967296 / 256 % 256) = p % 257 := by
  have h1 : p % 4294967296 / 256 % 256 = p / 256 := by omega
  rw [h1]
  by_cases h : p / 256 > p % 256
  · rw [if_pos h]
    omega
  · rw [if_neg h]
    omega

/-- The kernel `mul_f4` is exact on every lane with operands in `[0, 65536]`. -/
theorem mul_f4_lane (a b : m256i) (i : Fin 8) (ha : a i ≤ 65536) (hb : b i ≤ 65536) :
    mul_f4 a b i = (a i * b i) % 65537 := by
  have hF : ∀ j, F4minus1_m256i j = 65536 := fun _ => rfl
  have e0 : mul_f4 a b = mod_after_multiply_f4 (mm256_add_epi32 (mm256_mullo_epi32 a b)
      (mm256_and_si256 (mm256_set1_epi32 1) (mm256_and_si256
        (mm256_cmpeq_epi32 a F4minus1_m256i) (mm256_cmpeq_epi32 b F4minus1_m256i)))) := rfl
  rw [e0, mod_after_multiply_f4_lane]
  simp only [mm256_add_epi32, mm256_and_si256, mm256_cmpeq_epi32, mm256_set1_epi32,
    mm256_mullo_epi32, hF, and_one_mask]
  by_cases h : a i = 65536 ∧ b i = 65536
  · rw [if_pos h, h.1, h.2]
    decide
  · rw [if_neg h]
    have hp : a i * b i ≤ 4294901760 := mul_le_of_one_small (a i) (b i) ha hb (by omega)
    have e : (a i * b i % 4294967296 + 0) % 4294967296 = a i * b i := by omega
    rw [e]
    exact split16_signed _ (by omega)

/-- The kernel `mul_f3` is exact on every lane with operands in `[0, 256]`. -/
theorem mul_f3_lane (a b : m256i) (i : Fin 8) (ha : a i ≤ 256) (hb : b i ≤ 256) :
    mul_f3 a b i = (a i * b i) % 257 := by
  have hF : ∀ j, F3minus1_m256i j = 256 := fun _ => rfl
  have hF4 : ∀ j, F4_m256i j = 65537 := fun _ => rfl
  have e0 : mul_f3 a b = mod_after_multiply_f3 (mm256_xor_si256 (mm256_mullo_epi32 a b)
      (mm256_and_si256 F4_m256i (mm256_and_si256
        (mm256_cmpeq_epi32 a F3minus1_m256i) (mm256_cmpeq_epi32 b F3minus1_m256i)))) := rfl
  rw [e0, mod_after_multiply_f3_lane]
  simp only [mm256_xor_si256, mm256_and_si256, mm256_cmpeq_epi32,
    mm256_mullo_epi32, hF, hF4, and_F4_mask]
  by_cases h : a i = 256 ∧ b i = 256
  · rw [if_pos h, h.1, h.2]
    decide
  · rw [if_neg h]
    have hp : a i * b i ≤ 65280 := by
      rcases Nat.lt_or_ge (a i) 256 with h1 | h1
      · calc a i * b i ≤ 255 * 256 := Nat.mul_le_mul (by omega) hb
          _ = 65280 := by norm_num
      · have h2 : b i ≤ 255 := by omega
        calc a i * b i ≤ 256 * 255 := Nat.mul_le_mul ha h2
          _ = 65280 := by norm_num
    have e : a i * b i % 4294967296 ^^^ 0 = a i * b i := by
      rw [Nat.xor_zero]
      omega
    rw [e]
    exact split8_signed _ (by omega)

end kernels

section kernels2
open simd_256_u32

/-- C34: for card = F4 and lane values x, y in `[0, 65536]`, in both headers the
unchecked kernel `MUL_MOD` agrees with the full kernel `MULFULL_MOD` on a lane
if and only if x and y are not both 65536; for x = y = 65536 `MUL_MOD` returns
0 while `MULFULL_MOD` returns 1. -/
theorem MUL_MOD_eq_MULFULL_MOD_iff (x y : m256i) (i : Fin 8)
    (hx : x i ≤ 65536) (hy : y i ≤ 65536) :
    (simd_256_u32.MUL_MOD x y F4 i = simd_256_u32.MULFULL_MOD x y F4 i
        ↔ ¬ (x i = 65536 ∧ y i = 65536))
    ∧ (simd_basic.MUL_MOD x y F4 i = simd_basic.MULFULL_MOD x y F4 i
        ↔ ¬ (x i = 65536 ∧ y i = 65536))
    ∧ (x i = 65536 ∧ y i = 65536 →
        simd_256_u32.MUL_MOD x y F4 i = 0 ∧ simd_256_u32.MULFULL_MOD x y F4 i = 1
        ∧ simd_basic.MUL_MOD x y F4 i = 0 ∧ simd_basic.MULFULL_MOD x y F4 i = 1) := by
  have hfu := u32_MULFULL_MOD_F4_lane x y i hx hy
  have hfb := basic_MULFULL_MOD_F4_lane x y i hx hy
  have hcu : simd_256_u32.CARD F4 i = 65537 := rfl
  have hcb : simd_basic.CARD F4 i = 65537 := rfl
  have hboth : x i = 65536 ∧ y i = 65536 →
      simd_256_u32.MUL_MOD x y F4 i = 0 ∧ simd_256_u32.MULFULL_MOD x y F4 i = 1
      ∧ simd_basic.MUL_MOD x y F4 i = 0 ∧ simd_basic.MULFULL_MOD x y F4 i = 1 := by
    intro h
    refine ⟨?_, ?_, ?_, ?_⟩
    · rw [u32_MUL_MOD_eq, u32_SUB_MOD_eq, hcu, h.1, h.2]
      decide
    · rw [hfu, h.1, h.2]
    · rw [basic_MUL_MOD_eq x y F4 F4_ne_F3 i, basic_SUB_MOD_eq, hcb, h.1, h.2]
      decide
    · rw [hfb, h.1, h.2]
  refine ⟨?_, ?_, hboth⟩
  · constructor
    · intro he h
      obtain ⟨h1, h2, -, -⟩ := hboth h
      rw [h1, h2] at he
      exact absurd he (by decide)
    · intro h
      rw [hfu, u32_MUL_MOD_F4_lane x y i hx hy (by omega)]
  · constructor
    · intro he h
      obtain ⟨-, -, h1, h2⟩ := hboth h
      rw [h1, h2] at he
      exact absurd he (by decide)
    · intro h
      rw [hfb, basic_MUL_MOD_F4_lane x y i hx hy (by omega)]

theorem MUL_MOD_eq_MULFULL_MOD_iff_witness :
    simd_256_u32.MUL_MOD (fun _ => 65536) (fun _ => 65536) F4 0 = 0
      ∧ simd_256_u32.MULFULL_MOD (fun _ => 65536) (fun _ => 65536) F4 0 = 1
      ∧ simd_basic.MUL_MOD (fun _ => 65536) (fun _ => 65536) F4 0 = 0
      ∧ simd_basic.MULFULL_MOD (fun _ => 65536) (fun _ => 65536) F4 0 = 1 :=
  (MUL_MOD_eq_MULFULL_MOD_iff (fun _ => 65536) (fun _ => 65536) 0 (Nat.le_refl _)
    (Nat.le_refl _)).2.2 ⟨rfl, rfl⟩

/-- The kernel `mul` is exact for both cardinalities, and for F4 the kernel
`MULFULL_MOD` of the same header agrees with it. -/
theorem mul_exact (a b : m256i) (card : Nat) (hq : card = F3 ∨ card = F4)
    (ha : ∀ i, a i < card) (hb : ∀ i, b i < card) :
    ∃ r, mul a b card = some r ∧ (∀ i, r i = (a i * b i) % card)
      ∧ (card = F4 → ∀ i, MULFULL_MOD a b card i = r i) := by
  rcases hq with rfl | rfl
  · refine ⟨mul_f3 a b, rfl, fun i => ?_, fun h => absurd h (by decide)⟩
    have h1 := ha i
    have h2 := hb i
    have e : F3 = 257 := rfl
    rw [e] at h1 h2 ⊢
    exact mul_f3_lane a b i (by omega) (by omega)
  · refine ⟨mul_f4 a b, rfl, fun i => ?_, fun _ i => ?_⟩
    · have h1 := ha i
      have h2 := hb i
      have e : F4 = 65537 := rfl
      rw [e] at h1 h2 ⊢
      exact mul_f4_lane a b i (by omega) (by omega)
    · have h1 := ha i
      have h2 := hb i
      have e : F4 = 65537 := rfl
      rw [e] at h1 h2
      rw [u32_MULFULL_MOD_F4_lane a b i (by omega) (by omega),
        mul_f4_lane a b i (by omega) (by omega)]

/-- C35 (evaluation of the code): with card = F3 and the lanes a = 2, b = 200
(both below 257), `mul` (that is `mul_f3`, which splits the product into 8-bit
parts) returns `(2 * 200) mod 257 = 143` in every lane, while `MULFULL_MOD` of
the same header, which keeps the 16-bit split for F3, returns 400. -/
theorem mul_ne_MULFULL_MOD_F3 :
    (∃ r, mul (fun _ => 2) (fun _ => 200) F3 = some r ∧ ∀ i, r i = 143)
      ∧ (∀ i, MULFULL_MOD (fun _ => 2) (fun _ => 200) F3 i = 400)
      ∧ (2 * 200) % 257 = 143 := by
  have h2 : ∀ i : Fin 8, (fun _ => 2 : m256i) i < F3 := by
    intro i
    show 2 < 257
    decide
  have h200 : ∀ i : Fin 8, (fun _ => 200 : m256i) i < F3 := by
    intro i
    show 200 < 257
    decide
  obtain ⟨r, hr, hlane, -⟩ := mul_exact (fun _ => 2) (fun _ => 200) F3 (Or.inl rfl) h2 h200
  refine ⟨⟨r, hr, fun i => ?_⟩, fun i => ?_, by decide⟩
  · rw [hlane i]
    decide
  · have hc : simd_256_u32.CARD F3 i = 257 := rfl
    rw [u32_MULFULL_MOD_F3_eq, u32_SUB_MOD_eq, hc]
    decide

end kernels2

/-! ## The reductions on packed 16-bit lanes -/

theorem lane16_even (x : m256i) (k : Fin 16) (h : k.val % 2 = 0) :
    lane16 x k = x ⟨k.val / 2, by have := k.isLt; omega⟩ % 65536 := by
  have e : (65536 : Nat) ^ (k.val % 2) = 1 := by rw [h, Nat.pow_zero]
  unfold lane16
  rw [e, Nat.div_one]

theorem lane16_odd (x : m256i) (k : Fin 16) (h : k.val % 2 = 1) :
    lane16 x k = x ⟨k.val / 2, by have := k.isLt; omega⟩ / 65536 % 65536 := by
  have e : (65536 : Nat) ^ (k.val % 2) = 65536 := by rw [h, Nat.pow_one]
  unfold lane16
  rw [e]

theorem low_word_mk (A B : Nat) (hA : A < 65536) : (A + 65536 * B) % 65536 = A := by
  omega

theorem high_word_mk (A B : Nat) (hA : A < 65536) (hB : B < 65536) :
    (A + 65536 * B) / 65536 % 65536 = B := by
  omega

theorem add16_low (x y : m256i) (i : Fin 8) :
    mm256_add_epi16 x y i % 65536 = (x i % 65536 + y i % 65536) % 65536 :=
  low_word_mk _ _ (Nat.mod_lt _ (by decide))

theorem add16_high (x y : m256i) (i : Fin 8) :
    mm256_add_epi16 x y i / 65536 % 65536
      = (x i / 65536 % 65536 + y i / 65536 % 65536) % 65536 :=
  high_word_mk _ _ (Nat.mod_lt _ (by decide)) (Nat.mod_lt _ (by decide))

theorem sub16_low (x y : m256i) (i : Fin 8) :
    mm256_sub_epi16 x y i % 65536 = (x i % 65536 + (65536 - y i % 65536)) % 65536 :=
  low_word_mk _ _ (Nat.mod_lt _ (by decide))

theorem sub16_high (x y : m256i) (i : Fin 8) :
    mm256_sub_epi16 x y i / 65536 % 65536
      = (x i / 65536 % 65536 + (65536 - y i / 65536 % 65536)) % 65536 :=
  high_word_mk _ _ (Nat.mod_lt _ (by decide)) (Nat.mod_lt _ (by decide))

theorem min16_low (x y : m256i) (i : Fin 8) :
    mm256_min_epu16 x y i % 65536 = min (x i % 65536) (y i % 65536) :=
  low_word_mk _ _ (lt_of_le_of_lt (Nat.min_le_left _ _) (Nat.mod_lt _ (by decide)))

theorem min16_high (x y : m256i) (i : Fin 8) :
    mm256_min_epu16 x y i / 65536 % 65536
      = min (x i / 65536 % 65536) (y i / 65536 % 65536) :=
  high_word_mk _ _ (lt_of_le_of_lt (Nat.min_le_left _ _) (Nat.mod_lt _ (by decide)))
    (lt_of_le_of_lt (Nat.min_le_left _ _) (Nat.mod_lt _ (by decide)))

/-- The branchless reduction of a sum of two values of `[0, 256]` on 16 bits. -/
theorem add_mod_u16_word (a b : Nat) (ha : a ≤ 256) (hb : b ≤ 256) :
    min ((a + b) % 65536) (((a + b) % 65536 + (65536 - 257)) % 65536) = (a + b) % 257 := by
  have e1 : (a + b) % 65536 = a + b := by omega
  rw [e1]
  rcases Nat.lt_or_ge (a + b) 257 with h | h
  · have e2 : (a + b + (65536 - 257)) % 65536 = a + b + 65279 := by omega
    rw [e2, min_eq_left (by omega)]
    omega
  · have e2 : (a + b + (65536 - 257)) % 65536 = a + b - 257 := by omega
    rw [e2, min_eq_right (by omega)]
    omega

/-- The branchless reduction of a difference of two values of `[0, 256]` on 16
bits. -/
theorem sub_mod_u16_word (a b : Nat) (ha : a ≤ 256) (hb : b ≤ 256) :
    ((min ((a + (65536 - b)) % 65536) (((a + 257) % 65536 + (65536 - b)) % 65536) : Nat) : Int)
      = ((a : Int) - (b : Int)) % 257 := by
  rcases Nat.lt_or_ge a b with h | h
  · have e1 : (a + (65536 - b)) % 65536 = a + 65536 - b := by omega
    have e2 : ((a + 257) % 65536 + (65536 - b)) % 65536 = a + 257 - b := by omega
    rw [e1, e2, min_eq_right (by omega)]
    omega
  · have e1 : (a + (65536 - b)) % 65536 = a - b := by omega
    have e2 : ((a + 257) % 65536 + (65536 - b)) % 65536 = a + 257 - b := by omega
    rw [e1, e2, min_eq_left (by omega)]
    omega

/-- C36: on packed 16-bit lanes over F3, for lane values x, y in `[0, 256]` the
`uint16_t` overloads give `ADD_MOD(x, y) = (x + y) mod 257` and
`SUB_MOD(x, y) = (x - y) mod 257`, every intermediate value being taken modulo
`2^16` by the 16-bit operations. -/
theorem u16_ADD_SUB_MOD_exact (x y : m256i) (q : Nat) (k : Fin 16)
    (hx : lane16 x k ≤ 256) (hy : lane16 y k ≤ 256) :
    lane16 (simd_basic.u16.ADD_MOD x y q) k = (lane16 x k + lane16 y k) % 257
    ∧ ((lane16 (simd_basic.u16.SUB_MOD x y q) k : Nat) : Int)
        = ((lane16 x k : Int) - (lane16 y k : Int)) % 257 := by
  have hF : ∀ i : Fin 8, simd_basic.u16.F3_u16 i = 257 + 65536 * 257 := fun _ => rfl
  have hFl : (257 + 65536 * 257) % 65536 = 257 := by norm_num
  have hFh : (257 + 65536 * 257) / 65536 % 65536 = 257 := by norm_num
  have hk : k.val % 2 = 0 ∨ k.val % 2 = 1 := by omega
  rcases hk with h | h
  · rw [lane16_even _ k h] at hx hy ⊢
    rw [lane16_even _ k h, lane16_even _ k h, lane16_even _ k h]
    simp only [simd_basic.u16.ADD_MOD, simd_basic.u16.SUB_MOD, simd_basic.u16.ADD16,
      simd_basic.u16.SUB16, simd_basic.u16.MINU16, min16_low, sub16_low, add16_low, hF, hFl]
    exact ⟨add_mod_u16_word _ _ hx hy, sub_mod_u16_word _ _ hx hy⟩
  · rw [lane16_odd _ k h] at hx hy ⊢
    rw [lane16_odd _ k h, lane16_odd _ k h, lane16_odd _ k h]
    simp only [simd_basic.u16.ADD_MOD, simd_basic.u16.SUB_MOD, simd_basic.u16.ADD16,
      simd_basic.u16.SUB16, simd_basic.u16.MINU16, min16_high, sub16_high, add16_high, hF, hFh]
    exact ⟨add_mod_u16_word _ _ hx hy, sub_mod_u16_word _ _ hx hy⟩

theorem u16_ADD_SUB_MOD_exact_witness :
    lane16 (simd_basic.u16.ADD_MOD (fun _ => 256 + 65536 * 256) (fun _ => 256 + 65536 * 256)
        257) 1 = (256 + 256) % 257
    ∧ ((lane16 (simd_basic.u16.SUB_MOD (fun _ => 0) (fun _ => 256 + 65536 * 256) 257) 1 : Nat)
        : Int) = ((0 : Int) - 256) % 257 :=
  ⟨(u16_ADD_SUB_MOD_exact (fun _ => 256 + 65536 * 256) (fun _ => 256 + 65536 * 256) 257 1
      (by norm_num [lane16]) (by norm_num [lane16])).1,
   (u16_ADD_SUB_MOD_exact (fun _ => 0) (fun _ => 256 + 65536 * 256) 257 1
      (by norm_num [lane16]) (by norm_num [lane16])).2⟩

/-! ## The routines on buffers of 128-bit elements -/

section aint128
open simd_256_u32

theorem for_loop_id {σ : Type} (n : Nat) (s : σ) : for_loop (fun _ (x : σ) => x) n s = s := by
  induction n with
  | zero => rfl
  | succ n ih => exact ih

theorem for_from_id {σ : Type} (first last : Nat) (s : σ) :
    for_from (fun _ (x : σ) => x) first last s = s := by
  unfold for_from
  exact for_loop_id _ s

/-- A loop of register stores at the 32-bit offsets `base + 8 i`, each computed
from the register read at the same place. -/
theorem for_loop_store_at (g : Nat → m256i → m256i) (base : Nat) (dest : Buf) :
    ∀ (n e : Nat),
      for_loop (fun i d => store_at d (base + 8 * i) (g i (load_at d (base + 8 * i)))) n dest e
        = if base ≤ e ∧ e < base + 8 * n then
            g ((e - base) / 8) (load_at dest (base + 8 * ((e - base) / 8)))
              ⟨(e - base) % 8, Nat.mod_lt _ (by decide)⟩
          else dest e := by
  intro n
  induction n with
  | zero =>
    intro e
    rw [if_neg (by omega)]
    rfl
  | succ n ih =>
    intro e
    have hL : load_at (for_loop (fun i d =>
        store_at d (base + 8 * i) (g i (load_at d (base + 8 * i)))) n dest) (base + 8 * n)
        = load_at dest (base + 8 * n) := by
      funext l
      have := l.isLt
      simp only [load_at]
      rw [ih, if_neg (by omega)]
    simp only [for_loop, store_at, hL]
    by_cases he : base + 8 * n ≤ e ∧ e < base + 8 * n + 8
    · have h1 : (e - base) / 8 = n := by omega
      have h2 : (e - (base + 8 * n)) % 8 = (e - base) % 8 := by omega
      rw [if_pos he, if_pos (by omega)]
      simp only [h1, h2]
    · rw [if_neg he, ih]
      by_cases h2 : base ≤ e ∧ e < base + 8 * n
      · rw [if_pos h2, if_pos (by omega)]
      · rw [if_neg h2, if_neg (by omega)]

theorem aligned_at_even (len_y i : Nat) (h : len_y % 2 = 0) :
    aligned_at (4 * len_y + 8 * i) = true := by
  unfold aligned_at ALIGN_SIZE
  rw [decide_eq_true_eq]
  omega

theorem aligned_at_odd (len_y i : Nat) (h : len_y % 2 = 1) :
    aligned_at (4 * len_y + 8 * i) = false := by
  unfold aligned_at ALIGN_SIZE
  rw [decide_eq_false_iff_not]
  omega

theorem misaligned_loop (c : Nat → Bool) (f : Nat → Buf → Buf) (hc : ∀ i, c i = false)
    (k : Nat) (s : Option Buf) :
    for_loop (fun i (d : Option Buf) =>
        d.bind (fun d => if c i = true then some (f i d) else none)) (k + 1) s = none := by
  show (for_loop (fun i (d : Option Buf) =>
        d.bind (fun d => if c i = true then some (f i d) else none)) k s).bind
      (fun d => if c k = true then some (f k d) else none) = none
  rw [hc k]
  cases for_loop (fun i (d : Option Buf) =>
      d.bind (fun d => if c i = true then some (f i d) else none)) k s with
  | none => rfl
  | some d => rfl

theorem option_map_self_loop (f : Nat → Buf → Buf) (hf : ∀ i x, f i x = x)
    (first last : Nat) (s : Option Buf) :
    for_from (fun i (x : Option Buf) => x.map (f i)) first last s = s := by
  have hbody : (fun i (x : Option Buf) => x.map (f i)) = (fun _ (x : Option Buf) => x) := by
    funext i x
    cases x with
    | none => rfl
    | some x => simp [hf]
  rw [hbody]
  exact for_from_id first last s

/-- What `add_buf_to_two_bufs` does to every 32-bit word of `_x`.  When `n/2`
is even, or below 2, the call returns: the words of the elements
`0 .. 2 (n/2/2) - 1` of each half receive the sum modulo `card`, every other
word, among which the last element of each half when `n/2` is odd, is left as
it was.  When `n/2` is odd and at least 3, the register access through `x_next`
is misaligned. -/
theorem add_buf_to_two_bufs_words (n : Nat) (x y : Buf) (card : Nat) (hc : 0 < card)
    (hc2 : card ≤ 1073741824) (hx : ∀ e, e < 8 * (n / 2) → x e < card)
    (hy : ∀ e, e < 4 * (n / 2) → y e < card) :
    ((n / 2) % 2 = 0 ∨ n / 2 / 2 = 0 →
      ∃ out, add_buf_to_two_bufs n x y card = some out
        ∧ ∀ e, out e
          = if e < 8 * (n / 2 / 2) then (x e + y e) % card
            else if 4 * (n / 2) ≤ e ∧ e < 4 * (n / 2) + 8 * (n / 2 / 2) then
              (x e + y (e - 4 * (n / 2))) % card
            else x e)
    ∧ ((n / 2) % 2 = 1 → 0 < n / 2 / 2 → add_buf_to_two_bufs n x y card = none) := by
  have hlast : ∀ s : Option Buf,
      for_from (fun i (x : Option Buf) =>
        x.map (fun x =>
          let _x_p := mm256_castsi128_si256 (load_aint128 x i)
          let _x_next_p := mm256_castsi128_si256 (load_aint128 x (n / 2 + i))
          let _y_p := mm256_castsi128_si256 (load_aint128 y i)
          let _x_p := add _x_p _y_p card
          let _x_next_p := add _x_next_p _y_p card
          x)) (n / 2 / 2 * 2) (n / 2) s = s := by
    intro s
    exact option_map_self_loop (fun _ x => x) (fun _ _ => rfl) _ _ s
  have hres : add_buf_to_two_bufs n x y card
      = for_loop (fun i (d : Option Buf) =>
          d.bind (fun d =>
            if aligned_at (4 * (n / 2) + 8 * i) = true then
              some (store_at d (4 * (n / 2) + 8 * i)
                (add (load_at d (4 * (n / 2) + 8 * i)) (LOAD y i) card))
            else none))
          (n / 2 / 2)
          (some (for_loop (fun i d => STORE d i (add (LOAD d i) (LOAD y i) card))
            (n / 2 / 2) x)) := by
    unfold add_buf_to_two_bufs
    simp only [hlast, ite_self]
  constructor
  · intro hal
    have hloop : ∀ (k : Nat) (s : Buf), k ≤ n / 2 / 2 →
        for_loop (fun i (d : Option Buf) =>
          d.bind (fun d =>
            if aligned_at (4 * (n / 2) + 8 * i) = true then
              some (store_at d (4 * (n / 2) + 8 * i)
                (add (load_at d (4 * (n / 2) + 8 * i)) (LOAD y i) card))
            else none)) k (some s)
          = some (for_loop (fun i d => store_at d (4 * (n / 2) + 8 * i)
              (add (load_at d (4 * (n / 2) + 8 * i)) (LOAD y i) card)) k s) := by
      intro k
      induction k with
      | zero => intro s _; rfl
      | succ k ih =>
        intro s hk
        have he : (n / 2) % 2 = 0 := by omega
        simp only [for_loop]
        rw [ih s (by omega), Option.some_bind, if_pos (aligned_at_even _ _ he)]
    refine ⟨_, hres.trans (hloop _ _ (Nat.le_refl _)), ?_⟩
    intro e
    have hsecond := for_loop_store_at (fun i r => add r (LOAD y i) card) (4 * (n / 2))
      (for_loop (fun i d => STORE d i (add (LOAD d i) (LOAD y i) card)) (n / 2 / 2) x)
      (n / 2 / 2) e
    have hfirst := for_loop_store (fun i r => add r (LOAD y i) card) x (n / 2 / 2)
    rw [hsecond]
    by_cases h1 : 4 * (n / 2) ≤ e ∧ e < 4 * (n / 2) + 8 * (n / 2 / 2)
    · have h0 : ¬ (e < 8 * (n / 2 / 2)) := by omega
      rw [if_pos h1, if_neg h0, if_pos h1]
      have hidx : 4 * (n / 2) + 8 * ((e - 4 * (n / 2)) / 8) + (e - 4 * (n / 2)) % 8 = e := by
        omega
      have hidy : 8 * ((e - 4 * (n / 2)) / 8) + (e - 4 * (n / 2)) % 8 = e - 4 * (n / 2) := by
        omega
      have ha : load_at (for_loop (fun i d => STORE d i
            (add (LOAD d i) (LOAD y i) card)) (n / 2 / 2) x)
          (4 * (n / 2) + 8 * ((e - 4 * (n / 2)) / 8))
          ⟨(e - 4 * (n / 2)) % 8, Nat.mod_lt _ (by decide)⟩ = x e := by
        simp only [load_at]
        rw [hfirst, if_neg (by omega), hidx]
      have hb : LOAD y ((e - 4 * (n / 2)) / 8) ⟨(e - 4 * (n / 2)) % 8, Nat.mod_lt _ (by decide)⟩
          = y (e - 4 * (n / 2)) := by
        simp only [LOAD, hidy]
      show add _ _ card _ = _
      rw [add_lane _ _ card _ hc hc2 (by rw [ha]; exact hx e (by omega))
        (by rw [hb]; exact hy _ (by omega)), ha, hb]
    · rw [if_neg h1, hfirst]
      by_cases h0 : e < 8 * (n / 2 / 2)
      · rw [if_pos (by omega), if_pos h0]
        show add _ _ card _ = _
        rw [add_lane _ _ card _ hc hc2 (by rw [load_lane]; exact hx e (by omega))
          (by rw [load_lane]; exact hy e (by omega)), load_lane, load_lane]
      · rw [if_neg (by omega), if_neg h0, if_neg h1]
  · intro hodd hpos
    obtain ⟨k, hk⟩ : ∃ k, n / 2 / 2 = k + 1 := ⟨n / 2 / 2 - 1, by omega⟩
    rw [hres, hk]
    exact misaligned_loop (fun i => aligned_at (4 * (n / 2) + 8 * i))
      (fun i d => store_at d (4 * (n / 2) + 8 * i)
        (add (load_at d (4 * (n / 2) + 8 * i)) (LOAD y i) card))
      (fun i => aligned_at_odd _ _ hodd) k _

theorem option_for_loop_map (f : Nat → Buf → Buf) (b : Nat → Buf → Option m256i)
    (g : Nat → Buf → m256i)
    (hb : ∀ i x, b i x = some (g i x)) (hf : ∀ i x, f i x = STORE x i (g i x)) :
    ∀ (n : Nat) (x0 : Buf),
      for_loop (fun i (x : Option Buf) =>
          x.bind (fun x => (b i x).map (fun r => STORE x i r))) n (some x0)
        = some (for_loop f n x0) := by
  intro n
  induction n with
  | zero => intro x0; rfl
  | succ n ih =>
    intro x0
    simp only [for_loop]
    rw [ih]
    simp only [Option.some_bind, hb, Option.map_some', hf]

theorem mul_F4_eq (a b : m256i) : mul a b F4 = some (mul_f4 a b) := rfl

/-- What `hadamard_mul` does to every 32-bit word of `_x`: the words of the
elements `0 .. 2 (n/2) - 1` receive the product modulo 65537, every other word,
among which the last element when `n` is odd, is left as it was. -/
theorem hadamard_mul_words (n : Nat) (x y : Buf)
    (hx : ∀ e, e < 4 * n → x e ≤ 65536) (hy : ∀ e, e < 4 * n → y e ≤ 65536) :
    ∃ out, hadamard_mul n x y = some out
      ∧ ∀ e, out e = if e < 8 * (n / 2) then (x e * y e) % 65537 else x e := by
  have hbody : (fun (i : Nat) (x : Option Buf) =>
      x.bind (fun x =>
        let _x_p := mm256_castsi128_si256 (load_aint128 x i)
        let _y_p := mm256_castsi128_si256 (load_aint128 y i)
        (mul _x_p _y_p F4).map (fun _x_p => x))) = (fun _ (x : Option Buf) => x) := by
    funext i x
    cases x with
    | none => rfl
    | some x => rfl
  have hres : hadamard_mul n x y
      = some (for_loop (fun i d => STORE d i (mul_f4 (LOAD d i) (LOAD y i))) (n / 2) x) := by
    unfold hadamard_mul
    simp only [hbody, for_from_id, ite_self]
    exact option_for_loop_map _ (fun i x => mul (LOAD x i) (LOAD y i) F4)
      (fun i x => mul_f4 (LOAD x i) (LOAD y i)) (fun _ _ => rfl) (fun _ _ => rfl) (n / 2) x
  refine ⟨_, hres, fun e => ?_⟩
  rw [for_loop_store (fun i r => mul_f4 r (LOAD y i)) x (n / 2) e]
  by_cases h0 : e < 8 * (n / 2)
  · rw [if_pos (by omega), if_pos h0]
    show mul_f4 _ _ _ = _
    rw [mul_f4_lane _ _ _ (by rw [load_lane]; exact hx e (by omega))
      (by rw [load_lane]; exact hy e (by omega)), load_lane, load_lane]
  · rw [if_neg (by omega), if_neg h0]

end aint128

section aint128_claims
open simd_256_u32

/-- C31 (evaluation of the code): `add_buf_to_two_bufs` leaves the last element
of each half as it was when `n / 2` is odd.  With `n = 2`, every lane of `_x`
equal to 1 and every lane of `_y` equal to 2 (`card = 65537`), the call returns
and the elements `x[0]` (words 0..3) and `x[1]` (words 4..7) still hold 1, not
`(1 + 2) mod 65537 = 3`.  With `n = 6` the second loop reads the register at
element 3 of `_x`, which is not aligned for a register.  With `n = 4` both
halves (words 0..15) receive the sum. -/
theorem add_buf_to_two_bufs_skips_last_element :
    (∃ out, add_buf_to_two_bufs 2 (fun _ => 1) (fun _ => 2) 65537 = some out
      ∧ ∀ e, e < 8 → out e = 1)
    ∧ (1 + 2) % 65537 = 3
    ∧ add_buf_to_two_bufs 6 (fun _ => 1) (fun _ => 2) 65537 = none
    ∧ (∃ out, add_buf_to_two_bufs 4 (fun _ => 1) (fun _ => 2) 65537 = some out
      ∧ ∀ e, e < 16 → out e = 3) := by
  have hx : ∀ (k : Nat) (e : Nat), e < k → (fun _ => 1 : Buf) e < 65537 := by
    intro _ _ _
    show 1 < 65537
    decide
  have hy : ∀ (k : Nat) (e : Nat), e < k → (fun _ => 2 : Buf) e < 65537 := by
    intro _ _ _
    show 2 < 65537
    decide
  have h2 := (add_buf_to_two_bufs_words 2 (fun _ => 1) (fun _ => 2) 65537 (by decide)
    (by decide) (hx _) (hy _)).1 (Or.inr (by decide))
  have h6 := (add_buf_to_two_bufs_words 6 (fun _ => 1) (fun _ => 2) 65537 (by decide)
    (by decide) (hx _) (hy _)).2 (by decide) (by decide)
  have h4 := (add_buf_to_two_bufs_words 4 (fun _ => 1) (fun _ => 2) 65537 (by decide)
    (by decide) (hx _) (hy _)).1 (Or.inl (by decide))
  obtain ⟨o2, ho2, hw2⟩ := h2
  obtain ⟨o4, ho4, hw4⟩ := h4
  refine ⟨⟨o2, ho2, fun e he => ?_⟩, by decide, h6, ⟨o4, ho4, fun e he => ?_⟩⟩
  · rw [hw2 e, if_neg (by omega), if_neg (by omega)]
  · rw [hw4 e]
    by_cases h1 : e < 8
    · rw [if_pos (by omega)]
    · rw [if_neg (by omega), if_pos (by omega)]

/-- C32 (evaluation of the code): `hadamard_mul` leaves the last element as it
was when `n` is odd.  With `n = 1`, every lane of `_x` equal to 2 and every
lane of `_y` equal to 3, the element `x[0]` (words 0..3) still holds 2 after
the call, not `(2 * 3) mod 65537 = 6`.  With `n = 3` the elements 0 and 1
(words 0..7) hold 6 and the element 2 still holds 2. -/
theorem hadamard_mul_skips_last_element :
    (∃ out, hadamard_mul 1 (fun _ => 2) (fun _ => 3) = some out ∧ ∀ e, e < 4 → out e = 2)
    ∧ (2 * 3) % 65537 = 6
    ∧ (∃ out, hadamard_mul 3 (fun _ => 2) (fun _ => 3) = some out
        ∧ ∀ e, e < 12 → out e = if e < 8 then 6 else 2) := by
  have hx : ∀ (k : Nat) (e : Nat), e < k → (fun _ => 2 : Buf) e ≤ 65536 := by
    intro _ _ _
    show 2 ≤ 65536
    decide
  have hy : ∀ (k : Nat) (e : Nat), e < k → (fun _ => 3 : Buf) e ≤ 65536 := by
    intro _ _ _
    show 3 ≤ 65536
    decide
  obtain ⟨o1, h1, hw1⟩ := hadamard_mul_words 1 (fun _ => 2) (fun _ => 3) (hx _) (hy _)
  obtain ⟨o3, h3, hw3⟩ := hadamard_mul_words 3 (fun _ => 2) (fun _ => 3) (hx _) (hy _)
  refine ⟨⟨o1, h1, fun e he => ?_⟩, by decide, ⟨o3, h3, fun e he => ?_⟩⟩
  · rw [hw1 e, if_neg (by omega)]
  · rw [hw3 e]

end aint128_claims

/-! ## The second Gentleman-Sande butterfly over buffers -/

section gs_2
open simd_256_u32

/-- What `butterfly_gs_2` does: every pair `(P, Q) = (buf[i], buf[i + m])`
becomes `((Q - P) mod card, (Q + P) mod card)`. -/
theorem butterfly_gs_2_pairs (card : Nat) (hq : card = 257 ∨ card = 65537) (buf : Buffers)
    (start m step len fuel : Nat) (hstep : 0 < step) (hm : ¬ step ∣ m)
    (hstart : start < 2147483648)
    (hn1 : buf.n + m ≤ 2147483648) (hn2 : buf.n + step ≤ 2147483648)
    (hin : ∀ k, start + k * step < buf.n → start + k * step + m < buf.n)
    (hval : ∀ idx e, idx < buf.n → e < 8 * len → buf.mem idx e < card)
    (hfuel : buf.n < fuel) :
    ∃ out, butterfly_gs_2 fuel buf start m step len card = some out ∧ out.n = buf.n ∧
      ∀ idx e,
        (∀ k, idx = start + k * step → idx < buf.n → e < 8 * len →
            out.mem idx e = (buf.mem (idx + m) e + card - buf.mem idx e) % card)
        ∧ (∀ k, idx = start + k * step + m → start + k * step < buf.n → e < 8 * len →
            out.mem idx e = (buf.mem idx e + buf.mem (start + k * step) e) % card) := by
  obtain ⟨fuel1, rfl⟩ : ∃ f, fuel = f + 1 := ⟨fuel - 1, by omega⟩
  have hfuel1 : buf.n ≤ start + fuel1 * step := by
    have : fuel1 ≤ fuel1 * step := Nat.le_mul_of_pos_right _ hstep
    omega
  have hbody : (fun (a b : Buf) =>
      for_loop (fun j (r : Buf × Buf) =>
        let s := BUTTERFLY_ADD r.2 r.1 j card
        (s.2, s.1)) len (a, b))
      = (fun a b => on_registers (fun x y => (SUB_MOD y x card, ADD_MOD y x card)) len a b) := by
    funext a b
    exact for_loop_on_registers (fun x y => (SUB_MOD y x card, ADD_MOD y x card))
      (fun a b j => ((BUTTERFLY_ADD b a j card).2, (BUTTERFLY_ADD b a j card).1))
      (fun _ _ _ => rfl) a b len
  obtain ⟨out, hout, hnout, hspec⟩ :=
    pair_loop_spec (fun a b => on_registers (fun x y => (SUB_MOD y x card, ADD_MOD y x card))
      len a b) m step hstep hm fuel1 start buf hn1 hn2 hin hfuel1
  refine ⟨out, ?_, hnout, fun idx e => ?_⟩
  · unfold butterfly_gs_2
    rw [hbody, to_int_of_lt start hstart]
    exact hout
  · obtain ⟨hP, hQ, -⟩ := hspec idx
    constructor
    · intro k hk hlt he
      have him : idx + m < buf.n := by rw [hk]; exact hin k (by rw [← hk]; exact hlt)
      rw [hP k hk hlt, on_registers_fst, if_pos (by omega)]
      show SUB_MOD _ _ card _ = _
      rw [u32_SUB_MOD_lane _ _ card hq _ (by rw [load_lane]; exact hval _ e him he)
        (by rw [load_lane]; exact hval _ e hlt he), load_lane, load_lane]
    · intro k hk hlt he
      have him : idx < buf.n := by rw [hk]; exact hin k hlt
      rw [hQ k hk hlt, on_registers_snd, if_pos (by omega)]
      show ADD_MOD _ _ card _ = _
      rw [u32_ADD_MOD_lane _ _ card hq _ (by rw [load_lane]; exact hval _ e him he)
        (by rw [load_lane]; exact hval _ e hlt he), load_lane, load_lane]

/-- C33 (evaluation of the code): on the pair `P = buf[0]` with every entry 1
and `Q = buf[1]` with every entry 3 (one register, `card = 65537`),
`butterfly_gs_2` leaves `P' = 2 = (Q - P) mod card` and
`Q' = 4 = (Q + P) mod card`, not `P' = (Q + P) mod card` and
`Q' = (Q - P) mod card`. -/
theorem butterfly_gs_2_swaps_sum_and_difference :
    ∃ out, butterfly_gs_2 3 { n := 2, mem := fun i _ => if i = 0 then 1 else 3 } 0 1 2 1 65537
        = some out
      ∧ (∀ e, e < 8 → out.mem 0 e = 2 ∧ out.mem 1 e = 4)
      ∧ (3 + 1) % 65537 = 4 ∧ (3 + 65537 - 1) % 65537 = 2 := by
  obtain ⟨out, hout, -, hspec⟩ := butterfly_gs_2_pairs 65537 (Or.inr rfl)
    { n := 2, mem := fun i _ => if i = 0 then 1 else 3 } 0 1 2 1 3 (by decide) (by decide)
    (by decide) (by decide) (by decide)
    (by
      intro k hk
      have h1 : 0 + k * 2 < 2 := hk
      show 0 + k * 2 + 1 < 2
      omega)
    (by
      intro idx e hidx _
      show (if idx = 0 then 1 else 3) < 65537
      split <;> decide)
    (by decide)
  refine ⟨out, hout, fun e he => ⟨?_, ?_⟩, by decide, by decide⟩
  · rw [(hspec 0 e).1 0 rfl (by decide) (by omega)]
    norm_num
  · rw [(hspec 1 e).2 0 rfl (by decide) (by omega)]
    norm_num

end gs_2

/-! ## Termination of the bit-scan loop -/

section bit_scan
open simd_256_u32

theorem ctz_aux_spec :
    ∀ (n d : Nat), 0 < d → d < 2 ^ n →
      ctz_aux n d < n ∧ d.testBit (ctz_aux n d) = true
      ∧ ∀ j, j < ctz_aux n d → d.testBit j = false := by
  intro n
  induction n with
  | zero =>
    intro d h0 h1
    simp at h1
    omega
  | succ n ih =>
    intro d h0 h1
    by_cases hodd : d % 2 = 1
    · have e : ctz_aux (n + 1) d = 0 := by simp only [ctz_aux, if_pos hodd]
      rw [e]
      refine ⟨by omega, ?_, fun j hj => absurd hj (Nat.not_lt_zero _)⟩
      rw [Nat.testBit_zero]
      exact decide_eq_true hodd
    · have e : ctz_aux (n + 1) d = ctz_aux n (d / 2) + 1 := by
        simp only [ctz_aux, if_neg hodd]
        omega
      have hpow : 2 ^ (n + 1) = 2 * 2 ^ n := by rw [Nat.pow_succ, Nat.mul_comm]
      obtain ⟨h2, h3, h4⟩ := ih (d / 2) (by omega) (by omega)
      rw [e]
      refine ⟨by omega, ?_, ?_⟩
      · rw [Nat.testBit_succ]
        exact h3
      · intro j hj
        cases j with
        | zero =>
          rw [Nat.testBit_zero]
          exact decide_eq_false hodd
        | succ j =>
          rw [Nat.testBit_succ]
          exact h4 j (by omega)

theorem builtin_ctz_spec (d : Nat) (h0 : 0 < d) (h1 : d < 4294967296) :
    builtin_ctz d < 32 ∧ d.testBit (builtin_ctz d) = true
    ∧ ∀ j, j < builtin_ctz d → d.testBit j = false :=
  ctz_aux_spec 32 d h0 (by norm_num; exact h1)

theorem one_shiftLeft_mod (k : Nat) (hk : k < 32) : (1 <<< k) % 4294967296 = 2 ^ k := by
  rw [Nat.shiftLeft_eq, Nat.one_mul]
  apply Nat.mod_eq_of_lt
  calc 2 ^ k < 2 ^ 32 := Nat.pow_lt_pow_right (by decide) hk
    _ = 4294967296 := by norm_num

/-- One iteration of the bit-scan loop clears the lowest set bit of `d` and no
other. -/
theorem clear_lowest_bit (d : Nat) (h0 : 0 < d) (h1 : d < 4294967296) (j : Nat) :
    (d ^^^ (1 <<< builtin_ctz d) % 4294967296).testBit j
      = (d.testBit j && decide (j ≠ builtin_ctz d)) := by
  obtain ⟨hk, hbit, -⟩ := builtin_ctz_spec d h0 h1
  rw [one_shiftLeft_mod _ hk, Nat.testBit_xor, Nat.testBit_two_pow]
  by_cases hj : j = builtin_ctz d
  · subst hj
    rw [hbit]
    simp
  · have hj2 : ¬ (builtin_ctz d = j) := fun h => hj h.symm
    simp [hj, hj2]

theorem clear_lowest_bit_lt (d : Nat) (h0 : 0 < d) (h1 : d < 4294967296) :
    d ^^^ (1 <<< builtin_ctz d) % 4294967296 < 4294967296 := by
  obtain ⟨hk, -, -⟩ := builtin_ctz_spec d h0 h1
  rw [one_shiftLeft_mod _ hk]
  have h2 : 2 ^ builtin_ctz d < 2 ^ 32 := Nat.pow_lt_pow_right (by decide) hk
  have h3 : d < 2 ^ 32 := by norm_num; exact h1
  have := Nat.xor_lt_two_pow h3 h2
  norm_num at this
  exact this

theorem countP_remove_one (p : Nat → Bool) (k : Nat) (hp : p k = true) :
    ∀ l : List Nat, l.Nodup → k ∈ l →
      l.countP (fun j => p j && decide (j ≠ k)) + 1 = l.countP p := by
  intro l
  induction l with
  | nil => intro _ h; simp at h
  | cons a t ih =>
    intro hnd hmem
    have hnd2 := List.nodup_cons.mp hnd
    by_cases ha : a = k
    · subst ha
      have hcong : t.countP (fun j => p j && decide (j ≠ a)) = t.countP p := by
        apply List.countP_congr
        intro j hj
        have hne : j ≠ a := fun h => hnd2.1 (h ▸ hj)
        simp [hne]
      rw [List.countP_cons, List.countP_cons, hcong, hp]
      simp
    · have hmem2 : k ∈ t := by
        rcases List.mem_cons.mp hmem with h | h
        · exact absurd h.symm ha
        · exact h
      have := ih hnd2.2 hmem2
      have hq : (p a && decide (a ≠ k)) = p a := by simp [ha]
      rw [List.countP_cons, List.countP_cons, hq]
      omega

theorem popcount_eq_countP (d : Nat) :
    popcount d = (List.range 32).countP (fun k => d.testBit k) := by
  unfold popcount
  rw [List.countP_eq_length_filter]

/-- Clearing the lowest set bit lowers the number of set bits by one. -/
theorem popcount_clear_lowest_bit (d : Nat) (h0 : 0 < d) (h1 : d < 4294967296) :
    popcount (d ^^^ (1 <<< builtin_ctz d) % 4294967296) + 1 = popcount d := by
  obtain ⟨hk, hbit, -⟩ := builtin_ctz_spec d h0 h1
  rw [popcount_eq_countP, popcount_eq_countP]
  have e : (fun k => (d ^^^ (1 <<< builtin_ctz d) % 4294967296).testBit k)
      = (fun j => d.testBit j && decide (j ≠ builtin_ctz d)) := by
    funext j
    exact clear_lowest_bit d h0 h1 j
  rw [e]
  exact countP_remove_one (fun j => d.testBit j) (builtin_ctz d) hbit (List.range 32)
    (List.nodup_range 32) (List.mem_range.mpr hk)

theorem popcount_zero : popcount 0 = 0 := by
  unfold popcount
  simp

theorem popcount_le (d : Nat) : popcount d ≤ 32 := by
  unfold popcount
  have := List.length_filter_le (fun k => d.testBit k) (List.range 32)
  simpa using this

/-- The bit-scan loop returns exactly when the fuel exceeds the number of set
bits, and then it has visited as many indices as there are set bits. -/
theorem scan_indices_popcount :
    ∀ (fuel d : Nat), d < 4294967296 →
      (popcount d < fuel → ∃ l, scan_indices fuel d = some l ∧ l.length = popcount d)
      ∧ (fuel ≤ popcount d → scan_indices fuel d = none) := by
  intro fuel
  induction fuel with
  | zero =>
    intro d _
    exact ⟨fun h => absurd h (Nat.not_lt_zero _), fun _ => rfl⟩
  | succ fuel ih =>
    intro d hd
    by_cases h0 : d > 0
    · have hstep := popcount_clear_lowest_bit d h0 hd
      obtain ⟨ih1, ih2⟩ := ih _ (clear_lowest_bit_lt d h0 hd)
      constructor
      · intro hlt
        obtain ⟨l, hl, hlen⟩ := ih1 (by omega)
        refine ⟨builtin_ctz d / 4 :: l, ?_, ?_⟩
        · simp only [scan_indices, if_pos h0, hl]
        · rw [List.length_cons, hlen]
          exact hstep
      · intro hle
        have hn := ih2 (by omega)
        simp only [scan_indices, if_pos h0, hn]
    · have hd0 : d = 0 := by omega
      subst hd0
      constructor
      · intro _
        exact ⟨[], by simp only [scan_indices, if_neg h0], by rw [popcount_zero]; rfl⟩
      · intro hle
        rw [popcount_zero] at hle
        omega

theorem foldr_add_init (t : Nat → Nat) (l : List Nat) (a : Nat) :
    l.foldr (fun k acc => acc + t k) a = a + l.foldr (fun k acc => acc + t k) 0 := by
  induction l with
  | nil => rfl
  | cons k l ih =>
    simp only [List.foldr_cons]
    rw [ih]
    omega

theorem foldr_bits_lt (c : Nat → Prop) [DecidablePred c] :
    ∀ n, (List.range n).foldr (fun k acc => acc + (if c k then 2 ^ k else 0)) 0 < 2 ^ n := by
  intro n
  induction n with
  | zero => simp
  | succ n ih =>
    rw [List.range_succ, List.foldr_append, foldr_add_init]
    simp only [List.foldr_cons, List.foldr_nil, Nat.zero_add]
    have h2 : (if c n then 2 ^ n else 0) ≤ 2 ^ n := by
      split
      · exact Nat.le_refl _
      · exact Nat.zero_le _
    have h3 : 2 ^ (n + 1) = 2 ^ n + 2 ^ n := by rw [Nat.pow_succ]; omega
    omega

/-- A movemask is a 32-bit value. -/
theorem movemask_lt (x : m256i) : mm256_movemask_epi8 x < 4294967296 := by
  have h := foldr_bits_lt
    (fun k => 128 ≤ x ⟨k / 4 % 8, Nat.mod_lt _ (by decide)⟩ / 256 ^ (k % 4) % 256) 32
  have e : (2 : Nat) ^ 32 = 4294967296 := by norm_num
  rw [e] at h
  exact h

end bit_scan

section bit_scan_claim
open simd_256_u32

/-- C40: the bit-scan loop of `add_props` and of `ADD_PROPS` terminates for
every 32-bit movemask value `d`.  With more fuel than `popcount d` (one test
of `d > 0` per iteration and the last one that fails) both loops return the
old properties followed by exactly `popcount d` marks; with `popcount d` tests
or fewer they have not finished, so the loop runs exactly `popcount d` times.
Each iteration clears the lowest set bit of `d` and no other: `ctz d` is a set
bit with no set bit below it, the new value differs from `d` in that bit only,
it has one set bit less and is again a 32-bit value. -/
theorem bit_scan_loop_runs_popcount_times (d : Nat) (hd : d < 4294967296) (offset : Int)
    (props : Properties) :
    (∀ fuel, popcount d < fuel →
      ∃ marks : Properties, marks.length = popcount d
        ∧ add_props_loop fuel d offset props = some (props ++ marks)
        ∧ simd_basic.ADD_PROPS_loop fuel d offset props = some (props ++ marks))
    ∧ (∀ fuel, fuel ≤ popcount d →
        add_props_loop fuel d offset props = none
        ∧ simd_basic.ADD_PROPS_loop fuel d offset props = none)
    ∧ popcount d ≤ 32
    ∧ (0 < d →
        builtin_ctz d < 32
        ∧ d.testBit (builtin_ctz d) = true
        ∧ (∀ j, j < builtin_ctz d → d.testBit j = false)
        ∧ (∀ j, (d ^^^ (1 <<< builtin_ctz d) % 4294967296).testBit j
            = (d.testBit j && decide (j ≠ builtin_ctz d)))
        ∧ popcount (d ^^^ (1 <<< builtin_ctz d) % 4294967296) + 1 = popcount d
        ∧ d ^^^ (1 <<< builtin_ctz d) % 4294967296 < 4294967296) := by
  refine ⟨?_, ?_, popcount_le d, ?_⟩
  · intro fuel hf
    obtain ⟨l, hl, hlen⟩ := (scan_indices_popcount fuel d hd).1 hf
    refine ⟨l.map (fun k => (offset + ((k : Nat) : Int), Mark.OOR_MARK)), ?_, ?_, ?_⟩
    · rw [List.length_map, hlen]
    · rw [add_props_loop_eq, hl, Option.map_some']
    · rw [ADD_PROPS_loop_eq, add_props_loop_eq, hl, Option.map_some']
  · intro fuel hf
    have hn := (scan_indices_popcount fuel d hd).2 hf
    constructor
    · rw [add_props_loop_eq, hn, Option.map_none']
    · rw [ADD_PROPS_loop_eq, add_props_loop_eq, hn, Option.map_none']
  · intro h0
    obtain ⟨h1, h2, h3⟩ := builtin_ctz_spec d h0 hd
    exact ⟨h1, h2, h3, clear_lowest_bit d h0 hd, popcount_clear_lowest_bit d h0 hd,
      clear_lowest_bit_lt d h0 hd⟩

theorem bit_scan_loop_runs_popcount_times_witness :
    (136 : Nat) < 4294967296 ∧ popcount 136 = 2
    ∧ (∃ marks : Properties, marks.length = popcount 136
        ∧ add_props_loop 3 136 5 [] = some ([] ++ marks)
        ∧ simd_basic.ADD_PROPS_loop 3 136 5 [] = some ([] ++ marks))
    ∧ add_props_loop 3 136 5 [] = some [(5, Mark.OOR_MARK), (6, Mark.OOR_MARK)]
    ∧ add_props_loop 2 136 5 [] = none :=
  ⟨by decide, by decide,
    (bit_scan_loop_runs_popcount_times 136 (by decide) 5 []).1 3 (by decide),
    by decide,
    ((bit_scan_loop_runs_popcount_times 136 (by decide) 5 []).2.1 2 (by decide)).1⟩

end bit_scan_claim

/-! ## The loop bound `vecs_nb - 3` for fewer than three registers -/

section small_buffers
open simd_256_u32

theorem wrapped_end (vecs_nb : Nat) (h : vecs_nb < 3) :
    (vecs_nb + (18446744073709551616 - 3)) % 18446744073709551616
      = 18446744073709551613 + vecs_nb := by
  omega

theorem testz_zero_buffer (v : Nat) : TESTZ (LOAD (fun _ => 0) v) (SET1 1) = 1 := by
  unfold TESTZ mm256_testz_si256
  rw [if_pos]
  intro i
  show (0 : Nat) &&& _ = 0
  exact Nat.zero_and _

theorem scan_if_skip (fuel : Nat) (props : Properties) (c : Nat) (hc : c ≠ 0)
    (thr mask a : m256i) (offset : Int) (vec_id vec_size : Nat) :
    scan_if fuel props c thr mask a offset vec_id vec_size = some props := by
  unfold scan_if
  rw [if_neg hc]

theorem loop4_unfold (buf : Buf) (thr mask : m256i) (offset : Int) (vec_size _end fuel : Nat)
    (vec_id : Nat) (st : ScanState) (hlt : vec_id < _end)
    (h1 : TESTZ (LOAD buf vec_id) thr ≠ 0) (h2 : TESTZ (LOAD buf (vec_id + 1)) thr ≠ 0)
    (h3 : TESTZ (LOAD buf (vec_id + 2)) thr ≠ 0) (h4 : TESTZ (LOAD buf (vec_id + 3)) thr ≠ 0) :
    encode_post_process_loop4 buf thr mask offset vec_size _end (fuel + 1) vec_id st
      = encode_post_process_loop4 buf thr mask offset vec_size _end fuel
          ((vec_id + 4) % 18446744073709551616)
          { props := st.props,
            loads := st.loads ++ [vec_id, vec_id + 1, vec_id + 2, vec_id + 3] } := by
  rw [encode_post_process_loop4, if_pos hlt]
  simp only [scan_if_skip _ _ _ h1, scan_if_skip _ _ _ h2, scan_if_skip _ _ _ h3,
    scan_if_skip _ _ _ h4]

/-- On a buffer of zeros with threshold 1 the four-at-a-time loop has not
finished as long as `vec_id` has not reached the bound. -/
theorem loop4_zero_buffer_none (offset : Int) (vec_size _end : Nat)
    (hend : _end < 18446744073709551616) :
    ∀ (fuel vec_id : Nat) (st : ScanState), vec_id + 4 * fuel ≤ _end →
      encode_post_process_loop4 (fun _ => 0) (SET1 1) (SET1 2147483648) offset vec_size _end
        fuel vec_id st = none := by
  intro fuel
  induction fuel with
  | zero => intro vec_id st _; rfl
  | succ fuel ih =>
    intro vec_id st h
    have hne : ∀ v, TESTZ (LOAD (fun _ => 0) v) (SET1 1) ≠ 0 := by
      intro v
      rw [testz_zero_buffer]
      exact Nat.one_ne_zero
    rw [loop4_unfold _ _ _ _ _ _ _ _ _ (by omega) (hne _) (hne _) (hne _) (hne _)]
    have hm : (vec_id + 4) % 18446744073709551616 = vec_id + 4 :=
      Nat.mod_eq_of_lt (by omega)
    rw [hm]
    exact ih _ _ (by omega)

theorem loop4_loads_grow (buf : Buf) (thr mask : m256i) (offset : Int) (vec_size _end : Nat) :
    ∀ (fuel vec_id : Nat) (st : ScanState) (r : Nat × ScanState),
      encode_post_process_loop4 buf thr mask offset vec_size _end fuel vec_id st = some r →
      ∃ t, r.2.loads = st.loads ++ t := by
  intro fuel
  induction fuel with
  | zero =>
    intro vec_id st r h
    simp [encode_post_process_loop4] at h
  | succ fuel ih =>
    intro vec_id st r h
    rw [encode_post_process_loop4] at h
    by_cases hlt : vec_id < _end
    · rw [if_pos hlt] at h
      dsimp only at h
      split at h
      · exact absurd h (by simp)
      · split at h
        · exact absurd h (by simp)
        · split at h
          · exact absurd h (by simp)
          · split at h
            · exact absurd h (by simp)
            · obtain ⟨t, ht⟩ := ih _ _ _ h
              exact ⟨[vec_id, vec_id + 1, vec_id + 2, vec_id + 3] ++ t, by
                rw [ht, List.append_assoc]⟩
    · rw [if_neg hlt] at h
      injection h with h
      subst h
      exact ⟨[], (List.append_nil _).symm⟩

theorem loop1_loads_grow (buf : Buf) (thr mask : m256i) (offset : Int) (vec_size vecs_nb : Nat) :
    ∀ (fuel vec_id : Nat) (st r : ScanState),
      encode_post_process_loop1 buf thr mask offset vec_size vecs_nb fuel vec_id st = some r →
      ∃ t, r.loads = st.loads ++ t := by
  intro fuel
  induction fuel with
  | zero =>
    intro vec_id st r h
    simp [encode_post_process_loop1] at h
  | succ fuel ih =>
    intro vec_id st r h
    rw [encode_post_process_loop1] at h
    by_cases hlt : vec_id < vecs_nb
    · rw [if_pos hlt] at h
      dsimp only at h
      split at h
      · exact absurd h (by simp)
      · obtain ⟨t, ht⟩ := ih _ _ _ h
        exact ⟨[vec_id] ++ t, by rw [ht, List.append_assoc]⟩
    · rw [if_neg hlt] at h
      injection h with h
      subst h
      exact ⟨[], (List.append_nil _).symm⟩

theorem loop4_first_loads (buf : Buf) (thr mask : m256i) (offset : Int) (vec_size _end : Nat)
    (fuel vec_id : Nat) (st : ScanState) (r : Nat × ScanState) (hlt : vec_id < _end)
    (h : encode_post_process_loop4 buf thr mask offset vec_size _end fuel vec_id st = some r) :
    ∃ t, r.2.loads = st.loads ++ [vec_id, vec_id + 1, vec_id + 2, vec_id + 3] ++ t := by
  cases fuel with
  | zero => simp [encode_post_process_loop4] at h
  | succ fuel =>
    rw [encode_post_process_loop4, if_pos hlt] at h
    dsimp only at h
    split at h
    · exact absurd h (by simp)
    · split at h
      · exact absurd h (by simp)
      · split at h
        · exact absurd h (by simp)
        · split at h
          · exact absurd h (by simp)
          · exact loop4_loads_grow _ _ _ _ _ _ _ _ _ _ h

/-- With fewer than three registers, every completed scan of a fragment has
loaded the registers 0, 1, 2 and 3 first. -/
theorem frag_loads_first_four (fuel : Nat) (output : Buffers) (props : List Properties)
    (offset : Int) (threshold vecs_nb frag_id : Nat) (hv : vecs_nb < 3)
    (r : List Properties × List Nat)
    (h : encode_post_process_frag fuel output props offset threshold vecs_nb frag_id = some r) :
    ∃ t, r.2 = [0, 1, 2, 3] ++ t := by
  unfold encode_post_process_frag at h
  dsimp only at h
  rw [wrapped_end vecs_nb hv] at h
  split at h
  · split at h
    · exact absurd h (by simp)
    · rename_i v st h4
      obtain ⟨t, ht⟩ := loop4_first_loads _ _ _ _ _ _ _ _ _ _ (by omega) h4
      split at h
      · exact absurd h (by simp)
      · rename_i st1 h1
        obtain ⟨t1, ht1⟩ := loop1_loads_grow _ _ _ _ _ _ _ _ _ _ h1
        injection h with h
        subst h
        refine ⟨t ++ t1, ?_⟩
        show st1.loads = _
        rw [ht1, ht]
        simp
  · exact absurd h (by simp)

/-- C38 (code bug): for `vecs_nb` in {0, 1, 2} the bound `end = vecs_nb - 3` of
the four-at-a-time loop of `encode_post_process`, computed on `size_t`, wraps
to `2^64 - 3 + vecs_nb`, so the loop is entered with `vec_id = 0 < end`.  On a
fragment of zeros with threshold 1 its first iteration loads the registers 0,
1, 2 and 3, all with an index that is not below `vecs_nb`, and goes on with
`vec_id = 4`; the scan has not returned after any number of iterations up to
`2^62 - 1`; and for every buffer and threshold, a scan of a fragment that
returns has loaded the registers 0, 1, 2 and 3 first. -/
theorem encode_post_process_overruns_small_buffers :
    (∀ vecs_nb fuel, vecs_nb < 3 →
      encode_post_process_loop4 (fun _ => 0) (SET1 1) (SET1 2147483648) 0 8
          ((vecs_nb + (18446744073709551616 - 3)) % 18446744073709551616) (fuel + 1) 0
          { props := [], loads := [] }
        = encode_post_process_loop4 (fun _ => 0) (SET1 1) (SET1 2147483648) 0 8
          (18446744073709551613 + vecs_nb) fuel 4 { props := [], loads := [0, 1, 2, 3] })
    ∧ (∀ vecs_nb fuel, vecs_nb < 3 → fuel < 4611686018427387904 →
        encode_post_process fuel { n := 1, mem := fun _ _ => 0 } [[]] 0 1 1 vecs_nb = none)
    ∧ (∀ fuel output props offset threshold vecs_nb frag_id r, vecs_nb < 3 →
        encode_post_process_frag fuel output props offset threshold vecs_nb frag_id = some r →
        ∃ t, r.2 = [0, 1, 2, 3] ++ t) := by
  have hne : ∀ v, TESTZ (LOAD (fun _ => 0) v) (SET1 1) ≠ 0 := by
    intro v
    rw [testz_zero_buffer]
    exact Nat.one_ne_zero
  refine ⟨?_, ?_, ?_⟩
  · intro vecs_nb fuel hv
    rw [wrapped_end vecs_nb hv,
      loop4_unfold _ _ _ _ _ _ _ _ _ (by omega) (hne _) (hne _) (hne _) (hne _)]
    rfl
  · intro vecs_nb fuel hv hf
    have hl := loop4_zero_buffer_none 0 8 (18446744073709551613 + vecs_nb) (by omega) fuel 0
      { props := [], loads := [] } (by omega)
    have hfrag : encode_post_process_frag fuel { n := 1, mem := fun _ _ => 0 } [[]] 0 1 vecs_nb 0
        = none := by
      unfold encode_post_process_frag
      dsimp only
      rw [wrapped_end vecs_nb hv]
      have hg : Buffers.get { n := 1, mem := fun _ _ => 0 } (to_int 0)
          = some ((fun _ => 0) : Buf) := by
        rw [to_int_of_lt 0 (by norm_num)]
        rfl
      have e8 : ALIGN_SIZE / 4 = 8 := by decide
      have em : (1 <<< (4 * 8 - 1)) % 4294967296 = 2147483648 := by decide
      rw [hg, e8, em]
      have hp : ([[]] : List Properties)[0]? = some [] := rfl
      rw [hp]
      dsimp only
      rw [hl]
    unfold encode_post_process
    simp only [encode_post_process_frags, hfrag]
  · intro fuel output props offset threshold vecs_nb frag_id r hv h
    exact frag_loads_first_four fuel output props offset threshold vecs_nb frag_id hv r h

end small_buffers

end simd
end quadiron

namespace nttec

namespace fec

open quadiron.simd (Properties to_off_t)

/-! ## Words and bytes -/

theorem le_bytes_length (n v : Nat) : (le_bytes n v).length = n := by
  induction n generalizing v with
  | zero => rfl
  | succ n ih => simp only [le_bytes, List.length_cons, ih]

theorem le_value_le_bytes (n v : Nat) : le_value (le_bytes n v) = v % 256 ^ n := by
  induction n generalizing v with
  | zero => simp [le_bytes, le_value, Nat.mod_one]
  | succ n ih =>
    simp only [le_bytes, le_value, ih, Nat.mod_mod]
    rw [pow_succ, Nat.mul_comm (256 ^ n) 256, Nat.mod_mul]

theorem le_value_lt (bs : List Nat) : le_value bs < 256 ^ bs.length := by
  induction bs with
  | nil => simp [le_value]
  | cons b bs ih =>
    simp only [le_value, List.length_cons, pow_succ]
    have := Nat.mod_lt b (by decide : 256 > 0)
    omega

theorem read_ok (s : IStream) (n : Nat) (hg : s.good = true) (hn : n ≤ s.data.length) :
    s.read n = (some (s.data.take n), { data := s.data.drop n, good := true }) := by
  simp only [IStream.read, hg, hn, and_self, if_true]

theorem read_short (s : IStream) (n : Nat) (hn : ¬ (s.good = true ∧ n ≤ s.data.length)) :
    s.read n = (none, { data := [], good := false }) := by
  simp only [IStream.read, if_neg hn]

theorem readw_ok (c : FecCode) (Tbits : Nat) (s : IStream)
    (hw : c.word_size = 1 ∨ c.word_size = 2 ∨ c.word_size = 4 ∨ c.word_size = 8
      ∨ c.word_size = 16)
    (hg : s.good = true) (hn : c.word_size ≤ s.data.length) :
    c.readw Tbits s = Except.ok (true, some (le_value (s.data.take c.word_size) % 2 ^ Tbits),
      { data := s.data.drop c.word_size, good := true }) := by
  simp only [FecCode.readw, if_pos hw, read_ok s _ hg hn]

theorem readw_short (c : FecCode) (Tbits : Nat) (s : IStream)
    (hw : c.word_size = 1 ∨ c.word_size = 2 ∨ c.word_size = 4 ∨ c.word_size = 8
      ∨ c.word_size = 16)
    (hn : ¬ (s.good = true ∧ c.word_size ≤ s.data.length)) :
    c.readw Tbits s = Except.ok (false, none, { data := [], good := false }) := by
  simp only [FecCode.readw, if_pos hw, read_short s _ hn]

/-- C27: for a word size w in {1, 2, 4, 8, 16} and a value val of the element
type (`Tbits` bits), `writew(val)` succeeds and appends exactly w bytes to the
stream; `readw` on a stream that starts with these bytes succeeds, consumes
them and yields `val mod 2^(8 w)`, reduced to the element type; the value read
is val if and only if `val < 2^(8 w)`. -/
theorem writew_readw (c : FecCode) (Tbits val : Nat) (out : OStream) (rest : List Nat)
    (hw : c.word_size = 1 ∨ c.word_size = 2 ∨ c.word_size = 4 ∨ c.word_size = 8
      ∨ c.word_size = 16)
    (hval : val < 2 ^ Tbits) :
    ∃ bytes, c.writew val out = Except.ok (true, { data := out.data ++ bytes })
      ∧ bytes.length = c.word_size
      ∧ c.readw Tbits { data := bytes ++ rest, good := true }
          = Except.ok (true, some (val % 2 ^ (8 * c.word_size) % 2 ^ Tbits),
              { data := rest, good := true })
      ∧ (val % 2 ^ (8 * c.word_size) % 2 ^ Tbits = val ↔ val < 2 ^ (8 * c.word_size)) := by
  refine ⟨le_bytes c.word_size val, ?_, le_bytes_length _ _, ?_, ?_⟩
  · simp only [FecCode.writew, if_pos hw, OStream.write]
  · have hlen : c.word_size ≤ (le_bytes c.word_size val ++ rest).length := by
      simp [le_bytes_length]
    rw [readw_ok c Tbits _ hw rfl hlen]
    have h1 : (le_bytes c.word_size val ++ rest).take c.word_size = le_bytes c.word_size val := by
      rw [List.take_append_of_le_length (by simp [le_bytes_length])]
      exact List.take_of_length_le (by simp [le_bytes_length])
    have h2 : (le_bytes c.word_size val ++ rest).drop c.word_size = rest := by
      rw [List.drop_append_of_le_length (by simp [le_bytes_length])]
      simp [List.drop_of_length_le, le_bytes_length]
    have h3 : (256 : Nat) ^ c.word_size = 2 ^ (8 * c.word_size) := by
      rw [pow_mul]; rfl
    simp only [h1, h2, le_value_le_bytes, h3]
  · have hle : val % 2 ^ (8 * c.word_size) ≤ val := Nat.mod_le _ _
    have hlt : val % 2 ^ (8 * c.word_size) < 2 ^ Tbits := lt_of_le_of_lt hle hval
    rw [Nat.mod_eq_of_lt hlt]
    constructor
    · intro h
      rw [← h]
      exact Nat.mod_lt _ (Nat.pow_pos (by decide))
    · intro h
      exact Nat.mod_eq_of_lt h

theorem writew_readw_witness :
    ∃ bytes, (⟨FecType.SYSTEMATIC, 2, 3, 2, 5, 2, 8, 16⟩ : FecCode).writew 65536 ⟨[]⟩
        = Except.ok (true, { data := [] ++ bytes })
      ∧ bytes.length = 2
      ∧ (⟨FecType.SYSTEMATIC, 2, 3, 2, 5, 2, 8, 16⟩ : FecCode).readw 32
            { data := bytes ++ [], good := true }
          = Except.ok (true, some (65536 % 2 ^ (8 * 2) % 2 ^ 32), { data := [], good := true })
      ∧ (65536 % 2 ^ (8 * 2) % 2 ^ 32 = 65536 ↔ 65536 < 2 ^ (8 * 2)) :=
  writew_readw ⟨FecType.SYSTEMATIC, 2, 3, 2, 5, 2, 8, 16⟩ 32 65536 ⟨[]⟩ []
    (Or.inr (Or.inl rfl)) (by decide)

/-- C28 (counterexample): `FecCode(SYSTEMATIC, 3, 0, 0, 8)`, with `n_data = 0`,
`n_parities = 0` and a word size of 3 bytes, is constructed: the constructor
returns a code object with `code_len = 0`, `n_outputs = 0` and
`buf_size = 24`. -/
theorem create_accepts_empty_code :
    FecCode.create FecType.SYSTEMATIC 3 0 0 8
      = Except.ok ⟨FecType.SYSTEMATIC, 3, 0, 0, 0, 0, 8, 24⟩ := rfl

/-- C28 (amended): the constructor of `FecCode` validates nothing but the
enumeration value: for all parameters it produces a code object, with
`code_len = n_data + n_parities` (on `unsigned`), `n_outputs = n_parities` for a
SYSTEMATIC code and `code_len` otherwise, and `buf_size = pkt_size * word_size`
(on `size_t`); a word size outside {1, 2, 4, 8, 16} is only met by the
assertion of `readw` and `writew`, at the first word read or written. -/
theorem create_accepts_all (type : FecType) (word_size n_data n_parities pkt_size : Nat) :
    ∃ c, FecCode.create type word_size n_data n_parities pkt_size = Except.ok c
      ∧ c.type = type ∧ c.word_size = word_size ∧ c.n_data = n_data
      ∧ c.n_parities = n_parities ∧ c.pkt_size = pkt_size
      ∧ c.code_len = (n_data + n_parities) % 4294967296
      ∧ c.n_outputs = (if type = FecType.SYSTEMATIC then n_parities else c.code_len)
      ∧ c.buf_size = (pkt_size * word_size) % 18446744073709551616
      ∧ (¬ (word_size = 1 ∨ word_size = 2 ∨ word_size = 4 ∨ word_size = 8 ∨ word_size = 16) →
          ∀ Tbits val s out, c.readw Tbits s = Except.error Err.assertion
            ∧ c.writew val out = Except.error Err.assertion) := by
  have ht : type = FecType.SYSTEMATIC ∨ type = FecType.NON_SYSTEMATIC := by
    cases type
    · exact Or.inl rfl
    · exact Or.inr rfl
  refine ⟨_, by simp only [FecCode.create, if_pos ht]; rfl, rfl, rfl, rfl, rfl, rfl, rfl, rfl,
    rfl, ?_⟩
  intro hw Tbits val s out
  simp only [FecCode.readw, FecCode.writew, if_neg hw, and_self]

theorem create_accepts_all_witness :
    ∃ c, FecCode.create FecType.NON_SYSTEMATIC 3 0 0 8 = Except.ok c
      ∧ c.n_data = 0 ∧ c.n_parities = 0
      ∧ c.readw 32 ⟨[1, 2, 3], true⟩ = Except.error Err.assertion :=
  (create_accepts_all FecType.NON_SYSTEMATIC 3 0 0 8).elim fun c h =>
    ⟨c, h.1, h.2.2.2.1, h.2.2.2.2.1,
      (h.2.2.2.2.2.2.2.2.2
        (by rw [h.2.2.1] at *; decide) 32 0 ⟨[1, 2, 3], true⟩ ⟨[]⟩).1⟩

/-! ## Loops with `break` -/

theorem for_break_inv {σ : Type} (body : Nat → σ → Except Err (σ × Bool))
    (Inv : Nat → σ → Bool → Prop) (N : Nat) (s0 : σ)
    (h0 : Inv 0 s0 false)
    (hstep : ∀ n s, n < N → Inv n s false →
      ∃ s1 b, body n s = Except.ok (s1, b) ∧ Inv (n + 1) s1 b)
    (hbrk : ∀ n s, n < N → Inv n s true → Inv (n + 1) s true) :
    ∃ s b, for_break body N s0 = Except.ok (s, b) ∧ Inv N s b := by
  induction N with
  | zero => exact ⟨s0, false, rfl, h0⟩
  | succ N ih =>
    obtain ⟨s, b, he, hi⟩ := ih (fun n s hn => hstep n s (by omega))
      (fun n s hn => hbrk n s (by omega))
    cases b with
    | true => exact ⟨s, true, by simp only [for_break, he], hbrk N s (by omega) hi⟩
    | false =>
      obtain ⟨s1, b1, hb, hi1⟩ := hstep N s (by omega) hi
      exact ⟨s1, b1, by simp only [for_break, he, hb], hi1⟩

/-! ## Streams -/

theorem holds_mono (n m : Nat) (o : Option (Option IStream)) (h : holds n o) (hm : m ≤ n) :
    holds m o := by
  obtain ⟨s, hs, hg, hl⟩ := h
  exact ⟨s, hs, hg, by omega⟩

theorem holds_skip (n w : Nat) (o : Option (Option IStream)) (hw : holds w o) :
    holds n (skip w o) ↔ holds (n + w) o := by
  obtain ⟨s, hs, hg, hl⟩ := hw
  subst hs
  constructor
  · rintro ⟨s1, hs1, hg1, hl1⟩
    simp only [skip, Option.map_some', Option.some.injEq] at hs1
    subst hs1
    simp only [List.length_drop] at hl1
    exact ⟨s, rfl, hg, by omega⟩
  · rintro ⟨s1, hs1, hg1, hl1⟩
    simp only [Option.some.injEq] at hs1
    subst hs1
    exact ⟨_, rfl, rfl, by simp only [List.length_drop]; omega⟩

theorem chunk_at_skip (w j : Nat) (o : Option (Option IStream)) :
    chunk_at w j (skip w o) = chunk_at w (j + 1) o := by
  rcases o with _ | _ | s
  · rfl
  · rfl
  · simp only [skip, Option.map_some', chunk_at, List.drop_drop]
    have : w + j * w = (j + 1) * w := by rw [Nat.succ_mul]; omega
    rw [this]

theorem word_at_skip (w Tbits j : Nat) (o : Option (Option IStream)) :
    word_at w Tbits j (skip w o) = word_at w Tbits (j + 1) o := by
  simp only [word_at, chunk_at_skip]

theorem written_nil (o : Option (Option OStream)) : written [] o = o := by
  rcases o with _ | _ | s
  · rfl
  · rfl
  · simp [written]

theorem written_written (a b : List Nat) (o : Option (Option OStream)) :
    written b (written a o) = written (a ++ b) o := by
  rcases o with _ | _ | s
  · rfl
  · rfl
  · simp [written]

theorem words_bytes_zero (w : Nat) (val : Nat → Nat) : words_bytes w val 0 = [] := rfl

theorem words_bytes_succ (w : Nat) (val : Nat → Nat) (N : Nat) :
    words_bytes w val (N + 1) = le_bytes w (val 0) ++ words_bytes w (fun j => val (j + 1)) N := by
  simp only [words_bytes, List.range_succ_eq_map, List.flatMap_cons, List.flatMap_map]

theorem pkts_bytes_succ (n : Nat) (pkt : Nat → List Nat) (N : Nat) :
    pkts_bytes n pkt (N + 1)
      = (List.range n).map (fun k => (pkt 0).getD k 0) ++ pkts_bytes n (fun j => pkt (j + 1)) N := by
  simp only [pkts_bytes, List.range_succ_eq_map, List.flatMap_cons, List.flatMap_map]

/-! ## One round of `encode_bufs` -/

theorem encode_bufs_read_spec (c : FecCode) (Tbits : Nat)
    (hw : c.word_size = 1 ∨ c.word_size = 2 ∨ c.word_size = 4 ∨ c.word_size = 8
      ∨ c.word_size = 16)
    (S : List (Option IStream)) (W0 : List Nat) (n : Nat)
    (hS : ∀ k, k < n → ∃ s, S[k]? = some (some s)) (hW : n ≤ W0.length) :
    ∃ g b, for_break (encode_bufs_read_body c Tbits) n { streams := S, words := W0, cont := true }
        = Except.ok (g, b)
      ∧ ((∀ k, k < n → holds c.word_size S[k]?) →
          g.cont = true
          ∧ (∀ k, g.streams[k]? = if k < n then skip c.word_size S[k]? else S[k]?)
          ∧ g.words.length = W0.length
          ∧ ∀ k, g.words[k]? = if k < n then some (word_at c.word_size Tbits 0 S[k]?)
              else W0[k]?)
      ∧ ((∃ k, k < n ∧ ¬ holds c.word_size S[k]?) → g.cont = false) := by
  have key := for_break_inv (encode_bufs_read_body c Tbits)
    (fun m g b => g.words.length = W0.length ∧ (∀ k, m ≤ k → g.streams[k]? = S[k]?)
      ∧ ((b = false ∧ g.cont = true ∧ (∀ k, k < m → holds c.word_size S[k]?)
            ∧ (∀ k, k < m → g.streams[k]? = skip c.word_size S[k]?)
            ∧ ∀ k, g.words[k]? = if k < m then some (word_at c.word_size Tbits 0 S[k]?)
                else W0[k]?)
          ∨ (b = true ∧ g.cont = false ∧ ∃ k, k < m ∧ ¬ holds c.word_size S[k]?)))
    n { streams := S, words := W0, cont := true }
    ⟨rfl, fun _ _ => rfl, Or.inl ⟨rfl, rfl, fun k hk => absurd hk (Nat.not_lt_zero _),
      fun k hk => absurd hk (Nat.not_lt_zero _), fun k => by simp⟩⟩
    (by
      intro m g hm ⟨hlen, hrest, hcase⟩
      rcases hcase with ⟨-, hcont, hall, hskip, hwords⟩ | ⟨hb, -, -⟩
      swap
      · exact absurd hb (by decide)
      obtain ⟨s, hs⟩ := hS m hm
      have hgs : g.streams[m]? = some (some s) := by rw [hrest m (Nat.le_refl _), hs]
      by_cases hh : s.good = true ∧ c.word_size ≤ s.data.length
      · have hrd := readw_ok c Tbits s hw hh.1 hh.2
        have hvs : vector_set g.words m (le_value (s.data.take c.word_size) % 2 ^ Tbits)
            = Except.ok (g.words.set m (le_value (s.data.take c.word_size) % 2 ^ Tbits)) := by
          simp only [vector_set]
          rw [if_pos (by omega)]
        have hbody : encode_bufs_read_body c Tbits m g = Except.ok
            ({ streams := g.streams.set m (some { data := s.data.drop c.word_size, good := true }),
               words := g.words.set m (le_value (s.data.take c.word_size) % 2 ^ Tbits),
               cont := g.cont }, false) := by
          simp only [encode_bufs_read_body, hgs, hrd, hvs]
        refine ⟨_, false, hbody, ?_, ?_, ?_⟩
        · simp only [List.length_set, hlen]
        · intro k hk
          simp only
          rw [List.getElem?_set_ne (by omega), hrest k (by omega)]
        · refine Or.inl ⟨rfl, hcont, ?_, ?_, ?_⟩
          · intro k hk
            by_cases hkm : k = m
            · subst hkm
              exact ⟨s, hs, hh.1, hh.2⟩
            · exact hall k (by omega)
          · intro k hk
            simp only
            by_cases hkm : k = m
            · subst hkm
              have hlt : k < g.streams.length := by
                by_contra hcon
                rw [List.getElem?_eq_none (by omega)] at hgs
                exact absurd hgs (by simp)
              rw [List.getElem?_set_self hlt, hs]
              rfl
            · rw [List.getElem?_set_ne (by omega)]
              exact hskip k (by omega)
          · intro k
            simp only
            by_cases hkm : k = m
            · subst hkm
              rw [List.getElem?_set_self (by omega), if_pos (by omega), hs]
              simp [word_at, chunk_at]
            · rw [List.getElem?_set_ne (by omega), hwords k]
              by_cases hlt : k < m
              · rw [if_pos hlt, if_pos (by omega)]
              · rw [if_neg hlt, if_neg (by omega)]
      · have hrd := readw_short c Tbits s hw hh
        have hbody : encode_bufs_read_body c Tbits m g = Except.ok
            ({ g with streams := g.streams.set m (some { data := [], good := false }),
                      cont := false }, true) := by
          simp only [encode_bufs_read_body, hgs, hrd]
        refine ⟨_, true, hbody, hlen, ?_, ?_⟩
        · intro k hk
          simp only
          rw [List.getElem?_set_ne (by omega), hrest k (by omega)]
        · refine Or.inr ⟨rfl, rfl, m, by omega, ?_⟩
          rintro ⟨s1, hs1, hg1, hl1⟩
          rw [hs] at hs1
          simp only [Option.some.injEq] at hs1
          subst hs1
          exact hh ⟨hg1, hl1⟩)
    (by
      intro m g hm ⟨hlen, hrest, hcase⟩
      rcases hcase with ⟨hb, -⟩ | ⟨-, hcont, k, hk, hnk⟩
      · exact absurd hb (by decide)
      · exact ⟨hlen, fun k hk => hrest k (by omega), Or.inr ⟨rfl, hcont, k, by omega, hnk⟩⟩)
  obtain ⟨g, b, he, hlen, hrest, hcase⟩ := key
  refine ⟨g, b, he, ?_, ?_⟩
  · intro hall
    rcases hcase with ⟨-, hcont, -, hskip, hwords⟩ | ⟨-, -, k, hk, hnk⟩
    · refine ⟨hcont, ?_, hlen, hwords⟩
      intro k
      by_cases hk : k < n
      · rw [if_pos hk, hskip k hk]
      · rw [if_neg hk, hrest k (by omega)]
    · exact absurd (hall k hk) hnk
  · rintro ⟨k, hk, hnk⟩
    rcases hcase with ⟨-, -, hall, -, -⟩ | ⟨-, hcont, -⟩
    · exact absurd (hall k hk) hnk
    · exact hcont

theorem encode_bufs_write_spec (c : FecCode)
    (hw : c.word_size = 1 ∨ c.word_size = 2 ∨ c.word_size = 4 ∨ c.word_size = 8
      ∨ c.word_size = 16)
    (output : List Nat) (outs : List (Option OStream)) (n : Nat)
    (hO : ∀ i, i < n → ∃ s, outs[i]? = some (some s)) (hlen : n ≤ output.length) :
    ∃ r b, for_break (encode_bufs_write_body c output) n outs = Except.ok (r, b)
      ∧ r.length = outs.length
      ∧ ∀ i, r[i]? = if i < n then written (le_bytes c.word_size (output.getD i 0)) outs[i]?
          else outs[i]? := by
  have key := for_break_inv (encode_bufs_write_body c output)
    (fun m r b => b = false ∧ r.length = outs.length
      ∧ ∀ i, r[i]? = if i < m then written (le_bytes c.word_size (output.getD i 0)) outs[i]?
          else outs[i]?)
    n outs ⟨rfl, rfl, fun i => by simp⟩
    (by
      intro m r hm ⟨_, hl, hr⟩
      obtain ⟨s, hs⟩ := hO m hm
      have hrm : r[m]? = some (some s) := by rw [hr m, if_neg (Nat.lt_irrefl _), hs]
      have hget : vector_get output m = Except.ok (output.getD m 0) := by
        simp only [vector_get, List.getD_eq_getElem?_getD]
        rw [List.getElem?_eq_getElem (by omega)]
        rfl
      have hbody : encode_bufs_write_body c output m r = Except.ok
          (r.set m (some { data := s.data ++ le_bytes c.word_size (output.getD m 0) }), false) := by
        simp only [encode_bufs_write_body, hget, hrm, FecCode.writew, if_pos hw, OStream.write]
      refine ⟨_, false, hbody, rfl, ?_, ?_⟩
      · simp only [List.length_set, hl]
      · intro i
        by_cases him : i = m
        · subst him
          have hlt : i < r.length := by
            by_contra hcon
            rw [List.getElem?_eq_none (by omega)] at hrm
            exact absurd hrm (by simp)
          rw [List.getElem?_set_self hlt, if_pos (by omega), hs]
          rfl
        · rw [List.getElem?_set_ne (by omega), hr i]
          by_cases hlt : i < m
          · rw [if_pos hlt, if_pos (by omega)]
          · rw [if_neg hlt, if_neg (by omega)])
    (by
      intro m r hm ⟨hb, _⟩
      exact absurd hb (by decide))
  obtain ⟨r, b, he, -, hl, hr⟩ := key
  exact ⟨r, b, he, hl, hr⟩

/-! ## The loop of `encode_bufs` -/

theorem encode_bufs_loop_spec (c : FecCode) (Tbits : Nat) (enc : EncodeFn)
    (hw : c.word_size = 1 ∨ c.word_size = 2 ∨ c.word_size = 4 ∨ c.word_size = 8
      ∨ c.word_size = 16)
    (henc : ∀ h p o ws, c.n_outputs ≤ (enc h p o ws).1.length) :
    ∀ (N fuel : Nat) (offset : Int) (st : EncodeState), N < fuel →
      (∀ k, k < c.n_data → holds (N * c.word_size) st.data[k]?) →
      (∃ k, k < c.n_data ∧ ¬ holds ((N + 1) * c.word_size) st.data[k]?) →
      (∀ i, i < c.n_outputs → ∃ s, st.parities[i]? = some (some s)) →
      ∃ (st1 : EncodeState) (O : Nat → List Nat),
        encode_bufs_loop c Tbits enc fuel offset st = Except.ok st1
        ∧ st1.events = st.events ++ (List.range N).map (fun j =>
            Event.encode (offset + ((j * c.word_size : Nat) : Int))
              ((List.range c.n_data).map (fun k => word_at c.word_size Tbits j st.data[k]?))
              (O j))
        ∧ st1.parities.length = st.parities.length
        ∧ ∀ i, st1.parities[i]? =
            if i < c.n_outputs then
              written (words_bytes c.word_size (fun j => (O j).getD i 0) N) st.parities[i]?
            else st.parities[i]? := by
  intro N
  induction N with
  | zero =>
    intro fuel offset st hfuel hall hex hpar
    obtain ⟨f, rfl⟩ : ∃ f, fuel = f + 1 := ⟨fuel - 1, by omega⟩
    obtain ⟨g, b, hrd, -, hfail⟩ := encode_bufs_read_spec c Tbits hw st.data
      (List.replicate c.n_data 0) c.n_data
      (fun k hk => (hall k hk).elim fun s hs => ⟨s, hs.1⟩) (by simp)
    have hcont : g.cont = false := by
      apply hfail
      obtain ⟨k, hk, hnk⟩ := hex
      exact ⟨k, hk, by simpa using hnk⟩
    refine ⟨{ st with data := g.streams }, fun _ => [], ?_, ?_, rfl, ?_⟩
    · simp only [encode_bufs_loop, hrd, hcont, if_true]
    · simp
    · intro i
      simp only [words_bytes_zero, written_nil, ite_self]
  | succ N ih =>
    intro fuel offset st hfuel hall hex hpar
    obtain ⟨f, rfl⟩ : ∃ f, fuel = f + 1 := ⟨fuel - 1, by omega⟩
    have hall1 : ∀ k, k < c.n_data → holds c.word_size st.data[k]? := by
      intro k hk
      refine holds_mono _ _ _ (hall k hk) ?_
      rw [Nat.succ_mul]
      omega
    obtain ⟨g, b, hrd, hok, -⟩ := encode_bufs_read_spec c Tbits hw st.data
      (List.replicate c.n_data 0) c.n_data
      (fun k hk => (hall k hk).elim fun s hs => ⟨s, hs.1⟩) (by simp)
    obtain ⟨hcont, hstreams, hwl, hwords⟩ := hok hall1
    have hgw : g.words
        = (List.range c.n_data).map (fun k => word_at c.word_size Tbits 0 st.data[k]?) := by
      apply List.ext_getElem?
      intro k
      rw [hwords k, List.getElem?_map]
      by_cases hk : k < c.n_data
      · rw [if_pos hk, List.getElem?_range hk]
        rfl
      · rw [if_neg hk, List.getElem?_eq_none (by simp; omega),
          List.getElem?_eq_none (by simp; omega)]
        rfl
    obtain ⟨outs, b2, hwr, hol, hor⟩ := encode_bufs_write_spec c hw
      (enc st.events st.props offset g.words).1 st.parities c.n_outputs hpar (henc _ _ _ _)
    obtain ⟨st1, O, hrun, hev, hpl, hpp⟩ := ih f (offset + (c.word_size : Int))
      { data := g.streams, parities := outs,
        props := (enc st.events st.props offset g.words).2,
        events := st.events ++ [Event.encode offset g.words
          (enc st.events st.props offset g.words).1] }
      (by omega)
      (by
        intro k hk
        simp only
        rw [hstreams k, if_pos hk, holds_skip _ _ _ (hall1 k hk)]
        have := hall k hk
        rw [Nat.succ_mul] at this
        exact this)
      (by
        obtain ⟨k, hk, hnk⟩ := hex
        refine ⟨k, hk, ?_⟩
        simp only
        rw [hstreams k, if_pos hk, holds_skip _ _ _ (hall1 k hk)]
        have e : (N + 1) * c.word_size + c.word_size = (N + 1 + 1) * c.word_size := by
          rw [Nat.succ_mul (N + 1)]
        rw [e]
        exact hnk)
      (by
        intro i hi
        simp only
        obtain ⟨s, hs⟩ := hpar i hi
        rw [hor i, if_pos hi, hs]
        exact ⟨_, rfl⟩)
    refine ⟨st1, fun j => match j with
      | 0 => (enc st.events st.props offset g.words).1
      | j + 1 => O j, ?_, ?_, ?_, ?_⟩
    · have hc : ¬ (g.cont = false) := by rw [hcont]; decide
      simp only [encode_bufs_loop, hrd, hc, if_false, hwr]
      exact hrun
    · rw [hev]
      simp only [List.range_succ_eq_map, List.map_cons, List.map_map, List.append_assoc,
        List.singleton_append]
      congr 2
      · congr 1
        · simp
      · apply List.map_congr_left
        intro j _
        simp only [Function.comp]
        congr 1
        · push_cast
          ring
        · apply List.map_congr_left
          intro k hk
          rw [hstreams k, if_pos (List.mem_range.mp hk), word_at_skip]
    · rw [hpl]
      exact hol
    · intro i
      rw [hpp i]
      simp only
      by_cases hi : i < c.n_outputs
      · rw [if_pos hi, if_pos hi, hor i, if_pos hi, written_written, words_bytes_succ]
      · rw [if_neg hi, if_neg hi, hor i, if_neg hi]

theorem min_over_le (f : Nat → Nat) : ∀ (l : List Nat) (k : Nat), k ∈ l → min_over f l ≤ f k := by
  intro l
  induction l with
  | nil => intro k hk; simp at hk
  | cons a t ih =>
    intro k hk
    cases t with
    | nil =>
      simp only [List.mem_singleton] at hk
      subst hk
      exact Nat.le_refl _
    | cons b t =>
      simp only [min_over]
      rcases List.mem_cons.mp hk with h | h
      · subst h
        exact Nat.min_le_left _ _
      · exact Nat.le_trans (Nat.min_le_right _ _) (ih k h)

theorem min_over_attained (f : Nat → Nat) :
    ∀ (l : List Nat), l ≠ [] → ∃ k, k ∈ l ∧ f k = min_over f l := by
  intro l
  induction l with
  | nil => intro h; exact absurd rfl h
  | cons a t ih =>
    intro _
    cases t with
    | nil => exact ⟨a, List.mem_singleton.mpr rfl, rfl⟩
    | cons b t =>
      obtain ⟨k, hk, he⟩ := ih (by simp)
      simp only [min_over]
      by_cases h : f a ≤ min_over f (b :: t)
      · exact ⟨a, List.mem_cons_self _ _, by rw [Nat.min_eq_left h]⟩
      · exact ⟨k, List.mem_cons_of_mem _ hk, by rw [Nat.min_eq_right (by omega)]; exact he⟩

theorem holds_of_chunks (n N : Nat) (hn : 0 < n) (o : Option (Option IStream)) (h0 : holds 0 o) :
    holds (N * n) o ↔ N ≤ chunks_in n o := by
  obtain ⟨s, hs, hg, -⟩ := h0
  subst hs
  simp only [chunks_in, Nat.le_div_iff_mul_le hn]
  constructor
  · rintro ⟨s1, hs1, -, hl⟩
    simp only [Option.some.injEq] at hs1
    subst hs1
    exact hl
  · intro h
    exact ⟨s, rfl, hg, h⟩

/-- The two facts about the streams that the loops use, from the minimum of
the numbers of chunks. -/
theorem min_chunks_facts (n : Nat) (hn : 0 < n) (S : List (Option IStream)) (l : List Nat)
    (hl : l ≠ []) (hS : ∀ k, k ∈ l → holds 0 S[k]?) :
    (∀ k, k ∈ l → holds (min_over (fun k => chunks_in n S[k]?) l * n) S[k]?)
    ∧ ∃ k, k ∈ l ∧ ¬ holds ((min_over (fun k => chunks_in n S[k]?) l + 1) * n) S[k]? := by
  constructor
  · intro k hk
    rw [holds_of_chunks n _ hn _ (hS k hk)]
    exact min_over_le (fun k => chunks_in n S[k]?) l k hk
  · obtain ⟨k, hk, he⟩ := min_over_attained (fun k => chunks_in n S[k]?) l hl
    refine ⟨k, hk, ?_⟩
    rw [holds_of_chunks n _ hn _ (hS k hk)]
    have he1 : chunks_in n S[k]? = min_over (fun k => chunks_in n S[k]?) l := he
    omega

theorem word_size_pos (c : FecCode)
    (hw : c.word_size = 1 ∨ c.word_size = 2 ∨ c.word_size = 4 ∨ c.word_size = 8
      ∨ c.word_size = 16) : 0 < c.word_size := by
  omega

theorem range_ne_nil (n : Nat) (hn : 1 ≤ n) : List.range n ≠ [] := by
  intro h
  have := congrArg List.length h
  simp at this
  omega

/-- The run of `encode_bufs` on present, good data streams and present parity
streams. -/
theorem encode_bufs_spec (c : FecCode) (Tbits : Nat) (enc : EncodeFn) (fuel : Nat)
    (data : List (Option IStream)) (parities : List (Option OStream))
    (props : List Properties)
    (hw : c.word_size = 1 ∨ c.word_size = 2 ∨ c.word_size = 4 ∨ c.word_size = 8
      ∨ c.word_size = 16)
    (hnd : 1 ≤ c.n_data)
    (hdl : data.length = c.n_data) (hpl : parities.length = c.n_outputs)
    (hprl : props.length = c.n_outputs)
    (hdata : ∀ k, k < c.n_data → holds 0 data[k]?)
    (hpar : ∀ i, i < c.n_outputs → ∃ s, parities[i]? = some (some s))
    (henc : ∀ h p o ws, c.n_outputs ≤ (enc h p o ws).1.length)
    (hfuel : min_over (fun k => chunks_in c.word_size data[k]?) (List.range c.n_data) < fuel) :
    ∃ (st : EncodeState) (O : Nat → List Nat),
      c.encode_bufs Tbits enc fuel data parities props = Except.ok st
      ∧ st.events = (List.range
            (min_over (fun k => chunks_in c.word_size data[k]?) (List.range c.n_data))).map
          (fun j => Event.encode ((j * c.word_size : Nat) : Int)
            ((List.range c.n_data).map (fun k => word_at c.word_size Tbits j data[k]?)) (O j))
      ∧ st.parities.length = parities.length
      ∧ ∀ i, st.parities[i]? =
          if i < c.n_outputs then
            written (words_bytes c.word_size (fun j => (O j).getD i 0)
              (min_over (fun k => chunks_in c.word_size data[k]?) (List.range c.n_data)))
              parities[i]?
          else parities[i]? := by
  obtain ⟨h1, h2⟩ := min_chunks_facts c.word_size (word_size_pos c hw) data
    (List.range c.n_data) (range_ne_nil _ hnd)
    (fun k hk => hdata k (List.mem_range.mp hk))
  obtain ⟨st, O, hrun, hev, hl, hp⟩ := encode_bufs_loop_spec c Tbits enc hw henc
    (min_over (fun k => chunks_in c.word_size data[k]?) (List.range c.n_data)) fuel 0
    { data := data, parities := parities, props := props, events := [] } hfuel
    (fun k hk => h1 k (List.mem_range.mpr hk))
    (h2.elim fun k hk => ⟨k, List.mem_range.mp hk.1, hk.2⟩)
    hpar
  refine ⟨st, O, ?_, ?_, hl, hp⟩
  · simp only [FecCode.encode_bufs, hdl, hpl, hprl, ne_eq, not_true_eq_false, if_false]
    exact hrun
  · rw [hev]
    simp only [List.nil_append, Int.zero_add]

/-! ## The loop of `encode_packet` -/

theorem read_pkt_ok (c : FecCode) (s : IStream) (hg : s.good = true)
    (hn : c.buf_size ≤ s.data.length) :
    c.read_pkt s = (true, some (s.data.take c.buf_size),
      { data := s.data.drop c.buf_size, good := true }) := by
  simp only [FecCode.read_pkt, read_ok s _ hg hn]

theorem read_pkt_short (c : FecCode) (s : IStream)
    (hn : ¬ (s.good = true ∧ c.buf_size ≤ s.data.length)) :
    c.read_pkt s = (false, none, { data := [], good := false }) := by
  simp only [FecCode.read_pkt, read_short s _ hn]

theorem encode_packet_read_spec (c : FecCode)
    (S : List (Option IStream)) (P0 : List (List Nat)) (n : Nat)
    (hS : ∀ k, k < n → ∃ s, S[k]? = some (some s)) (hP : n ≤ P0.length) :
    ∃ g b, for_break (encode_packet_read_body c) n { streams := S, pkts := P0, cont := true }
        = Except.ok (g, b)
      ∧ ((∀ k, k < n → holds c.buf_size S[k]?) →
          g.cont = true
          ∧ (∀ k, g.streams[k]? = if k < n then skip c.buf_size S[k]? else S[k]?)
          ∧ g.pkts.length = P0.length
          ∧ ∀ k, g.pkts[k]? = if k < n then some (chunk_at c.buf_size 0 S[k]?) else P0[k]?)
      ∧ ((∃ k, k < n ∧ ¬ holds c.buf_size S[k]?) → g.cont = false) := by
  have key := for_break_inv (encode_packet_read_body c)
    (fun m g b => g.pkts.length = P0.length ∧ (∀ k, m ≤ k → g.streams[k]? = S[k]?)
      ∧ ((b = false ∧ g.cont = true ∧ (∀ k, k < m → holds c.buf_size S[k]?)
            ∧ (∀ k, k < m → g.streams[k]? = skip c.buf_size S[k]?)
            ∧ ∀ k, g.pkts[k]? = if k < m then some (chunk_at c.buf_size 0 S[k]?) else P0[k]?)
          ∨ (b = true ∧ g.cont = false ∧ ∃ k, k < m ∧ ¬ holds c.buf_size S[k]?)))
    n { streams := S, pkts := P0, cont := true }
    ⟨rfl, fun _ _ => rfl, Or.inl ⟨rfl, rfl, fun k hk => absurd hk (Nat.not_lt_zero _),
      fun k hk => absurd hk (Nat.not_lt_zero _), fun k => by simp⟩⟩
    (by
      intro m g hm ⟨hlen, hrest, hcase⟩
      rcases hcase with ⟨-, hcont, hall, hskip, hpkts⟩ | ⟨hb, -, -⟩
      swap
      · exact absurd hb (by decide)
      obtain ⟨s, hs⟩ := hS m hm
      have hgs : g.streams[m]? = some (some s) := by rw [hrest m (Nat.le_refl _), hs]
      have hml : m < g.pkts.length := by omega
      by_cases hh : s.good = true ∧ c.buf_size ≤ s.data.length
      · have hrd := read_pkt_ok c s hh.1 hh.2
        have hbody : encode_packet_read_body c m g = Except.ok
            ({ streams := g.streams.set m (some { data := s.data.drop c.buf_size, good := true }),
               pkts := g.pkts.set m (s.data.take c.buf_size),
               cont := g.cont }, false) := by
          simp only [encode_packet_read_body, if_pos hml, hgs, hrd]
        refine ⟨_, false, hbody, ?_, ?_, ?_⟩
        · simp only [List.length_set, hlen]
        · intro k hk
          simp only
          rw [List.getElem?_set_ne (by omega), hrest k (by omega)]
        · refine Or.inl ⟨rfl, hcont, ?_, ?_, ?_⟩
          · intro k hk
            by_cases hkm : k = m
            · subst hkm
              exact ⟨s, hs, hh.1, hh.2⟩
            · exact hall k (by omega)
          · intro k hk
            simp only
            by_cases hkm : k = m
            · subst hkm
              have hlt : k < g.streams.length := by
                by_contra hcon
                rw [List.getElem?_eq_none (by omega)] at hgs
                exact absurd hgs (by simp)
              rw [List.getElem?_set_self hlt, hs]
              rfl
            · rw [List.getElem?_set_ne (by omega)]
              exact hskip k (by omega)
          · intro k
            simp only
            by_cases hkm : k = m
            · subst hkm
              rw [List.getElem?_set_self (by omega), if_pos (by omega), hs]
              simp [chunk_at]
            · rw [List.getElem?_set_ne (by omega), hpkts k]
              by_cases hlt : k < m
              · rw [if_pos hlt, if_pos (by omega)]
              · rw [if_neg hlt, if_neg (by omega)]
      · have hrd := read_pkt_short c s hh
        have hbody : encode_packet_read_body c m g = Except.ok
            ({ g with streams := g.streams.set m (some { data := [], good := false }),
                      cont := false }, true) := by
          simp only [encode_packet_read_body, if_pos hml, hgs, hrd]
        refine ⟨_, true, hbody, hlen, ?_, ?_⟩
        · intro k hk
          simp only
          rw [List.getElem?_set_ne (by omega), hrest k (by omega)]
        · refine Or.inr ⟨rfl, rfl, m, by omega, ?_⟩
          rintro ⟨s1, hs1, hg1, hl1⟩
          rw [hs] at hs1
          simp only [Option.some.injEq] at hs1
          subst hs1
          exact hh ⟨hg1, hl1⟩)
    (by
      intro m g hm ⟨hlen, hrest, hcase⟩
      rcases hcase with ⟨hb, -⟩ | ⟨-, hcont, k, hk, hnk⟩
      · exact absurd hb (by decide)
      · exact ⟨hlen, fun k hk => hrest k (by omega), Or.inr ⟨rfl, hcont, k, by omega, hnk⟩⟩)
  obtain ⟨g, b, he, hlen, hrest, hcase⟩ := key
  refine ⟨g, b, he, ?_, ?_⟩
  · intro hall
    rcases hcase with ⟨-, hcont, -, hskip, hpkts⟩ | ⟨-, -, k, hk, hnk⟩
    · refine ⟨hcont, ?_, hlen, hpkts⟩
      intro k
      by_cases hk : k < n
      · rw [if_pos hk, hskip k hk]
      · rw [if_neg hk, hrest k (by omega)]
    · exact absurd (hall k hk) hnk
  · rintro ⟨k, hk, hnk⟩
    rcases hcase with ⟨-, -, hall, -, -⟩ | ⟨-, hcont, -⟩
    · exact absurd (hall k hk) hnk
    · exact hcont

theorem encode_packet_write_spec (c : FecCode)
    (output : List (List Nat)) (outs : List (Option OStream)) (n : Nat)
    (hO : ∀ i, i < n → ∃ s, outs[i]? = some (some s)) (hlen : n ≤ output.length) :
    ∃ r b, for_break (encode_packet_write_body c output) n outs = Except.ok (r, b)
      ∧ r.length = outs.length
      ∧ ∀ i, r[i]? =
          if i < n then
            written ((List.range c.buf_size).map (fun k => (output.getD i []).getD k 0)) outs[i]?
          else outs[i]? := by
  have key := for_break_inv (encode_packet_write_body c output)
    (fun m r b => b = false ∧ r.length = outs.length
      ∧ ∀ i, r[i]? =
          if i < m then
            written ((List.range c.buf_size).map (fun k => (output.getD i []).getD k 0)) outs[i]?
          else outs[i]?)
    n outs ⟨rfl, rfl, fun i => by simp⟩
    (by
      intro m r hm ⟨_, hl, hr⟩
      obtain ⟨s, hs⟩ := hO m hm
      have hrm : r[m]? = some (some s) := by rw [hr m, if_neg (Nat.lt_irrefl _), hs]
      have hget : output[m]? = some (output.getD m []) := by
        simp only [List.getD_eq_getElem?_getD]
        rw [List.getElem?_eq_getElem (by omega)]
        rfl
      have hbody : encode_packet_write_body c output m r = Except.ok
          (r.set m (some { data := s.data
            ++ (List.range c.buf_size).map (fun k => (output.getD m []).getD k 0) }), false) := by
        simp only [encode_packet_write_body, hget, hrm, FecCode.write_pkt, OStream.write]
      refine ⟨_, false, hbody, rfl, ?_, ?_⟩
      · simp only [List.length_set, hl]
      · intro i
        by_cases him : i = m
        · subst him
          have hlt : i < r.length := by
            by_contra hcon
            rw [List.getElem?_eq_none (by omega)] at hrm
            exact absurd hrm (by simp)
          rw [List.getElem?_set_self hlt, if_pos (by omega), hs]
          rfl
        · rw [List.getElem?_set_ne (by omega), hr i]
          by_cases hlt : i < m
          · rw [if_pos hlt, if_pos (by omega)]
          · rw [if_neg hlt, if_neg (by omega)])
    (by
      intro m r hm ⟨hb, _⟩
      exact absurd hb (by decide))
  obtain ⟨r, b, he, -, hl, hr⟩ := key
  exact ⟨r, b, he, hl, hr⟩

theorem to_off_t_id (v : Int) (h0 : 0 ≤ v) (h1 : v < 9223372036854775808) : to_off_t v = v := by
  unfold to_off_t
  omega

theorem encode_packet_loop_spec (c : FecCode) (enc : EncodePktFn)
    (henc : ∀ h p o ws, c.n_outputs ≤ (enc h p o ws).1.length) :
    ∀ (N fuel : Nat) (offset : Int) (pkts : List (List Nat)) (st : EncodeState), N < fuel →
      0 ≤ offset → offset + ((N * c.buf_size : Nat) : Int) < 9223372036854775808 →
      pkts.length = c.n_data →
      (∀ k, k < c.n_data → holds (N * c.buf_size) st.data[k]?) →
      (∃ k, k < c.n_data ∧ ¬ holds ((N + 1) * c.buf_size) st.data[k]?) →
      (∀ i, i < c.n_outputs → ∃ s, st.parities[i]? = some (some s)) →
      ∃ (st1 : EncodeState) (O : Nat → List (List Nat)),
        encode_packet_loop c enc fuel offset pkts st = Except.ok st1
        ∧ st1.events = st.events ++ (List.range N).map (fun j =>
            Event.encode_pkt (offset + ((j * c.buf_size : Nat) : Int))
              ((List.range c.n_data).map (fun k => chunk_at c.buf_size j st.data[k]?))
              (O j))
        ∧ st1.parities.length = st.parities.length
        ∧ ∀ i, st1.parities[i]? =
            if i < c.n_outputs then
              written (pkts_bytes c.buf_size (fun j => (O j).getD i []) N) st.parities[i]?
            else st.parities[i]? := by
  intro N
  induction N with
  | zero =>
    intro fuel offset pkts st hfuel _ _ hpk hall hex hpar
    obtain ⟨f, rfl⟩ : ∃ f, fuel = f + 1 := ⟨fuel - 1, by omega⟩
    obtain ⟨g, b, hrd, -, hfail⟩ := encode_packet_read_spec c st.data pkts c.n_data
      (fun k hk => (hall k hk).elim fun s hs => ⟨s, hs.1⟩) (by omega)
    have hcont : g.cont = false := by
      apply hfail
      obtain ⟨k, hk, hnk⟩ := hex
      exact ⟨k, hk, by simpa using hnk⟩
    refine ⟨{ st with data := g.streams }, fun _ => [], ?_, ?_, rfl, ?_⟩
    · simp only [encode_packet_loop, hrd, hcont, if_true]
    · simp
    · intro i
      simp only [pkts_bytes, List.range_zero, List.flatMap_nil, written_nil, ite_self]
  | succ N ih =>
    intro fuel offset pkts st hfuel hoff0 hoff1 hpk hall hex hpar
    obtain ⟨f, rfl⟩ : ∃ f, fuel = f + 1 := ⟨fuel - 1, by omega⟩
    have hall1 : ∀ k, k < c.n_data → holds c.buf_size st.data[k]? := by
      intro k hk
      refine holds_mono _ _ _ (hall k hk) ?_
      rw [Nat.succ_mul]
      omega
    obtain ⟨g, b, hrd, hok, -⟩ := encode_packet_read_spec c st.data pkts c.n_data
      (fun k hk => (hall k hk).elim fun s hs => ⟨s, hs.1⟩) (by omega)
    obtain ⟨hcont, hstreams, hpl, hpkts⟩ := hok hall1
    have hgp : g.pkts
        = (List.range c.n_data).map (fun k => chunk_at c.buf_size 0 st.data[k]?) := by
      apply List.ext_getElem?
      intro k
      rw [hpkts k, List.getElem?_map]
      by_cases hk : k < c.n_data
      · rw [if_pos hk, List.getElem?_range hk]
        rfl
      · rw [if_neg hk, List.getElem?_eq_none (by omega),
          List.getElem?_eq_none (by simp; omega)]
        rfl
    obtain ⟨outs, b2, hwr, hol, hor⟩ := encode_packet_write_spec c
      (enc st.events st.props offset g.pkts).1 st.parities c.n_outputs hpar (henc _ _ _ _)
    have hsucc : ((N + 1) * c.buf_size : Nat) = N * c.buf_size + c.buf_size := Nat.succ_mul _ _
    have hto : to_off_t (offset + (c.buf_size : Int)) = offset + (c.buf_size : Int) := by
      apply to_off_t_id
      · omega
      · rw [hsucc] at hoff1
        push_cast at hoff1
        have : (0 : Int) ≤ ((N * c.buf_size : Nat) : Int) := Int.ofNat_nonneg _
        push_cast at this
        omega
    obtain ⟨st1, O, hrun, hev, hpl1, hpp⟩ := ih f (offset + (c.buf_size : Int)) g.pkts
      { data := g.streams, parities := outs,
        props := (enc st.events st.props offset g.pkts).2,
        events := st.events ++ [Event.encode_pkt offset g.pkts
          (enc st.events st.props offset g.pkts).1] }
      (by omega) (by omega)
      (by
        rw [hsucc] at hoff1
        push_cast at hoff1 ⊢
        omega)
      (by omega)
      (by
        intro k hk
        simp only
        rw [hstreams k, if_pos hk, holds_skip _ _ _ (hall1 k hk)]
        have := hall k hk
        rw [Nat.succ_mul] at this
        exact this)
      (by
        obtain ⟨k, hk, hnk⟩ := hex
        refine ⟨k, hk, ?_⟩
        simp only
        rw [hstreams k, if_pos hk, holds_skip _ _ _ (hall1 k hk)]
        have e : (N + 1) * c.buf_size + c.buf_size = (N + 1 + 1) * c.buf_size := by
          rw [Nat.succ_mul (N + 1)]
        rw [e]
        exact hnk)
      (by
        intro i hi
        simp only
        obtain ⟨s, hs⟩ := hpar i hi
        rw [hor i, if_pos hi, hs]
        exact ⟨_, rfl⟩)
    refine ⟨st1, fun j => match j with
      | 0 => (enc st.events st.props offset g.pkts).1
      | j + 1 => O j, ?_, ?_, ?_, ?_⟩
    · have hc : ¬ (g.cont = false) := by rw [hcont]; decide
      simp only [encode_packet_loop, hrd, hc, if_false, hwr, hto]
      exact hrun
    · rw [hev]
      simp only [List.range_succ_eq_map, List.map_cons, List.map_map, List.append_assoc,
        List.singleton_append]
      congr 2
      · congr 1
        · simp
      · apply List.map_congr_left
        intro j _
        simp only [Function.comp]
        congr 1
        · push_cast
          ring
        · apply List.map_congr_left
          intro k hk
          rw [hstreams k, if_pos (List.mem_range.mp hk), chunk_at_skip]
    · rw [hpl1]
      exact hol
    · intro i
      rw [hpp i]
      simp only
      by_cases hi : i < c.n_outputs
      · rw [if_pos hi, if_pos hi, hor i, if_pos hi, written_written, pkts_bytes_succ]
      · rw [if_neg hi, if_neg hi, hor i, if_neg hi]

/-- The run of `encode_packet` on present, good data streams and present
parity streams. -/
theorem encode_packet_spec (c : FecCode) (enc : EncodePktFn) (fuel : Nat)
    (data : List (Option IStream)) (parities : List (Option OStream))
    (props : List Properties)
    (hb : 1 ≤ c.buf_size) (hnd : 1 ≤ c.n_data)
    (hdl : data.length = c.n_data) (hpl : parities.length = c.n_outputs)
    (hprl : props.length = c.n_outputs)
    (hdata : ∀ k, k < c.n_data → holds 0 data[k]?)
    (hpar : ∀ i, i < c.n_outputs → ∃ s, parities[i]? = some (some s))
    (henc : ∀ h p o ws, c.n_outputs ≤ (enc h p o ws).1.length)
    (hoff : min_over (fun k => chunks_in c.buf_size data[k]?) (List.range c.n_data) * c.buf_size
      < 9223372036854775808)
    (hfuel : min_over (fun k => chunks_in c.buf_size data[k]?) (List.range c.n_data) < fuel) :
    ∃ (st : EncodeState) (O : Nat → List (List Nat)),
      c.encode_packet enc fuel data parities props = Except.ok st
      ∧ st.events = (List.range
            (min_over (fun k => chunks_in c.buf_size data[k]?) (List.range c.n_data))).map
          (fun j => Event.encode_pkt ((j * c.buf_size : Nat) : Int)
            ((List.range c.n_data).map (fun k => chunk_at c.buf_size j data[k]?)) (O j))
      ∧ st.parities.length = parities.length
      ∧ ∀ i, st.parities[i]? =
          if i < c.n_outputs then
            written (pkts_bytes c.buf_size (fun j => (O j).getD i [])
              (min_over (fun k => chunks_in c.buf_size data[k]?) (List.range c.n_data)))
              parities[i]?
          else parities[i]? := by
  obtain ⟨h1, h2⟩ := min_chunks_facts c.buf_size hb data
    (List.range c.n_data) (range_ne_nil _ hnd)
    (fun k hk => hdata k (List.mem_range.mp hk))
  obtain ⟨st, O, hrun, hev, hl, hp⟩ := encode_packet_loop_spec c enc henc
    (min_over (fun k => chunks_in c.buf_size data[k]?) (List.range c.n_data)) fuel 0
    (List.replicate c.n_data (List.replicate c.buf_size 0))
    { data := data, parities := parities, props := props, events := [] } hfuel
    (Int.le_refl _) (by push_cast; omega) (by simp)
    (fun k hk => h1 k (List.mem_range.mpr hk))
    (h2.elim fun k hk => ⟨k, List.mem_range.mp hk.1, hk.2⟩)
    hpar
  refine ⟨st, O, ?_, ?_, hl, hp⟩
  · simp only [FecCode.encode_packet, hdl, hpl, hprl, ne_eq, not_true_eq_false, if_false]
    exact hrun
  · rw [hev]
    simp only [List.nil_append, Int.zero_add]

/-! ## Selection of the fragments in `decode_bufs` -/

theorem present_below_succ {α : Type} (S : List (Option α)) (n : Nat) :
    present_below S (n + 1)
      = present_below S n ++ (if (S[n]?).join.isSome = true then [n] else []) := by
  simp only [present_below, List.range_succ, List.filter_append, List.filter_cons,
    List.filter_nil]

theorem present_below_lt {α : Type} (S : List (Option α)) (n k : Nat)
    (h : k ∈ present_below S n) : k < n ∧ (S[k]?).join.isSome = true := by
  simp only [present_below, List.mem_filter, List.mem_range] at h
  exact h

theorem mem_present_below {α : Type} (S : List (Option α)) (n k : Nat) (hk : k < n)
    (h : (S[k]?).join.isSome = true) : k ∈ present_below S n := by
  simp only [present_below, List.mem_filter, List.mem_range]
  exact ⟨hk, h⟩

theorem present_below_initial {α : Type} (S : List (Option α)) (q n : Nat) (h : q ≤ n) :
    present_below S q = (present_below S n).take (present_below S q).length := by
  obtain ⟨d, rfl⟩ : ∃ d, n = q + d := ⟨n - q, by omega⟩
  have e : present_below S (q + d)
      = present_below S q ++ ((List.range d).map (fun x => q + x)).filter
          (fun k => (S[k]?).join.isSome) := by
    simp only [present_below, List.range_add, List.filter_append]
  rw [e, List.take_left']
  rfl

theorem present_below_ge {α : Type} (S : List (Option α)) (n : Nat) (h : S.length ≤ n) :
    present_below S n = present_below S S.length := by
  obtain ⟨d, rfl⟩ : ∃ d, n = S.length + d := ⟨n - S.length, by omega⟩
  have e : present_below S (S.length + d)
      = present_below S S.length ++ ((List.range d).map (fun x => S.length + x)).filter
          (fun k => (S[k]?).join.isSome) := by
    simp only [present_below, List.range_add, List.filter_append]
  rw [e]
  have : ((List.range d).map (fun x => S.length + x)).filter
      (fun k => (S[k]?).join.isSome) = [] := by
    rw [List.filter_eq_nil_iff]
    intro k hk
    simp only [List.mem_map, List.mem_range] at hk
    obtain ⟨x, -, rfl⟩ := hk
    rw [List.getElem?_eq_none (by omega)]
    simp
  rw [this, List.append_nil]

/-- A present stream that comes before the first `L` present ones are passed
is one of the first `L`. -/
theorem mem_take_present {α : Type} (S : List (Option α)) (n k L : Nat) (hk : k < n)
    (hp : (S[k]?).join.isSome = true) (hL : (present_below S k).length < L) :
    k ∈ (present_below S n).take L := by
  obtain ⟨d, rfl⟩ : ∃ d, n = (k + 1) + d := ⟨n - (k + 1), by omega⟩
  have e : present_below S (k + 1 + d)
      = present_below S (k + 1) ++ ((List.range d).map (fun x => k + 1 + x)).filter
          (fun k => (S[k]?).join.isSome) := by
    simp only [present_below, List.range_add, List.filter_append]
  rw [e, present_below_succ, if_pos hp, List.take_append_eq_append_take]
  apply List.mem_append_left
  rw [List.take_append_eq_append_take]
  apply List.mem_append_right
  have : L - (present_below S k).length = (L - (present_below S k).length - 1) + 1 := by omega
  rw [this]
  simp

theorem present_below_succ_some {α : Type} (S : List (Option α)) (n : Nat) (s : α)
    (h : S[n]? = some (some s)) : present_below S (n + 1) = present_below S n ++ [n] := by
  rw [present_below_succ, h]
  rfl

theorem present_below_succ_none {α : Type} (S : List (Option α)) (n : Nat)
    (h : S[n]? = some none) : present_below S (n + 1) = present_below S n := by
  rw [present_below_succ, h]
  exact List.append_nil _

theorem calls_from_append (f : Nat → Nat → Event) :
    ∀ (l : List Nat) (pos x : Nat),
      calls_from f pos (l ++ [x]) = calls_from f pos l ++ [f (pos + l.length) x] := by
  intro l
  induction l with
  | nil => intro pos x; simp [calls_from]
  | cons a t ih =>
    intro pos x
    have e : (a :: t) ++ [x] = a :: (t ++ [x]) := rfl
    have e2 : pos + 1 + t.length = pos + (t.length + 1) := by omega
    rw [e]
    simp only [calls_from, List.length_cons]
    rw [ih, List.cons_append, e2]

theorem calls_from_length (f : Nat → Nat → Event) :
    ∀ (l : List Nat) (pos : Nat), (calls_from f pos l).length = l.length := by
  intro l
  induction l with
  | nil => intro pos; rfl
  | cons a t ih => intro pos; simp only [calls_from, List.length_cons, ih]

theorem isSome_join_cases {α : Type} (o : Option (Option α)) :
    ((o.join.isSome = true) ↔ ∃ s, o = some (some s)) := by
  rcases o with _ | _ | s <;> simp

theorem decode_bufs_add_data_spec (S : List (Option IStream)) (n : Nat) (hn : n ≤ S.length)
    (h32 : n < 4294967296) (fi0 : Nat) (ev0 : List Event) (hfi : fi0 = 0) :
    for_break (decode_bufs_add_data_body S) n (fi0, ev0)
      = Except.ok (((present_below S n).length,
          ev0 ++ calls_from Event.decode_add_data 0 (present_below S n)), false) := by
  subst hfi
  have key := for_break_inv (decode_bufs_add_data_body S)
    (fun m st b => b = false ∧ st = ((present_below S m).length,
        ev0 ++ calls_from Event.decode_add_data 0 (present_below S m)))
    n (0, ev0) ⟨rfl, by simp [present_below, calls_from]⟩
    (by
      intro m st hm ⟨_, hst⟩
      subst hst
      have hlen : (present_below S m).length ≤ m := by
        have := List.length_filter_le (fun k => (S[k]?).join.isSome) (List.range m)
        simpa [present_below] using this
      have hin : m < S.length := by omega
      rcases hcase : S[m]? with _ | _ | s
      · rw [List.getElem?_eq_getElem hin] at hcase
        exact absurd hcase (by simp)
      · refine ⟨((present_below S m).length,
            ev0 ++ calls_from Event.decode_add_data 0 (present_below S m)), false,
          by simp only [decode_bufs_add_data_body, hcase], rfl, ?_⟩
        rw [present_below_succ_none S m hcase]
      · refine ⟨(((present_below S m).length + 1) % 4294967296,
            (ev0 ++ calls_from Event.decode_add_data 0 (present_below S m))
              ++ [Event.decode_add_data (present_below S m).length m]), false,
          by simp only [decode_bufs_add_data_body, hcase], rfl, ?_⟩
        rw [present_below_succ_some S m s hcase, calls_from_append, Nat.mod_eq_of_lt (by omega)]
        simp only [List.length_append, List.length_singleton, Nat.zero_add, List.append_assoc])
    (by
      intro m st hm ⟨hb, _⟩
      exact absurd hb (by decide))
  obtain ⟨st, b, he, hb, hst⟩ := key
  rw [he, hb, hst]

theorem decode_bufs_add_parities_spec (S : List (Option IStream)) (n n_data : Nat)
    (h32 : n_data < 4294967296) (fi0 : Nat) (ev0 : List Event) (hfi : fi0 < n_data)
    (henough : n_data ≤ fi0 + (present_below S S.length).length) (hn : S.length ≤ n) :
    ∃ b, for_break (decode_bufs_add_parities_body S n_data) n (fi0, ev0)
      = Except.ok ((n_data, ev0 ++ calls_from Event.decode_add_parities fi0
          ((present_below S S.length).take (n_data - fi0))), b) := by
  have key := for_break_inv (decode_bufs_add_parities_body S n_data)
    (fun m st b => ∃ q, q ≤ m ∧ q ≤ S.length
      ∧ st = (fi0 + (present_below S q).length,
          ev0 ++ calls_from Event.decode_add_parities fi0 (present_below S q))
      ∧ (b = false → q = m ∧ fi0 + (present_below S q).length < n_data)
      ∧ (b = true → fi0 + (present_below S q).length = n_data))
    n (fi0, ev0)
    ⟨0, Nat.le_refl _, Nat.zero_le _, by simp [present_below, calls_from],
      fun _ => ⟨rfl, by simpa [present_below] using hfi⟩, fun h => absurd h (by decide)⟩
    (by
      intro m st hm ⟨q, hq, hqS, hst, hf, _⟩
      obtain ⟨rfl, hlt⟩ := hf rfl
      subst hst
      have hin : q < S.length := by
        by_contra hcon
        rw [present_below_ge S q (by omega)] at hlt
        omega
      rcases hcase : S[q]? with _ | _ | s
      · rw [List.getElem?_eq_getElem hin] at hcase
        exact absurd hcase (by simp)
      · refine ⟨(fi0 + (present_below S q).length,
            ev0 ++ calls_from Event.decode_add_parities fi0 (present_below S q)), false,
          by simp only [decode_bufs_add_parities_body, hcase], q + 1,
          Nat.le_refl _, by omega, ?_, ?_, fun h => absurd h (by decide)⟩
        · rw [present_below_succ_none S q hcase]
        · intro _
          refine ⟨rfl, ?_⟩
          rw [present_below_succ_none S q hcase]
          exact hlt
      · have hps : present_below S (q + 1) = present_below S q ++ [q] :=
          present_below_succ_some S q s hcase
        have hmod : (fi0 + (present_below S q).length + 1) % 4294967296
            = fi0 + (present_below S q).length + 1 := Nat.mod_eq_of_lt (by omega)
        refine ⟨((fi0 + (present_below S q).length + 1) % 4294967296,
            (ev0 ++ calls_from Event.decode_add_parities fi0 (present_below S q))
              ++ [Event.decode_add_parities (fi0 + (present_below S q).length) q]),
          decide ((fi0 + (present_below S q).length + 1) % 4294967296 = n_data),
          by simp only [decode_bufs_add_parities_body, hcase], q + 1,
          Nat.le_refl _, by omega, ?_, ?_, ?_⟩
        · rw [hps, hmod, calls_from_append]
          simp only [List.length_append, List.length_singleton, List.append_assoc]
          rfl
        · intro hd
          rw [hmod] at hd
          have hne : ¬ (fi0 + (present_below S q).length + 1 = n_data) := by
            simpa using hd
          refine ⟨rfl, ?_⟩
          rw [hps]
          simp only [List.length_append, List.length_singleton]
          omega
        · intro hd
          rw [hmod] at hd
          have he : fi0 + (present_below S q).length + 1 = n_data := by simpa using hd
          rw [hps]
          simp only [List.length_append, List.length_singleton]
          omega)
    (by
      intro m st hm ⟨q, hq, hqS, hst, _, ht⟩
      exact ⟨q, by omega, hqS, hst, fun h => absurd h (by decide), ht⟩)
  obtain ⟨st, b, he, q, hq, hqS, hst, hf, ht⟩ := key
  have hfin : fi0 + (present_below S q).length = n_data := by
    cases b with
    | true => exact ht rfl
    | false =>
      obtain ⟨rfl, hlt⟩ := hf rfl
      rw [present_below_ge S q hn] at hlt
      omega
  refine ⟨b, ?_⟩
  rw [he, hst, hfin]
  have hpre := present_below_initial S q S.length hqS
  have hlen : (present_below S q).length = n_data - fi0 := by omega
  rw [hlen] at hpre
  rw [← hpre]

/-! ## One round of `decode_bufs` -/

theorem set_after_front {α : Type} (pre v : List α) (k : Nat) (x : α) (hk : pre.length = k)
    (hv : k < v.length) :
    (pre ++ v.drop k).set k x = (pre ++ [x]) ++ v.drop (k + 1) := by
  subst hk
  rw [List.set_append_right _ _ (Nat.le_refl _), Nat.sub_self, List.drop_eq_getElem_cons hv,
    List.set_cons_zero, List.append_assoc]
  rfl

theorem skip_absent (w : Nat) (o : Option (Option IStream)) (h : ¬ (o.join.isSome = true)) :
    skip w o = o := by
  rcases o with _ | _ | s
  · rfl
  · rfl
  · exact absurd rfl h

theorem decode_bufs_read_spec (c : FecCode) (Tbits : Nat) (stop : Bool)
    (hw : c.word_size = 1 ∨ c.word_size = 2 ∨ c.word_size = 4 ∨ c.word_size = 8
      ∨ c.word_size = 16)
    (S : List (Option IStream)) (pre_i v_i pre_w v_w : List Nat) (fi0 : Nat) (chosen : List Nat)
    (hch : chosen = if stop = true then (present_below S S.length).take (c.n_data - fi0)
      else present_below S S.length)
    (hpi : pre_i.length = fi0) (hpw : pre_w.length = fi0)
    (hstop : stop = true → fi0 < c.n_data)
    (h32 : fi0 + chosen.length < 4294967296)
    (hci : fi0 + chosen.length ≤ v_i.length) (hcw : fi0 + chosen.length ≤ v_w.length) :
    ∃ g b, for_break (decode_bufs_read_body c Tbits stop) S.length
        { streams := S, fragments_ids := pre_i ++ v_i.drop fi0, words := pre_w ++ v_w.drop fi0,
          fragment_index := fi0, cont := true } = Except.ok (g, b)
      ∧ ((∀ k, k ∈ chosen → holds c.word_size S[k]?) →
          g.cont = true ∧ g.fragment_index = fi0 + chosen.length
          ∧ g.fragments_ids = (pre_i ++ chosen.map (fun k => k % 2 ^ Tbits))
              ++ v_i.drop (fi0 + chosen.length)
          ∧ g.words = (pre_w ++ chosen.map (fun k => word_at c.word_size Tbits 0 S[k]?))
              ++ v_w.drop (fi0 + chosen.length)
          ∧ ∀ k, g.streams[k]? = if k ∈ chosen then skip c.word_size S[k]? else S[k]?)
      ∧ ((∃ k, k ∈ chosen ∧ ¬ holds c.word_size S[k]?) → g.cont = false) := by
  -- every initial segment of the present streams that the loop passes is chosen
  have hsub : ∀ q, q < S.length → (S[q]?).join.isSome = true →
      (stop = true → fi0 + (present_below S q).length < c.n_data) →
      q ∈ chosen ∧ (present_below S q).length < chosen.length := by
    intro q hq hp hs
    have hpre := present_below_initial S (q + 1) S.length (by omega)
    obtain ⟨s, hs1⟩ := (isSome_join_cases _).mp hp
    have hps := present_below_succ_some S q s hs1
    have hlenP : (present_below S q).length + 1 ≤ (present_below S S.length).length := by
      have := congrArg List.length hpre
      rw [hps] at this
      simp only [List.length_append, List.length_singleton, List.length_take] at this
      omega
    cases stop with
    | false =>
      simp only [Bool.false_eq_true, if_false] at hch
      subst hch
      exact ⟨mem_present_below S _ q hq hp, by omega⟩
    | true =>
      simp only [if_true] at hch
      subst hch
      have := hs rfl
      refine ⟨mem_take_present S _ q _ hq hp (by omega), ?_⟩
      simp only [List.length_take]
      omega
  have key := for_break_inv (decode_bufs_read_body c Tbits stop)
    (fun m g b =>
      (∃ q, q ≤ m ∧ (∀ k, q ≤ k → g.streams[k]? = S[k]?)
        ∧ g.cont = true
        ∧ (b = false → q = m ∧ (stop = true → fi0 + (present_below S q).length < c.n_data))
        ∧ (b = true → stop = true ∧ fi0 + (present_below S q).length = c.n_data)
        ∧ (∀ k, k ∈ present_below S q → holds c.word_size S[k]?)
        ∧ (∀ k, k < q → g.streams[k]? = skip c.word_size S[k]?)
        ∧ g.fragments_ids = (pre_i ++ (present_below S q).map (fun k => k % 2 ^ Tbits))
            ++ v_i.drop (fi0 + (present_below S q).length)
        ∧ g.words = (pre_w ++ (present_below S q).map
              (fun k => word_at c.word_size Tbits 0 S[k]?))
            ++ v_w.drop (fi0 + (present_below S q).length)
        ∧ g.fragment_index = fi0 + (present_below S q).length)
      ∨ (g.cont = false ∧ b = true ∧ ∃ k, k ∈ chosen ∧ ¬ holds c.word_size S[k]?))
    S.length
    { streams := S, fragments_ids := pre_i ++ v_i.drop fi0, words := pre_w ++ v_w.drop fi0,
      fragment_index := fi0, cont := true }
    (Or.inl ⟨0, Nat.le_refl _, fun _ _ => rfl, rfl,
      fun _ => ⟨rfl, fun h => by simpa [present_below] using hstop h⟩,
      fun h => absurd h (by decide),
      fun k hk => by simp [present_below] at hk,
      fun k hk => absurd hk (Nat.not_lt_zero _),
      by simp [present_below], by simp [present_below], by simp [present_below]⟩)
    (by
      intro m g hm hinv
      rcases hinv with ⟨q, hq, hrest, hcont, hf, -, hall, hskip, hids, hwords, hfi⟩ | ⟨-, hb, -⟩
      swap
      · exact absurd hb (by decide)
      obtain ⟨rfl, hlt⟩ := hf rfl
      rcases hcase : S[q]? with _ | _ | s
      · rw [List.getElem?_eq_getElem hm] at hcase
        exact absurd hcase (by simp)
      · -- a null pointer: nothing happens
        have hgs : g.streams[q]? = some none := by rw [hrest q (Nat.le_refl _), hcase]
        have hps := present_below_succ_none S q hcase
        refine ⟨g, false, by simp only [decode_bufs_read_body, hgs], Or.inl ⟨q + 1,
          Nat.le_refl _, fun k hk => hrest k (by omega), hcont, fun _ => ⟨rfl, ?_⟩,
          fun h => absurd h (by decide), ?_, ?_, ?_, ?_, ?_⟩⟩
        · rw [hps]; exact hlt
        · rw [hps]; exact hall
        · intro k hk
          by_cases hkq : k = q
          · subst hkq
            rw [hgs, hcase]
            rfl
          · exact hskip k (by omega)
        · rw [hps]; exact hids
        · rw [hps]; exact hwords
        · rw [hps]; exact hfi
      · have hgs : g.streams[q]? = some (some s) := by rw [hrest q (Nat.le_refl _), hcase]
        have hps := present_below_succ_some S q s hcase
        have hp : (S[q]?).join.isSome = true := by rw [hcase]; rfl
        obtain ⟨hqc, hlc⟩ := hsub q hm hp hlt
        have hqlen : q < g.streams.length := by
          by_contra hcon
          rw [List.getElem?_eq_none (by omega)] at hgs
          exact absurd hgs (by simp)
        by_cases hh : s.good = true ∧ c.word_size ≤ s.data.length
        · have hrd := readw_ok c Tbits s hw hh.1 hh.2
          have hl1 : (pre_i ++ (present_below S q).map (fun k => k % 2 ^ Tbits)).length
              = fi0 + (present_below S q).length := by
            simp only [List.length_append, List.length_map, hpi]
          have hl2 : (pre_w ++ (present_below S q).map
              (fun k => word_at c.word_size Tbits 0 S[k]?)).length
              = fi0 + (present_below S q).length := by
            simp only [List.length_append, List.length_map, hpw]
          have hv1 : vector_set g.fragments_ids g.fragment_index (q % 2 ^ Tbits)
              = Except.ok (((pre_i ++ (present_below S q).map (fun k => k % 2 ^ Tbits))
                  ++ [q % 2 ^ Tbits]) ++ v_i.drop (fi0 + (present_below S q).length + 1)) := by
            rw [hids, hfi]
            simp only [vector_set]
            rw [if_pos (by simp only [List.length_append, List.length_map, List.length_drop, hpi]; omega),
              set_after_front _ _ _ _ hl1 (by omega)]
          have hv2 : vector_set g.words g.fragment_index
                (le_value (s.data.take c.word_size) % 2 ^ Tbits)
              = Except.ok (((pre_w ++ (present_below S q).map
                    (fun k => word_at c.word_size Tbits 0 S[k]?))
                  ++ [le_value (s.data.take c.word_size) % 2 ^ Tbits])
                  ++ v_w.drop (fi0 + (present_below S q).length + 1)) := by
            rw [hwords, hfi]
            simp only [vector_set]
            rw [if_pos (by simp only [List.length_append, List.length_map, List.length_drop, hpw]; omega),
              set_after_front _ _ _ _ hl2 (by omega)]
          have hmod : (g.fragment_index + 1) % 4294967296
              = fi0 + (present_below S q).length + 1 := by
            rw [hfi]
            exact Nat.mod_eq_of_lt (by omega)
          have hbody : decode_bufs_read_body c Tbits stop q g = Except.ok
              ({ streams := g.streams.set q (some { data := s.data.drop c.word_size, good := true }),
                 fragments_ids := ((pre_i ++ (present_below S q).map (fun k => k % 2 ^ Tbits))
                    ++ [q % 2 ^ Tbits]) ++ v_i.drop (fi0 + (present_below S q).length + 1),
                 words := ((pre_w ++ (present_below S q).map
                      (fun k => word_at c.word_size Tbits 0 S[k]?))
                    ++ [le_value (s.data.take c.word_size) % 2 ^ Tbits])
                    ++ v_w.drop (fi0 + (present_below S q).length + 1),
                 fragment_index := fi0 + (present_below S q).length + 1,
                 cont := g.cont },
                stop && decide (fi0 + (present_below S q).length + 1 = c.n_data)) := by
            simp only [decode_bufs_read_body, hgs, hrd, hv1, hv2, hmod]
          have hword : word_at c.word_size Tbits 0 S[q]?
              = le_value (s.data.take c.word_size) % 2 ^ Tbits := by
            rw [hcase]
            simp [word_at, chunk_at]
          refine ⟨_, _, hbody, Or.inl ⟨q + 1, Nat.le_refl _, ?_, hcont, ?_, ?_, ?_, ?_, ?_, ?_,
            ?_⟩⟩
          · intro k hk
            simp only
            rw [List.getElem?_set_ne (by omega), hrest k (by omega)]
          · intro hb
            refine ⟨rfl, fun hst => ?_⟩
            rw [hst] at hb
            have hne : ¬ (fi0 + (present_below S q).length + 1 = c.n_data) := by
              simpa using hb
            have := hlt hst
            rw [hps]
            simp only [List.length_append, List.length_singleton]
            omega
          · intro hb
            have hst : stop = true := by
              cases stop with
              | true => rfl
              | false => simp at hb
            refine ⟨hst, ?_⟩
            rw [hst] at hb
            have he : fi0 + (present_below S q).length + 1 = c.n_data := by simpa using hb
            rw [hps]
            simp only [List.length_append, List.length_singleton]
            omega
          · intro k hk
            rw [hps] at hk
            rcases List.mem_append.mp hk with h | h
            · exact hall k h
            · rw [List.mem_singleton.mp h]
              exact ⟨s, hcase, hh.1, hh.2⟩
          · intro k hk
            simp only
            by_cases hkq : k = q
            · subst hkq
              rw [List.getElem?_set_self hqlen, hcase]
              rfl
            · rw [List.getElem?_set_ne (by omega)]
              exact hskip k (by omega)
          · simp only
            rw [hps]
            simp only [List.map_append, List.map_singleton, List.length_append,
              List.length_singleton, List.append_assoc, Nat.add_assoc]
          · simp only
            rw [hps, ← hword]
            simp only [List.map_append, List.map_singleton, List.length_append,
              List.length_singleton, List.append_assoc, Nat.add_assoc]
          · simp only
            rw [hps]
            simp only [List.length_append, List.length_singleton, Nat.add_assoc]
        · have hrd := readw_short c Tbits s hw hh
          have hbody : decode_bufs_read_body c Tbits stop q g = Except.ok
              ({ g with streams := g.streams.set q (some { data := [], good := false }),
                        cont := false }, true) := by
            simp only [decode_bufs_read_body, hgs, hrd]
          refine ⟨_, true, hbody, Or.inr ⟨rfl, rfl, q, hqc, ?_⟩⟩
          rintro ⟨s1, hs1, hg1, hl1⟩
          rw [hcase] at hs1
          simp only [Option.some.injEq] at hs1
          subst hs1
          exact hh ⟨hg1, hl1⟩)
    (by
      intro m g hm hinv
      rcases hinv with ⟨q, hq, hrest, hcont, -, ht, hall, hskip, hids, hwords, hfi⟩ | hfail
      · exact Or.inl ⟨q, by omega, hrest, hcont, fun h => absurd h (by decide), ht, hall,
          hskip, hids, hwords, hfi⟩
      · exact Or.inr hfail)
  obtain ⟨g, b, he, hinv⟩ := key
  refine ⟨g, b, he, ?_, ?_⟩
  · intro hallc
    rcases hinv with ⟨q, hq, hrest, hcont, hf, ht, hall, hskip, hids, hwords, hfi⟩
        | ⟨-, -, k, hk, hnk⟩
    swap
    · exact absurd (hallc k hk) hnk
    have hPq : present_below S q = chosen := by
      cases b with
      | false =>
        obtain ⟨rfl, hlt⟩ := hf rfl
        cases stop with
        | false => simpa using hch.symm
        | true =>
          simp only [if_true] at hch
          rw [hch, List.take_of_length_le]
          have := hlt rfl
          omega
      | true =>
        obtain ⟨hst, hfin⟩ := ht rfl
        rw [hst] at hch
        simp only [if_true] at hch
        have hpre := present_below_initial S q S.length hq
        have hlen : (present_below S q).length = c.n_data - fi0 := by omega
        rw [hlen] at hpre
        rw [hch, ← hpre]
    rw [hPq] at hids hwords hfi hall
    refine ⟨hcont, hfi, hids, hwords, ?_⟩
    intro k
    by_cases hkc : k ∈ chosen
    · rw [if_pos hkc]
      rw [← hPq] at hkc
      exact hskip k (present_below_lt S q k hkc).1
    · rw [if_neg hkc]
      by_cases hkq : k < q
      · rw [hskip k hkq]
        apply skip_absent
        intro hp
        exact hkc (hPq ▸ mem_present_below S q k hkq hp)
      · exact hrest k (by omega)
  · rintro ⟨k, hk, hnk⟩
    rcases hinv with ⟨q, hq, hrest, hcont, hf, ht, hall, hskip, hids, hwords, hfi⟩
        | ⟨hcont, -, -⟩
    swap
    · exact hcont
    exfalso
    have hPq : present_below S q = chosen := by
      cases b with
      | false =>
        obtain ⟨rfl, hlt⟩ := hf rfl
        cases stop with
        | false => simpa using hch.symm
        | true =>
          simp only [if_true] at hch
          rw [hch, List.take_of_length_le]
          have := hlt rfl
          omega
      | true =>
        obtain ⟨hst, hfin⟩ := ht rfl
        rw [hst] at hch
        simp only [if_true] at hch
        have hpre := present_below_initial S q S.length hq
        have hlen : (present_below S q).length = c.n_data - fi0 := by omega
        rw [hlen] at hpre
        rw [hch, ← hpre]
    exact hnk (hall k (hPq ▸ hk))

theorem decode_bufs_write_spec (c : FecCode)
    (hw : c.word_size = 1 ∨ c.word_size = 2 ∨ c.word_size = 4 ∨ c.word_size = 8
      ∨ c.word_size = 16)
    (output : List Nat) (outs : List (Option OStream)) (n : Nat)
    (hO : n ≤ outs.length) (hlen : n ≤ output.length) :
    ∃ r b, for_break (decode_bufs_write_body c output) n outs = Except.ok (r, b)
      ∧ r.length = outs.length
      ∧ ∀ i, r[i]? = if i < n then written (le_bytes c.word_size (output.getD i 0)) outs[i]?
          else outs[i]? := by
  have key := for_break_inv (decode_bufs_write_body c output)
    (fun m r b => b = false ∧ r.length = outs.length
      ∧ ∀ i, r[i]? = if i < m then written (le_bytes c.word_size (output.getD i 0)) outs[i]?
          else outs[i]?)
    n outs ⟨rfl, rfl, fun i => by simp⟩
    (by
      intro m r hm ⟨_, hl, hr⟩
      have hrm : r[m]? = outs[m]? := by rw [hr m, if_neg (Nat.lt_irrefl _)]
      rcases hcase : outs[m]? with _ | _ | s
      · rw [List.getElem?_eq_getElem (by omega)] at hcase
        exact absurd hcase (by simp)
      · rw [hcase] at hrm
        refine ⟨r, false, by simp only [decode_bufs_write_body, hrm], rfl, hl, ?_⟩
        intro i
        by_cases him : i = m
        · subst him
          rw [hrm, if_pos (by omega), hcase]
          rfl
        · rw [hr i]
          by_cases hlt : i < m
          · rw [if_pos hlt, if_pos (by omega)]
          · rw [if_neg hlt, if_neg (by omega)]
      · rw [hcase] at hrm
        have hget : vector_get output m = Except.ok (output.getD m 0) := by
          simp only [vector_get, List.getD_eq_getElem?_getD]
          rw [List.getElem?_eq_getElem (by omega)]
          rfl
        have hbody : decode_bufs_write_body c output m r = Except.ok
            (r.set m (some { data := s.data ++ le_bytes c.word_size (output.getD m 0) }),
              false) := by
          simp only [decode_bufs_write_body, hget, hrm, FecCode.writew, if_pos hw, OStream.write]
        refine ⟨_, false, hbody, rfl, ?_, ?_⟩
        · simp only [List.length_set, hl]
        · intro i
          by_cases him : i = m
          · subst him
            rw [List.getElem?_set_self (by omega), if_pos (by omega), hcase]
            rfl
          · rw [List.getElem?_set_ne (by omega), hr i]
            by_cases hlt : i < m
            · rw [if_pos hlt, if_pos (by omega)]
            · rw [if_neg hlt, if_neg (by omega)])
    (by
      intro m r hm ⟨hb, _⟩
      exact absurd hb (by decide))
  obtain ⟨r, b, he, -, hl, hr⟩ := key
  exact ⟨r, b, he, hl, hr⟩

theorem length_eq_of_getElem_none {α β : Type} (l1 : List α) (l2 : List β)
    (h : ∀ k : Nat, l1[k]? = none ↔ l2[k]? = none) : l1.length = l2.length := by
  rcases Nat.lt_trichotomy l1.length l2.length with hlt | heq | hgt
  · have h1 := (h l1.length).mp (List.getElem?_eq_none (Nat.le_refl _))
    rw [List.getElem?_eq_getElem hlt] at h1
    exact absurd h1 (by simp)
  · exact heq
  · have h1 := (h l2.length).mpr (List.getElem?_eq_none (Nat.le_refl _))
    rw [List.getElem?_eq_getElem hgt] at h1
    exact absurd h1 (by simp)

theorem skip_none_iff (w : Nat) (o : Option (Option IStream)) : skip w o = none ↔ o = none := by
  rcases o with _ | _ | s <;> simp [skip]

theorem skip_isSome (w : Nat) (o : Option (Option IStream)) :
    (skip w o).join.isSome = o.join.isSome := by
  rcases o with _ | _ | s <;> rfl

/-- Reading does not change which pointers are null. -/
theorem present_below_skipped (w : Nat) (S S1 : List (Option IStream)) (sel : List Nat)
    (h : ∀ k, S1[k]? = if k ∈ sel then skip w S[k]? else S[k]?) :
    S1.length = S.length ∧ ∀ n, present_below S1 n = present_below S n := by
  constructor
  · apply length_eq_of_getElem_none
    intro k
    rw [h k]
    by_cases hk : k ∈ sel
    · rw [if_pos hk, skip_none_iff]
    · rw [if_neg hk]
  · intro n
    simp only [present_below]
    apply List.filter_congr
    intro k _
    rw [h k]
    by_cases hk : k ∈ sel
    · rw [if_pos hk, skip_isSome]
    · rw [if_neg hk]

theorem chosen_data_length (c : FecCode) (data : List (Option IStream)) :
    (chosen_data c data).length ≤ c.n_data := by
  unfold chosen_data
  split
  · have := List.length_filter_le (fun k => (data[k]?).join.isSome) (List.range c.n_data)
    simpa [present_below] using this
  · simp

/-- The first phase of a round of `decode_bufs`: the words of the data
streams. -/
theorem decode_bufs_data_phase (c : FecCode) (Tbits : Nat)
    (hw : c.word_size = 1 ∨ c.word_size = 2 ∨ c.word_size = 4 ∨ c.word_size = 8
      ∨ c.word_size = 16)
    (h32 : c.n_data < 4294967296)
    (data : List (Option IStream)) (ids words : List Nat)
    (hsys : c.type = FecType.SYSTEMATIC → data.length = c.n_data)
    (hil : c.n_data ≤ ids.length) (hwl : c.n_data ≤ words.length) :
    ∃ g b, (if c.type = FecType.SYSTEMATIC then
          for_break (decode_bufs_read_body c Tbits false) c.n_data
            { streams := data, fragments_ids := ids, words := words, fragment_index := 0,
              cont := true }
        else Except.ok ((⟨data, ids, words, 0, true⟩ : Gather), false)) = Except.ok (g, b)
      ∧ ((∀ k, k ∈ chosen_data c data → holds c.word_size data[k]?) →
          g.cont = true ∧ g.fragment_index = (chosen_data c data).length
          ∧ g.fragments_ids = (chosen_data c data).map (fun k => k % 2 ^ Tbits)
              ++ ids.drop (chosen_data c data).length
          ∧ g.words = (chosen_data c data).map (fun k => word_at c.word_size Tbits 0 data[k]?)
              ++ words.drop (chosen_data c data).length
          ∧ ∀ k, g.streams[k]? = if k ∈ chosen_data c data then skip c.word_size data[k]?
              else data[k]?)
      ∧ ((∃ k, k ∈ chosen_data c data ∧ ¬ holds c.word_size data[k]?) →
          c.type = FecType.SYSTEMATIC ∧ g.cont = false) := by
  have hcl := chosen_data_length c data
  by_cases ht : c.type = FecType.SYSTEMATIC
  · have hdl := hsys ht
    have hcd : chosen_data c data = present_below data data.length := by
      simp only [chosen_data, if_pos ht, hdl]
    obtain ⟨g, b, hrun, hok, hfail⟩ := decode_bufs_read_spec c Tbits false hw data [] ids []
      words 0 (chosen_data c data) (by simp [hcd]) rfl rfl (fun h => absurd h (by decide))
      (by omega) (by omega) (by omega)
    refine ⟨g, b, ?_, ?_, ?_⟩
    · rw [if_pos ht, ← hdl]
      simpa using hrun
    · intro hall
      obtain ⟨h1, h2, h3, h4, h5⟩ := hok hall
      refine ⟨h1, by simpa using h2, by simpa using h3, by simpa using h4, h5⟩
    · intro hex
      exact ⟨ht, hfail hex⟩
  · have hcd : chosen_data c data = [] := by simp only [chosen_data, if_neg ht]
    refine ⟨_, false, by rw [if_neg ht], ?_, ?_⟩
    · intro _
      rw [hcd]
      simp
    · rintro ⟨k, hk, -⟩
      rw [hcd] at hk
      simp at hk

/-- The second phase of a round of `decode_bufs`: the words of the parity
streams. -/
theorem decode_bufs_parity_phase (c : FecCode) (Tbits : Nat)
    (hw : c.word_size = 1 ∨ c.word_size = 2 ∨ c.word_size = 4 ∨ c.word_size = 8
      ∨ c.word_size = 16)
    (h32 : c.n_data < 4294967296)
    (data parities : List (Option IStream)) (pre_i pre_w ids words : List Nat)
    (hpl : parities.length = c.n_outputs)
    (hpi : pre_i.length = (chosen_data c data).length)
    (hpw : pre_w.length = (chosen_data c data).length)
    (hlt : (chosen_data c data).length < c.n_data)
    (hil : c.n_data ≤ ids.length) (hwl : c.n_data ≤ words.length) :
    ∃ g b, for_break (decode_bufs_read_body c Tbits true) c.n_outputs
        { streams := parities,
          fragments_ids := pre_i ++ ids.drop (chosen_data c data).length,
          words := pre_w ++ words.drop (chosen_data c data).length,
          fragment_index := (chosen_data c data).length, cont := true } = Except.ok (g, b)
      ∧ ((∀ k, k ∈ chosen_parities c data parities → holds c.word_size parities[k]?) →
          g.cont = true
          ∧ g.fragment_index = (chosen_data c data).length
              + (chosen_parities c data parities).length
          ∧ g.fragments_ids = (pre_i ++ (chosen_parities c data parities).map
                (fun k => k % 2 ^ Tbits))
              ++ ids.drop ((chosen_data c data).length
                + (chosen_parities c data parities).length)
          ∧ g.words = (pre_w ++ (chosen_parities c data parities).map
                (fun k => word_at c.word_size Tbits 0 parities[k]?))
              ++ words.drop ((chosen_data c data).length
                + (chosen_parities c data parities).length)
          ∧ ∀ k, g.streams[k]? = if k ∈ chosen_parities c data parities
              then skip c.word_size parities[k]? else parities[k]?)
      ∧ ((∃ k, k ∈ chosen_parities c data parities ∧ ¬ holds c.word_size parities[k]?) →
          g.cont = false) := by
  have hlen : (chosen_parities c data parities).length
      ≤ c.n_data - (chosen_data c data).length := by
    simp only [chosen_parities, List.length_take]
    omega
  have := decode_bufs_read_spec c Tbits true hw parities pre_i ids pre_w words
    (chosen_data c data).length (chosen_parities c data parities)
    (by simp only [chosen_parities, if_true]) hpi hpw (fun _ => hlt)
    (by omega) (by omega) (by omega)
  rw [hpl] at this
  exact this

theorem drop_replicate_zero (n k : Nat) :
    (List.replicate n (0 : Nat)).drop k = List.replicate (n - k) 0 := by
  simp [List.drop_replicate]

/-! ## The loop of `decode_bufs` -/

theorem decode_bufs_loop_spec (c : FecCode) (Tbits : Nat) (dec : DecodeFn)
    (props : List Properties) (n_words : Nat)
    (hw : c.word_size = 1 ∨ c.word_size = 2 ∨ c.word_size = 4 ∨ c.word_size = 8
      ∨ c.word_size = 16)
    (h32 : c.n_data < 4294967296) (hnw : c.n_data ≤ n_words)
    (hdec : ∀ h p o ids ws, (dec h p o ids ws).length = c.n_data) :
    ∀ (N fuel : Nat) (offset : Int) (ids : List Nat) (st : DecodeState), N < fuel →
      (c.type = FecType.SYSTEMATIC → st.data.length = c.n_data) →
      st.parities.length = c.n_outputs → st.outputs.length = c.n_data →
      c.n_data ≤ ids.length →
      (chosen_data c st.data).length + (chosen_parities c st.data st.parities).length
        = c.n_data →
      (chosen_data c st.data).length < c.n_data →
      (∀ k, k ∈ chosen_data c st.data → holds (N * c.word_size) st.data[k]?) →
      (∀ k, k ∈ chosen_parities c st.data st.parities →
        holds (N * c.word_size) st.parities[k]?) →
      ((∃ k, k ∈ chosen_data c st.data ∧ ¬ holds ((N + 1) * c.word_size) st.data[k]?)
        ∨ (∃ k, k ∈ chosen_parities c st.data st.parities
            ∧ ¬ holds ((N + 1) * c.word_size) st.parities[k]?)) →
      ∃ (st1 : DecodeState) (O : Nat → List Nat),
        decode_bufs_loop c Tbits dec props n_words fuel offset ids st = Except.ok st1
        ∧ st1.events = st.events ++ (List.range N).map (fun j =>
            Event.decode (offset + ((j * c.word_size : Nat) : Int))
              ((chosen_data c st.data ++ chosen_parities c st.data st.parities).map
                  (fun k => k % 2 ^ Tbits) ++ ids.drop c.n_data)
              (((chosen_data c st.data).map (fun k => word_at c.word_size Tbits j st.data[k]?)
                ++ (chosen_parities c st.data st.parities).map
                  (fun k => word_at c.word_size Tbits j st.parities[k]?))
                ++ List.replicate (n_words - c.n_data) 0)
              (O j))
        ∧ st1.outputs.length = st.outputs.length
        ∧ ∀ i, st1.outputs[i]? =
            if i < c.n_data then
              written (words_bytes c.word_size (fun j => (O j).getD i 0) N) st.outputs[i]?
            else st.outputs[i]? := by
  intro N
  induction N with
  | zero =>
    intro fuel offset ids st hfuel hsys hpl hol hil hsum hlt hallD hallP hex
    obtain ⟨f, rfl⟩ : ∃ f, fuel = f + 1 := ⟨fuel - 1, by omega⟩
    obtain ⟨g, b, hrun, hok, hfail⟩ := decode_bufs_data_phase c Tbits hw h32 st.data ids
      (List.replicate n_words 0) hsys hil (by simpa using hnw)
    simp only [Nat.zero_add, Nat.one_mul] at hex
    by_cases hd : ∀ k, k ∈ chosen_data c st.data → holds c.word_size st.data[k]?
    · obtain ⟨hcont, hfi, hids, hwords, hstr⟩ := hok hd
      have hexP : ∃ k, k ∈ chosen_parities c st.data st.parities
          ∧ ¬ holds c.word_size st.parities[k]? := by
        rcases hex with ⟨k, hk, hnk⟩ | h
        · exact absurd (hd k hk) hnk
        · exact h
      obtain ⟨gp, bp, hrunp, -, hfailp⟩ := decode_bufs_parity_phase c Tbits hw h32 st.data
        st.parities ((chosen_data c st.data).map (fun k => k % 2 ^ Tbits))
        ((chosen_data c st.data).map (fun k => word_at c.word_size Tbits 0 st.data[k]?))
        ids (List.replicate n_words 0) hpl (by simp) (by simp) hlt hil (by simpa using hnw)
      have hgp := hfailp hexP
      have hcond : ¬ (c.type = FecType.SYSTEMATIC
          ∧ (true = false ∨ (chosen_data c st.data).length = c.n_data)) := by
        rintro ⟨-, h | h⟩
        · exact absurd h (by decide)
        · omega
      refine ⟨{ st with data := g.streams, parities := gp.streams }, fun _ => [], ?_, ?_, rfl,
        ?_⟩
      · simp only [decode_bufs_loop, hrun, hids, hwords, hfi, hcont]
        rw [if_neg hcond]
        simp only [hrunp, hgp, if_true]
      · simp
      · intro i
        simp only [words_bytes_zero, written_nil, ite_self]
    · have hexD : ∃ k, k ∈ chosen_data c st.data ∧ ¬ holds c.word_size st.data[k]? := by
        by_contra hcon
        apply hd
        intro k hk
        by_contra hnk
        exact hcon ⟨k, hk, hnk⟩
      obtain ⟨hty, hcont⟩ := hfail hexD
      have hcond : c.type = FecType.SYSTEMATIC
          ∧ (g.cont = false ∨ g.fragment_index = c.n_data) := ⟨hty, Or.inl hcont⟩
      refine ⟨{ st with data := g.streams }, fun _ => [], ?_, ?_, rfl, ?_⟩
      · simp only [decode_bufs_loop, hrun, if_pos hcond]
      · simp
      · intro i
        simp only [words_bytes_zero, written_nil, ite_self]
  | succ N ih =>
    intro fuel offset ids st hfuel hsys hpl hol hil hsum hlt hallD hallP hex
    obtain ⟨f, rfl⟩ : ∃ f, fuel = f + 1 := ⟨fuel - 1, by omega⟩
    have hmul : (N + 1) * c.word_size = N * c.word_size + c.word_size := Nat.succ_mul _ _
    have hD1 : ∀ k, k ∈ chosen_data c st.data → holds c.word_size st.data[k]? :=
      fun k hk => holds_mono _ _ _ (hallD k hk) (by rw [hmul]; omega)
    have hP1 : ∀ k, k ∈ chosen_parities c st.data st.parities →
        holds c.word_size st.parities[k]? :=
      fun k hk => holds_mono _ _ _ (hallP k hk) (by rw [hmul]; omega)
    obtain ⟨g, b, hrun, hok, -⟩ := decode_bufs_data_phase c Tbits hw h32 st.data ids
      (List.replicate n_words 0) hsys hil (by simpa using hnw)
    obtain ⟨hcont, hfi, hids, hwords, hstr⟩ := hok hD1
    obtain ⟨gp, bp, hrunp, hokp, -⟩ := decode_bufs_parity_phase c Tbits hw h32 st.data
      st.parities ((chosen_data c st.data).map (fun k => k % 2 ^ Tbits))
      ((chosen_data c st.data).map (fun k => word_at c.word_size Tbits 0 st.data[k]?))
      ids (List.replicate n_words 0) hpl (by simp) (by simp) hlt hil (by simpa using hnw)
    obtain ⟨hcontp, hfip, hidsp, hwordsp, hstrp⟩ := hokp hP1
    rw [hsum] at hidsp hwordsp
    have hcond : ¬ (c.type = FecType.SYSTEMATIC
        ∧ (true = false ∨ (chosen_data c st.data).length = c.n_data)) := by
      rintro ⟨-, h | h⟩
      · exact absurd h (by decide)
      · omega
    have hcp : ¬ (gp.cont = false) := by rw [hcontp]; decide
    obtain ⟨outs, b2, hwr, hol2, hor⟩ := decode_bufs_write_spec c hw
      (dec st.events props offset gp.fragments_ids gp.words) st.outputs c.n_data
      (by omega) (by rw [hdec])
    obtain ⟨hdl1, hdp1⟩ := present_below_skipped c.word_size st.data g.streams
      (chosen_data c st.data) hstr
    obtain ⟨hpl1, hpp1⟩ := present_below_skipped c.word_size st.parities gp.streams
      (chosen_parities c st.data st.parities) hstrp
    have hcd : chosen_data c g.streams = chosen_data c st.data := by
      simp only [chosen_data, hdp1]
    have hcpar : chosen_parities c g.streams gp.streams
        = chosen_parities c st.data st.parities := by
      simp only [chosen_parities, hcd, hpp1, hpl1]
    have hidl : c.n_data ≤ gp.fragments_ids.length := by
      rw [hidsp]
      simp only [List.length_append, List.length_map, List.length_drop]
      omega
    obtain ⟨st1, O, hrun1, hev, hol1, hout⟩ := ih f (offset + (c.word_size : Int))
      gp.fragments_ids
      { data := g.streams, parities := gp.streams, outputs := outs,
        events := st.events ++ [Event.decode offset gp.fragments_ids gp.words
          (dec st.events props offset gp.fragments_ids gp.words)] }
      (by omega)
      (fun h => by rw [hdl1]; exact hsys h)
      (by rw [hpl1]; exact hpl)
      (by rw [hol2]; exact hol)
      hidl
      (by simp only [hcd, hcpar]; exact hsum)
      (by simp only [hcd]; exact hlt)
      (by
        intro k hk
        simp only [hcd] at hk
        simp only
        rw [hstr k, if_pos hk, holds_skip _ _ _ (hD1 k hk), ← hmul]
        exact hallD k hk)
      (by
        intro k hk
        simp only [hcpar] at hk
        simp only
        rw [hstrp k, if_pos hk, holds_skip _ _ _ (hP1 k hk), ← hmul]
        exact hallP k hk)
      (by
        have e : (N + 1) * c.word_size + c.word_size = (N + 1 + 1) * c.word_size := by
          rw [Nat.succ_mul (N + 1)]
        rcases hex with ⟨k, hk, hnk⟩ | ⟨k, hk, hnk⟩
        · refine Or.inl ⟨k, by simp only [hcd]; exact hk, ?_⟩
          simp only
          rw [hstr k, if_pos hk, holds_skip _ _ _ (hD1 k hk), e]
          exact hnk
        · refine Or.inr ⟨k, by simp only [hcpar]; exact hk, ?_⟩
          simp only
          rw [hstrp k, if_pos hk, holds_skip _ _ _ (hP1 k hk), e]
          exact hnk)
    simp only [hcd, hcpar] at hev
    have hidsdrop : gp.fragments_ids.drop c.n_data = ids.drop c.n_data := by
      rw [hidsp]
      rw [List.drop_left']
      simp only [List.length_append, List.length_map]
      exact hsum
    refine ⟨st1, fun j => match j with
      | 0 => dec st.events props offset gp.fragments_ids gp.words
      | j + 1 => O j, ?_, ?_, ?_, ?_⟩
    · simp only [decode_bufs_loop, hrun, hids, hwords, hfi, hcont]
      rw [if_neg hcond]
      simp only [hrunp, hcp, if_false, hwr]
      exact hrun1
    · rw [hev]
      simp only [List.range_succ_eq_map, List.map_cons, List.map_map, List.append_assoc,
        List.singleton_append]
      congr 2
      · congr 1
        · simp
        · rw [hidsp]
          simp only [List.map_append, List.append_assoc]
        · rw [hwordsp, drop_replicate_zero]
          simp only [List.append_assoc]
      · have e1 : ∀ j, (chosen_data c st.data).map
              (fun k => word_at c.word_size Tbits j g.streams[k]?)
            = (chosen_data c st.data).map
              (fun k => word_at c.word_size Tbits (Nat.succ j) st.data[k]?) :=
          fun j => List.map_congr_left (fun k hk => by
            rw [hstr k, if_pos hk, word_at_skip])
        have e2 : ∀ j, (chosen_parities c st.data st.parities).map
              (fun k => word_at c.word_size Tbits j gp.streams[k]?)
            = (chosen_parities c st.data st.parities).map
              (fun k => word_at c.word_size Tbits (Nat.succ j) st.parities[k]?) :=
          fun j => List.map_congr_left (fun k hk => by
            rw [hstrp k, if_pos hk, word_at_skip])
        apply List.map_congr_left
        intro j _
        simp only [Function.comp]
        rw [e1, e2, hidsdrop]
        congr 1
        push_cast
        ring
    · rw [hol1]
      exact hol2
    · intro i
      rw [hout i]
      simp only
      by_cases hi : i < c.n_data
      · rw [if_pos hi, if_pos hi, hor i, if_pos hi, written_written, words_bytes_succ]
      · rw [if_neg hi, if_neg hi, hor i, if_neg hi]

/-! ## The whole of `decode_bufs` -/

theorem decode_bufs_select_data (c : FecCode) (data : List (Option IStream))
    (h32 : c.n_data < 4294967296)
    (hdl : c.type = FecType.SYSTEMATIC → data.length = c.n_data) :
    (if c.type = FecType.SYSTEMATIC then
        for_break (decode_bufs_add_data_body data) c.n_data (0, [])
      else Except.ok ((0, []), false))
      = Except.ok (((chosen_data c data).length,
          calls_from Event.decode_add_data 0 (chosen_data c data)), false) := by
  by_cases ht : c.type = FecType.SYSTEMATIC
  · rw [if_pos ht, decode_bufs_add_data_spec data c.n_data (by rw [hdl ht]) h32 0 [] rfl]
    simp only [chosen_data, if_pos ht, List.nil_append]
  · rw [if_neg ht]
    simp only [chosen_data, if_neg ht, List.length_nil, calls_from]

theorem chosen_parities_length (c : FecCode) (data parities : List (Option IStream))
    (hmiss : (chosen_data c data).length < c.n_data)
    (henough : c.n_data ≤ (chosen_data c data).length
      + (present_below parities parities.length).length) :
    (chosen_data c data).length + (chosen_parities c data parities).length = c.n_data := by
  simp only [chosen_parities, List.length_take]
  omega

/-- The run of `decode_bufs` when some data fragment is missing and enough
fragments are available, on streams of which the chosen ones are good and
hold `N` words, one of them no more. -/
theorem decode_bufs_spec (c : FecCode) (Tbits : Nat) (dec : DecodeFn) (fuel N : Nat)
    (data parities : List (Option IStream)) (props : List Properties)
    (outputs : List (Option OStream))
    (hw : c.word_size = 1 ∨ c.word_size = 2 ∨ c.word_size = 4 ∨ c.word_size = 8
      ∨ c.word_size = 16)
    (h32 : c.n_data < 4294967296) (hcl1 : c.n_outputs ≤ c.code_len)
    (hcl2 : c.n_data ≤ c.code_len)
    (hdl : c.type = FecType.SYSTEMATIC → data.length = c.n_data)
    (hpl : parities.length = c.n_outputs) (hprl : props.length = c.n_outputs)
    (hol : outputs.length = c.n_data)
    (hdec : ∀ h p o ids ws, (dec h p o ids ws).length = c.n_data)
    (hmiss : (chosen_data c data).length < c.n_data)
    (henough : c.n_data ≤ (chosen_data c data).length
      + (present_below parities parities.length).length)
    (hgoodD : ∀ k, k ∈ chosen_data c data → holds 0 data[k]?)
    (hgoodP : ∀ k, k ∈ chosen_parities c data parities → holds 0 parities[k]?)
    (hND : ∀ k, k ∈ chosen_data c data → N ≤ chunks_in c.word_size data[k]?)
    (hNP : ∀ k, k ∈ chosen_parities c data parities → N ≤ chunks_in c.word_size parities[k]?)
    (hmin : (∃ k, k ∈ chosen_data c data ∧ chunks_in c.word_size data[k]? = N)
      ∨ (∃ k, k ∈ chosen_parities c data parities ∧ chunks_in c.word_size parities[k]? = N))
    (hfuel : N < fuel) :
    ∃ (st : DecodeState) (O : Nat → List Nat),
      c.decode_bufs Tbits dec fuel data parities props outputs = Except.ok (true, st)
      ∧ st.events = calls_from Event.decode_add_data 0 (chosen_data c data)
          ++ calls_from Event.decode_add_parities (chosen_data c data).length
              (chosen_parities c data parities)
          ++ [Event.decode_build]
          ++ (List.range N).map (fun j =>
            Event.decode ((j * c.word_size : Nat) : Int)
              ((chosen_data c data ++ chosen_parities c data parities).map
                  (fun k => k % 2 ^ Tbits)
                ++ List.replicate
                  ((if c.type = FecType.SYSTEMATIC then c.n_data else c.code_len) - c.n_data) 0)
              (((chosen_data c data).map (fun k => word_at c.word_size Tbits j data[k]?)
                ++ (chosen_parities c data parities).map
                  (fun k => word_at c.word_size Tbits j parities[k]?))
                ++ List.replicate
                  ((if c.type = FecType.SYSTEMATIC then c.n_data else c.code_len) - c.n_data) 0)
              (O j))
      ∧ st.outputs.length = outputs.length
      ∧ ∀ i, st.outputs[i]? =
          if i < c.n_data then
            written (words_bytes c.word_size (fun j => (O j).getD i 0) N) outputs[i]?
          else outputs[i]? := by
  have hwp := word_size_pos c hw
  have hsum := chosen_parities_length c data parities hmiss henough
  have hnw : c.n_data ≤ (if c.type = FecType.SYSTEMATIC then c.n_data else c.code_len) := by
    split
    · exact Nat.le_refl _
    · exact hcl2
  obtain ⟨bsel, hsel⟩ := decode_bufs_add_parities_spec parities c.code_len c.n_data h32
    (chosen_data c data).length (calls_from Event.decode_add_data 0 (chosen_data c data))
    hmiss henough (by omega)
  obtain ⟨st, O, hrun, hev, hol1, hout⟩ := decode_bufs_loop_spec c Tbits dec props
    (if c.type = FecType.SYSTEMATIC then c.n_data else c.code_len) hw h32 hnw hdec N fuel 0
    (List.replicate (if c.type = FecType.SYSTEMATIC then c.n_data else c.code_len) 0)
    { data := data, parities := parities, outputs := outputs,
      events := calls_from Event.decode_add_data 0 (chosen_data c data)
        ++ calls_from Event.decode_add_parities (chosen_data c data).length
            (chosen_parities c data parities)
        ++ [Event.decode_build] }
    hfuel hdl hpl hol (by simpa using hnw) hsum hmiss
    (fun k hk => (holds_of_chunks _ _ hwp _ (hgoodD k hk)).mpr (hND k hk))
    (fun k hk => (holds_of_chunks _ _ hwp _ (hgoodP k hk)).mpr (hNP k hk))
    (by
      rcases hmin with ⟨k, hk, he⟩ | ⟨k, hk, he⟩
      · refine Or.inl ⟨k, hk, ?_⟩
        rw [holds_of_chunks _ _ hwp _ (hgoodD k hk)]
        omega
      · refine Or.inr ⟨k, hk, ?_⟩
        rw [holds_of_chunks _ _ hwp _ (hgoodP k hk)]
        omega)
  refine ⟨st, O, ?_, ?_, hol1, hout⟩
  · have hA : ¬ (c.type = FecType.SYSTEMATIC ∧ data.length ≠ c.n_data) := by
      rintro ⟨h1, h2⟩
      exact h2 (hdl h1)
    have hB : ¬ (c.type = FecType.SYSTEMATIC ∧ (chosen_data c data).length = c.n_data) := by
      rintro ⟨-, h2⟩
      omega
    have hC : ¬ (c.n_data < c.n_data) := Nat.lt_irrefl _
    simp only [FecCode.decode_bufs, if_neg hA, hpl, hprl, hol, ne_eq, not_true_eq_false,
      if_false, decode_bufs_select_data c data h32 hdl, if_neg hB, if_pos hmiss]
    simp only [chosen_parities] at hsel hrun ⊢
    simp only [hsel, if_neg hC, hrun]
  · rw [hev]
    simp only [drop_replicate_zero, Int.zero_add]

/-! ## The contracts of the drivers -/

theorem present_below_all {α : Type} (S : List (Option α)) (n : Nat)
    (h : ∀ k, k < n → ∃ s, S[k]? = some (some s)) : present_below S n = List.range n := by
  simp only [present_below]
  rw [List.filter_eq_self]
  intro k hk
  obtain ⟨s, hs⟩ := h k (List.mem_range.mp hk)
  rw [hs]
  rfl

theorem calls_from_range (f : Nat → Nat → Event) (n : Nat) :
    calls_from f 0 (List.range n) = (List.range n).map (fun k => f k k) := by
  induction n with
  | zero => rfl
  | succ n ih =>
    rw [List.range_succ, calls_from_append, ih, List.map_append]
    simp

theorem min_over_const (f : Nat → Nat) (l : List Nat) (v : Nat) (hl : l ≠ [])
    (h : ∀ k, k ∈ l → f k = v) : min_over f l = v := by
  obtain ⟨k, hk, he⟩ := min_over_attained f l hl
  rw [← he, h k hk]

theorem pkts_bytes_length (n : Nat) (pkt : Nat → List Nat) (N : Nat) :
    (pkts_bytes n pkt N).length = N * n := by
  induction N generalizing pkt with
  | zero => simp [pkts_bytes]
  | succ N ih =>
    rw [pkts_bytes_succ, List.length_append, ih, List.length_map, List.length_range,
      Nat.succ_mul]
    omega

theorem words_bytes_length (w : Nat) (val : Nat → Nat) (N : Nat) :
    (words_bytes w val N).length = N * w := by
  induction N generalizing val with
  | zero => simp [words_bytes]
  | succ N ih =>
    rw [words_bytes_succ, List.length_append, ih, le_bytes_length, Nat.succ_mul]
    omega

/-- C21: for a SYSTEMATIC code, when all `n_data` input data streams are
present, `decode_bufs` returns true after calling `decode_add_data(k, k)` for
each k and nothing else: no `decode_add_parities`, `decode_build` or `decode`;
the input streams and the output streams are what they were (nothing is read,
nothing is written), whatever the parity streams are. -/
theorem decode_bufs_all_data_present (c : FecCode) (Tbits : Nat) (dec : DecodeFn) (fuel : Nat)
    (data parities : List (Option IStream)) (props : List Properties)
    (outputs : List (Option OStream))
    (ht : c.type = FecType.SYSTEMATIC) (h32 : c.n_data < 4294967296)
    (hdl : data.length = c.n_data) (hpl : parities.length = c.n_outputs)
    (hprl : props.length = c.n_outputs) (hol : outputs.length = c.n_data)
    (hall : ∀ k, k < c.n_data → ∃ s, data[k]? = some (some s)) :
    c.decode_bufs Tbits dec fuel data parities props outputs
      = Except.ok (true,
          { data := data, parities := parities, outputs := outputs,
            events := (List.range c.n_data).map (fun k => Event.decode_add_data k k) }) := by
  have hcd : chosen_data c data = List.range c.n_data := by
    simp only [chosen_data, if_pos ht, present_below_all data c.n_data hall]
  have hA : ¬ (c.type = FecType.SYSTEMATIC ∧ data.length ≠ c.n_data) := by
    rintro ⟨-, h2⟩
    exact h2 hdl
  have hB : c.type = FecType.SYSTEMATIC ∧ (List.range c.n_data).length = c.n_data :=
    ⟨ht, List.length_range _⟩
  simp only [FecCode.decode_bufs, if_neg hA, hpl, hprl, hol, ne_eq, not_true_eq_false,
    if_false, decode_bufs_select_data c data h32 (fun _ => hdl), hcd, if_pos hB,
    calls_from_range]

theorem decode_bufs_all_data_present_witness :
    (⟨FecType.SYSTEMATIC, 1, 2, 1, 3, 1, 1, 1⟩ : FecCode).decode_bufs 8 (fun _ _ _ _ _ => []) 0
        [some ⟨[7], true⟩, some ⟨[9], true⟩] [none] [[]] [none, some ⟨[]⟩]
      = Except.ok (true,
          { data := [some ⟨[7], true⟩, some ⟨[9], true⟩], parities := [none],
            outputs := [none, some ⟨[]⟩],
            events := [Event.decode_add_data 0 0, Event.decode_add_data 1 1] }) :=
  decode_bufs_all_data_present ⟨FecType.SYSTEMATIC, 1, 2, 1, 3, 1, 1, 1⟩ 8
    (fun _ _ _ _ _ => []) 0 [some ⟨[7], true⟩, some ⟨[9], true⟩] [none] [[]] [none, some ⟨[]⟩]
    rfl (by decide) rfl rfl rfl rfl
    (fun k hk => by
      have h2 : k < 2 := hk
      interval_cases k
      · exact ⟨_, rfl⟩
      · exact ⟨_, rfl⟩)

theorem chosen_data_lt (c : FecCode) (data : List (Option IStream)) (k : Nat)
    (h : k ∈ chosen_data c data) : k < c.n_data := by
  unfold chosen_data at h
  split at h
  · exact (present_below_lt data c.n_data k h).1
  · simp at h

theorem chosen_parities_lt (c : FecCode) (data parities : List (Option IStream)) (k : Nat)
    (h : k ∈ chosen_parities c data parities) : k < parities.length := by
  unfold chosen_parities at h
  exact (present_below_lt parities parities.length k (List.mem_of_mem_take h)).1

/-- C22: when some data fragment is missing and enough fragments are
available (the conditions under which `decode_bufs` reaches `decode_build`),
the fragments chosen are the present data streams in increasing index
(SYSTEMATIC only, `chosen_data`) followed by the lowest-indexed present parity
streams until `n_data` fragments are chosen (`chosen_parities`); they are
registered before `decode_build` by `decode_add_data(pos, idx)` and
`decode_add_parities(pos, idx)` at consecutive positions, and in every chunk
`fragments_ids[pos]` is the same `idx` and `words[pos]` is the word of that
chunk read from that stream. -/
theorem decode_bufs_chosen_fragments (c : FecCode) (Tbits : Nat) (dec : DecodeFn)
    (fuel N : Nat) (data parities : List (Option IStream)) (props : List Properties)
    (outputs : List (Option OStream))
    (hw : c.word_size = 1 ∨ c.word_size = 2 ∨ c.word_size = 4 ∨ c.word_size = 8
      ∨ c.word_size = 16)
    (h32 : c.n_data < 4294967296) (hcl1 : c.n_outputs ≤ c.code_len)
    (hcl2 : c.n_data ≤ c.code_len) (hT : c.code_len ≤ 2 ^ Tbits)
    (hdl : c.type = FecType.SYSTEMATIC → data.length = c.n_data)
    (hpl : parities.length = c.n_outputs) (hprl : props.length = c.n_outputs)
    (hol : outputs.length = c.n_data)
    (hdec : ∀ h p o ids ws, (dec h p o ids ws).length = c.n_data)
    (hmiss : (chosen_data c data).length < c.n_data)
    (henough : c.n_data ≤ (chosen_data c data).length
      + (present_below parities parities.length).length)
    (hgoodD : ∀ k, k ∈ chosen_data c data → holds 0 data[k]?)
    (hgoodP : ∀ k, k ∈ chosen_parities c data parities → holds 0 parities[k]?)
    (hND : ∀ k, k ∈ chosen_data c data → N ≤ chunks_in c.word_size data[k]?)
    (hNP : ∀ k, k ∈ chosen_parities c data parities → N ≤ chunks_in c.word_size parities[k]?)
    (hmin : (∃ k, k ∈ chosen_data c data ∧ chunks_in c.word_size data[k]? = N)
      ∨ (∃ k, k ∈ chosen_parities c data parities ∧ chunks_in c.word_size parities[k]? = N))
    (hfuel : N < fuel) :
    ∃ (st : DecodeState) (O : Nat → List Nat) (pad : Nat),
      c.decode_bufs Tbits dec fuel data parities props outputs = Except.ok (true, st)
      ∧ (chosen_data c data).length + (chosen_parities c data parities).length = c.n_data
      ∧ st.events = calls_from Event.decode_add_data 0 (chosen_data c data)
          ++ calls_from Event.decode_add_parities (chosen_data c data).length
              (chosen_parities c data parities)
          ++ [Event.decode_build]
          ++ (List.range N).map (fun j =>
            Event.decode ((j * c.word_size : Nat) : Int)
              ((chosen_data c data ++ chosen_parities c data parities)
                ++ List.replicate pad 0)
              (((chosen_data c data).map (fun k => word_at c.word_size Tbits j data[k]?)
                ++ (chosen_parities c data parities).map
                  (fun k => word_at c.word_size Tbits j parities[k]?))
                ++ List.replicate pad 0)
              (O j)) := by
  obtain ⟨st, O, hrun, hev, -, -⟩ := decode_bufs_spec c Tbits dec fuel N data parities props
    outputs hw h32 hcl1 hcl2 hdl hpl hprl hol hdec hmiss henough hgoodD hgoodP hND hNP hmin hfuel
  refine ⟨st, O, (if c.type = FecType.SYSTEMATIC then c.n_data else c.code_len) - c.n_data,
    hrun, chosen_parities_length c data parities hmiss henough, ?_⟩
  rw [hev]
  have hid : (chosen_data c data ++ chosen_parities c data parities).map
      (fun k => k % 2 ^ Tbits) = chosen_data c data ++ chosen_parities c data parities := by
    conv_rhs => rw [← List.map_id (chosen_data c data ++ chosen_parities c data parities)]
    apply List.map_congr_left
    intro k hk
    simp only [id]
    apply Nat.mod_eq_of_lt
    rcases List.mem_append.mp hk with h | h
    · have := chosen_data_lt c data k h
      omega
    · have := chosen_parities_lt c data parities k h
      omega
  rw [hid]

/-- C23: when `decode_bufs` decodes (some data fragment missing, enough
fragments available), with N the minimum over the chosen streams of the number
of complete words they hold, it returns true after exactly N calls of `decode`
following `decode_build`, and for each of these N chunks it writes `output[i]`
of that chunk to output stream i for the indices `i < n_data` whose output
stream is not null; a null output stream stays null. -/
theorem decode_bufs_chunks (c : FecCode) (Tbits : Nat) (dec : DecodeFn)
    (fuel N : Nat) (data parities : List (Option IStream)) (props : List Properties)
    (outputs : List (Option OStream))
    (hw : c.word_size = 1 ∨ c.word_size = 2 ∨ c.word_size = 4 ∨ c.word_size = 8
      ∨ c.word_size = 16)
    (h32 : c.n_data < 4294967296) (hcl1 : c.n_outputs ≤ c.code_len)
    (hcl2 : c.n_data ≤ c.code_len)
    (hdl : c.type = FecType.SYSTEMATIC → data.length = c.n_data)
    (hpl : parities.length = c.n_outputs) (hprl : props.length = c.n_outputs)
    (hol : outputs.length = c.n_data)
    (hdec : ∀ h p o ids ws, (dec h p o ids ws).length = c.n_data)
    (hmiss : (chosen_data c data).length < c.n_data)
    (henough : c.n_data ≤ (chosen_data c data).length
      + (present_below parities parities.length).length)
    (hgoodD : ∀ k, k ∈ chosen_data c data → holds 0 data[k]?)
    (hgoodP : ∀ k, k ∈ chosen_parities c data parities → holds 0 parities[k]?)
    (hND : ∀ k, k ∈ chosen_data c data → N ≤ chunks_in c.word_size data[k]?)
    (hNP : ∀ k, k ∈ chosen_parities c data parities → N ≤ chunks_in c.word_size parities[k]?)
    (hmin : (∃ k, k ∈ chosen_data c data ∧ chunks_in c.word_size data[k]? = N)
      ∨ (∃ k, k ∈ chosen_parities c data parities ∧ chunks_in c.word_size parities[k]? = N))
    (hfuel : N < fuel) :
    ∃ (st : DecodeState) (O ids W : Nat → List Nat),
      c.decode_bufs Tbits dec fuel data parities props outputs = Except.ok (true, st)
      ∧ st.events = calls_from Event.decode_add_data 0 (chosen_data c data)
          ++ calls_from Event.decode_add_parities (chosen_data c data).length
              (chosen_parities c data parities)
          ++ [Event.decode_build]
          ++ (List.range N).map (fun j =>
            Event.decode ((j * c.word_size : Nat) : Int) (ids j) (W j) (O j))
      ∧ st.outputs.length = outputs.length
      ∧ ∀ i, i < c.n_data →
          (outputs[i]? = some none → st.outputs[i]? = some none)
          ∧ ∀ s, outputs[i]? = some (some s) →
              st.outputs[i]? = some (some
                { data := s.data ++ words_bytes c.word_size (fun j => (O j).getD i 0) N }) := by
  obtain ⟨st, O, hrun, hev, hl, hout⟩ := decode_bufs_spec c Tbits dec fuel N data parities
    props outputs hw h32 hcl1 hcl2 hdl hpl hprl hol hdec hmiss henough hgoodD hgoodP hND hNP hmin
    hfuel
  refine ⟨st, O,
    fun _ => (chosen_data c data ++ chosen_parities c data parities).map
        (fun k => k % 2 ^ Tbits)
      ++ List.replicate
        ((if c.type = FecType.SYSTEMATIC then c.n_data else c.code_len) - c.n_data) 0,
    fun j => ((chosen_data c data).map (fun k => word_at c.word_size Tbits j data[k]?)
        ++ (chosen_parities c data parities).map
          (fun k => word_at c.word_size Tbits j parities[k]?))
      ++ List.replicate
        ((if c.type = FecType.SYSTEMATIC then c.n_data else c.code_len) - c.n_data) 0,
    hrun, hev, hl, ?_⟩
  intro i hi
  rw [hout i, if_pos hi]
  constructor
  · intro h
    rw [h]
    rfl
  · intro s h
    rw [h]
    rfl

/-- C24: on `n_data` present data streams and `n_outputs` present parity
streams, `encode_bufs` calls `encode` exactly N times, N being the minimum over
the data streams of `floor(length / word_size)`; call j is made on the vector
of the j-th words of the data streams, and parity stream i receives exactly
the N words `output[i]` of the calls, in order; nothing else is written. -/
theorem encode_bufs_chunks (c : FecCode) (Tbits : Nat) (enc : EncodeFn) (fuel : Nat)
    (data : List (Option IStream)) (parities : List (Option OStream))
    (props : List Properties)
    (hw : c.word_size = 1 ∨ c.word_size = 2 ∨ c.word_size = 4 ∨ c.word_size = 8
      ∨ c.word_size = 16)
    (hnd : 1 ≤ c.n_data)
    (hdl : data.length = c.n_data) (hpl : parities.length = c.n_outputs)
    (hprl : props.length = c.n_outputs)
    (hdata : ∀ k, k < c.n_data → holds 0 data[k]?)
    (hpar : ∀ i, i < c.n_outputs → ∃ s, parities[i]? = some (some s))
    (henc : ∀ h p o ws, c.n_outputs ≤ (enc h p o ws).1.length)
    (hfuel : min_over (fun k => chunks_in c.word_size data[k]?) (List.range c.n_data) < fuel) :
    ∃ (st : EncodeState) (O : Nat → List Nat),
      c.encode_bufs Tbits enc fuel data parities props = Except.ok st
      ∧ st.events = (List.range
            (min_over (fun k => chunks_in c.word_size data[k]?) (List.range c.n_data))).map
          (fun j => Event.encode ((j * c.word_size : Nat) : Int)
            ((List.range c.n_data).map (fun k => word_at c.word_size Tbits j data[k]?)) (O j))
      ∧ st.parities.length = parities.length
      ∧ ∀ i s, i < c.n_outputs → parities[i]? = some (some s) →
          st.parities[i]? = some (some
            { data := s.data ++ words_bytes c.word_size (fun j => (O j).getD i 0)
                (min_over (fun k => chunks_in c.word_size data[k]?) (List.range c.n_data)) }) := by
  obtain ⟨st, O, hrun, hev, hl, hp⟩ := encode_bufs_spec c Tbits enc fuel data parities props
    hw hnd hdl hpl hprl hdata hpar henc hfuel
  refine ⟨st, O, hrun, hev, hl, ?_⟩
  intro i s hi hs
  rw [hp i, if_pos hi, hs]
  rfl

/-- C25: for a code built by the constructor with `buf_size = pkt_size *
word_size` bytes per packet and `n_data` present data streams of the same
length L, `encode_packet` calls `encode` on exactly `floor(L / buf_size)`
packets, call j on the j-th packets of the data streams, and writes exactly
that many packets of `buf_size` bytes to each parity stream; the trailing
`L mod buf_size` bytes are not encoded and give no parity output. -/
theorem encode_packet_whole_packets (type : FecType)
    (word_size n_data n_parities pkt_size : Nat) (c : FecCode)
    (hc : FecCode.create type word_size n_data n_parities pkt_size = Except.ok c)
    (hprod : pkt_size * word_size < 18446744073709551616) (hpos : 1 ≤ pkt_size * word_size)
    (enc : EncodePktFn) (fuel L : Nat)
    (data : List (Option IStream)) (parities : List (Option OStream))
    (props : List Properties)
    (hnd : 1 ≤ n_data)
    (hdl : data.length = n_data) (hpl : parities.length = c.n_outputs)
    (hprl : props.length = c.n_outputs)
    (hdata : ∀ k, k < n_data → ∃ s, data[k]? = some (some s) ∧ s.good = true
      ∧ s.data.length = L)
    (hpar : ∀ i, i < c.n_outputs → ∃ s, parities[i]? = some (some s))
    (henc : ∀ h p o ws, c.n_outputs ≤ (enc h p o ws).1.length)
    (hL : L < 9223372036854775808)
    (hfuel : L / (pkt_size * word_size) < fuel) :
    ∃ (st : EncodeState) (O : Nat → List (List Nat)),
      c.encode_packet enc fuel data parities props = Except.ok st
      ∧ st.events = (List.range (L / (pkt_size * word_size))).map
          (fun j => Event.encode_pkt ((j * (pkt_size * word_size) : Nat) : Int)
            ((List.range n_data).map (fun k => chunk_at (pkt_size * word_size) j data[k]?))
            (O j))
      ∧ st.parities.length = parities.length
      ∧ ∀ i s, i < c.n_outputs → parities[i]? = some (some s) →
          st.parities[i]? = some (some
            { data := s.data ++ pkts_bytes (pkt_size * word_size) (fun j => (O j).getD i [])
                (L / (pkt_size * word_size)) })
          ∧ (pkts_bytes (pkt_size * word_size) (fun j => (O j).getD i [])
                (L / (pkt_size * word_size))).length
              = L / (pkt_size * word_size) * (pkt_size * word_size) := by
  have hcn : c.n_data = n_data ∧ c.buf_size = pkt_size * word_size := by
    have ht : type = FecType.SYSTEMATIC ∨ type = FecType.NON_SYSTEMATIC := by
      cases type
      · exact Or.inl rfl
      · exact Or.inr rfl
    simp only [FecCode.create, if_pos ht, Except.ok.injEq] at hc
    subst hc
    exact ⟨rfl, Nat.mod_eq_of_lt hprod⟩
  obtain ⟨hcn1, hcb⟩ := hcn
  have hmin : min_over (fun k => chunks_in c.buf_size data[k]?) (List.range c.n_data)
      = L / (pkt_size * word_size) := by
    apply min_over_const
    · exact range_ne_nil _ (by omega)
    · intro k hk
      obtain ⟨s, hs, -, hl⟩ := hdata k (by rw [← hcn1]; exact List.mem_range.mp hk)
      simp only [hs, chunks_in, hl, hcb]
  obtain ⟨st, O, hrun, hev, hl, hp⟩ := encode_packet_spec c enc fuel data parities props
    (by omega) (by omega) (by omega) hpl hprl
    (fun k hk => by
      obtain ⟨s, hs, hg, -⟩ := hdata k (by omega)
      exact ⟨s, hs, hg, Nat.zero_le _⟩)
    hpar henc
    (by
      rw [hmin, hcb]
      have := Nat.div_mul_le_self L (pkt_size * word_size)
      omega)
    (by rw [hmin]; exact hfuel)
  rw [hmin, hcb, hcn1] at hev
  refine ⟨st, O, hrun, hev, hl, ?_⟩
  intro i s hi hs
  refine ⟨?_, pkts_bytes_length _ _ _⟩
  rw [hp i, if_pos hi, hs, hmin, hcb]
  rfl

theorem calls_from_mem (f : Nat → Nat → Event) :
    ∀ (l : List Nat) (pos : Nat) (e : Event), e ∈ calls_from f pos l → ∃ p i, e = f p i := by
  intro l
  induction l with
  | nil => intro pos e h; simp [calls_from] at h
  | cons a t ih =>
    intro pos e h
    simp only [calls_from, List.mem_cons] at h
    rcases h with h | h
    · exact ⟨pos, a, h⟩
    · exact ih (pos + 1) e h

theorem decode_bufs_chosen_fragments_witness :
    ∃ st, (⟨FecType.SYSTEMATIC, 1, 2, 1, 3, 1, 1, 1⟩ : FecCode).decode_bufs 8
        (fun _ _ _ _ _ => [0, 0]) 2
        [some ⟨[7], true⟩, none] [some ⟨[9], true⟩] [[]] [none, some ⟨[]⟩]
      = Except.ok (true, st) :=
  have h := decode_bufs_chosen_fragments ⟨FecType.SYSTEMATIC, 1, 2, 1, 3, 1, 1, 1⟩ 8
    (fun _ _ _ _ _ => [0, 0]) 2 1
    [some ⟨[7], true⟩, none] [some ⟨[9], true⟩] [[]] [none, some ⟨[]⟩]
    (Or.inl rfl) (by decide) (by decide) (by decide) (by decide) (fun _ => rfl) rfl rfl rfl
    (fun _ _ _ _ _ => rfl) (by decide) (by decide)
    (fun k hk => by
      have hk1 : k ∈ [0] := hk
      have e : k = 0 := List.mem_singleton.mp hk1
      subst e
      exact ⟨_, rfl, rfl, Nat.zero_le _⟩)
    (fun k hk => by
      have hk1 : k ∈ [0] := hk
      have e : k = 0 := List.mem_singleton.mp hk1
      subst e
      exact ⟨_, rfl, rfl, Nat.zero_le _⟩)
    (fun k hk => by
      have hk1 : k ∈ [0] := hk
      have e : k = 0 := List.mem_singleton.mp hk1
      subst e
      decide)
    (fun k hk => by
      have hk1 : k ∈ [0] := hk
      have e : k = 0 := List.mem_singleton.mp hk1
      subst e
      decide)
    (Or.inl ⟨0, by decide, by decide⟩) (by decide)
  h.elim fun st h1 => ⟨st, h1.elim fun _ h2 => h2.elim fun _ h3 => h3.1⟩

theorem decode_bufs_chunks_witness :
    ∃ st, (⟨FecType.SYSTEMATIC, 1, 2, 1, 3, 1, 1, 1⟩ : FecCode).decode_bufs 8
        (fun _ _ _ _ _ => [0, 0]) 2
        [none, some ⟨[7], true⟩] [some ⟨[9, 3], true⟩] [[]] [some ⟨[]⟩, none]
      = Except.ok (true, st) :=
  have h := decode_bufs_chunks ⟨FecType.SYSTEMATIC, 1, 2, 1, 3, 1, 1, 1⟩ 8
    (fun _ _ _ _ _ => [0, 0]) 2 1
    [none, some ⟨[7], true⟩] [some ⟨[9, 3], true⟩] [[]] [some ⟨[]⟩, none]
    (Or.inl rfl) (by decide) (by decide) (by decide) (fun _ => rfl) rfl rfl rfl
    (fun _ _ _ _ _ => rfl) (by decide) (by decide)
    (fun k hk => by
      have hk1 : k ∈ [1] := hk
      have e : k = 1 := List.mem_singleton.mp hk1
      subst e
      exact ⟨_, rfl, rfl, Nat.zero_le _⟩)
    (fun k hk => by
      have hk1 : k ∈ [0] := hk
      have e : k = 0 := List.mem_singleton.mp hk1
      subst e
      exact ⟨_, rfl, rfl, Nat.zero_le _⟩)
    (fun k hk => by
      have hk1 : k ∈ [1] := hk
      have e : k = 1 := List.mem_singleton.mp hk1
      subst e
      decide)
    (fun k hk => by
      have hk1 : k ∈ [0] := hk
      have e : k = 0 := List.mem_singleton.mp hk1
      subst e
      decide)
    (Or.inl ⟨1, by decide, by decide⟩) (by decide)
  h.elim fun st h1 => ⟨st, h1.elim fun _ h2 => h2.elim fun _ h3 => h3.elim fun _ h4 => h4.1⟩

theorem encode_bufs_chunks_witness :
    ∃ st, (⟨FecType.SYSTEMATIC, 1, 2, 1, 3, 1, 1, 1⟩ : FecCode).encode_bufs 8
        (fun _ p _ _ => ([5], p)) 2
        [some ⟨[1, 2], true⟩, some ⟨[3], true⟩] [some ⟨[]⟩] [[]]
      = Except.ok st :=
  have h := encode_bufs_chunks ⟨FecType.SYSTEMATIC, 1, 2, 1, 3, 1, 1, 1⟩ 8
    (fun _ p _ _ => ([5], p)) 2
    [some ⟨[1, 2], true⟩, some ⟨[3], true⟩] [some ⟨[]⟩] [[]]
    (Or.inl rfl) (by decide) rfl rfl rfl
    (fun k hk => by
      have h2 : k < 2 := hk
      interval_cases k
      · exact ⟨_, rfl, rfl, Nat.zero_le _⟩
      · exact ⟨_, rfl, rfl, Nat.zero_le _⟩)
    (fun i hi => by
      have h1 : i < 1 := hi
      interval_cases i
      exact ⟨_, rfl⟩)
    (fun _ _ _ _ => Nat.le_refl _) (by decide)
  h.elim fun st h1 => ⟨st, h1.elim fun _ h2 => h2.1⟩

theorem encode_packet_whole_packets_witness :
    ∃ st, (⟨FecType.SYSTEMATIC, 1, 2, 1, 3, 1, 2, 2⟩ : FecCode).encode_packet
        (fun _ p _ _ => ([[0, 0]], p)) 3
        [some ⟨[1, 2, 3, 4, 5], true⟩, some ⟨[6, 7, 8, 9, 10], true⟩] [some ⟨[]⟩] [[]]
      = Except.ok st :=
  have h := encode_packet_whole_packets FecType.SYSTEMATIC 1 2 1 2
    ⟨FecType.SYSTEMATIC, 1, 2, 1, 3, 1, 2, 2⟩ rfl (by decide) (by decide)
    (fun _ p _ _ => ([[0, 0]], p)) 3 5
    [some ⟨[1, 2, 3, 4, 5], true⟩, some ⟨[6, 7, 8, 9, 10], true⟩] [some ⟨[]⟩] [[]]
    (by decide) rfl rfl rfl
    (fun k hk => by
      interval_cases k
      · exact ⟨_, rfl, rfl, rfl⟩
      · exact ⟨_, rfl, rfl, rfl⟩)
    (fun i hi => by
      have h1 : i < 1 := hi
      interval_cases i
      exact ⟨_, rfl⟩)
    (fun _ _ _ _ => Nat.le_refl _) (by decide) (by decide)
  h.elim fun st h1 => ⟨st, h1.elim fun _ h2 => h2.1⟩

end fec

end nttec

namespace nttec
namespace fec

open quadiron.simd (Properties to_off_t)

/-! ## The parity-selection loop of `decode_bufs` -/

theorem for_break_error_stays {σ : Type} (body : Nat → σ → Except Err (σ × Bool)) (n : Nat)
    (s : σ) (e : Err) (h : for_break body n s = Except.error e) :
    ∀ k, for_break body (n + k) s = Except.error e := by
  intro k
  induction k with
  | zero => exact h
  | succ k ih =>
    show for_break body (n + k + 1) s = _
    rw [for_break, ih]

theorem add_data_all_missing (m : Nat) :
    ∀ n, n ≤ m →
      for_break (decode_bufs_add_data_body (List.replicate m none)) n (0, [])
        = Except.ok ((0, []), false) := by
  intro n
  induction n with
  | zero => intro _; rfl
  | succ n ih =>
    intro h
    have hget : (List.replicate m (none : Option IStream))[n]? = some none := by
      rw [List.getElem?_replicate, if_pos (by omega)]
    rw [for_break, ih (by omega)]
    simp only [decode_bufs_add_data_body, hget]

theorem add_parities_all_missing (m n_data : Nat) (st : Nat × List Event) :
    ∀ n, n ≤ m →
      for_break (decode_bufs_add_parities_body (List.replicate m none) n_data) n st
        = Except.ok (st, false) := by
  intro n
  induction n with
  | zero => intro _; rfl
  | succ n ih =>
    intro h
    have hget : (List.replicate m (none : Option IStream))[n]? = some none := by
      rw [List.getElem?_replicate, if_pos (by omega)]
    rw [for_break, ih (by omega)]
    simp only [decode_bufs_add_parities_body, hget]

theorem add_parities_overrun (m n_data code_len : Nat) (st : Nat × List Event)
    (h : m < code_len) :
    for_break (decode_bufs_add_parities_body (List.replicate m none) n_data) code_len st
      = Except.error Err.out_of_range := by
  have hget : (List.replicate m (none : Option IStream))[m]? = none := by
    rw [List.getElem?_replicate, if_neg (by omega)]
  have h1 : for_break (decode_bufs_add_parities_body (List.replicate m none) n_data) (m + 1) st
      = Except.error Err.out_of_range := by
    rw [for_break, add_parities_all_missing m n_data st m (Nat.le_refl _)]
    simp only [decode_bufs_add_parities_body, hget]
  have h2 := for_break_error_stays _ _ _ _ h1 (code_len - (m + 1))
  have e : m + 1 + (code_len - (m + 1)) = code_len := by omega
  rw [e] at h2
  exact h2

/-- With every input stream missing, a SYSTEMATIC code whose `code_len` is
above `n_outputs` reads `input_parities_bufs[n_outputs]`. -/
theorem decode_bufs_all_missing (c : FecCode) (Tbits : Nat) (dec : DecodeFn) (fuel : Nat)
    (props : List Properties) (outs : List (Option OStream))
    (ht : c.type = FecType.SYSTEMATIC) (hd : 0 < c.n_data) (hl : c.n_outputs < c.code_len)
    (hp : props.length = c.n_outputs) (ho : outs.length = c.n_data) :
    c.decode_bufs Tbits dec fuel (List.replicate c.n_data none)
      (List.replicate c.n_outputs none) props outs = Except.error Err.out_of_range := by
  unfold FecCode.decode_bufs
  dsimp only
  rw [if_neg (by simp), if_neg (by simp), if_neg (by simp [hp]), if_neg (by simp [ho]),
    if_pos ht, add_data_all_missing c.n_data c.n_data (Nat.le_refl _)]
  dsimp only
  rw [if_neg (by omega), if_pos hd, add_parities_overrun _ _ _ _ hl]

/-- C39 (code bug): the parity-selection loop of `decode_bufs` is bounded by
`code_len` and indexes `input_parities_bufs`, whose size the function asserts
to be `n_outputs`.  For the SYSTEMATIC code built with `n_data = 2` and
`n_parities = 2` (`n_outputs = 2`, `code_len = 4`), no data stream and one
parity stream out of two, the loop reads index 2 of a vector of 2 entries.
For every SYSTEMATIC code with `n_data >= 1` and `n_outputs < code_len`, and
all input streams missing, the loop reads index `n_outputs`.  For the
NON_SYSTEMATIC code of the same parameters (`n_outputs = code_len = 4`) every
index read is inside the vector and the call returns false. -/
theorem decode_bufs_parity_index_out_of_range :
    FecCode.create FecType.SYSTEMATIC 1 2 2 1
        = Except.ok ⟨FecType.SYSTEMATIC, 1, 2, 2, 4, 2, 1, 1⟩
    ∧ (∀ Tbits dec fuel,
        (⟨FecType.SYSTEMATIC, 1, 2, 2, 4, 2, 1, 1⟩ : FecCode).decode_bufs Tbits dec fuel
          [none, none] [some { data := [5], good := true }, none] [[], []]
          [some { data := [] }, some { data := [] }]
        = Except.error Err.out_of_range)
    ∧ (∀ (c : FecCode) Tbits dec fuel (props : List Properties) (outs : List (Option OStream)),
        c.type = FecType.SYSTEMATIC → 0 < c.n_data → c.n_outputs < c.code_len →
        props.length = c.n_outputs → outs.length = c.n_data →
        c.decode_bufs Tbits dec fuel (List.replicate c.n_data none)
          (List.replicate c.n_outputs none) props outs = Except.error Err.out_of_range)
    ∧ (∀ Tbits dec fuel,
        (⟨FecType.NON_SYSTEMATIC, 1, 2, 2, 4, 4, 1, 1⟩ : FecCode).decode_bufs Tbits dec fuel
          [] [some { data := [5], good := true }, none, none, none] [[], [], [], []]
          [some { data := [] }, some { data := [] }]
        = Except.ok (false,
            { data := []
              parities := [some { data := [5], good := true }, none, none, none]
              outputs := [some { data := [] }, some { data := [] }]
              events := [Event.decode_add_parities 0 0] })) :=
  ⟨rfl, fun _ _ _ => rfl, decode_bufs_all_missing, fun _ _ _ => rfl⟩

/-- C20 (code bug): for the SYSTEMATIC code built with `n_data = 2` and
`n_parities = 2` (`n_outputs = 2`, `code_len = 4`), no data stream and one
parity stream out of two, one fragment is available where two are needed, and
`decode_bufs` does not return false: after `decode_add_parities(0, 0)` its
parity-selection loop, bounded by `code_len`, goes on to index 2 of the vector
of `n_outputs = 2` parity streams, and the call ends in that read instead of
reaching `return false`.  With the same count of fragments (one parity stream
out of three) the NON_SYSTEMATIC code, whose vector has `code_len` entries,
returns false without calling `decode_build` or `decode` and leaves every
stream as it was. -/
theorem decode_bufs_too_few_fragments_not_false (Tbits : Nat) (dec : DecodeFn) (fuel : Nat) :
    FecCode.create FecType.SYSTEMATIC 1 2 2 1
        = Except.ok ⟨FecType.SYSTEMATIC, 1, 2, 2, 4, 2, 1, 1⟩
    ∧ (([none, none] : List (Option IStream)).filter Option.isSome).length
        + (([some { data := [5], good := true }, none] : List (Option IStream)).filter
            Option.isSome).length = 1
    ∧ for_break (decode_bufs_add_parities_body [some { data := [5], good := true }, none] 2) 2
        (0, []) = Except.ok ((1, [Event.decode_add_parities 0 0]), false)
    ∧ decode_bufs_add_parities_body [some { data := [5], good := true }, none] 2 2
        (1, [Event.decode_add_parities 0 0]) = Except.error Err.out_of_range
    ∧ (∀ st, (⟨FecType.SYSTEMATIC, 1, 2, 2, 4, 2, 1, 1⟩ : FecCode).decode_bufs Tbits dec fuel
          [none, none] [some { data := [5], good := true }, none] [[], []]
          [some { data := [] }, some { data := [] }]
        ≠ Except.ok (false, st))
    ∧ (⟨FecType.NON_SYSTEMATIC, 1, 2, 1, 3, 3, 1, 1⟩ : FecCode).decode_bufs Tbits dec fuel
        [] [some { data := [7, 8], good := true }, none, none] [[], [], []]
        [some { data := [] }, some { data := [] }]
      = Except.ok (false,
          { data := []
            parities := [some { data := [7, 8], good := true }, none, none]
            outputs := [some { data := [] }, some { data := [] }]
            events := [Event.decode_add_parities 0 0] }) := by
  refine ⟨rfl, rfl, rfl, rfl, ?_, rfl⟩
  intro st h
  have e : (⟨FecType.SYSTEMATIC, 1, 2, 2, 4, 2, 1, 1⟩ : FecCode).decode_bufs Tbits dec fuel
      [none, none] [some { data := [5], good := true }, none] [[], []]
      [some { data := [] }, some { data := [] }] = Except.error Err.out_of_range := rfl
  rw [e] at h
  exact absurd h (by simp)

/-! ## Word sizes that `readw` does not know -/

theorem readw_bad_word_size (c : FecCode) (Tbits : Nat) (stream : IStream)
    (hw : ¬ (c.word_size = 1 ∨ c.word_size = 2 ∨ c.word_size = 4 ∨ c.word_size = 8
      ∨ c.word_size = 16)) :
    c.readw Tbits stream = Except.error Err.assertion := by
  unfold FecCode.readw
  rw [if_neg hw]

theorem for_break_first_error {σ : Type} (body : Nat → σ → Except Err (σ × Bool)) (s : σ)
    (e : Err) (h : body 0 s = Except.error e) (n : Nat) (hn : 0 < n) :
    for_break body n s = Except.error e := by
  have h1 : for_break body (0 + 1) s = Except.error e := by
    simp only [for_break, h]
  have h2 := for_break_error_stays body (0 + 1) s e h1 (n - 1)
  have e1 : 0 + 1 + (n - 1) = n := by omega
  rw [e1] at h2
  exact h2

/-- A word size outside {1, 2, 4, 8, 16} stops `encode_bufs` in the assertion
of `readw`, before any call of `encode`. -/
theorem encode_bufs_bad_word_size (c : FecCode) (Tbits : Nat) (enc : EncodeFn) (fuel : Nat)
    (data : List (Option IStream)) (parities : List (Option OStream))
    (props : List Properties)
    (hw : ¬ (c.word_size = 1 ∨ c.word_size = 2 ∨ c.word_size = 4 ∨ c.word_size = 8
      ∨ c.word_size = 16))
    (hnd : 1 ≤ c.n_data) (hdl : data.length = c.n_data) (hpl : parities.length = c.n_outputs)
    (hprl : props.length = c.n_outputs) (h0 : ∃ s, data[0]? = some (some s))
    (hfuel : 0 < fuel) :
    c.encode_bufs Tbits enc fuel data parities props = Except.error Err.assertion := by
  obtain ⟨s, hs⟩ := h0
  obtain ⟨f, rfl⟩ : ∃ f, fuel = f + 1 := ⟨fuel - 1, by omega⟩
  have hbody : encode_bufs_read_body c Tbits 0
      { streams := data, words := List.replicate c.n_data 0, cont := true }
      = Except.error Err.assertion := by
    simp only [encode_bufs_read_body, hs, readw_bad_word_size c Tbits s hw]
  have hloop := for_break_first_error (encode_bufs_read_body c Tbits) _ _ hbody c.n_data hnd
  simp only [FecCode.encode_bufs, hdl, hpl, hprl, ne_eq, not_true_eq_false, if_false,
    encode_bufs_loop, hloop]

theorem decode_read_bad_word_size (c : FecCode) (Tbits : Nat) (stop : Bool)
    (hw : ¬ (c.word_size = 1 ∨ c.word_size = 2 ∨ c.word_size = 4 ∨ c.word_size = 8
      ∨ c.word_size = 16)) (g : Gather) :
    ∀ n, n ≤ g.streams.length →
      for_break (decode_bufs_read_body c Tbits stop) n g
        = if present_below g.streams n = [] then Except.ok (g, false)
          else Except.error Err.assertion := by
  intro n
  induction n with
  | zero =>
    intro _
    rw [if_pos (by simp [present_below])]
    rfl
  | succ n ih =>
    intro hn
    have hlt : n < g.streams.length := by omega
    rw [for_break, ih (by omega)]
    by_cases hp : present_below g.streams n = []
    · rw [if_pos hp]
      dsimp only
      cases hx : g.streams[n]? with
      | none =>
        rw [List.getElem?_eq_none_iff] at hx
        omega
      | some x =>
        cases x with
        | none =>
          rw [present_below_succ_none _ _ hx, if_pos hp]
          simp only [decode_bufs_read_body, hx]
        | some s =>
          rw [present_below_succ_some _ _ s hx, if_neg (by simp)]
          simp only [decode_bufs_read_body, hx, readw_bad_word_size c Tbits s hw]
    · rw [if_neg hp]
      dsimp only
      rw [present_below_succ, if_neg]
      intro h
      exact hp (List.append_eq_nil.mp h).1

theorem decode_bufs_loop_bad_word_size (c : FecCode) (Tbits : Nat) (dec : DecodeFn)
    (props : List Properties) (n_words : Nat)
    (hw : ¬ (c.word_size = 1 ∨ c.word_size = 2 ∨ c.word_size = 4 ∨ c.word_size = 8
      ∨ c.word_size = 16))
    (fuel : Nat) (offset : Int) (ids : List Nat) (st : DecodeState) (hfuel : 0 < fuel)
    (hdl : c.type = FecType.SYSTEMATIC → st.data.length = c.n_data)
    (hpl : st.parities.length = c.n_outputs) (hnd : 0 < c.n_data)
    (hpar : present_below st.parities st.parities.length ≠ []) :
    decode_bufs_loop c Tbits dec props n_words fuel offset ids st
      = Except.error Err.assertion := by
  obtain ⟨f, rfl⟩ : ∃ f, fuel = f + 1 := ⟨fuel - 1, by omega⟩
  have hP : ∀ (ids1 ws1 : List Nat) (fi1 : Nat) (cont1 : Bool),
      for_break (decode_bufs_read_body c Tbits true) c.n_outputs
        { streams := st.parities, fragments_ids := ids1, words := ws1, fragment_index := fi1,
          cont := cont1 } = Except.error Err.assertion := by
    intro ids1 ws1 fi1 cont1
    have h := decode_read_bad_word_size c Tbits true hw
      { streams := st.parities, fragments_ids := ids1, words := ws1, fragment_index := fi1,
        cont := cont1 }
      c.n_outputs (by show c.n_outputs ≤ st.parities.length; omega)
    rw [h, if_neg]
    show ¬ present_below st.parities c.n_outputs = []
    rw [← hpl]
    exact hpar
  unfold decode_bufs_loop
  by_cases hs : c.type = FecType.SYSTEMATIC
  · have hD := decode_read_bad_word_size c Tbits false hw
      { streams := st.data, fragments_ids := ids, words := List.replicate n_words 0,
        fragment_index := 0, cont := true } c.n_data
      (by show c.n_data ≤ st.data.length; rw [hdl hs])
    by_cases hd : present_below st.data c.n_data = []
    · have hcond : ¬ (c.type = FecType.SYSTEMATIC ∧ (true = false ∨ 0 = c.n_data)) := by
        rintro ⟨-, h | h⟩
        · exact absurd h (by decide)
        · omega
      simp only [if_pos hs, hD, if_pos hd, hP, hcond, if_false]
    · simp only [if_pos hs, hD, if_neg hd]
  · have hcond : ¬ (c.type = FecType.SYSTEMATIC ∧ (true = false ∨ 0 = c.n_data)) := by
      rintro ⟨h, -⟩
      exact hs h
    simp only [if_neg hs, hP, hcond, if_false]

/-- A word size outside {1, 2, 4, 8, 16} stops `decode_bufs` in the assertion
of `readw`, before any call of `decode`. -/
theorem decode_bufs_bad_word_size (c : FecCode) (Tbits : Nat) (dec : DecodeFn) (fuel : Nat)
    (data parities : List (Option IStream)) (props : List Properties)
    (outputs : List (Option OStream))
    (hw : ¬ (c.word_size = 1 ∨ c.word_size = 2 ∨ c.word_size = 4 ∨ c.word_size = 8
      ∨ c.word_size = 16))
    (h32 : c.n_data < 4294967296) (hcl1 : c.n_outputs ≤ c.code_len)
    (hdl : c.type = FecType.SYSTEMATIC → data.length = c.n_data)
    (hpl : parities.length = c.n_outputs) (hprl : props.length = c.n_outputs)
    (hol : outputs.length = c.n_data)
    (hmiss : (chosen_data c data).length < c.n_data)
    (henough : c.n_data ≤ (chosen_data c data).length
      + (present_below parities parities.length).length)
    (hfuel : 0 < fuel) :
    c.decode_bufs Tbits dec fuel data parities props outputs
      = Except.error Err.assertion := by
  obtain ⟨bsel, hsel⟩ := decode_bufs_add_parities_spec parities c.code_len c.n_data h32
    (chosen_data c data).length (calls_from Event.decode_add_data 0 (chosen_data c data))
    hmiss henough (by omega)
  have hpar : present_below parities parities.length ≠ [] := by
    intro h
    rw [h] at henough
    simp at henough
    omega
  have hrun := decode_bufs_loop_bad_word_size c Tbits dec props
    (if c.type = FecType.SYSTEMATIC then c.n_data else c.code_len) hw fuel 0
    (List.replicate (if c.type = FecType.SYSTEMATIC then c.n_data else c.code_len) 0)
    { data := data, parities := parities, outputs := outputs,
      events := calls_from Event.decode_add_data 0 (chosen_data c data)
        ++ calls_from Event.decode_add_parities (chosen_data c data).length
            ((present_below parities parities.length).take
              (c.n_data - (chosen_data c data).length))
        ++ [Event.decode_build] }
    hfuel hdl hpl (by omega) hpar
  have hA : ¬ (c.type = FecType.SYSTEMATIC ∧ data.length ≠ c.n_data) := by
    rintro ⟨h1, h2⟩
    exact h2 (hdl h1)
  have hB : ¬ (c.type = FecType.SYSTEMATIC ∧ (chosen_data c data).length = c.n_data) := by
    rintro ⟨-, h2⟩
    omega
  have hC : ¬ (c.n_data < c.n_data) := Nat.lt_irrefl _
  simp only [FecCode.decode_bufs, if_neg hA, hpl, hprl, hol, ne_eq, not_true_eq_false,
    if_false, decode_bufs_select_data c data h32 hdl, if_neg hB, if_pos hmiss]
  simp only [hsel, if_neg hC, hrun]

/-- C26: the byte offset handed to the code is strictly increasing and
chunk-granular, for every `word_size >= 1` and `pkt_size >= 1`: call j (j = 0,
1, ...) of `encode` in `encode_bufs` and of `decode` in `decode_bufs` receives
the offset `j * word_size`, and call j of `encode` in `encode_packet` receives
`j * pkt_size * word_size` (the product being `buf_size`, with offsets that fit
`off_t`), whatever the word size.  In `encode_bufs` and `decode_bufs` the words
are read by `readw`: for a word size in {1, 2, 4, 8, 16} the run returns with
the calls listed, for any other word size it stops in the assertion of `readw`
before the first call.  The offsets `j * word_size` and
`j * pkt_size * word_size` are strictly increasing in j. -/
theorem offsets_chunk_granular (c : FecCode) (hw1 : 1 ≤ c.word_size) (hp1 : 1 ≤ c.pkt_size) :
    (∀ (Tbits : Nat) (enc : EncodeFn) (fuel : Nat) (data : List (Option IStream))
        (parities : List (Option OStream)) (props : List Properties),
      1 ≤ c.n_data → data.length = c.n_data → parities.length = c.n_outputs →
      props.length = c.n_outputs → (∀ k, k < c.n_data → holds 0 data[k]?) →
      (∀ i, i < c.n_outputs → ∃ s, parities[i]? = some (some s)) →
      (∀ h p o ws, c.n_outputs ≤ (enc h p o ws).1.length) →
      min_over (fun k => chunks_in c.word_size data[k]?) (List.range c.n_data) < fuel →
      ((c.word_size = 1 ∨ c.word_size = 2 ∨ c.word_size = 4 ∨ c.word_size = 8
          ∨ c.word_size = 16) →
        ∃ (st : EncodeState) (W O : Nat → List Nat),
          c.encode_bufs Tbits enc fuel data parities props = Except.ok st
          ∧ st.events = (List.range
              (min_over (fun k => chunks_in c.word_size data[k]?) (List.range c.n_data))).map
              (fun (j : Nat) => Event.encode ((j : Int) * (c.word_size : Int)) (W j) (O j)))
      ∧ (¬ (c.word_size = 1 ∨ c.word_size = 2 ∨ c.word_size = 4 ∨ c.word_size = 8
          ∨ c.word_size = 16) →
        c.encode_bufs Tbits enc fuel data parities props = Except.error Err.assertion))
    ∧ (∀ (enc : EncodePktFn) (fuel : Nat) (data : List (Option IStream))
        (parities : List (Option OStream)) (props : List Properties),
      c.buf_size = c.pkt_size * c.word_size →
      1 ≤ c.n_data → data.length = c.n_data → parities.length = c.n_outputs →
      props.length = c.n_outputs → (∀ k, k < c.n_data → holds 0 data[k]?) →
      (∀ i, i < c.n_outputs → ∃ s, parities[i]? = some (some s)) →
      (∀ h p o ws, c.n_outputs ≤ (enc h p o ws).1.length) →
      min_over (fun k => chunks_in c.buf_size data[k]?) (List.range c.n_data) * c.buf_size
        < 9223372036854775808 →
      min_over (fun k => chunks_in c.buf_size data[k]?) (List.range c.n_data) < fuel →
      ∃ (st : EncodeState) (W O : Nat → List (List Nat)),
        c.encode_packet enc fuel data parities props = Except.ok st
        ∧ st.events = (List.range
            (min_over (fun k => chunks_in c.buf_size data[k]?) (List.range c.n_data))).map
            (fun (j : Nat) => Event.encode_pkt ((j : Int) * (c.pkt_size : Int) * (c.word_size : Int))
              (W j) (O j)))
    ∧ (∀ (Tbits : Nat) (dec : DecodeFn) (fuel N : Nat) (data parities : List (Option IStream))
        (props : List Properties) (outputs : List (Option OStream)),
      c.n_data < 4294967296 → c.n_outputs ≤ c.code_len → c.n_data ≤ c.code_len →
      (c.type = FecType.SYSTEMATIC → data.length = c.n_data) →
      parities.length = c.n_outputs → props.length = c.n_outputs →
      outputs.length = c.n_data →
      (∀ h p o ids ws, (dec h p o ids ws).length = c.n_data) →
      (chosen_data c data).length < c.n_data →
      c.n_data ≤ (chosen_data c data).length
        + (present_below parities parities.length).length →
      (∀ k, k ∈ chosen_data c data → holds 0 data[k]?) →
      (∀ k, k ∈ chosen_parities c data parities → holds 0 parities[k]?) →
      (∀ k, k ∈ chosen_data c data → N ≤ chunks_in c.word_size data[k]?) →
      (∀ k, k ∈ chosen_parities c data parities → N ≤ chunks_in c.word_size parities[k]?) →
      ((∃ k, k ∈ chosen_data c data ∧ chunks_in c.word_size data[k]? = N)
        ∨ (∃ k, k ∈ chosen_parities c data parities
            ∧ chunks_in c.word_size parities[k]? = N)) →
      N < fuel →
      ((c.word_size = 1 ∨ c.word_size = 2 ∨ c.word_size = 4 ∨ c.word_size = 8
          ∨ c.word_size = 16) →
        ∃ (st : DecodeState) (pre : List Event) (I W O : Nat → List Nat),
          c.decode_bufs Tbits dec fuel data parities props outputs = Except.ok (true, st)
          ∧ st.events = pre ++ (List.range N).map
              (fun (j : Nat) => Event.decode ((j : Int) * (c.word_size : Int)) (I j) (W j) (O j))
          ∧ ∀ e, e ∈ pre → ∀ o i w out, e ≠ Event.decode o i w out)
      ∧ (¬ (c.word_size = 1 ∨ c.word_size = 2 ∨ c.word_size = 4 ∨ c.word_size = 8
          ∨ c.word_size = 16) →
        c.decode_bufs Tbits dec fuel data parities props outputs
          = Except.error Err.assertion))
    ∧ StrictMono (fun j : Nat => (j : Int) * (c.word_size : Int))
    ∧ StrictMono (fun j : Nat => (j : Int) * (c.pkt_size : Int) * (c.word_size : Int)) := by
  have hwi : (0 : Int) < (c.word_size : Int) := by exact_mod_cast hw1
  have hpi : (0 : Int) < (c.pkt_size : Int) := by exact_mod_cast hp1
  refine ⟨?_, ?_, ?_, ?_, ?_⟩
  · intro Tbits enc fuel data parities props hnd hdl hpl hprl hdata hpar henc hfuel
    constructor
    · intro hw
      obtain ⟨st, O, hrun, hev, -, -⟩ := encode_bufs_spec c Tbits enc fuel data parities props
        hw hnd hdl hpl hprl hdata hpar henc hfuel
      refine ⟨st, fun j => (List.range c.n_data).map
        (fun k => word_at c.word_size Tbits j data[k]?), O, hrun, ?_⟩
      rw [hev]
      apply List.map_congr_left
      intro j _
      push_cast
      rfl
    · intro hw
      obtain ⟨s, hs, -, -⟩ := hdata 0 (by omega)
      exact encode_bufs_bad_word_size c Tbits enc fuel data parities props hw hnd hdl hpl hprl
        ⟨s, hs⟩ (by omega)
  · intro enc fuel data parities props hbuf hnd hdl hpl hprl hdata hpar henc hoff hfuel
    have hb : 1 ≤ c.buf_size := by
      rw [hbuf]
      exact Nat.mul_pos hp1 hw1
    obtain ⟨st, O, hrun, hev, -, -⟩ := encode_packet_spec c enc fuel data parities props
      hb hnd hdl hpl hprl hdata hpar henc hoff hfuel
    refine ⟨st, fun j => (List.range c.n_data).map
      (fun k => chunk_at c.buf_size j data[k]?), O, hrun, ?_⟩
    rw [hev]
    apply List.map_congr_left
    intro j _
    congr 1
    rw [hbuf]
    push_cast
    ring
  · intro Tbits dec fuel N data parities props outputs h32 hcl1 hcl2 hdl hpl hprl hol hdec
      hmiss henough hgoodD hgoodP hND hNP hmin hfuel
    constructor
    · intro hw
      obtain ⟨st, O, hrun, hev, -, -⟩ := decode_bufs_spec c Tbits dec fuel N data parities
        props outputs hw h32 hcl1 hcl2 hdl hpl hprl hol hdec hmiss henough hgoodD hgoodP hND
        hNP hmin hfuel
      refine ⟨st, calls_from Event.decode_add_data 0 (chosen_data c data)
          ++ calls_from Event.decode_add_parities (chosen_data c data).length
              (chosen_parities c data parities)
          ++ [Event.decode_build],
        fun _ => (chosen_data c data ++ chosen_parities c data parities).map
            (fun k => k % 2 ^ Tbits)
          ++ List.replicate
            ((if c.type = FecType.SYSTEMATIC then c.n_data else c.code_len) - c.n_data) 0,
        fun j => ((chosen_data c data).map (fun k => word_at c.word_size Tbits j data[k]?)
            ++ (chosen_parities c data parities).map
              (fun k => word_at c.word_size Tbits j parities[k]?))
          ++ List.replicate
            ((if c.type = FecType.SYSTEMATIC then c.n_data else c.code_len) - c.n_data) 0,
        O, hrun, ?_, ?_⟩
      · rw [hev]
        congr 1
      · intro e he o i w out heq
        subst heq
        simp only [List.mem_append, List.mem_singleton] at he
        rcases he with (h | h) | h
        · obtain ⟨p, q, hpq⟩ := calls_from_mem _ _ _ _ h
          exact absurd hpq (by simp)
        · obtain ⟨p, q, hpq⟩ := calls_from_mem _ _ _ _ h
          exact absurd hpq (by simp)
        · exact absurd h (by simp)
    · intro hw
      exact decode_bufs_bad_word_size c Tbits dec fuel data parities props outputs hw h32 hcl1
        hdl hpl hprl hol hmiss henough (by omega)
  · intro a b hab
    have h : (a : Int) < (b : Int) := by exact_mod_cast hab
    exact Int.mul_lt_mul_of_pos_right h hwi
  · intro a b hab
    have h : (a : Int) < (b : Int) := by exact_mod_cast hab
    exact Int.mul_lt_mul_of_pos_right (Int.mul_lt_mul_of_pos_right h hpi) hwi

/-- Witness of C26: `encode_packet` with `word_size = 3` and `pkt_size = 2` on
13 bytes makes two calls, at the offsets 0 and 6; `encode_bufs` with
`word_size = 2` on streams of 5 and 4 bytes makes two calls, at the offsets 0
and 2; `decode_bufs` with `word_size = 2` on streams of 4 and 5 bytes makes two
calls, at the offsets 0 and 2. -/
theorem offsets_chunk_granular_witness :
    (∃ (st : EncodeState) (W O : Nat → List (List Nat)),
      (⟨FecType.SYSTEMATIC, 3, 1, 1, 2, 1, 2, 6⟩ : FecCode).encode_packet
          (fun _ p _ _ => ([[0, 0, 0, 0, 0, 0]], p)) 3
          [some ⟨[1, 2, 3, 4, 5, 6, 7, 8, 9, 10, 11, 12, 13], true⟩] [some ⟨[]⟩] [[]]
        = Except.ok st
      ∧ st.events = [Event.encode_pkt 0 (W 0) (O 0), Event.encode_pkt 6 (W 1) (O 1)])
    ∧ (∃ (st : EncodeState) (W O : Nat → List Nat),
      (⟨FecType.SYSTEMATIC, 2, 2, 1, 3, 1, 1, 2⟩ : FecCode).encode_bufs 16
          (fun _ p _ _ => ([5], p)) 3
          [some ⟨[1, 2, 3, 4, 5], true⟩, some ⟨[6, 7, 8, 9], true⟩] [some ⟨[]⟩] [[]]
        = Except.ok st
      ∧ st.events = [Event.encode 0 (W 0) (O 0), Event.encode 2 (W 1) (O 1)])
    ∧ (∃ (st : DecodeState) (pre : List Event) (I W O : Nat → List Nat),
      (⟨FecType.SYSTEMATIC, 2, 2, 1, 3, 1, 1, 2⟩ : FecCode).decode_bufs 16
          (fun _ _ _ _ _ => [0, 0]) 3
          [none, some ⟨[7, 8, 9, 10], true⟩] [some ⟨[1, 2, 3, 4, 5], true⟩] [[]]
          [some ⟨[]⟩, none]
        = Except.ok (true, st)
      ∧ st.events = pre ++ [Event.decode 0 (I 0) (W 0) (O 0), Event.decode 2 (I 1) (W 1) (O 1)]) := by
  refine ⟨?_, ?_, ?_⟩
  · obtain ⟨st, W, O, h1, h2⟩ :=
      (offsets_chunk_granular ⟨FecType.SYSTEMATIC, 3, 1, 1, 2, 1, 2, 6⟩
        (by decide) (by decide)).2.1
        (fun _ p _ _ => ([[0, 0, 0, 0, 0, 0]], p)) 3
        [some ⟨[1, 2, 3, 4, 5, 6, 7, 8, 9, 10, 11, 12, 13], true⟩] [some ⟨[]⟩] [[]]
        rfl (by decide) rfl rfl rfl
        (fun k hk => by
          have h1 : k < 1 := hk
          interval_cases k
          exact ⟨_, rfl, rfl, Nat.zero_le _⟩)
        (fun i hi => by
          have h1 : i < 1 := hi
          interval_cases i
          exact ⟨_, rfl⟩)
        (fun _ _ _ _ => Nat.le_refl _) (by decide) (by decide)
    refine ⟨st, W, O, h1, ?_⟩
    rw [h2]
    rfl
  · obtain ⟨st, W, O, h1, h2⟩ :=
      ((offsets_chunk_granular ⟨FecType.SYSTEMATIC, 2, 2, 1, 3, 1, 1, 2⟩
        (by decide) (by decide)).1 16
        (fun _ p _ _ => ([5], p)) 3
        [some ⟨[1, 2, 3, 4, 5], true⟩, some ⟨[6, 7, 8, 9], true⟩] [some ⟨[]⟩] [[]]
        (by decide) rfl rfl rfl
        (fun k hk => by
          have h2 : k < 2 := hk
          interval_cases k
          · exact ⟨_, rfl, rfl, Nat.zero_le _⟩
          · exact ⟨_, rfl, rfl, Nat.zero_le _⟩)
        (fun i hi => by
          have h1 : i < 1 := hi
          interval_cases i
          exact ⟨_, rfl⟩)
        (fun _ _ _ _ => Nat.le_refl _) (by decide)).1 (Or.inr (Or.inl rfl))
    refine ⟨st, W, O, h1, ?_⟩
    rw [h2]
    rfl
  · obtain ⟨st, pre, I, W, O, h1, h2, -⟩ :=
      ((offsets_chunk_granular ⟨FecType.SYSTEMATIC, 2, 2, 1, 3, 1, 1, 2⟩
        (by decide) (by decide)).2.2.1 16
        (fun _ _ _ _ _ => [0, 0]) 3 2
        [none, some ⟨[7, 8, 9, 10], true⟩] [some ⟨[1, 2, 3, 4, 5], true⟩] [[]]
        [some ⟨[]⟩, none]
        (by decide) (by decide) (by decide) (fun _ => rfl) rfl rfl rfl
        (fun _ _ _ _ _ => rfl) (by decide) (by decide)
        (fun k hk => by
          have hk1 : k ∈ [1] := hk
          have e : k = 1 := List.mem_singleton.mp hk1
          subst e
          exact ⟨_, rfl, rfl, Nat.zero_le _⟩)
        (fun k hk => by
          have hk1 : k ∈ [0] := hk
          have e : k = 0 := List.mem_singleton.mp hk1
          subst e
          exact ⟨_, rfl, rfl, Nat.zero_le _⟩)
        (fun k hk => by
          have hk1 : k ∈ [1] := hk
          have e : k = 1 := List.mem_singleton.mp hk1
          subst e
          decide)
        (fun k hk => by
          have hk1 : k ∈ [0] := hk
          have e : k = 0 := List.mem_singleton.mp hk1
          subst e
          decide)
        (Or.inl ⟨1, by decide, by decide⟩) (by decide)).1 (Or.inr (Or.inl rfl))
    refine ⟨st, pre, I, W, O, h1, ?_⟩
    rw [h2]
    rfl

end fec
end nttec

/-! ## The `ec` tool: repair -/

namespace ec

open quadiron.simd (for_loop)

/-! ## The matrix built by the repair of the `ec` tool -/

theorem flat_index_inj (n r r1 j j1 : Nat) (hj : j < n) (hj1 : j1 < n) :
    r * n + j = r1 * n + j1 ↔ r = r1 ∧ j = j1 := by
  constructor
  · intro h
    have hn : 0 < n := by omega
    have h1 : (r * n + j) / n = r := by
      rw [Nat.add_comm, Nat.add_mul_div_right _ _ hn, Nat.div_eq_of_lt hj, Nat.zero_add]
    have h2 : (r1 * n + j1) / n = r1 := by
      rw [Nat.add_comm, Nat.add_mul_div_right _ _ hn, Nat.div_eq_of_lt hj1, Nat.zero_add]
    have h3 : (r * n + j) % n = j := by
      rw [Nat.add_comm, Nat.add_mul_mod_self_right, Nat.mod_eq_of_lt hj]
    have h4 : (r1 * n + j1) % n = j1 := by
      rw [Nat.add_comm, Nat.add_mul_mod_self_right, Nat.mod_eq_of_lt hj1]
    rw [h] at h1 h3
    exact ⟨by rw [← h1, h2], by rw [← h3, h4]⟩
  · rintro ⟨rfl, rfl⟩
    rfl

theorem put_item {F : Type} (m : Mat F) (k j : Nat) (v : Option F) (r j1 : Nat) :
    (m.put k j v).item r j1 = if r * m.n_cols + j1 = k * m.n_cols + j then v else m.item r j1 :=
  rfl

/-- Writing the items `j < n` of row `k`. -/
theorem fill_row {F : Type} (k : Nat) (f : Nat → Option F) (m : Mat F) :
    ∀ n, n ≤ m.n_cols →
      (for_loop (fun j (m : Mat F) => m.put k j (f j)) n m).n_rows = m.n_rows
      ∧ (for_loop (fun j (m : Mat F) => m.put k j (f j)) n m).n_cols = m.n_cols
      ∧ ∀ r j, j < m.n_cols →
          (for_loop (fun j (m : Mat F) => m.put k j (f j)) n m).item r j
            = if r = k ∧ j < n then f j else m.item r j := by
  intro n
  induction n with
  | zero =>
    intro _
    refine ⟨rfl, rfl, fun r j _ => ?_⟩
    rw [if_neg (by omega)]
    rfl
  | succ n ih =>
    intro hn
    obtain ⟨h1, h2, h3⟩ := ih (by omega)
    have hstep : for_loop (fun j (m : Mat F) => m.put k j (f j)) (n + 1) m
        = (for_loop (fun j (m : Mat F) => m.put k j (f j)) n m).put k n (f n) := rfl
    rw [hstep]
    refine ⟨h1, h2, fun r j hj => ?_⟩
    rw [put_item, h2, h3 r j hj]
    by_cases he : r * m.n_cols + j = k * m.n_cols + n
    · obtain ⟨hr, hjn⟩ := (flat_index_inj m.n_cols r k j n hj (by omega)).mp he
      rw [if_pos he, if_pos ⟨hr, by omega⟩, hjn]
    · rw [if_neg he]
      by_cases hc : r = k ∧ j < n
      · rw [if_pos hc, if_pos ⟨hc.1, by omega⟩]
      · rw [if_neg hc, if_neg]
        rintro ⟨hr, hlt⟩
        have hjn : j = n := by
          by_contra hne
          exact hc ⟨hr, by omega⟩
        exact he (by rw [hr, hjn])

theorem add_data_body_eq {F : Type} [CommRing F] (k i : Nat) :
    (fun j (m : Mat F) => if i = j then m.set k j 1 else m.set k j 0)
      = (fun j (m : Mat F) => m.put k j (some (if i = j then 1 else 0))) := by
  funext j m
  by_cases h : i = j
  · simp only [if_pos h, Mat.set]
  · simp only [if_neg h, Mat.set]

theorem present_succ (p : Nat → Bool) (n : Nat) :
    present p (n + 1) = present p n ++ (if p n = true then [n] else []) := by
  simp only [present, List.range_succ, List.filter_append, List.filter_cons, List.filter_nil]

theorem present_lt (p : Nat → Bool) (n k : Nat) (h : k ∈ present p n) : k < n ∧ p k = true := by
  simp only [present, List.mem_filter, List.mem_range] at h
  exact h

theorem present_length_mono (p : Nat → Bool) (n m : Nat) (h : n ≤ m) :
    (present p n).length ≤ (present p m).length := by
  induction m with
  | zero =>
    have : n = 0 := by omega
    subst this
    exact Nat.le_refl _
  | succ m ih =>
    by_cases hn : n = m + 1
    · subst hn
      exact Nat.le_refl _
    · have := ih (by omega)
      rw [present_succ, List.length_append]
      omega

theorem present_length_le (p : Nat → Bool) (n : Nat) : (present p n).length ≤ n := by
  have := List.length_filter_le p (List.range n)
  simpa [present] using this

theorem count_ok_eq (p : Nat → Bool) (n : Nat) (h32 : n < 4294967296) :
    count_ok p n = (present p n).length := by
  unfold count_ok
  induction n with
  | zero => rfl
  | succ n ih =>
    have hle := present_length_le p n
    simp only [for_loop]
    rw [ih (by omega), present_succ]
    by_cases hp : p n = true
    · rw [if_pos hp, if_pos hp, Nat.mod_eq_of_lt (by omega)]
      simp
    · rw [if_neg hp, if_neg hp]
      simp

theorem getD_append_left (l : List Nat) (x r : Nat) (h : r < l.length) :
    (l ++ [x]).getD r 0 = l.getD r 0 := by
  simp only [List.getD_eq_getElem?_getD, List.getElem?_append_left h]

theorem getD_append_self (l : List Nat) (x : Nat) : (l ++ [x]).getD l.length 0 = x := by
  simp [List.getD_eq_getElem?_getD]

theorem present_succ_true (p : Nat → Bool) (n : Nat) (h : p n = true) :
    present p (n + 1) = present p n ++ [n] := by
  rw [present_succ, if_pos h]

theorem present_succ_false (p : Nat → Bool) (n : Nat) (h : ¬ (p n = true)) :
    present p (n + 1) = present p n := by
  rw [present_succ, if_neg h, List.append_nil]

/-- The rows registered by the loop over the data files. -/
theorem repair_select_data_spec {F : Type} [CommRing F] (fs : Files F) (e0 : ECGF2NRS F)
    (rm0 : Mat F) (hnc : rm0.n_cols = e0.mat.n_cols) :
    ∀ n, ∃ rm, repair_select_data fs n
          { ec := some { e0 with repair_mat := some rm0 }, k := 0, brk := false }
        = { ec := some { e0 with repair_mat := some rm },
            k := (present fs.d_present n).length, brk := false }
      ∧ rm.n_rows = rm0.n_rows ∧ rm.n_cols = rm0.n_cols
      ∧ ∀ r j, j < rm0.n_cols →
          rm.item r j = if r < (present fs.d_present n).length then
              some (if (present fs.d_present n).getD r 0 = j then 1 else 0)
            else rm0.item r j := by
  intro n
  induction n with
  | zero =>
    refine ⟨rm0, rfl, rfl, rfl, fun r j _ => ?_⟩
    rw [if_neg (by simp [present])]
  | succ n ih =>
    obtain ⟨rm, hrun, hr, hc, hitem⟩ := ih
    have hstep : repair_select_data fs (n + 1)
          { ec := some { e0 with repair_mat := some rm0 }, k := 0, brk := false }
        = (fun i (s : Selection F) =>
            if fs.d_present i = true then
              { ec := s.ec.bind (fun e => e.repair_add_data s.k i), k := s.k + 1, brk := s.brk }
            else s) n (repair_select_data fs n
              { ec := some { e0 with repair_mat := some rm0 }, k := 0, brk := false }) := rfl
    rw [hstep, hrun]
    by_cases hp : fs.d_present n = true
    · obtain ⟨f1, f2, f3⟩ := fill_row (present fs.d_present n).length
        (fun j => some (if n = j then (1 : F) else 0)) rm e0.mat.n_cols (by rw [hc, hnc])
      refine ⟨for_loop (fun j (m : Mat F) => m.put (present fs.d_present n).length j
          (some (if n = j then (1 : F) else 0))) e0.mat.n_cols rm, ?_, ?_, ?_, ?_⟩
      · simp only [if_pos hp, Option.bind, ECGF2NRS.repair_add_data, add_data_body_eq,
          present_succ_true _ _ hp, List.length_append, List.length_singleton]
      · rw [f1, hr]
      · rw [f2, hc]
      · intro r j hj
        rw [f3 r j (by rw [hc]; exact hj), present_succ_true _ _ hp, hitem r j hj]
        simp only [List.length_append, List.length_singleton]
        by_cases hrk : r = (present fs.d_present n).length
        · subst hrk
          have h1 : (present fs.d_present n).length = (present fs.d_present n).length
              ∧ j < e0.mat.n_cols := ⟨rfl, by rw [← hnc]; exact hj⟩
          have h2 : (present fs.d_present n).length < (present fs.d_present n).length + 1 := by
            omega
          rw [if_pos h1, if_pos h2, getD_append_self]
        · have h1 : ¬ (r = (present fs.d_present n).length ∧ j < e0.mat.n_cols) :=
            fun h => hrk h.1
          rw [if_neg h1]
          by_cases hlt : r < (present fs.d_present n).length
          · have h2 : r < (present fs.d_present n).length + 1 := by omega
            rw [if_pos hlt, if_pos h2, getD_append_left _ _ _ hlt]
          · have h2 : ¬ (r < (present fs.d_present n).length + 1) := by omega
            rw [if_neg hlt, if_neg h2]
    · refine ⟨rm, ?_, hr, hc, ?_⟩
      · simp only [if_neg hp, present_succ_false _ _ hp]
      · intro r j hj
        rw [present_succ_false _ _ hp]
        exact hitem r j hj

/-- The rows registered by the loop over the coding files, when the coding
files present are exactly as many as the data files missing. -/
theorem repair_select_coding_spec {F : Type} [CommRing F] (fs : Files F) (e1 : ECGF2NRS F)
    (rm1 : Mat F) (hnc : rm1.n_cols = e1.mat.n_cols) (n_data n_coding k0 : Nat)
    (hk0 : k0 < n_data)
    (hexact : k0 + (present fs.c_present n_coding).length = n_data) :
    ∀ n, n ≤ n_coding → ∃ rm, repair_select_coding fs n_data n
          { ec := some { e1 with repair_mat := some rm1 }, k := k0, brk := false }
        = { ec := some { e1 with repair_mat := some rm },
            k := k0 + (present fs.c_present n).length,
            brk := decide (n_data = k0 + (present fs.c_present n).length) }
      ∧ rm.n_rows = rm1.n_rows ∧ rm.n_cols = rm1.n_cols
      ∧ ∀ r j, j < rm1.n_cols →
          rm.item r j = if k0 ≤ r ∧ r < k0 + (present fs.c_present n).length then
              e1.mat.get ((present fs.c_present n).getD (r - k0) 0) j
            else rm1.item r j := by
  intro n
  induction n with
  | zero =>
    intro _
    refine ⟨rm1, ?_, rfl, rfl, fun r j _ => ?_⟩
    · have hd : decide (n_data = k0 + (present fs.c_present 0).length) = false := by
        simp [present]
        omega
      rw [hd]
      rfl
    · rw [if_neg (by simp [present])]
  | succ n ih =>
    intro hn
    obtain ⟨rm, hrun, hr, hc, hitem⟩ := ih (by omega)
    have hmono := present_length_mono fs.c_present (n + 1) n_coding hn
    have hstep : repair_select_coding fs n_data (n + 1)
          { ec := some { e1 with repair_mat := some rm1 }, k := k0, brk := false }
        = (fun i (s : Selection F) =>
            if s.brk = true then s
            else if fs.c_present i = true then
              { ec := s.ec.bind (fun e => e.repair_add_coding s.k i), k := s.k + 1,
                brk := decide (n_data = s.k + 1) }
            else s) n (repair_select_coding fs n_data n
              { ec := some { e1 with repair_mat := some rm1 }, k := k0, brk := false }) := rfl
    rw [hstep, hrun]
    by_cases hp : fs.c_present n = true
    · have hps := present_succ_true _ _ hp
      have hlen : (present fs.c_present (n + 1)).length = (present fs.c_present n).length + 1 := by
        rw [hps]
        simp
      have hb : ¬ (decide (n_data = k0 + (present fs.c_present n).length) = true) := by
        simp only [decide_eq_true_eq]
        omega
      obtain ⟨f1, f2, f3⟩ := fill_row (k0 + (present fs.c_present n).length)
        (fun j => e1.mat.get n j) rm e1.mat.n_cols (by rw [hc, hnc])
      refine ⟨for_loop (fun j (m : Mat F) => m.put (k0 + (present fs.c_present n).length) j
          (e1.mat.get n j)) e1.mat.n_cols rm, ?_, ?_, ?_, ?_⟩
      · simp only [if_neg hb, if_pos hp, Option.bind, ECGF2NRS.repair_add_coding, hlen,
          Nat.add_assoc]
      · rw [f1, hr]
      · rw [f2, hc]
      · intro r j hj
        rw [f3 r j (by rw [hc]; exact hj), hitem r j hj, hlen]
        by_cases hrk : r = k0 + (present fs.c_present n).length
        · subst hrk
          have h1 : k0 + (present fs.c_present n).length = k0 + (present fs.c_present n).length
              ∧ j < e1.mat.n_cols := ⟨rfl, by rw [← hnc]; exact hj⟩
          have h2 : k0 ≤ k0 + (present fs.c_present n).length
              ∧ k0 + (present fs.c_present n).length
                < k0 + ((present fs.c_present n).length + 1) := ⟨by omega, by omega⟩
          rw [if_pos h1, if_pos h2, hps]
          have : k0 + (present fs.c_present n).length - k0 = (present fs.c_present n).length := by
            omega
          rw [this, getD_append_self]
        · have h1 : ¬ (r = k0 + (present fs.c_present n).length ∧ j < e1.mat.n_cols) :=
            fun h => hrk h.1
          rw [if_neg h1]
          by_cases hlt : k0 ≤ r ∧ r < k0 + (present fs.c_present n).length
          · have h2 : k0 ≤ r ∧ r < k0 + ((present fs.c_present n).length + 1) :=
              ⟨hlt.1, by omega⟩
            rw [if_pos hlt, if_pos h2, hps, getD_append_left _ _ _ (by omega)]
          · have h2 : ¬ (k0 ≤ r ∧ r < k0 + ((present fs.c_present n).length + 1)) := by
              omega
            rw [if_neg hlt, if_neg h2]
    · have hps := present_succ_false _ _ hp
      refine ⟨rm, ?_, hr, hc, ?_⟩
      · rw [hps]
        by_cases hb : decide (n_data = k0 + (present fs.c_present n).length) = true
        · simp only [if_pos hb]
        · simp only [if_neg hb, if_neg hp]
      · intro r j hj
        rw [hps]
        exact hitem r j hj

/-- The words gathered by the loop over the data files. -/
theorem repair_gather_data_spec {F : Type} [CommRing F] (fs : Files F) (t : Nat) :
    ∀ n, ∃ W : Nat → F, for_loop (fun j (g : Gathered F) =>
          if fs.d_present j = true then
            { words := vec_set g.words g.k (fs.d_word j t), k := g.k + 1, brk := g.brk }
          else g) n { words := fun _ => 0, k := 0, brk := false }
        = { words := W, k := (present fs.d_present n).length, brk := false }
      ∧ ∀ r, W r = if r < (present fs.d_present n).length then
            fs.d_word ((present fs.d_present n).getD r 0) t
          else 0 := by
  intro n
  induction n with
  | zero =>
    refine ⟨fun _ => 0, rfl, fun r => ?_⟩
    rw [if_neg (by simp [present])]
  | succ n ih =>
    obtain ⟨W, hrun, hW⟩ := ih
    simp only [for_loop]
    rw [hrun]
    by_cases hp : fs.d_present n = true
    · refine ⟨vec_set W (present fs.d_present n).length (fs.d_word n t), ?_, ?_⟩
      · simp only [if_pos hp, present_succ_true _ _ hp, List.length_append,
          List.length_singleton]
      · intro r
        rw [present_succ_true _ _ hp]
        simp only [vec_set, List.length_append, List.length_singleton]
        by_cases hrk : r = (present fs.d_present n).length
        · subst hrk
          have h2 : (present fs.d_present n).length < (present fs.d_present n).length + 1 := by
            omega
          rw [if_pos rfl, if_pos h2, getD_append_self]
        · rw [if_neg hrk, hW r]
          by_cases hlt : r < (present fs.d_present n).length
          · have h2 : r < (present fs.d_present n).length + 1 := by omega
            rw [if_pos hlt, if_pos h2, getD_append_left _ _ _ hlt]
          · have h2 : ¬ (r < (present fs.d_present n).length + 1) := by omega
            rw [if_neg hlt, if_neg h2]
    · refine ⟨W, ?_, ?_⟩
      · simp only [if_neg hp, present_succ_false _ _ hp]
      · intro r
        rw [present_succ_false _ _ hp]
        exact hW r

/-- The words gathered by the loop over the coding files, when the coding
files present are exactly as many as the data files missing. -/
theorem repair_gather_coding_spec {F : Type} [CommRing F] (fs : Files F) (t : Nat)
    (W0 : Nat → F) (n_data n_coding k0 : Nat) (hk0 : k0 < n_data)
    (hexact : k0 + (present fs.c_present n_coding).length = n_data) :
    ∀ n, n ≤ n_coding → ∃ W : Nat → F, for_loop (fun j (g : Gathered F) =>
          if g.brk = true then g
          else if fs.c_present j = true then
            { words := vec_set g.words g.k (fs.c_word j t), k := g.k + 1,
              brk := decide (n_data = g.k + 1) }
          else g) n { words := W0, k := k0, brk := false }
        = { words := W, k := k0 + (present fs.c_present n).length,
            brk := decide (n_data = k0 + (present fs.c_present n).length) }
      ∧ ∀ r, W r = if k0 ≤ r ∧ r < k0 + (present fs.c_present n).length then
            fs.c_word ((present fs.c_present n).getD (r - k0) 0) t
          else W0 r := by
  intro n
  induction n with
  | zero =>
    intro _
    refine ⟨W0, ?_, fun r => ?_⟩
    · have hd : decide (n_data = k0 + (present fs.c_present 0).length) = false := by
        simp [present]
        omega
      rw [hd]
      rfl
    · rw [if_neg (by simp [present])]
  | succ n ih =>
    intro hn
    obtain ⟨W, hrun, hW⟩ := ih (by omega)
    have hmono := present_length_mono fs.c_present (n + 1) n_coding hn
    simp only [for_loop]
    rw [hrun]
    by_cases hp : fs.c_present n = true
    · have hps := present_succ_true _ _ hp
      have hlen : (present fs.c_present (n + 1)).length = (present fs.c_present n).length + 1 := by
        rw [hps]
        simp
      have hb : ¬ (decide (n_data = k0 + (present fs.c_present n).length) = true) := by
        simp only [decide_eq_true_eq]
        omega
      refine ⟨vec_set W (k0 + (present fs.c_present n).length) (fs.c_word n t), ?_, ?_⟩
      · simp only [if_neg hb, if_pos hp, hlen, Nat.add_assoc]
      · intro r
        rw [hlen]
        simp only [vec_set]
        by_cases hrk : r = k0 + (present fs.c_present n).length
        · subst hrk
          have h2 : k0 ≤ k0 + (present fs.c_present n).length
              ∧ k0 + (present fs.c_present n).length
                < k0 + ((present fs.c_present n).length + 1) := ⟨by omega, by omega⟩
          rw [if_pos rfl, if_pos h2, hps]
          have : k0 + (present fs.c_present n).length - k0 = (present fs.c_present n).length := by
            omega
          rw [this, getD_append_self]
        · rw [if_neg hrk, hW r]
          by_cases hlt : k0 ≤ r ∧ r < k0 + (present fs.c_present n).length
          · have h2 : k0 ≤ r ∧ r < k0 + ((present fs.c_present n).length + 1) :=
              ⟨hlt.1, by omega⟩
            rw [if_pos hlt, if_pos h2, hps, getD_append_left _ _ _ (by omega)]
          · have h2 : ¬ (k0 ≤ r ∧ r < k0 + ((present fs.c_present n).length + 1)) := by
              omega
            rw [if_neg hlt, if_neg h2]
    · have hps := present_succ_false _ _ hp
      refine ⟨W, ?_, ?_⟩
      · rw [hps]
        by_cases hb : decide (n_data = k0 + (present fs.c_present n).length) = true
        · simp only [if_pos hb]
        · simp only [if_neg hb, if_neg hp]
      · intro r
        rw [hps]
        exact hW r

theorem getD_mem_present (p : Nat → Bool) (n r : Nat) (h : r < (present p n).length) :
    (present p n).getD r 0 < n ∧ p ((present p n).getD r 0) = true := by
  apply present_lt
  rw [List.getD_eq_getElem?_getD, List.getElem?_eq_getElem h]
  exact List.getElem_mem h

theorem sum_indicator_mul {F : Type} [CommRing F] (n a : Nat) (ha : a < n) (v : Nat → F) :
    Finset.sum (Finset.range n) (fun j => (if a = j then (1 : F) else 0) * v j) = v a := by
  simp only [ite_mul, one_mul, zero_mul]
  rw [Finset.sum_ite_eq]
  rw [if_pos (Finset.mem_range.mpr ha)]

theorem row_filled_iff {F : Type} (m : Mat F) (i : Nat) :
    m.row_filled i = true ↔ ∀ j, j < m.n_cols → (m.item i j).isSome = true := by
  simp only [Mat.row_filled, List.all_eq_true, List.mem_range]

theorem mult_filled {F : Type} [CommRing F] (m : Mat F) (v : Nat → F) (i : Nat)
    (hi : i < m.n_rows) (hf : m.row_filled i = true) :
    m.mult v i = some (Finset.sum (Finset.range m.n_cols) (fun j => m.val i j * v j)) := by
  simp only [Mat.mult, hi, hf, and_self, if_true]

/-- The matrix built by `repair_data_files` when the fragments present are
exactly `n_data`: the identity rows of the data files present, then the
generator rows of the coding files present. -/
theorem repair_prepare_exact {F : Type} [CommRing F] (ec : ECGF2NRS F) (fs : Files F)
    (h32d : ec.n_data < 4294967296) (h32c : ec.n_coding < 4294967296)
    (hGc : ec.mat.n_cols = ec.n_data)
    (hmiss : (present fs.d_present ec.n_data).length < ec.n_data)
    (hexact : (present fs.d_present ec.n_data).length
        + (present fs.c_present ec.n_coding).length = ec.n_data) :
    ∃ R : Mat F, (repair_prepare ec fs).ec = some { ec with repair_mat := some R }
      ∧ R.n_rows = ec.n_data ∧ R.n_cols = ec.n_data
      ∧ ∀ r j, j < ec.n_data →
          R.item r j = if r < (present fs.d_present ec.n_data).length then
              some (if (present fs.d_present ec.n_data).getD r 0 = j then 1 else 0)
            else if r < ec.n_data then
              ec.mat.get ((present fs.c_present ec.n_coding).getD
                (r - (present fs.d_present ec.n_data).length) 0) j
            else none := by
  obtain ⟨rm, hrun, hr, hc, hitem⟩ := repair_select_data_spec fs ec
    (Mat.create F ((present fs.d_present ec.n_data).length
      + (present fs.c_present ec.n_coding).length) ec.mat.n_cols) rfl ec.n_data
  have hrmc : rm.n_cols = ec.mat.n_cols := hc
  obtain ⟨R, hrun2, hr2, hc2, hitem2⟩ := repair_select_coding_spec fs ec rm hrmc
    ec.n_data ec.n_coding (present fs.d_present ec.n_data).length hmiss hexact
    ec.n_coding (Nat.le_refl _)
  refine ⟨R, ?_, ?_, ?_, ?_⟩
  · have hp : repair_prepare ec fs
        = repair_select_coding fs ec.n_data ec.n_coding (repair_select_data fs ec.n_data
            { ec := some { ec with repair_mat := some (Mat.create F
                ((present fs.d_present ec.n_data).length
                  + (present fs.c_present ec.n_coding).length) ec.mat.n_cols) },
              k := 0, brk := false }) := by
      simp only [repair_prepare, ECGF2NRS.repair_init, count_ok_eq _ _ h32d,
        count_ok_eq _ _ h32c]
    rw [hp, hrun, hrun2]
  · rw [hr2, hr]
    exact hexact
  · rw [hc2, hc]
    exact hGc
  · intro r j hj
    have hj1 : j < rm.n_cols := by rw [hrmc, hGc]; exact hj
    have hj0 : j < (Mat.create F ((present fs.d_present ec.n_data).length
      + (present fs.c_present ec.n_coding).length) ec.mat.n_cols).n_cols := by
      rw [← hc]; exact hj1
    rw [hitem2 r j hj1]
    by_cases h1 : r < (present fs.d_present ec.n_data).length
    · have h2 : ¬ ((present fs.d_present ec.n_data).length ≤ r
          ∧ r < (present fs.d_present ec.n_data).length
            + (present fs.c_present ec.n_coding).length) := by omega
      rw [if_neg h2, if_pos h1, hitem r j hj0, if_pos h1]
    · by_cases h3 : r < ec.n_data
      · have h2 : (present fs.d_present ec.n_data).length ≤ r
            ∧ r < (present fs.d_present ec.n_data).length
              + (present fs.c_present ec.n_coding).length := by omega
        rw [if_pos h2, if_neg h1, if_pos h3]
      · have h2 : ¬ ((present fs.d_present ec.n_data).length ≤ r
            ∧ r < (present fs.d_present ec.n_data).length
              + (present fs.c_present ec.n_coding).length) := by omega
        rw [if_neg h2, if_neg h1, if_neg h3, hitem r j hj0, if_neg h1]
        rfl

/-- The words gathered for chunk `t` when the fragments present are exactly
`n_data`: the words of the data files present, then those of the coding files
present. -/
theorem repair_gather_exact {F : Type} [CommRing F] (fs : Files F) (n_data n_coding t : Nat)
    (hmiss : (present fs.d_present n_data).length < n_data)
    (hexact : (present fs.d_present n_data).length
        + (present fs.c_present n_coding).length = n_data) (r : Nat) :
    (repair_gather fs n_data n_coding t).words r
      = if r < (present fs.d_present n_data).length then
          fs.d_word ((present fs.d_present n_data).getD r 0) t
        else if r < n_data then
          fs.c_word ((present fs.c_present n_coding).getD
            (r - (present fs.d_present n_data).length) 0) t
        else 0 := by
  obtain ⟨W, hrun, hW⟩ := repair_gather_data_spec fs t n_data
  obtain ⟨W2, hrun2, hW2⟩ := repair_gather_coding_spec fs t W n_data n_coding
    (present fs.d_present n_data).length hmiss hexact n_coding (Nat.le_refl _)
  have hg : repair_gather fs n_data n_coding t
      = { words := W2, k := (present fs.d_present n_data).length
            + (present fs.c_present n_coding).length,
          brk := decide (n_data = (present fs.d_present n_data).length
            + (present fs.c_present n_coding).length) } := by
    simp only [repair_gather]
    rw [hrun, hrun2]
  rw [hg]
  show W2 r = _
  rw [hW2 r]
  by_cases h1 : r < (present fs.d_present n_data).length
  · have h2 : ¬ ((present fs.d_present n_data).length ≤ r
        ∧ r < (present fs.d_present n_data).length
          + (present fs.c_present n_coding).length) := by omega
    rw [if_neg h2, if_pos h1, hW r, if_pos h1]
  · by_cases h3 : r < n_data
    · have h2 : (present fs.d_present n_data).length ≤ r
          ∧ r < (present fs.d_present n_data).length
            + (present fs.c_present n_coding).length := by omega
      rw [if_pos h2, if_neg h1, if_pos h3]
    · have h2 : ¬ ((present fs.d_present n_data).length ≤ r
          ∧ r < (present fs.d_present n_data).length
            + (present fs.c_present n_coding).length) := by omega
      rw [if_neg h2, if_neg h1, if_neg h3, hW r, if_neg h1]

/-- A left inverse applied to `R * w` gives `w` back. -/
theorem left_inverse_mul {F : Type} [CommRing F] (B R : Mat F) (n : Nat)
    (h : is_left_inverse B R n) (w words : Nat → F)
    (hwords : ∀ i, i < n → words i = Finset.sum (Finset.range n) (fun j => R.val i j * w j))
    (r : Nat) (hr : r < n) :
    B.mult words r = some (w r) := by
  obtain ⟨hBr, hBc, hBf, hinv⟩ := h
  rw [mult_filled B words r (by omega) (hBf r hr), hBc]
  congr 1
  have e1 : Finset.sum (Finset.range n) (fun i => B.val r i * words i)
      = Finset.sum (Finset.range n) (fun i =>
          Finset.sum (Finset.range n) (fun j => B.val r i * R.val i j * w j)) := by
    apply Finset.sum_congr rfl
    intro i hi
    rw [hwords i (Finset.mem_range.mp hi), Finset.mul_sum]
    apply Finset.sum_congr rfl
    intro j _
    ring
  rw [e1, Finset.sum_comm]
  have e2 : Finset.sum (Finset.range n) (fun j =>
        Finset.sum (Finset.range n) (fun i => B.val r i * R.val i j * w j))
      = Finset.sum (Finset.range n) (fun j => (if r = j then (1 : F) else 0) * w j) := by
    apply Finset.sum_congr rfl
    intro j hj
    rw [← Finset.sum_mul, hinv r j hr (Finset.mem_range.mp hj)]
  rw [e2, sum_indicator_mul n r hr]

/-! ## The files read by the repair -/

theorem for_loop_except_ok {σ : Type} (fE : Nat → Except Exit σ → Except Exit σ)
    (f : Nat → σ → σ) :
    ∀ (n : Nat) (s : σ), (∀ j, j < n → ∀ g, fE j (Except.ok g) = Except.ok (f j g)) →
      for_loop fE n (Except.ok s) = Except.ok (for_loop f n s) := by
  intro n
  induction n with
  | zero => intro s _; rfl
  | succ n ih =>
    intro s h
    simp only [for_loop]
    rw [ih s (fun j hj => h j (by omega)), h n (by omega)]

theorem for_loop_except_error {σ : Type} (fE : Nat → Except Exit σ → Except Exit σ)
    (x : Exit) (h : ∀ j, fE j (Except.error x) = Except.error x) :
    ∀ n, for_loop fE n (Except.error x) = Except.error x := by
  intro n
  induction n with
  | zero => rfl
  | succ n ih =>
    simp only [for_loop]
    rw [ih, h]

theorem words_in_8 (size : Nat) : words_in 8 size = size := rfl

theorem words_in_16 (size : Nat) : words_in 16 size = size / 2 := rfl

theorem freadw_ok {F : Type} (gf_n size : Nat) (word : Nat → F) (t : Nat)
    (hn : gf_n = 8 ∨ gf_n = 16) (ht : t < words_in gf_n size) :
    freadw gf_n size word t = some (some (word t)) := by
  rcases hn with h | h
  · subst h
    rw [words_in_8] at ht
    unfold freadw
    rw [if_pos rfl, if_pos (by omega)]
  · subst h
    rw [words_in_16] at ht
    unfold freadw
    rw [if_neg (by decide), if_pos rfl, if_pos (by omega)]

theorem freadw_short {F : Type} (gf_n size : Nat) (word : Nat → F) (t : Nat)
    (hn : gf_n = 8 ∨ gf_n = 16) (ht : words_in gf_n size ≤ t) :
    freadw gf_n size word t = some none := by
  rcases hn with h | h
  · subst h
    rw [words_in_8] at ht
    unfold freadw
    rw [if_pos rfl, if_neg (by omega)]
  · subst h
    rw [words_in_16] at ht
    unfold freadw
    rw [if_neg (by decide), if_pos rfl, if_neg (by omega)]

theorem sizew_words_in (gf_n size : Nat) (hn : gf_n = 8 ∨ gf_n = 16) :
    sizew gf_n size = some (words_in gf_n size) := by
  rcases hn with h | h <;> subst h <;> rfl

/-- The variable `size` after the loop over the data files, when the data files
present all have `S` bytes: `S`, or still `(size_t)-1` when none is present. -/
theorem data_size_same {F : Type} (fs : Files F) (S : Nat) (hS : S ≠ 18446744073709551615) :
    ∀ n, (∀ i, i < n → fs.d_present i = true → fs.d_size i = S) →
      data_size fs n
        = Except.ok (if present fs.d_present n = [] then 18446744073709551615 else S) := by
  intro n
  induction n with
  | zero =>
    intro _
    rfl
  | succ n ih =>
    intro h
    have ih1 := ih (fun i hi => h i (by omega))
    unfold data_size at ih1 ⊢
    simp only [for_loop]
    rw [ih1]
    by_cases hp : fs.d_present n = true
    · have hne : present fs.d_present (n + 1) ≠ [] := by
        rw [present_succ_true _ _ hp]
        simp
      rw [if_neg hne]
      dsimp only
      rw [if_pos hp, h n (by omega) hp]
      by_cases he : present fs.d_present n = []
      · rw [if_pos he, if_pos rfl]
      · rw [if_neg he, if_neg hS, if_neg (by simp)]
    · rw [present_succ_false _ _ hp]
      dsimp only
      rw [if_neg hp]

/-- When every file read for chunk `t` still holds a word, the two reading
loops end without an exit, in the state `repair_gather`. -/
theorem repair_read_ok {F : Type} [CommRing F] (fs : Files F) (gf_n n_data n_coding t : Nat)
    (hn : gf_n = 8 ∨ gf_n = 16)
    (hd : ∀ i, i < n_data → fs.d_present i = true → t < words_in gf_n (fs.d_size i))
    (hc : ∀ j, j < n_coding → fs.c_present j = true → t < words_in gf_n (fs.c_size j)) :
    repair_read fs gf_n n_data n_coding t = Except.ok (repair_gather fs n_data n_coding t) := by
  unfold repair_read repair_gather
  dsimp only
  rw [for_loop_except_ok (repair_read_data fs gf_n t) (fun j (g : Gathered F) =>
      if fs.d_present j = true then
        { words := vec_set g.words g.k (fs.d_word j t), k := g.k + 1, brk := g.brk }
      else g) n_data _ (by
        intro j hj g
        unfold repair_read_data
        dsimp only
        by_cases hp : fs.d_present j = true
        · rw [if_pos hp, if_pos hp, freadw_ok _ _ _ _ hn (hd j hj hp)]
        · rw [if_neg hp, if_neg hp])]
  rw [for_loop_except_ok (repair_read_coding fs gf_n n_data t) (fun j (g : Gathered F) =>
      if g.brk = true then g
      else if fs.c_present j = true then
        { words := vec_set g.words g.k (fs.c_word j t), k := g.k + 1,
          brk := decide (n_data = g.k + 1) }
      else g) n_coding _ (by
        intro j hj g
        unfold repair_read_coding
        dsimp only
        by_cases hb : g.brk = true
        · rw [if_pos hb, if_pos hb]
        · rw [if_neg hb, if_neg hb]
          by_cases hp : fs.c_present j = true
          · rw [if_pos hp, if_pos hp, freadw_ok _ _ _ _ hn (hc j hj hp)]
          · rw [if_neg hp, if_neg hp])]

/-- With no data file present and every coding file present out of words at
chunk `t`, the reading loops end in `short read coding`. -/
theorem repair_read_short_coding {F : Type} [CommRing F] (fs : Files F)
    (gf_n n_data n_coding t : Nat) (hn : gf_n = 8 ∨ gf_n = 16)
    (hd : present fs.d_present n_data = [])
    (hc : ∀ j, j < n_coding → fs.c_present j = true → words_in gf_n (fs.c_size j) ≤ t)
    (hne : present fs.c_present n_coding ≠ []) :
    repair_read fs gf_n n_data n_coding t = Except.error Exit.short_read_coding := by
  have hdata : ∀ n, n ≤ n_data →
      for_loop (repair_read_data fs gf_n t) n
          (Except.ok { words := fun _ => 0, k := 0, brk := false })
        = Except.ok { words := fun _ => 0, k := 0, brk := false } := by
    intro n
    induction n with
    | zero => intro _; rfl
    | succ n ih =>
      intro hle
      have hp : ¬ (fs.d_present n = true) := by
        intro hp
        have hm : n ∈ present fs.d_present n_data := by
          rw [present, List.mem_filter, List.mem_range]
          exact ⟨by omega, hp⟩
        rw [hd] at hm
        exact absurd hm (List.not_mem_nil _)
      simp only [for_loop]
      rw [ih (by omega)]
      unfold repair_read_data
      dsimp only
      rw [if_neg hp]
  have hcoding : ∀ n, n ≤ n_coding →
      for_loop (repair_read_coding fs gf_n n_data t) n
          (Except.ok { words := fun _ => 0, k := 0, brk := false })
        = if present fs.c_present n = [] then
            Except.ok { words := fun _ => 0, k := 0, brk := false }
          else Except.error Exit.short_read_coding := by
    intro n
    induction n with
    | zero => intro _; rfl
    | succ n ih =>
      intro hle
      simp only [for_loop]
      rw [ih (by omega)]
      by_cases hp : fs.c_present n = true
      · have hne1 : present fs.c_present (n + 1) ≠ [] := by
          rw [present_succ_true _ _ hp]
          simp
        rw [if_neg hne1]
        by_cases he : present fs.c_present n = []
        · rw [if_pos he]
          unfold repair_read_coding
          dsimp only
          rw [if_neg (by decide), if_pos hp, freadw_short _ _ _ _ hn (hc n (by omega) hp)]
        · rw [if_neg he]
          rfl
      · rw [present_succ_false _ _ hp]
        by_cases he : present fs.c_present n = []
        · rw [if_pos he]
          unfold repair_read_coding
          dsimp only
          rw [if_neg (by decide), if_neg hp]
        · rw [if_neg he]
          rfl
  unfold repair_read
  rw [hdata n_data (Nat.le_refl _), hcoding n_coding (Nat.le_refl _), if_neg hne]

/-- The loop over the chunks when the next `n` chunks can all be read. -/
theorem repair_chunks_all {F : Type} [CommRing F] (e : ECGF2NRS F) (fs : Files F)
    (gf_n : Nat) :
    ∀ (n t : Nat) (outs : List (Nat → Option F)),
      (∀ s, t ≤ s → s < t + n →
        repair_read fs gf_n e.n_data e.n_coding s
          = Except.ok (repair_gather fs e.n_data e.n_coding s)) →
      t + n < 2147483648 →
      repair_chunks e fs gf_n n t outs
        = Outcome.repaired e (outs ++ (List.range' t n).map (fun s =>
            e.repair (repair_gather fs e.n_data e.n_coding s).words)) := by
  intro n
  induction n with
  | zero =>
    intro t outs _ _
    simp [repair_chunks]
  | succ n ih =>
    intro t outs h hlt
    rw [repair_chunks, h t (Nat.le_refl _) (by omega)]
    dsimp only
    rw [if_pos (by omega), ih (t + 1) _ (fun s h1 h2 => h s (by omega) (by omega)) (by omega)]
    simp [List.range'_succ]

/-- The loop over the chunks when the next `m` chunks can be read and the read
of the chunk after them ends the program. -/
theorem repair_chunks_exit {F : Type} [CommRing F] (e : ECGF2NRS F) (fs : Files F)
    (gf_n : Nat) (x : Exit) :
    ∀ (m n t : Nat) (outs : List (Nat → Option F)),
      (∀ s, t ≤ s → s < t + m →
        repair_read fs gf_n e.n_data e.n_coding s
          = Except.ok (repair_gather fs e.n_data e.n_coding s)) →
      repair_read fs gf_n e.n_data e.n_coding (t + m) = Except.error x →
      m < n → t + m < 2147483648 →
      repair_chunks e fs gf_n n t outs
        = Outcome.exited x (outs ++ (List.range' t m).map (fun s =>
            e.repair (repair_gather fs e.n_data e.n_coding s).words)) := by
  intro m
  induction m with
  | zero =>
    intro n t outs _ hx hn _
    obtain ⟨k, rfl⟩ : ∃ k, n = k + 1 := ⟨n - 1, by omega⟩
    rw [Nat.add_zero] at hx
    rw [repair_chunks, hx]
    simp
  | succ m ih =>
    intro n t outs h hx hn hlt
    obtain ⟨k, rfl⟩ : ∃ k, n = k + 1 := ⟨n - 1, by omega⟩
    rw [repair_chunks, h t (Nat.le_refl _) (by omega)]
    dsimp only
    have e1 : t + 1 + m = t + (m + 1) := by omega
    rw [if_pos (by omega), ih k (t + 1) _ (fun s h1 h2 => h s (by omega) (by omega))
      (by rw [e1]; exact hx) (by omega) (by omega)]
    simp [List.range'_succ]

theorem getD_map_range {α : Type} (f : Nat → α) (n t : Nat) (d : α) (h : t < n) :
    (([] : List α) ++ (List.range' 0 n).map f).getD t d = f t := by
  rw [List.nil_append, List.getD_eq_getElem?_getD, List.getElem?_map,
    List.getElem?_range' 0 1 h]
  simp

/-- C29: taking `Mat::mult` to be the matrix-vector product and `Mat::inv` to
give a left inverse of the matrix built, when exactly `n_data` fragments are
present and at least one data file is missing, the matrix `R` that
`repair_data_files` hands to `repair_build` is `n_data x n_data` with row `r`
the identity row of the `r`-th data file present, then the generator row of
the coding files present.  For every chunk `t` whose words are in the files
read, the reading loops return, the words gathered are `R * w` when the data
files hold the words `w` and the coding files the words produced by `encode`,
and `repair` applied to them returns `w`.  When a data file is present, all
data files present have the same size and the coding files are not shorter,
`repair_data_files` runs to the end and the output of every chunk is `w`.
When no data file is present, `size` stays `(size_t)-1`: the chunks held by
the coding files are repaired to `w`, then the loop goes on and the program
ends in `short read coding`. -/
theorem repair_recovers_data {F : Type} [CommRing F] (inv : Mat F → Mat F)
    (ec : ECGF2NRS F) (fs : Files F) (w : Nat → Nat → F) (gf_n : Nat)
    (hn : gf_n = 8 ∨ gf_n = 16)
    (h32d : ec.n_data < 4294967296) (h32c : ec.n_coding < 4294967296)
    (hGc : ec.mat.n_cols = ec.n_data) (hGr : ec.mat.n_rows = ec.n_coding)
    (hGf : ∀ i, i < ec.n_coding → ec.mat.row_filled i = true)
    (hmiss : count_ok fs.d_present ec.n_data < ec.n_data)
    (hexact : count_ok fs.d_present ec.n_data + count_ok fs.c_present ec.n_coding
        = ec.n_data)
    (hd : ∀ i t, i < ec.n_data → fs.d_present i = true → fs.d_word i t = w t i)
    (hc : ∀ i t, i < ec.n_coding → fs.c_present i = true →
        ec.encode (w t) i = some (fs.c_word i t)) :
    ∃ R : Mat F, (repair_prepare ec fs).ec = some { ec with repair_mat := some R }
      ∧ R.n_rows = ec.n_data ∧ R.n_cols = ec.n_data
      ∧ (∀ r, r < ec.n_data → R.row_filled r = true)
      ∧ (∀ r j, r < ec.n_data → j < ec.n_data →
          R.item r j = if r < (present fs.d_present ec.n_data).length then
              some (if (present fs.d_present ec.n_data).getD r 0 = j then 1 else 0)
            else ec.mat.get ((present fs.c_present ec.n_coding).getD
                (r - (present fs.d_present ec.n_data).length) 0) j)
      ∧ (∀ t,
          (∀ i, i < ec.n_data → fs.d_present i = true → t < words_in gf_n (fs.d_size i)) →
          (∀ j, j < ec.n_coding → fs.c_present j = true → t < words_in gf_n (fs.c_size j)) →
          ∃ g, repair_read fs gf_n ec.n_data ec.n_coding t = Except.ok g
            ∧ (∀ r, r < ec.n_data →
                g.words r = Finset.sum (Finset.range ec.n_data) (fun j => R.val r j * w t j))
            ∧ (is_left_inverse (inv R) R ec.n_data → ∀ r, r < ec.n_data →
                ECGF2NRS.repair { ec with repair_mat := some (inv R) } g.words r
                  = some (w t r)))
      ∧ (is_left_inverse (inv R) R ec.n_data →
          (∀ S, 0 < count_ok fs.d_present ec.n_data → S ≠ 18446744073709551615 →
            (∀ i, i < ec.n_data → fs.d_present i = true → fs.d_size i = S) →
            (∀ j, j < ec.n_coding → fs.c_present j = true →
              words_in gf_n S ≤ words_in gf_n (fs.c_size j)) →
            words_in gf_n S < 2147483648 →
            ∃ outs, repair_data_files inv ec fs gf_n
                = Outcome.repaired { ec with repair_mat := some (inv R) } outs
              ∧ outs.length = words_in gf_n S
              ∧ ∀ t r, t < words_in gf_n S → r < ec.n_data →
                  outs.getD t (fun _ => none) r = some (w t r))
          ∧ (∀ L, count_ok fs.d_present ec.n_data = 0 →
            (∀ j, j < ec.n_coding → fs.c_present j = true →
              words_in gf_n (fs.c_size j) = L) →
            L < 2147483648 →
            ∃ outs, repair_data_files inv ec fs gf_n
                = Outcome.exited Exit.short_read_coding outs
              ∧ outs.length = L
              ∧ ∀ t r, t < L → r < ec.n_data →
                  outs.getD t (fun _ => none) r = some (w t r))) := by
  have hmiss0 := hmiss
  have hexact0 := hexact
  have hcd := count_ok_eq fs.d_present ec.n_data h32d
  have hcc := count_ok_eq fs.c_present ec.n_coding h32c
  rw [hcd] at hmiss
  rw [hcd, hcc] at hexact
  obtain ⟨R, hprep, hRr, hRc, hitem⟩ := repair_prepare_exact ec fs h32d h32c hGc hmiss hexact
  have hitem2 : ∀ r j, r < ec.n_data → j < ec.n_data →
      R.item r j = if r < (present fs.d_present ec.n_data).length then
          some (if (present fs.d_present ec.n_data).getD r 0 = j then 1 else 0)
        else ec.mat.get ((present fs.c_present ec.n_coding).getD
            (r - (present fs.d_present ec.n_data).length) 0) j := by
    intro r j hr hj
    rw [hitem r j hj, if_pos hr]
  have hfill : ∀ r, r < ec.n_data → R.row_filled r = true := by
    intro r hr
    rw [row_filled_iff]
    intro j hj
    rw [hRc] at hj
    rw [hitem2 r j hr hj]
    by_cases h1 : r < (present fs.d_present ec.n_data).length
    · rw [if_pos h1]
      rfl
    · rw [if_neg h1]
      have hm := getD_mem_present fs.c_present ec.n_coding
        (r - (present fs.d_present ec.n_data).length) (by omega)
      have hf := (row_filled_iff ec.mat _).mp (hGf _ hm.1) j (by rw [hGc]; exact hj)
      exact hf
  have hwords : ∀ t r, r < ec.n_data →
      (repair_gather fs ec.n_data ec.n_coding t).words r
        = Finset.sum (Finset.range ec.n_data) (fun j => R.val r j * w t j) := by
    intro t r hr
    rw [repair_gather_exact fs ec.n_data ec.n_coding t hmiss hexact r]
    by_cases h1 : r < (present fs.d_present ec.n_data).length
    · have hm := getD_mem_present fs.d_present ec.n_data r h1
      rw [if_pos h1, hd _ t hm.1 hm.2]
      have e : Finset.sum (Finset.range ec.n_data) (fun j => R.val r j * w t j)
          = Finset.sum (Finset.range ec.n_data) (fun j =>
              (if (present fs.d_present ec.n_data).getD r 0 = j then (1 : F) else 0)
                * w t j) := by
        apply Finset.sum_congr rfl
        intro j hj
        have hv : R.val r j
            = (if (present fs.d_present ec.n_data).getD r 0 = j then (1 : F) else 0) := by
          unfold Mat.val
          rw [hitem2 r j hr (Finset.mem_range.mp hj), if_pos h1]
          rfl
        rw [hv]
      rw [e, sum_indicator_mul ec.n_data _ hm.1 (w t)]
    · have hm := getD_mem_present fs.c_present ec.n_coding
        (r - (present fs.d_present ec.n_data).length) (by omega)
      rw [if_neg h1, if_pos hr]
      have henc := hc _ t hm.1 hm.2
      unfold ECGF2NRS.encode at henc
      rw [mult_filled ec.mat (w t) _ (by rw [hGr]; exact hm.1) (hGf _ hm.1), hGc] at henc
      rw [← Option.some.inj henc]
      apply Finset.sum_congr rfl
      intro j hj
      have hv : R.val r j = ec.mat.val ((present fs.c_present ec.n_coding).getD
          (r - (present fs.d_present ec.n_data).length) 0) j := by
        unfold Mat.val
        rw [hitem2 r j hr (Finset.mem_range.mp hj), if_neg h1]
        rfl
      rw [hv]
  have hrep : is_left_inverse (inv R) R ec.n_data → ∀ t r, r < ec.n_data →
      ECGF2NRS.repair { ec with repair_mat := some (inv R) }
          (repair_gather fs ec.n_data ec.n_coding t).words r = some (w t r) := by
    intro hinv t r hr
    exact left_inverse_mul (inv R) R ec.n_data hinv (w t) _ (fun i hi => hwords t i hi) r hr
  have h1 : ¬ (count_ok fs.d_present ec.n_data = ec.n_data) := by omega
  have h2 : ¬ (count_ok fs.c_present ec.n_coding
      < (ec.n_data + (4294967296 - count_ok fs.d_present ec.n_data)) % 4294967296) := by
    omega
  have hrun : ∀ size n_chunks, data_size fs ec.n_data = Except.ok size →
      sizew gf_n size = some n_chunks →
      repair_data_files inv ec fs gf_n
        = repair_chunks { ec with repair_mat := some (inv R) } fs gf_n n_chunks 0 [] := by
    intro size n_chunks hs hz
    unfold repair_data_files
    simp only [hs, if_neg h1, if_neg h2, hprep, Option.bind, ECGF2NRS.repair_build, hz]
  refine ⟨R, hprep, hRr, hRc, hfill, hitem2, ?_, ?_⟩
  · intro t hrd hrc
    refine ⟨repair_gather fs ec.n_data ec.n_coding t,
      repair_read_ok fs gf_n ec.n_data ec.n_coding t hn hrd hrc, hwords t, ?_⟩
    intro hinv r hr
    exact hrep hinv t r hr
  · intro hinv
    constructor
    · intro S hpos hS hsame hlong hint
      have hne : present fs.d_present ec.n_data ≠ [] := by
        intro h
        rw [hcd, h] at hpos
        exact absurd hpos (by decide)
      have hs := data_size_same fs S hS ec.n_data hsame
      rw [if_neg hne] at hs
      have hall : ∀ s, 0 ≤ s → s < 0 + words_in gf_n S →
          repair_read fs gf_n ec.n_data ec.n_coding s
            = Except.ok (repair_gather fs ec.n_data ec.n_coding s) := by
        intro s _ hlt
        apply repair_read_ok fs gf_n ec.n_data ec.n_coding s hn
        · intro i hi hp
          rw [hsame i hi hp]
          omega
        · intro j hj hp
          have := hlong j hj hp
          omega
      refine ⟨_, (hrun S _ hs (sizew_words_in gf_n S hn)).trans
        (repair_chunks_all { ec with repair_mat := some (inv R) } fs gf_n (words_in gf_n S) 0
          [] hall (by omega)), ?_, ?_⟩
      · simp
      · intro t r ht hr
        rw [getD_map_range _ _ _ _ ht]
        exact hrep hinv t r hr
    · intro L hzero hlen hint
      have hnil : present fs.d_present ec.n_data = [] := by
        rw [hcd] at hzero
        exact List.length_eq_zero.mp hzero
      have hs := data_size_same fs 0 (by decide) ec.n_data (by
        intro i hi hp
        have hm : i ∈ present fs.d_present ec.n_data := by
          rw [present, List.mem_filter, List.mem_range]
          exact ⟨hi, hp⟩
        rw [hnil] at hm
        exact absurd hm (List.not_mem_nil _))
      rw [if_pos hnil] at hs
      have hcne : present fs.c_present ec.n_coding ≠ [] := by
        intro h
        rw [hcd, hcc, hnil, h] at hexact0
        rw [hcd, hnil] at hmiss0
        simp at hexact0 hmiss0
        omega
      have hall : ∀ s, 0 ≤ s → s < 0 + L →
          repair_read fs gf_n ec.n_data ec.n_coding s
            = Except.ok (repair_gather fs ec.n_data ec.n_coding s) := by
        intro s _ hlt
        apply repair_read_ok fs gf_n ec.n_data ec.n_coding s hn
        · intro i hi hp
          have hm : i ∈ present fs.d_present ec.n_data := by
            rw [present, List.mem_filter, List.mem_range]
            exact ⟨hi, hp⟩
          rw [hnil] at hm
          exact absurd hm (List.not_mem_nil _)
        · intro j hj hp
          rw [hlen j hj hp]
          omega
      have hshort : repair_read fs gf_n ec.n_data ec.n_coding (0 + L)
          = Except.error Exit.short_read_coding := by
        apply repair_read_short_coding fs gf_n ec.n_data ec.n_coding (0 + L) hn hnil _ hcne
        intro j hj hp
        rw [hlen j hj hp]
        omega
      have hbig : L < words_in gf_n 18446744073709551615 := by
        rcases hn with h | h
        · subst h
          rw [words_in_8]
          omega
        · subst h
          rw [words_in_16]
          omega
      refine ⟨_, (hrun _ _ hs (sizew_words_in gf_n _ hn)).trans
        (repair_chunks_exit { ec with repair_mat := some (inv R) } fs gf_n
          Exit.short_read_coding L _ 0 [] hall hshort hbig (by omega)), ?_, ?_⟩
      · simp
      · intro t r ht hr
        rw [getD_map_range _ _ _ _ ht]
        exact hrep hinv t r hr

/-- Witness of C29: with `d0` missing and `d1`, `c0` present, of three words
each, the repair runs to the end and returns the three chunks of data words;
with the only data file missing and a coding file of two words, the two chunks
are repaired and the program then ends in `short read coding`. -/
theorem repair_recovers_data_witness :
    (∃ e2 outs, repair_data_files witness_inv witness_code witness_files 8
        = Outcome.repaired e2 outs
      ∧ outs.length = 3
      ∧ ∀ t r, t < 3 → r < 2 → outs.getD t (fun _ => none) r = some (witness_words t r))
    ∧ (∃ outs, repair_data_files (fun m => m) lost_code lost_files 8
        = Outcome.exited Exit.short_read_coding outs
      ∧ outs.length = 2
      ∧ outs.getD 0 (fun _ => none) 0 = some 5 ∧ outs.getD 1 (fun _ => none) 0 = some 7) := by
  constructor
  · obtain ⟨R, _, _, _, _, hitem, _, hrep⟩ :=
      repair_recovers_data witness_inv witness_code witness_files witness_words 8
        (Or.inl rfl) (by decide) (by decide) rfl rfl
        (by
          intro i hi
          have h0 : i = 0 := Nat.lt_one_iff.mp hi
          subst h0
          rfl)
        (by decide) (by decide)
        (by
          intro i t _ _
          rfl)
        (by
          intro i t hi _
          have h0 : i = 0 := Nat.lt_one_iff.mp hi
          subst h0
          simp [ECGF2NRS.encode, Mat.mult, Mat.row_filled, Mat.val, Mat.item, witness_code,
            witness_files, Finset.sum_range_succ])
    have hv : ∀ r j, r < 2 → j < 2 → R.val r j = if r = 0 ∧ j = 0 then 0 else 1 := by
      intro r j hr hj
      have h := hitem r j hr hj
      unfold Mat.val
      rw [h]
      have hr2 : r = 0 ∨ r = 1 := by omega
      have hj2 : j = 0 ∨ j = 1 := by omega
      rcases hr2 with h1 | h1 <;> rcases hj2 with h2 | h2 <;> subst h1 <;> subst h2 <;> rfl
    have hinv : is_left_inverse (witness_inv R) R witness_code.n_data := by
      refine ⟨rfl, rfl, ?_, ?_⟩
      · intro r hr
        have hr1 : r < 2 := hr
        have hr2 : r = 0 ∨ r = 1 := by omega
        rcases hr2 with h1 | h1 <;> subst h1 <;> rfl
      · intro r j hr hj
        have hr1 : r < 2 := hr
        have hj1 : j < 2 := hj
        show Finset.sum (Finset.range 2) (fun i => (witness_inv R).val r i * R.val i j) = _
        rw [Finset.sum_range_succ, Finset.sum_range_one, hv 0 j (by omega) hj1,
          hv 1 j (by omega) hj1]
        have hr2 : r = 0 ∨ r = 1 := by omega
        have hj2 : j = 0 ∨ j = 1 := by omega
        rcases hr2 with h1 | h1 <;> rcases hj2 with h2 | h2 <;> subst h1 <;> subst h2 <;> rfl
    obtain ⟨outs, h1, h2, h3⟩ := (hrep hinv).1 3 (by decide) (by decide)
      (fun _ _ _ => rfl) (fun _ _ _ => Nat.le_refl _) (by decide)
    exact ⟨_, outs, h1, h2, h3⟩
  · obtain ⟨R, _, _, _, _, hitem, _, hrep⟩ :=
      repair_recovers_data (fun m => m) lost_code lost_files
        (fun t _ => if t = 0 then 5 else 7) 8
        (Or.inl rfl) (by decide) (by decide) rfl rfl
        (by
          intro i hi
          have h0 : i = 0 := Nat.lt_one_iff.mp hi
          subst h0
          rfl)
        (by decide) (by decide)
        (by
          intro i t _ hp
          have hf : lost_files.d_present i = false := rfl
          rw [hf] at hp
          exact absurd hp (by decide))
        (by
          intro i t hi _
          have h0 : i = 0 := Nat.lt_one_iff.mp hi
          subst h0
          simp [ECGF2NRS.encode, Mat.mult, Mat.row_filled, Mat.val, Mat.item, lost_code,
            lost_files, Finset.sum_range_succ])
    have hv : R.val 0 0 = 1 := by
      have h := hitem 0 0 (by decide) (by decide)
      unfold Mat.val
      rw [h]
      rfl
    have hinv : is_left_inverse R R lost_code.n_data := by
      refine ⟨by assumption, by assumption, by assumption, ?_⟩
      intro r j hr hj
      have hr1 : r < 1 := hr
      have hj1 : j < 1 := hj
      have hr0 : r = 0 := by omega
      have hj0 : j = 0 := by omega
      subst hr0
      subst hj0
      show Finset.sum (Finset.range 1) (fun i => R.val 0 i * R.val i 0) = _
      rw [Finset.sum_range_one, hv]
      rfl
    obtain ⟨outs, h1, h2, h3⟩ := (hrep hinv).2 2 (by decide)
      (fun _ _ _ => rfl) (by decide)
    exact ⟨outs, h1, h2, h3 0 0 (by decide) (by decide), h3 1 0 (by decide) (by decide)⟩

/-- C30: with 2 data files of which `d0` is missing and 2 coding files both
present, `repair_data_files` reaches `repair_build` and the matrix it inverts
has 3 rows and 2 columns: rows 0 and 1 were filled (`d1`, then `c0`), row 2 was
never written. -/
theorem repair_build_inverts_unfilled_rows :
    count_ok surplus_files.d_present surplus_code.n_data = 1
    ∧ count_ok surplus_files.c_present surplus_code.n_coding = 2
    ∧ (∃ e outs, repair_data_files (fun m => m) surplus_code surplus_files 8
        = Outcome.repaired e outs)
    ∧ ∃ e R, (repair_prepare surplus_code surplus_files).ec = some e
      ∧ e.repair_mat = some R
      ∧ R.n_rows = 3 ∧ R.n_cols = 2
      ∧ R.row_filled 0 = true ∧ R.row_filled 1 = true ∧ R.row_filled 2 = false
      ∧ R.item 2 0 = none ∧ R.item 2 1 = none :=
  ⟨rfl, rfl, ⟨_, _, rfl⟩, _, _, rfl, rfl, rfl, rfl, rfl, rfl, rfl, rfl, rfl⟩

end ec

namespace ec

/-! ## The option `-s` -/

theorem main_switch_keeps_sflag (opt : Opt) (g : Globals) (l : MainLocals)
    (r : Globals × MainLocals) (h : main_switch opt g l = some r) : r.1.sflag = g.sflag := by
  cases opt with
  | e optarg =>
    simp only [main_switch] at h
    split at h
    · injection h with h; subst h; rfl
    · split at h
      · injection h with h; subst h; rfl
      · exact absurd h (by simp)
  | unknown => simp [main_switch] at h
  | _ =>
    simp only [main_switch] at h
    injection h with h
    subst h
    rfl

theorem main_options_keeps_sflag :
    ∀ (opts : List Opt) (g : Globals) (l : MainLocals) (r : Globals × MainLocals),
      main_options opts g l = some r → r.1.sflag = g.sflag := by
  intro opts
  induction opts with
  | nil =>
    intro g l r h
    simp only [main_options] at h
    injection h with h
    subst h
    rfl
  | cons opt rest ih =>
    intro g l r h
    simp only [main_options] at h
    split at h
    · exact absurd h (by simp)
    · rename_i g1 l1 h1
      rw [ih g1 l1 r h]
      exact main_switch_keeps_sflag opt g l (g1, l1) h1

/-- The constructor never calls `Mat::cauchy` from `main`. -/
theorem main_generator_never_cauchy (opts : List Opt) :
    main_generator opts = none
      ∨ main_generator opts = some Generator.vandermonde_suitable_for_ec := by
  unfold main_generator
  split
  · exact Or.inl rfl
  · rename_i g l h
    have hs : g.sflag = 0 := main_options_keeps_sflag opts _ _ (g, l) h
    have hg : ECGF2NRS.generator g = Generator.vandermonde_suitable_for_ec := by
      unfold ECGF2NRS.generator
      rw [if_neg (by simp [hs])]
    rw [hg]
    split
    · exact Or.inl rfl
    · split
      · exact Or.inl rfl
      · split
        · exact Or.inl rfl
        · exact Or.inr rfl

/-- C37 (code bug): `main` declares a local `int sflag = 0;` that hides the
file-scope `sflag`, so `case 's': sflag = 1;` sets the local while the
constructor of `ECGF2NRS` tests the file-scope variable, which stays 0.  With
the options `-e 8 -s -n 2 -m 1 -p x -c` the local flag is 1, the global one is
0 and the generator matrix is built with `vandermonde_suitable_for_ec`, as it
is without `-s`; for every command line that reaches the constructor the
method called is `vandermonde_suitable_for_ec`, never `cauchy`.  Had the
option set the variable that the constructor tests, `cauchy` would be
called. -/
theorem option_s_does_not_select_cauchy :
    main_options [Opt.e ['8'], Opt.s, Opt.n 2, Opt.m 1, Opt.p ['x'], Opt.c]
        Globals.init MainLocals.init
      = some ({ vflag := 0, sflag := 0 },
          { n_data := 2, n_coding := 1, pfx := some ['x'], cflag := 1, rflag := 0,
            uflag := 0, sflag := 1, eflag := 8 })
    ∧ main_generator [Opt.e ['8'], Opt.s, Opt.n 2, Opt.m 1, Opt.p ['x'], Opt.c]
      = some Generator.vandermonde_suitable_for_ec
    ∧ main_generator [Opt.e ['8'], Opt.n 2, Opt.m 1, Opt.p ['x'], Opt.c]
      = some Generator.vandermonde_suitable_for_ec
    ∧ (∀ opts, main_generator opts = none
        ∨ main_generator opts = some Generator.vandermonde_suitable_for_ec)
    ∧ ECGF2NRS.generator { vflag := 0, sflag := 1 } = Generator.cauchy :=
  ⟨by decide, by decide, by decide, main_generator_never_cauchy, by decide⟩

end ec
